import Mathlib

/-! gitfly: a shallow embedding of the object store, commit graph, merge and diff code.

The definitions below follow the C++ sources of the repository
(`src/object_store.cpp`, `src/util.cpp`, `src/hash_sha1.cpp`, `src/fs.cpp`,
`src/repo.cpp`, `src/diff.cpp`).  Conventions:

* a byte is a `Fin 256`; `std::string`, `std::vector<std::uint8_t>` and
  filesystem paths are lists of bytes;
* the file system is a function from paths to optional file contents;
* the external libraries (zlib, OpenSSL SHA-1) are parameters;
* C++ exceptions are the `error` case of `Except String`;
* loops whose trip count depends on the data take a fuel argument, and
  `none` means that the fuel ran out.
-/

namespace Gitfly

/-! ## Bytes, strings, paths -/

abbrev Byte := Fin 256

abbrev Str := List Byte

/-- The bytes of an ASCII literal of the sources. -/
def lit (s : String) : Str := s.toList.map (fun c => Fin.ofNat c.toNat)

/-- Results with an exception can be compared. -/
instance exceptDecEq {ε α : Type} [DecidableEq ε] [DecidableEq α] : DecidableEq (Except ε α)
  | .ok a, .ok b => if h : a = b then isTrue (by rw [h]) else isFalse (by intro e; cases e; exact h rfl)
  | .error a, .error b =>
    if h : a = b then isTrue (by rw [h]) else isFalse (by intro e; cases e; exact h rfl)
  | .ok _, .error _ => isFalse (by intro e; cases e)
  | .error _, .ok _ => isFalse (by intro e; cases e)

/-- The file system: every path holds at most one regular file. -/
abbrev FS := Str → Option Str

/-- An empty file system. -/
def emptyFS : FS := fun _ => none

/-- Raw 20-byte SHA-1 object id, `std::array<std::uint8_t, 20>`. -/
structure Oid where
  bytes : List Byte
  len : bytes.length = 20
deriving DecidableEq

/-! ## consts.hpp -/

def kObjectsDir : Str := lit "objects"
def kTypeBlob : Str := lit "blob"
def kTypeTree : Str := lit "tree"
def kTypeCommit : Str := lit "commit"
def kSpace : Byte := 32
def kNul : Byte := 0
def kLF : Byte := 10
def kCR : Byte := 13
def kSlash : Byte := 47

/-! ## hash.hpp / hash_sha1.cpp -/

/-- The table `kHex` of `to_hex`, indexed by a nibble. -/
def kHex (n : Nat) : Byte :=
  if n < 10 then Fin.ofNat (48 + n) else Fin.ofNat (87 + n)

/-- The loop of `to_hex`: two lowercase hex characters per byte, `kHex[(b >> 4) & 0xF]`
then `kHex[b & 0xF]`. -/
def hex_of_bytes : List Byte → Str
  | [] => []
  | b :: rest => kHex ((b.val / 16) % 16) :: kHex (b.val % 16) :: hex_of_bytes rest

/-- Models `to_hex`. -/
def to_hex (id : Oid) : Str := hex_of_bytes id.bytes

/-- The lambda `nibble` of `from_hex`; `none` stands for `-1`. -/
def nibble (c : Byte) : Option Nat :=
  if 48 ≤ c.val ∧ c.val ≤ 57 then some (c.val - 48)
  else if 97 ≤ c.val ∧ c.val ≤ 102 then some (10 + (c.val - 97))
  else if 65 ≤ c.val ∧ c.val ≤ 70 then some (10 + (c.val - 65))
  else none

/-- The loop of `from_hex` over pairs of characters. -/
def from_hex_pairs : Str → Option (List Byte)
  | [] => some []
  | [_] => none
  | h :: l :: rest =>
    match nibble h, nibble l with
    | some hi, some lo =>
      match from_hex_pairs rest with
      | some out => some (Fin.ofNat (hi * 16 + lo) :: out)
      | none => none
    | _, _ => none

/-- Models `from_hex`: `none` is the `false` return. -/
def from_hex (hex : Str) : Option Oid :=
  if hex.length ≠ 40 then none
  else
    match from_hex_pairs hex with
    | some out => if h : out.length = 20 then some ⟨out, h⟩ else none
    | none => none

/-- Models `std::to_string(std::size_t)`: the decimal digits of the number. -/
def to_string (n : Nat) : Str := (Nat.toDigits 10 n).map (fun c => Fin.ofNat c.toNat)

/-- Models `object_header`: the bytes `<type> <size>\0`. -/
def object_header (type : Str) (size : Nat) : Str :=
  type ++ [kSpace] ++ to_string size ++ [kNul]

/-! ## fs.cpp -/

/-- Models `std::filesystem::path::operator/` on POSIX paths. -/
def path_join (a b : Str) : Str :=
  if b.head? = some kSlash then b
  else if a = [] ∨ a.getLast? = some kSlash then a ++ b
  else a ++ kSlash :: b

/-- Models `fs::read_file`; a missing file throws. -/
def read_file (fs : FS) (p : Str) : Except String Str :=
  match fs p with
  | some data => .ok data
  | none => .error "open for read failed"

/-- Models `fs::write_file_atomic` when every system call succeeds: the data are written to
`p + ".tmp"`, which is then renamed over `p`.  The file map has no directories, so the calls
in which the code throws because of one (`mkdir -p failed` when a parent of `p` is a regular
file, `open temp for write failed` when `p + ".tmp"` is a directory, `atomic replace failed`
when `p` is a directory that is not empty) are outside this definition: the theorems about
writes into the working tree take `Writable fs p`, which excludes them, as a hypothesis. -/
def write_file_atomic (fs : FS) (p : Str) (data : Str) : FS :=
  fun q => if q = p then some data else if q = p ++ lit ".tmp" then none else fs q

/-- Models `std::filesystem::remove` of a regular file. -/
def remove_file (fs : FS) (p : Str) : FS :=
  fun q => if q = p then none else fs q

/-- The zlib library: `deflate` is `compress2` at `Z_BEST_SPEED`, `inflate` is the whole
inflated stream of a compressed buffer (`none` for a corrupt one). -/
structure Zlib where
  deflate : Str → Str
  inflate : Str → Option Str
  inflate_deflate : ∀ s, inflate (deflate s) = some s

/-- Return codes of zlib `uncompress`. -/
inductive ZRc where
  | Z_OK (out : Str)
  | Z_BUF_ERROR
  | Z_DATA_ERROR
deriving DecidableEq

/-- zlib `uncompress` into a buffer of `cap` bytes. -/
def uncompress (z : Zlib) (cap : Nat) (data : Str) : ZRc :=
  match z.inflate data with
  | none => .Z_DATA_ERROR
  | some out => if out.length ≤ cap then .Z_OK out else .Z_BUF_ERROR

/-- Models `fs::z_compress`. -/
def z_compress (z : Zlib) (data : Str) : Str := z.deflate data

/-- The `for (int i = 0; i < 6; ++i)` loop of `fs::z_decompress`; the first argument is
the number of iterations left. -/
def z_decompress_loop (z : Zlib) (data : Str) : Nat → Nat → Except String Str
  | 0, _ => .error "zlib uncompress overflow"
  | n + 1, cap =>
    match uncompress z cap data with
    | .Z_OK out => .ok out
    | .Z_BUF_ERROR => z_decompress_loop z data n (cap * 2)
    | .Z_DATA_ERROR => .error "zlib uncompress failed"

/-- Models `fs::z_decompress`. -/
def z_decompress (z : Zlib) (data : Str) : Except String Str :=
  z_decompress_loop z data 6 (max (data.length * 3) 64)

/-! ## object_store.cpp -/

/-- Models `struct Object`. -/
structure Object where
  type : Str
  data : Str
deriving DecidableEq

/-- Models `ObjectStore::path_for_oid`: `gitdir/objects/<2 hex>/<38 hex>`. -/
def path_for_oid (gitdir : Str) (id : Oid) : Str :=
  path_join (path_join (path_join gitdir kObjectsDir) ((to_hex id).take 2)) ((to_hex id).drop 2)

/-- Models `ObjectStore::read`. -/
def ObjectStore.read (z : Zlib) (gitdir : Str) (fs : FS) (hex_oid : Str) : Except String Object :=
  match from_hex hex_oid with
  | none => .error "object_store: bad oid hex"
  | some oid =>
    match read_file fs (path_for_oid gitdir oid) with
    | .error e => .error e
    | .ok comp =>
      match z_decompress z comp with
      | .error e => .error e
      | .ok store =>
        let i_space := store.indexOf kSpace
        let i_nul := i_space + 1 + (store.drop (i_space + 1)).indexOf kNul
        if i_space = store.length ∨ store.length ≤ i_nul then
          .error "object_store: invalid header"
        else
          .ok ⟨store.take i_space, store.drop (i_nul + 1)⟩

/-- Models `ObjectStore::write`: the returned pair is the hex id and the file system afterwards. -/
def ObjectStore.write (z : Zlib) (sha1 : Str → Oid) (gitdir : Str) (fs : FS)
    (type payload : Str) : Str × FS :=
  let store := object_header type payload.length ++ payload
  let store_id := sha1 store
  let path := path_for_oid gitdir store_id
  if (fs path).isSome then (to_hex store_id, fs)
  else (to_hex store_id, write_file_atomic fs path (z_compress z store))

/-! ## util.cpp -/

/-- Models `compute_blob_hex_oid`. -/
def compute_blob_hex_oid (sha1 : Str → Oid) (bytes : Str) : Str :=
  let store := object_header kTypeBlob bytes.length ++ bytes
  to_hex (sha1 store)

/-! ## repo.cpp: commits -/

def kTreePrefix : Str := lit "tree "
def kParentPrefix : Str := lit "parent "
def kAuthorPrefix : Str := lit "author "
def kCommitterPrefix : Str := lit "committer "

/-- Models `Repository::CommitInfo`. -/
structure CommitInfo where
  tree_hex : Str
  parents : List Str
  author : Str
  committer : Str
  message : Str
deriving DecidableEq

/-- Models `line.rfind(tag, 0) == 0`: the line starts with the tag. -/
def starts_with (tag line : Str) : Bool := decide (line.take tag.length = tag)

/-- The if-chain of `read_commit` that stores one non-empty header line. -/
def header_line (info : CommitInfo) (line : Str) : CommitInfo :=
  if starts_with kTreePrefix line then
    ⟨(line.drop kTreePrefix.length).take 40, info.parents, info.author, info.committer, info.message⟩
  else if starts_with kParentPrefix line then
    ⟨info.tree_hex, info.parents ++ [(line.drop kParentPrefix.length).take 40], info.author,
      info.committer, info.message⟩
  else if starts_with kAuthorPrefix line then
    ⟨info.tree_hex, info.parents, line.drop kAuthorPrefix.length, info.committer, info.message⟩
  else if starts_with kCommitterPrefix line then
    ⟨info.tree_hex, info.parents, info.author, line.drop kCommitterPrefix.length, info.message⟩
  else info

/-- The `for (;;)` loop of `read_commit` over the text from `pos` on; `cur` is the part of
the current line already scanned. -/
def parse_commit : Str → Str → CommitInfo → CommitInfo
  | [], cur, info => if cur = [] then info else header_line info cur
  | c :: rest, cur, info =>
    if c = kLF then
      if cur = [] then ⟨info.tree_hex, info.parents, info.author, info.committer, rest⟩
      else parse_commit rest [] (header_line info cur)
    else parse_commit rest (cur ++ [c]) info

/-- Models `Repository::read_commit`. -/
def read_commit (z : Zlib) (gitdir : Str) (fs : FS) (commit_hex : Str) : Except String CommitInfo :=
  match ObjectStore.read z gitdir fs commit_hex with
  | .error e => .error e
  | .ok obj =>
    if obj.type ≠ kTypeCommit then .error "object is not a commit"
    else .ok (parse_commit obj.data [] ⟨[], [], [], [], []⟩)

/-- Models `Repository::read_blob`. -/
def read_blob (z : Zlib) (gitdir : Str) (fs : FS) (hex_oid : Str) : Except String Str :=
  match ObjectStore.read z gitdir fs hex_oid with
  | .error e => .error e
  | .ok obj => if obj.type ≠ kTypeBlob then .error "object is not a blob" else .ok obj.data

/-! ## repo.cpp: the commit graph

The walks below take `rc`, the function `read_commit` of the repository at hand.  A stack
(`std::vector` used through `back`, `pop_back`, `push_back`) is a list whose head is the top;
a `std::set` used only through `insert` and `count` is a list. -/

/-- Models `for (const auto& p : info.parents) stack.push_back(p);` -/
def push_all (parents stack : List Str) : List Str :=
  parents.foldl (fun st p => p :: st) stack

/-- The inner `for` loop of `is_commit_ancestor`: `none` is the `return true`, otherwise
the stack with every parent pushed. -/
def push_or_hit (ancestor_hex : Str) : List Str → List Str → Option (List Str)
  | [], stack => some stack
  | p :: ps, stack => if p = ancestor_hex then none else push_or_hit ancestor_hex ps (p :: stack)

/-- The `while (!stack.empty())` loop of `is_commit_ancestor`. -/
def ancestor_loop (rc : Str → Except String CommitInfo) (ancestor_hex : Str) :
    Nat → List Str → List Str → Option (Except String Bool)
  | 0, _, _ => none
  | _ + 1, [], _ => some (.ok false)
  | fuel + 1, cur :: stack, seen =>
    if cur ∈ seen then ancestor_loop rc ancestor_hex fuel stack seen
    else
      match rc cur with
      | .error e => some (.error e)
      | .ok info =>
        match push_or_hit ancestor_hex info.parents stack with
        | none => some (.ok true)
        | some stack2 => ancestor_loop rc ancestor_hex fuel stack2 (cur :: seen)

/-- Models `Repository::is_commit_ancestor`. -/
def is_commit_ancestor (rc : Str → Except String CommitInfo) (fuel : Nat)
    (ancestor_hex descendant_hex : Str) : Option (Except String Bool) :=
  if ancestor_hex = descendant_hex then some (.ok true)
  else ancestor_loop rc ancestor_hex fuel [descendant_hex] []

/-- Models `Repository::is_commit_ancestor` on the object store of a repository. -/
def Repository.is_commit_ancestor (z : Zlib) (gitdir : Str) (fs : FS) (fuel : Nat)
    (ancestor_hex descendant_hex : Str) : Option (Except String Bool) :=
  Gitfly.is_commit_ancestor (read_commit z gitdir fs) fuel ancestor_hex descendant_hex

/-- The first loop of `lca_commit`: collects `ancestors_a`. -/
def collect_loop (rc : Str → Except String CommitInfo) :
    Nat → List Str → List Str → Option (Except String (List Str))
  | 0, _, _ => none
  | _ + 1, [], ancestors_a => some (.ok ancestors_a)
  | fuel + 1, cur :: stack, ancestors_a =>
    if cur ∈ ancestors_a then collect_loop rc fuel stack ancestors_a
    else
      match rc cur with
      | .error e => some (.error e)
      | .ok info => collect_loop rc fuel (push_all info.parents stack) (cur :: ancestors_a)

/-- The second loop of `lca_commit`: the walk from `b`. -/
def find_loop (rc : Str → Except String CommitInfo) (ancestors_a : List Str) :
    Nat → List Str → List Str → Option (Except String (Option Str))
  | 0, _, _ => none
  | _ + 1, [], _ => some (.ok none)
  | fuel + 1, cur :: stack_b, seen_b =>
    if cur ∈ seen_b then find_loop rc ancestors_a fuel stack_b seen_b
    else if cur ∈ ancestors_a then some (.ok (some cur))
    else
      match rc cur with
      | .error e => some (.error e)
      | .ok info => find_loop rc ancestors_a fuel (push_all info.parents stack_b) (cur :: seen_b)

/-- Models `lca_commit`. -/
def lca_commit (rc : Str → Except String CommitInfo) (fuel : Nat) (a b : Str) :
    Option (Except String (Option Str)) :=
  match collect_loop rc fuel [a] [] with
  | none => none
  | some (.error e) => some (.error e)
  | some (.ok ancestors_a) => find_loop rc ancestors_a fuel [b] []

/-- One parent edge of the commit graph: `c` is readable and lists `p` as a parent. -/
def Edge (rc : Str → Except String CommitInfo) (c p : Str) : Prop :=
  ∃ info, rc c = .ok info ∧ p ∈ info.parents

/-- Ancestry as the specification words it: `a` is `d` or is reachable from `d` by
following parent edges one or more times. -/
def Ancestor (rc : Str → Except String CommitInfo) (a d : Str) : Prop :=
  a = d ∨ Relation.TransGen (Edge rc) d a

/-- A finite parent-closed set of commits: every member can be read and all its parents
are members. -/
def parent_closed (rc : Str → Except String CommitInfo) (S : List Str) : Bool :=
  S.all (fun c =>
    match rc c with
    | .ok info => info.parents.all (fun p => decide (p ∈ S))
    | .error _ => false)

/-! ## diff.cpp

`int` values are integers (the sums `N + M` of the line counts are taken to fit an `int`).
An access to a `std::vector` outside its bounds is undefined behaviour in C++; the
functions below return `none` as soon as one happens. -/

/-- Models `diff::split_lines`, the loop over the characters of the text: `cur` is the current
line, `out` the lines already pushed. -/
def split_lines_loop : Str → Str → List Str → List Str
  | [], cur, out => if cur ≠ [] then out ++ [cur] else out
  | c :: rest, cur, out =>
    if c = kLF then split_lines_loop rest [] (out ++ [cur])
    else if c ≠ kCR then split_lines_loop rest (cur ++ [c]) out
    else split_lines_loop rest cur out

/-- Models `diff::split_lines` (the lambda `split_lines` of `merge_branch` has the same body). -/
def split_lines (text : Str) : List Str := split_lines_loop text [] []

/-- Models `v[i]` on a `std::vector<int>`, read. -/
def vget (v : List Int) (i : Int) : Option Int :=
  if 0 ≤ i then v[i.toNat]? else none

/-- Models `v[i] = x` on a `std::vector<int>`. -/
def vset (v : List Int) (i : Int) (x : Int) : Option (List Int) :=
  if 0 ≤ i ∧ i.toNat < v.length then some (v.set i.toNat x) else none

/-- Models `a[i]` on a `std::vector<std::string>` with an `int` index. -/
def line_at (a : List Str) (i : Int) : Option Str :=
  if 0 ≤ i then a[i.toNat]? else none

/-- Models `while (x < N && y < M && a[x] == b[y]) { ++x; ++y; }`.  Every iteration needs
`x < N` and increments `x`: from `0 ≤ x` the condition fails after at most `N` iterations,
and with `x < 0` the first evaluation of `a[x]` is out of bounds, so `N + 1` evaluations of
the condition are always enough. -/
def snake (a b : List Str) : Nat → Int → Int → Option (Int × Int)
  | 0, x, y => some (x, y)
  | fuel + 1, x, y =>
    if x < (a.length : Int) ∧ y < (b.length : Int) then
      match line_at a x, line_at b y with
      | some la, some lb => if la = lb then snake a b fuel (x + 1) (y + 1) else some (x, y)
      | _, _ => none
    else some (x, y)

/-- Models `while (cx > px && cy > py) { rev_ops.push_back('='); --cx; --cy; }`: the new
`rev_ops` (last pushed first); the fuel is `cx - px`. -/
def keep_loop (px py : Int) : Nat → Int → Int → List Char → List Char
  | 0, _, _, rev => rev
  | fuel + 1, cx, cy, rev =>
    if cx > px ∧ cy > py then keep_loop px py fuel (cx - 1) (cy - 1) ('=' :: rev) else rev

/-- The backtracking loop `for (int dd = d; dd >= 0; --dd)` of `myers_diff`; the first
argument is `dd + 1`, `rev` is `rev_ops` with the last pushed element first. -/
def backtrack (trace : List (List Int)) (OFFSET : Int) :
    Nat → Int → Int → List Char → Option (List Char)
  | 0, _, _, rev => some rev
  | dd + 1, cx, cy, rev =>
    match trace.get? dd with
    | none => none
    | some vv =>
      let kk := cx - cy
      let down : Option Bool :=
        if kk = -(dd : Int) then some true
        else if kk ≠ (dd : Int) then
          match vget vv (OFFSET + kk - 1), vget vv (OFFSET + kk + 1) with
          | some l, some r => some (decide (l < r))
          | _, _ => none
        else some false
      match down with
      | none => none
      | some down =>
        let prev_k := if down then kk + 1 else kk - 1
        match vget vv (OFFSET + prev_k) with
        | none => none
        | some px0 =>
          let py := px0 - prev_k
          let px := if down then px0 else px0 + 1
          let rev1 := keep_loop px py (cx - px).toNat cx cy rev
          let rev2 := if 0 < dd then (if down then '+' else '-') :: rev1 else rev1
          backtrack trace OFFSET dd px py rev2

/-- Result of one `for (int k = -d; ...)` loop: the function returned with `ops`, or the
loop ended with the array `v`. -/
inductive KRes where
  | done (ops : List Char)
  | cont (v : List Int)
deriving DecidableEq

/-- The loop `for (int k = -d; k <= d; k += 2)` of `myers_diff`; `trace` already holds the
snapshot of this layer. -/
def k_loop (a b : List Str) (trace : List (List Int)) (d : Nat) :
    Nat → Int → List Int → Option KRes
  | 0, _, v => some (.cont v)
  | fuel + 1, k, v =>
    if k ≤ (d : Int) then
      let N : Int := a.length
      let M : Int := b.length
      let OFFSET : Int := N + M
      let x0 : Option Int :=
        if k = -(d : Int) then vget v (OFFSET + k + 1)
        else if k ≠ (d : Int) then
          match vget v (OFFSET + k - 1), vget v (OFFSET + k + 1) with
          | some l, some r => if l < r then some r else some (l + 1)
          | _, _ => none
        else (vget v (OFFSET + k - 1)).map (fun l => l + 1)
      match x0 with
      | none => none
      | some x0 =>
        match snake a b (a.length + 1) x0 (x0 - k) with
        | none => none
        | some (x, y) =>
          match vset v (OFFSET + k) x with
          | none => none
          | some v1 =>
            if x ≥ N ∧ y ≥ M then
              (backtrack trace OFFSET (d + 1) N M []).map (fun rev => KRes.done rev)
            else k_loop a b trace d fuel (k + 2) v1
    else some (.cont v)

/-- The loop `for (int d = 0; d <= MAX; ++d)` of `myers_diff`; the first argument is the
number of layers left. -/
def d_loop (a b : List Str) : Nat → Nat → List Int → List (List Int) → Option (List Char)
  | 0, _, _, _ => some []
  | left + 1, d, v, trace =>
    let trace1 := trace ++ [v]
    match k_loop a b trace1 d (d + 1) (-(d : Int)) v with
    | none => none
    | some (.done ops) => some ops
    | some (.cont v1) => d_loop a b left (d + 1) v1 trace1

/-- Models `myers_diff`: the vector `ops` on return. `rev_ops` is kept with its last element
first, which is the order in which `ops.assign(rev_ops.rbegin(), rev_ops.rend())` copies it. -/
def myers_diff (a b : List Str) : Option (List Char) :=
  let MAX := a.length + b.length
  d_loop a b (MAX + 1) 0 (List.replicate (2 * MAX + 1) 0) []

/-- The `for (const char op : ops)` loop of `unified_diff`: the text appended and the final
`ia`, `ib`. -/
def emit_ops (a b : List Str) : List Char → Nat → Nat → Str → Option (Str × Nat × Nat)
  | [], ia, ib, out => some (out, ia, ib)
  | op :: ops, ia, ib, out =>
    if op = '=' then
      match a[ia]? with
      | some l => emit_ops a b ops (ia + 1) (ib + 1) (out ++ lit " " ++ l ++ [kLF])
      | none => none
    else if op = '-' then
      match a[ia]? with
      | some l => emit_ops a b ops (ia + 1) ib (out ++ lit "-" ++ l ++ [kLF])
      | none => none
    else
      match b[ib]? with
      | some l => emit_ops a b ops ia (ib + 1) (out ++ lit "+" ++ l ++ [kLF])
      | none => none

/-- Models `while (i < a.size()) { out << sign << a[i++] << "\n"; }` -/
def emit_rest (sign : Str) (a : List Str) (i : Nat) : Str :=
  (a.drop i).flatMap (fun l => sign ++ l ++ [kLF])

/-- Models `diff::unified_diff`. -/
def unified_diff (a b : List Str) (path : Str) : Option Str :=
  match myers_diff a b with
  | none => none
  | some ops =>
    let out := lit "--- a/" ++ path ++ [kLF] ++ (lit "+++ b/" ++ path ++ [kLF]) ++ (lit "@@" ++ [kLF])
    match emit_ops a b ops 0 0 out with
    | none => none
    | some (out1, ia, ib) => some (out1 ++ emit_rest (lit "-") a ia ++ emit_rest (lit "+") b ib)

/-! ## repo.cpp: the three-way step of `merge_branch` -/

/-- Models `operator<` of `std::string`: lexicographic on unsigned bytes. -/
def str_lt : Str → Str → Bool
  | [], [] => false
  | [], _ :: _ => true
  | _ :: _, [] => false
  | x :: xs, y :: ys => if x < y then true else if y < x then false else str_lt xs ys

/-- Models `std::map<std::string, std::string>`: the entries in ascending key order. -/
abbrev PathMap := List (Str × Str)

/-- Models `m.find(k)`: the mapped value, `none` for `m.end()`. -/
def map_find : PathMap → Str → Option Str
  | [], _ => none
  | (k1, v) :: rest, k => if k1 = k then some v else map_find rest k

/-- Models `m.erase(k)`. -/
def map_erase (m : PathMap) (k : Str) : PathMap := m.filter (fun e => decide (e.1 ≠ k))

/-- Models `m[k] = v`. -/
def map_assign : PathMap → Str → Str → PathMap
  | [], k, v => [(k, v)]
  | (k1, v1) :: rest, k, v =>
    if k = k1 then (k, v) :: rest
    else if str_lt k k1 then (k, v) :: (k1, v1) :: rest
    else (k1, v1) :: map_assign rest k v

/-- Models `s.insert(k)` on a `std::set<std::string>`, kept in ascending order. -/
def set_insert : List Str → Str → List Str
  | [], k => [k]
  | k1 :: rest, k =>
    if k = k1 then k1 :: rest
    else if str_lt k k1 then k :: k1 :: rest
    else k1 :: set_insert rest k

/-- The three loops that fill the set `all` with the keys of `ours`, `theirs`, `baseM`. -/
def all_paths (ours theirs baseM : PathMap) : List Str :=
  (baseM.map Prod.fst).foldl set_insert
    ((theirs.map Prod.fst).foldl set_insert ((ours.map Prod.fst).foldl set_insert []))

/-- The lambda `get` of `merge_branch`: the digest, or the empty string for a missing path. -/
def get (m : PathMap) (k : Str) : Str :=
  match map_find m k with
  | none => []
  | some v => v

/-- Models `while (pa < a.size() && pa < b.size() && a[pa] == b[pa]) ++pa;` with at most
`a.size()` iterations. -/
def pa_loop (a b : List Str) : Nat → Nat → Nat
  | 0, pa => pa
  | fuel + 1, pa =>
    if pa < a.length ∧ pa < b.length ∧ a[pa]? = b[pa]? then pa_loop a b fuel (pa + 1) else pa

/-- Models `while (sa < a.size() - pa && sa < b.size() - pa &&
a[a.size() - 1 - sa] == b[b.size() - 1 - sa]) ++sa;` with at most `a.size()` iterations. -/
def sa_loop (a b : List Str) (pa : Nat) : Nat → Nat → Nat
  | 0, sa => sa
  | fuel + 1, sa =>
    if sa < a.length - pa ∧ sa < b.length - pa ∧
        a[a.length - 1 - sa]? = b[b.length - 1 - sa]? then sa_loop a b pa fuel (sa + 1)
    else sa

/-- Models `for (i = lo; i < hi; ++i) { merged += a[i]; merged.push_back('\n'); }`: the text
appended, `none` when an index is out of range; the first argument is `hi - lo`. -/
def emit_lines (a : List Str) : Nat → Nat → Option Str
  | 0, _ => some []
  | n + 1, i =>
    match a[i]?, emit_lines a n (i + 1) with
    | some l, some rest => some (l ++ [kLF] ++ rest)
    | _, _ => none

/-- Models `for (i = sa; i > 0; --i) { merged += a[a.size() - i]; merged.push_back('\n'); }` -/
def emit_tail (a : List Str) : Nat → Option Str
  | 0 => some []
  | i + 1 =>
    match a[a.length - (i + 1)]?, emit_tail a i with
    | some l, some rest => some (l ++ [kLF] ++ rest)
    | _, _ => none

/-- The text `merged` that `merge_branch` builds for a conflicted path from the two blob
contents (an empty text for a side without the path). -/
def conflict_text (ours_txt theirs_txt giver_branch : Str) : Option Str :=
  let a := split_lines ours_txt
  let b := split_lines theirs_txt
  let pa := pa_loop a b a.length 0
  let sa := sa_loop a b pa a.length 0
  match emit_lines a pa 0, emit_lines a (a.length - sa - pa) pa,
        emit_lines b (b.length - sa - pa) pa, emit_tail a sa with
  | some pre, some mid_a, some mid_b, some suf =>
    some (pre ++ lit "<<<<<<< HEAD" ++ [kLF] ++ mid_a ++ lit "=======" ++ [kLF] ++ mid_b
      ++ lit ">>>>>>> " ++ giver_branch ++ [kLF] ++ suf)
  | _, _, _, _ => none

/-- The variables of the per-path loop of `merge_branch`: the map `result`, the vector
`conflicts` and the files of the working tree. -/
structure MergeState where
  result : PathMap
  conflicts : List Str
  fs : FS

/-- The blob text of one side of a conflict: empty when the side has no digest. -/
def side_text (rb : Str → Except String Str) (hex : Str) : Except String Str :=
  if hex ≠ [] then rb hex else .ok []

/-- The body of `for (const auto& path : all)` in `merge_branch`.  `rb` is `read_blob` of
the repository: the loop writes files of the working tree only, so the object store it reads
is the same at every iteration.  `write_file_atomic` and `remove` are taken to succeed: this
is the code when the path can be written (`Writable`: it is not a directory and no parent
of it is a regular file). -/
def merge_path (rb : Str → Except String Str) (root giver_branch : Str)
    (baseM ours theirs : PathMap) (st : MergeState) (path : Str) : Except String MergeState :=
  let ob := get baseM path
  let oo := get ours path
  let ot := get theirs path
  if oo = ot then .ok st
  else if oo = ob ∧ ot ≠ ob then
    if ot = [] then
      .ok ⟨map_erase st.result path, st.conflicts, remove_file st.fs (path_join root path)⟩
    else
      match rb ot with
      | .error e => .error e
      | .ok bytes =>
        .ok ⟨map_assign st.result path ot, st.conflicts,
          write_file_atomic st.fs (path_join root path) bytes⟩
  else if ot = ob ∧ oo ≠ ob then .ok st
  else
    match side_text rb oo with
    | .error e => .error e
    | .ok ours_txt =>
      match side_text rb ot with
      | .error e => .error e
      | .ok theirs_txt =>
        match conflict_text ours_txt theirs_txt giver_branch with
        | none => .error "index out of range"
        | some merged =>
          .ok ⟨st.result, st.conflicts ++ [path],
            write_file_atomic st.fs (path_join root path) merged⟩

/-- The loop `for (const auto& path : all)` of `merge_branch`. -/
def merge_loop (rb : Str → Except String Str) (root giver_branch : Str)
    (baseM ours theirs : PathMap) : List Str → MergeState → Except String MergeState
  | [], st => .ok st
  | path :: rest, st =>
    match merge_path rb root giver_branch baseM ours theirs st path with
    | .error e => .error e
    | .ok st1 => merge_loop rb root giver_branch baseM ours theirs rest st1

/-- The three-way step of `merge_branch`, from `auto result = ours` to the end of the
per-path loop. -/
def three_way (rb : Str → Except String Str) (root giver_branch : Str)
    (baseM ours theirs : PathMap) (fs : FS) : Except String MergeState :=
  merge_loop rb root giver_branch baseM ours theirs (all_paths ours theirs baseM) ⟨ours, [], fs⟩

/-! ## A generic walk, used to reason about the three walks above -/

/-- How a walk ends: at a commit accepted when popped, at a commit whose record is
accepted when read, or with an empty stack and the set of commits seen. -/
inductive WalkOut where
  | found (c : Str)
  | hit
  | done (seen : List Str)
deriving DecidableEq

/-- The common shape of the walks of `is_commit_ancestor` and `lca_commit`: `pre` is
tested on a commit popped for the first time, `hitp` on its record once read. -/
def walk (rc : Str → Except String CommitInfo) (pre : Str → Bool) (hitp : CommitInfo → Bool) :
    Nat → List Str → List Str → Option (Except String WalkOut)
  | 0, _, _ => none
  | _ + 1, [], seen => some (.ok (.done seen))
  | fuel + 1, cur :: stack, seen =>
    if cur ∈ seen then walk rc pre hitp fuel stack seen
    else if pre cur then some (.ok (.found cur))
    else
      match rc cur with
      | .error e => some (.error e)
      | .ok info =>
        if hitp info then some (.ok .hit)
        else walk rc pre hitp fuel (push_all info.parents stack) (cur :: seen)

/-- Reachability along parent edges, zero or more times. -/
def Reach (rc : Str → Except String CommitInfo) (d c : Str) : Prop :=
  Relation.ReflTransGen (Edge rc) d c

/-- What a finished walk from `stack` with `seen` guarantees about its outcome. -/
def WalkPost (rc : Str → Except String CommitInfo) (pre : Str → Bool) (hitp : CommitInfo → Bool)
    (stack seen : List Str) : WalkOut → Prop
  | .found c => pre c = true ∧ c ∉ seen ∧ ∃ s ∈ stack, Reach rc s c
  | .hit => ∃ c info, (∃ s ∈ stack, Reach rc s c) ∧ rc c = .ok info ∧ hitp info = true
  | .done seen1 =>
    (∀ c ∈ seen, c ∈ seen1) ∧ (∀ c ∈ stack, c ∈ seen1)
    ∧ (∀ c ∈ seen1, c ∈ seen ∨ ∃ s ∈ stack, Reach rc s c)
    ∧ (∀ c ∈ seen1, c ∉ seen → pre c = false
        ∧ ∀ info, rc c = .ok info → hitp info = false ∧ ∀ p ∈ info.parents, p ∈ seen1)

/-- The outcome of `is_commit_ancestor` read off the outcome of the generic walk. -/
def WalkOut.toBool : WalkOut → Bool
  | .hit => true
  | _ => false

/-- The outcome of the first loop of `lca_commit` read off the generic walk. -/
def WalkOut.toSeen : WalkOut → List Str
  | .done seen => seen
  | _ => []

/-- The outcome of the second loop of `lca_commit` read off the generic walk. -/
def WalkOut.toFound : WalkOut → Option Str
  | .found c => some c
  | _ => none

/-! ## A small history: `g` is the root, `p1` and `q` are children of `g`, `a` is a child
of `p1`, and `b` merges `p1` (first parent) with `q` -/

/-- A commit record with the given parents. -/
def commit_with (parents : List Str) : CommitInfo := ⟨[], parents, [], [], []⟩

/-- The `read_commit` function of the small history. -/
def rcEx (h : Str) : Except String CommitInfo :=
  if h = lit "g" then .ok (commit_with [])
  else if h = lit "p1" then .ok (commit_with [lit "g"])
  else if h = lit "q" then .ok (commit_with [lit "g"])
  else if h = lit "a" then .ok (commit_with [lit "p1"])
  else if h = lit "b" then .ok (commit_with [lit "p1", lit "q"])
  else .error "open for read failed"

/-- The commits of the small history. -/
def commitsEx : List Str := [lit "g", lit "p1", lit "q", lit "a", lit "b"]

/-! ## The conflict text as the specification words it -/

/-- Length of the longest common prefix of two line sequences. -/
def common_len : List Str → List Str → Nat
  | x :: xs, y :: ys => if x = y then common_len xs ys + 1 else 0
  | _, _ => 0

/-- Every line followed by a newline. -/
def lines_text : List Str → Str
  | [] => []
  | l :: ls => l ++ kLF :: lines_text ls

/-- The conflict text of the specification: with `pa` the length of the longest common
prefix of `a` and `b` and `sa` the length of the longest common suffix of what follows those
`pa` lines, the lines `a[0..pa)`, the marker `<<<<<<< HEAD`, the lines `a[pa..|a|-sa)`, the
marker `=======`, the lines `b[pa..|b|-sa)`, the marker `>>>>>>> <giver>` and the last `sa`
lines of `a`, each followed by a newline. -/
def spec_conflict_text (a b : List Str) (giver_branch : Str) : Str :=
  let pa := common_len a b
  let sa := common_len (a.drop pa).reverse (b.drop pa).reverse
  lines_text (a.take pa) ++ lines_text [lit "<<<<<<< HEAD"]
    ++ lines_text ((a.take (a.length - sa)).drop pa) ++ lines_text [lit "======="]
    ++ lines_text ((b.take (b.length - sa)).drop pa) ++ lines_text [lit ">>>>>>> " ++ giver_branch]
    ++ lines_text (a.drop (a.length - sa))

/-- Whether the three-way rule calls a path a conflict: the three sides differ pairwise. -/
def is_conflict (baseM ours theirs : PathMap) (p : Str) : Bool :=
  decide (map_find ours p ≠ map_find theirs p ∧ map_find ours p ≠ map_find baseM p
    ∧ map_find theirs p ≠ map_find baseM p)

/-- The entry the three-way rule leaves in `result` for a path: ours when both sides agree,
theirs when only theirs changed, ours otherwise. -/
def resolved (baseM ours theirs : PathMap) (p : Str) : Option Str :=
  if map_find ours p = map_find theirs p then map_find ours p
  else if map_find ours p = map_find baseM p then map_find theirs p
  else map_find ours p

/-- A store of blobs for the examples: the digest `h1` holds `a\nmaster\nz\n`, the digest
`h2` holds `a\nfeature\nz\n`, the digest `h0` holds `a\nbase\nz\n`. -/
def rbEx (h : Str) : Except String Str :=
  if h = lit "h1" then .ok (lit "a\nmaster\nz\n")
  else if h = lit "h2" then .ok (lit "a\nfeature\nz\n")
  else if h = lit "h0" then .ok (lit "a\nbase\nz\n")
  else .error "open for read failed"

/-- Every digest of the map is a non-empty string (digests are 40 hex characters). -/
def digests_nonempty (m : PathMap) : Prop := ∀ e ∈ m, e.2 ≠ []

/-- Every digest of the map can be read as a blob. -/
def blobs_readable (rb : Str → Except String Str) (m : PathMap) : Bool :=
  m.all (fun e =>
    match rb e.2 with
    | .ok _ => true
    | .error _ => false)

/-- Example trees: base, ours and theirs.  `f` is changed on both sides, `g` only by
theirs, `k` only by ours, `n` is added by theirs and `r` is removed by theirs. -/
def baseEx : PathMap := [(lit "f", lit "h0"), (lit "g", lit "h0"), (lit "k", lit "h0"),
  (lit "r", lit "h0")]

def oursEx : PathMap := [(lit "f", lit "h1"), (lit "g", lit "h0"), (lit "k", lit "h1"),
  (lit "r", lit "h0")]

def theirsEx : PathMap := [(lit "f", lit "h2"), (lit "g", lit "h2"), (lit "k", lit "h0"),
  (lit "n", lit "h1")]

/-- The initial loop state of the examples. -/
def stateEx : MergeState := ⟨oursEx, [], emptyFS⟩

/-! ## A run-length codec, used as a concrete instance of the zlib interface -/

/-- Run-length encoding: pairs `(count, byte)` with `count ≤ 255`. -/
def rle_enc : Str → Str
  | [] => []
  | b :: rest =>
    match rle_enc rest with
    | n :: c :: tail =>
      if c = b ∧ n.val < 255 then Fin.ofNat (n.val + 1) :: c :: tail else 1 :: b :: n :: c :: tail
    | tail => 1 :: b :: tail

/-- Run-length decoding. -/
def rle_dec : Str → Option Str
  | [] => some []
  | [_] => none
  | n :: c :: tail =>
    match rle_dec tail with
    | some out => some (List.replicate n.val c ++ out)
    | none => none

/-- The run-length codec as an instance of the zlib interface. -/
def rleZlib : Zlib :=
  ⟨rle_enc, rle_dec, by
    intro s
    induction s with
    | nil => rfl
    | cons b rest ih =>
      simp only [rle_enc]
      split
      · rename_i n c tail heq
        rw [heq] at ih
        simp only [rle_dec] at ih
        split
        · rename_i hc
          obtain ⟨hc1, hn⟩ := hc
          subst hc1
          simp only [rle_dec]
          cases hd : rle_dec tail with
          | none => simp [hd] at ih
          | some out =>
            simp only [hd, Option.some.injEq] at ih
            have h1 : (Fin.ofNat (n.val + 1) : Fin 256).val = n.val + 1 := by
              simp [Fin.ofNat]; omega
            simp only [h1, List.replicate_succ, List.cons_append, ← ih]
        · simp only [rle_dec]
          cases hd : rle_dec tail with
          | none => simp [hd] at ih
          | some out =>
            simp only [hd, Option.some.injEq] at ih
            simp [← ih]
      · rename_i tail hne
        cases htail : rle_enc rest with
        | nil =>
          rw [htail] at ih
          simp only [rle_dec, Option.some.injEq] at ih
          simp [rle_dec, ← ih]
        | cons x xs =>
          cases xs with
          | nil => rw [htail] at ih; simp [rle_dec] at ih
          | cons y ys => exact absurd htail (hne x y ys)⟩

/-- A stand-in for SHA-1 that maps every buffer to the all-zero id. -/
def zeroSha1 : Str → Oid := fun _ => ⟨List.replicate 20 0, rfl⟩

/-! ## repo.cpp: trees -/

/-- A `std::uint32_t` file mode. -/
abbrev Mode := Fin 4294967296

/-- The octal constant `0100644` of `consts.hpp`. -/
def kModeFile : Mode := 33188

/-- The octal constant `0040000` of `consts.hpp`. -/
def kModeTree : Mode := 16384

/-- Models `struct TreeEntry`. -/
structure TreeEntry where
  mode : Mode
  name : Str
  id : Oid
deriving DecidableEq

/-- Models `Repository::mode_to_ascii_octal`: `snprintf("%o")`, the octal digits of the mode
(at most 11, so that the 16-byte buffer is never filled). -/
def mode_to_ascii_octal (mode : Mode) : Str :=
  (Nat.toDigits 8 mode.val).map (fun c => Fin.ofNat c.toNat)

/-- The loop of `Repository::ascii_octal_to_mode`: it stops at the first character that is
not an octal digit; the arithmetic is that of `std::uint32_t`. -/
def octal_loop : Str → Nat → Nat
  | [], v => v
  | c :: rest, v =>
    if c.val < 48 ∨ 55 < c.val then v
    else octal_loop rest ((v * 8 + (c.val - 48)) % 4294967296)

/-- Models `Repository::ascii_octal_to_mode`. -/
def ascii_octal_to_mode (s : Str) : Mode := Fin.ofNat (octal_loop s 0)

/-- Inserts an entry before the first entry whose name is not smaller. -/
def insert_entry (e : TreeEntry) : List TreeEntry → List TreeEntry
  | [] => [e]
  | x :: rest => if str_lt x.name e.name then x :: insert_entry e rest else e :: x :: rest

/-- Models `std::ranges::sort(entries, a.name < b.name)`: the entries in ascending order of
name.  The library leaves the relative order of entries with equal names unspecified; here
they keep their order. -/
def sort_entries : List TreeEntry → List TreeEntry
  | [] => []
  | e :: rest => insert_entry e (sort_entries rest)

/-- The string `data` that `write_tree` builds from the sorted entries:
`<mode in octal> ' ' <name> NUL <20 raw bytes>` for each entry. -/
def tree_payload : List TreeEntry → Str
  | [] => []
  | e :: rest =>
    mode_to_ascii_octal e.mode ++ kSpace :: (e.name ++ kNul :: (e.id.bytes ++ tree_payload rest))

/-- Models `Repository::write_tree`: the returned pair is the hex id and the file system
afterwards. -/
def write_tree (z : Zlib) (sha1 : Str → Oid) (gitdir : Str) (fs : FS)
    (entries_in : List TreeEntry) : Str × FS :=
  ObjectStore.write z sha1 gitdir fs kTypeTree (tree_payload (sort_entries entries_in))

/-- The `while (p < end)` loop of `Repository::read_tree` over the bytes from `p` on.  The
first argument bounds the number of iterations; an iteration consumes at least 22 bytes. -/
def parse_tree : Nat → Str → Except String (List TreeEntry)
  | 0, _ => .ok []
  | fuel + 1, data =>
    if data = [] then .ok []
    else if data.indexOf kSpace = data.length then .error "tree parse: expected space"
    else
      let mode := ascii_octal_to_mode (data.take (data.indexOf kSpace))
      let p := data.drop (data.indexOf kSpace + 1)
      if p.indexOf kNul = p.length then .error "tree parse: expected NUL"
      else
        let name := p.take (p.indexOf kNul)
        let p2 := p.drop (p.indexOf kNul + 1)
        if h : p2.length < 20 then .error "tree parse: truncated oid"
        else
          match parse_tree fuel (p2.drop 20) with
          | .error e => .error e
          | .ok out => .ok (⟨mode, name, ⟨p2.take 20, by rw [List.length_take]; omega⟩⟩ :: out)

/-- Models `Repository::read_tree`. -/
def read_tree (z : Zlib) (gitdir : Str) (fs : FS) (hex_oid : Str) :
    Except String (List TreeEntry) :=
  match ObjectStore.read z gitdir fs hex_oid with
  | .error e => .error e
  | .ok obj =>
    if obj.type ≠ kTypeTree then .error "object is not a tree"
    else parse_tree obj.data.length obj.data

/-! ## repo.cpp: writing commits; util.cpp -/

/-- Models `std::isxdigit` in the C locale. -/
def isxdigit (c : Byte) : Bool :=
  decide ((48 ≤ c.val ∧ c.val ≤ 57) ∨ (65 ≤ c.val ∧ c.val ≤ 70) ∨ (97 ≤ c.val ∧ c.val ≤ 102))

/-- Models `looks_hex40`. -/
def looks_hex40 (str : Str) : Bool :=
  if str.length ≠ 40 then false else str.all isxdigit

/-- Models `strutil::rstrip_newlines` and the loops
`while (!s.empty() && (s.back() == '\n' || s.back() == '\r')) s.pop_back();`. -/
def rstrip_newlines (s : Str) : Str :=
  (s.reverse.dropWhile (fun c => decide (c = kLF ∨ c = kCR))).reverse

/-- The loop `for (const auto& p : parent_hexes)` of `write_commit`. -/
def parent_lines : List Str → Str
  | [] => []
  | p :: ps => kParentPrefix ++ p ++ kLF :: parent_lines ps

/-- The string `txt` that `write_commit` builds. -/
def commit_text (tree_hex : Str) (parent_hexes : List Str)
    (author_line committer_line message : Str) : Str :=
  kTreePrefix ++ tree_hex ++ kLF :: (parent_lines parent_hexes
    ++ (kAuthorPrefix ++ author_line ++ kLF :: (kCommitterPrefix ++ committer_line
      ++ kLF :: kLF :: message)))

/-- Models `Repository::write_commit`: the returned pair is the hex id and the file system
afterwards. -/
def write_commit (z : Zlib) (sha1 : Str → Oid) (gitdir : Str) (fs : FS)
    (tree_hex : Str) (parent_hexes : List Str) (author_line committer_line message : Str) :
    Str × FS :=
  ObjectStore.write z sha1 gitdir fs kTypeCommit
    (commit_text tree_hex parent_hexes author_line committer_line message)

/-! ## refs.cpp -/

def kGitDir : Str := lit ".gitfly"
def kHeadFile : Str := lit "HEAD"
def kMergeHead : Str := lit "MERGE_HEAD"

/-- Models `git_dir(root)`, `Repository::git_dir`: `root / ".gitfly"`. -/
def git_dir (root : Str) : Str := path_join root kGitDir

/-- Models `head_file(root)`. -/
def head_file (root : Str) : Str := path_join (git_dir root) kHeadFile

/-- Models `ref_path(root, refname)`. -/
def ref_path (root refname : Str) : Str := path_join (git_dir root) refname

/-- Models `heads_ref`. -/
def heads_ref (branch : Str) : Str := lit "refs/heads/" ++ branch

/-- Models `read_HEAD`: `none` is `std::nullopt`. -/
def read_HEAD (fs : FS) (repo_root : Str) : Option Str := fs (head_file repo_root)

/-- Models `set_HEAD_symbolic`. -/
def set_HEAD_symbolic (fs : FS) (repo_root refname : Str) : FS :=
  write_file_atomic fs (head_file repo_root) (lit "ref: " ++ refname ++ [kLF])

/-- Models `read_ref`: the content of the file without its trailing `\n` and `\r`. -/
def read_ref (fs : FS) (repo_root refname : Str) : Option Str :=
  match fs (ref_path repo_root refname) with
  | none => none
  | some bytes => some (rstrip_newlines bytes)

/-- Models `update_ref`. -/
def update_ref (fs : FS) (repo_root refname hex_oid : Str) : FS :=
  write_file_atomic fs (ref_path repo_root refname) (hex_oid ++ [kLF])

/-- Models `set_HEAD_detached`. -/
def set_HEAD_detached (fs : FS) (repo_root hex_oid : Str) : FS :=
  write_file_atomic fs (head_file repo_root) (hex_oid ++ [kLF])

/-! ## index.cpp -/

/-- Models `struct IndexEntry`. -/
structure IndexEntry where
  mode : Mode
  oid : Oid
  path : Str
deriving DecidableEq

/-- Models `Index::index_path`: `root / ".gitfly" / "index"`. -/
def index_path (repo_root : Str) : Str := path_join (path_join repo_root kGitDir) (lit "index")

/-- Models `std::isspace` in the C locale: space, `\t`, `\n`, `\v`, `\f`, `\r`. -/
def isspace (c : Byte) : Bool := decide (c.val = 32 ∨ (9 ≤ c.val ∧ c.val ≤ 13))

/-- Models the static `trim` of index.cpp: trailing whitespace is popped, then leading
whitespace is skipped. -/
def trim (s : Str) : Str := ((s.reverse.dropWhile isspace).reverse).dropWhile isspace

/-- Models the loop `while (std::getline(ifs, line))`: the lines of a text, split at `\n`;
a last line without `\n` counts when it is not empty. -/
def getlines : Str → Str → List Str
  | [], cur => if cur = [] then [] else [cur]
  | c :: rest, cur => if c = kLF then cur :: getlines rest [] else getlines rest (cur ++ [c])

/-- Models `is >> token` on the rest of a line: leading whitespace is skipped and the
characters up to the next whitespace are extracted; the second component is what is left of
the stream.  An empty token means that the extraction failed. -/
def read_token (s : Str) : Str × Str :=
  ((s.dropWhile isspace).takeWhile (fun c => !isspace c),
    (s.dropWhile isspace).dropWhile (fun c => !isspace c))

/-- The loop of `Index::load` that parses the octal mode: a character that is not an octal
digit gives 0; the arithmetic is that of `std::uint32_t`. -/
def index_mode_loop : Str → Nat → Nat
  | [], mode => mode
  | c :: rest, mode =>
    if c.val < 48 ∨ 55 < c.val then 0
    else index_mode_loop rest ((mode * 8 + (c.val - 48)) % 4294967296)

/-- The body of the loop of `Index::load` for one line: `none` when the line is skipped. -/
def parse_index_line (line0 : Str) : Option IndexEntry :=
  let line := trim line0
  if line = [] ∨ line.head? = some 35 then none
  else
    let mode_str := (read_token line).1
    let hex := (read_token (read_token line).2).1
    if mode_str = [] ∨ hex = [] then none
    else
      let path := trim (read_token (read_token line).2).2
      let mode := index_mode_loop mode_str 0
      if mode = 0 ∨ path = [] ∨ hex.length ≠ 40 then none
      else
        match from_hex hex with
        | none => none
        | some oid => some ⟨Fin.ofNat mode, oid, path⟩

/-- Inserts an index entry before the first entry whose path is not smaller. -/
def insert_index_entry (e : IndexEntry) : List IndexEntry → List IndexEntry
  | [] => [e]
  | x :: rest => if str_lt x.path e.path then x :: insert_index_entry e rest else e :: x :: rest

/-- Models `std::ranges::sort(entries_, a.path < b.path)`; entries with equal paths, whose
order the library leaves unspecified, keep their order. -/
def sort_index : List IndexEntry → List IndexEntry
  | [] => []
  | e :: rest => insert_index_entry e (sort_index rest)

/-- Models `Index::load`: the entries of the index file of the repository, none when the file
is missing. -/
def Index.load (fs : FS) (repo_root : Str) : List IndexEntry :=
  match fs (index_path repo_root) with
  | none => []
  | some text => sort_index ((getlines text []).filterMap parse_index_line)

/-- The text that `Index::save` builds: `<mode in octal> ' ' <hex> ' ' <path> '\n'` for each
entry. -/
def index_text : List IndexEntry → Str
  | [] => []
  | e :: rest =>
    mode_to_ascii_octal e.mode ++ kSpace :: (to_hex e.oid ++ kSpace :: (e.path
      ++ kLF :: index_text rest))

/-- Models `Index::save`. -/
def Index.save (fs : FS) (repo_root : Str) (entries : List IndexEntry) : FS :=
  write_file_atomic fs (index_path repo_root) (index_text entries)

/-- Models `Repository::write_blob`. -/
def write_blob (z : Zlib) (sha1 : Str → Oid) (gitdir : Str) (fs : FS) (bytes : Str) : Str × FS :=
  ObjectStore.write z sha1 gitdir fs kTypeBlob bytes

/-- The search `std::ranges::find_if(entries_, e.path == path)` of `Index::add_path` with
the replacement of the mode and the id of the entry found; `none` when no entry has the
path. -/
def replace_entry (mode : Mode) (bin : Oid) (path : Str) : List IndexEntry → Option (List IndexEntry)
  | [] => none
  | e :: rest =>
    if e.path = path then some (⟨mode, bin, e.path⟩ :: rest)
    else
      match replace_entry mode bin path rest with
      | none => none
      | some l => some (e :: l)

/-- The "replace or insert" step of `Index::add_path`. -/
def upsert_entry (entries : List IndexEntry) (mode : Mode) (bin : Oid) (path : Str) :
    List IndexEntry :=
  match replace_entry mode bin path entries with
  | some l => l
  | none => entries ++ [⟨mode, bin, path⟩]

/-- Models `Index::add_path` for a repository whose control directory is `gitdir`: the
entries and the file system afterwards, or the exception and the file system at the throw. -/
def Index.add_path (z : Zlib) (sha1 : Str → Oid) (gitdir : Str) (fs : FS)
    (entries : List IndexEntry) (wd relpath : Str) (mode : Mode) :
    Except String (List IndexEntry) × FS :=
  match read_file fs (path_join wd relpath) with
  | .error e => (.error e, fs)
  | .ok bytes =>
    match from_hex (write_blob z sha1 gitdir fs bytes).1 with
    | none => (.error "write_blob produced bad hex oid", (write_blob z sha1 gitdir fs bytes).2)
    | some bin =>
      (.ok (sort_index (upsert_entry entries mode bin relpath)),
        (write_blob z sha1 gitdir fs bytes).2)
/-! ## worktree.cpp: the three snapshots -/

/-- Models `Index::as_path_oid_map` and the loop of `worktree::index_to_map` over the
entries. -/
def entries_to_map (entries : List IndexEntry) : PathMap :=
  entries.foldl (fun m e => map_assign m e.path (to_hex e.oid)) []

/-- Models `worktree::index_to_map`. -/
def index_to_map (fs : FS) (root : Str) : PathMap := entries_to_map (Index.load fs root)

/-- The loop of `worktree::build_working_map` over the paths that `enumerate_paths` returned. -/
def working_map_loop (sha1 : Str → Oid) (fs : FS) (root : Str) :
    List Str → PathMap → Except String PathMap
  | [], m => .ok m
  | rel :: rest, m =>
    match read_file fs (path_join root rel) with
    | .error e => .error e
    | .ok bytes => working_map_loop sha1 fs root rest (map_assign m rel (compute_blob_hex_oid sha1 bytes))

/-- Models `worktree::build_working_map`.  The directory iteration of `enumerate_paths` is
not computed from the file system: `paths` is the set it returns. -/
def build_working_map (sha1 : Str → Oid) (fs : FS) (root : Str) (paths : List Str) :
    Except String PathMap :=
  working_map_loop sha1 fs root paths []

/-- The loop of `tree_to_map_impl` over the entries of one tree; `self` is the recursive
call. -/
def tree_to_map_loop (self : Str → Str → PathMap → Option (Except String PathMap))
    (pfx : Str) : List TreeEntry → PathMap → Option (Except String PathMap)
  | [], out => some (.ok out)
  | e :: rest, out =>
    if e.mode = kModeTree then
      match self (to_hex e.id) (pfx ++ e.name ++ [kSlash]) out with
      | none => none
      | some (.error er) => some (.error er)
      | some (.ok out1) => tree_to_map_loop self pfx rest out1
    else tree_to_map_loop self pfx rest (map_assign out (pfx ++ e.name) (to_hex e.id))

/-- Models `tree_to_map_impl`; `rt` is `read_tree` of the repository and the first argument
bounds the depth of the recursion (`none` when it is not enough). -/
def tree_to_map_impl (rt : Str → Except String (List TreeEntry)) :
    Nat → Str → Str → PathMap → Option (Except String PathMap)
  | 0, _, _, _ => none
  | fuel + 1, tree_hex, pfx, out =>
    match rt tree_hex with
    | .error e => some (.error e)
    | .ok entries => tree_to_map_loop (tree_to_map_impl rt fuel) pfx entries out

/-- Models `worktree::tree_to_map`. -/
def tree_to_map (rt : Str → Except String (List TreeEntry)) (fuel : Nat) (tree_hex : Str) :
    Option (Except String PathMap) :=
  tree_to_map_impl rt fuel tree_hex [] []

/-! ## repo.cpp: `write_tree_from_index` -/

/-- Models `split_first`: the path up to its first `/` and what follows it. -/
def split_first (path : Str) : Str × Str :=
  if path.indexOf kSlash = path.length then (path, [])
  else (path.take (path.indexOf kSlash), path.drop (path.indexOf kSlash + 1))

/-- Models `subdirs[first].push_back(child)` on the `std::map` from directory names to child
entries, kept in ascending order of name. -/
def subdirs_push : List (Str × List IndexEntry) → Str → IndexEntry → List (Str × List IndexEntry)
  | [], k, e => [(k, [e])]
  | (k1, v1) :: rest, k, e =>
    if k = k1 then (k1, v1 ++ [e]) :: rest
    else if str_lt k k1 then (k, [e]) :: (k1, v1) :: rest
    else (k1, v1) :: subdirs_push rest k e

/-- The vector `files` after the first loop of `build`. -/
def files_of : List IndexEntry → List TreeEntry
  | [] => []
  | e :: rest =>
    if (split_first e.path).2 = [] then ⟨e.mode, (split_first e.path).1, e.oid⟩ :: files_of rest
    else files_of rest

/-- The map `subdirs` after the first loop of `build`, started from `m`. -/
def subdirs_of : List IndexEntry → List (Str × List IndexEntry) → List (Str × List IndexEntry)
  | [], m => m
  | e :: rest, m =>
    if (split_first e.path).2 = [] then subdirs_of rest m
    else subdirs_of rest (subdirs_push m (split_first e.path).1 ⟨e.mode, e.oid, (split_first e.path).2⟩)

/-- The loop `for (auto& [dirname, child_entries] : subdirs)` of `build`; `self` is the
recursive call.  The result is the list of the directory entries and the file system. -/
def build_dirs (self : FS → List IndexEntry → Option (Except String (Str × FS))) :
    FS → List (Str × List IndexEntry) → Option (Except String (List TreeEntry × FS))
  | fs, [] => some (.ok ([], fs))
  | fs, (dirname, child_entries) :: rest =>
    match self fs child_entries with
    | none => none
    | some (.error e) => some (.error e)
    | some (.ok (subtree_hex, fs1)) =>
      match from_hex subtree_hex with
      | none => some (.error "bad subtree hex oid")
      | some subtree_oid =>
        match build_dirs self fs1 rest with
        | none => none
        | some (.error e) => some (.error e)
        | some (.ok (es, fs2)) => some (.ok (⟨kModeTree, dirname, subtree_oid⟩ :: es, fs2))

/-- The lambda `build` of `write_tree_from_index`; the first argument bounds the depth of the
recursion (`none` when it is not enough). -/
def build (z : Zlib) (sha1 : Str → Oid) (gitdir : Str) :
    Nat → FS → List IndexEntry → Option (Except String (Str × FS))
  | 0, _, _ => none
  | fuel + 1, fs, group =>
    match build_dirs (build z sha1 gitdir fuel) fs (subdirs_of group []) with
    | none => none
    | some (.error e) => some (.error e)
    | some (.ok (dir_entries, fs1)) =>
      some (.ok (write_tree z sha1 gitdir fs1 (files_of group ++ dir_entries)))

/-- A bound on the depth of `build`: every level removes at least one character from every
path. -/
def build_depth (ents : List IndexEntry) : Nat :=
  (ents.map (fun e => e.path.length)).foldl max 0 + 1

/-- Models `Repository::write_tree_from_index` on the entries that `Index::load` returned. -/
def write_tree_from_entries (z : Zlib) (sha1 : Str → Oid) (gitdir : Str) (fs : FS)
    (ents : List IndexEntry) : Option (Except String (Str × FS)) :=
  build z sha1 gitdir (build_depth ents) fs ents

/-- Models `Repository::write_tree_from_index`. -/
def write_tree_from_index (z : Zlib) (sha1 : Str → Oid) (root : Str) (fs : FS) :
    Option (Except String (Str × FS)) :=
  write_tree_from_entries z sha1 (git_dir root) fs (Index.load fs root)
/-! ## status.cpp -/

/-- Models `enum class ChangeKind`. -/
inductive ChangeKind where
  | Added
  | Modified
  | Deleted
deriving DecidableEq

/-- Models `struct Change`. -/
structure Change where
  kind : ChangeKind
  path : Str
deriving DecidableEq

/-- Models `struct Status`. -/
structure Status where
  staged : List Change
  unstaged : List Change
  untracked : List Str
deriving DecidableEq

/-- Models `head_tree_hex`: `.ok none` is `std::nullopt`; `rc` is `read_commit` of the
repository. -/
def head_tree_hex (rc : Str → Except String CommitInfo) (fs : FS) (root : Str) :
    Except String (Option Str) :=
  match read_HEAD fs root with
  | none => .ok none
  | some s =>
    if starts_with (lit "ref:") s then
      if s.length < 5 then .error "basic_string::substr"
      else
        match read_ref fs root (rstrip_newlines (s.drop 5)) with
        | none => .ok none
        | some cur =>
          if looks_hex40 cur then
            match rc cur with
            | .error e => .error e
            | .ok info => if looks_hex40 info.tree_hex then .ok (some info.tree_hex) else .ok none
          else .ok none
    else
      match rc (rstrip_newlines s) with
      | .error e => .error e
      | .ok info => if looks_hex40 info.tree_hex then .ok (some info.tree_hex) else .ok none

/-- The loop over `all` that fills `st.staged`. -/
def staged_loop (head_map index_map : PathMap) : List Str → List Change
  | [] => []
  | path :: rest =>
    match map_find head_map path, map_find index_map path with
    | some h, some i =>
      if h ≠ i then ⟨.Modified, path⟩ :: staged_loop head_map index_map rest
      else staged_loop head_map index_map rest
    | none, some _ => ⟨.Added, path⟩ :: staged_loop head_map index_map rest
    | some _, none => ⟨.Deleted, path⟩ :: staged_loop head_map index_map rest
    | none, none => staged_loop head_map index_map rest

/-- The loop over `all` that fills `st.unstaged`. -/
def unstaged_loop (work_map index_map : PathMap) : List Str → List Change
  | [] => []
  | path :: rest =>
    match map_find work_map path, map_find index_map path with
    | some w, some i =>
      if w ≠ i then ⟨.Modified, path⟩ :: unstaged_loop work_map index_map rest
      else unstaged_loop work_map index_map rest
    | none, some _ => ⟨.Deleted, path⟩ :: unstaged_loop work_map index_map rest
    | _, none => unstaged_loop work_map index_map rest

/-- Inserts a string before the first string that is not smaller. -/
def insert_str (s : Str) : List Str → List Str
  | [] => [s]
  | x :: rest => if str_lt x s then x :: insert_str s rest else s :: x :: rest

/-- Models `std::ranges::sort` on a vector of strings. -/
def sort_strs : List Str → List Str
  | [] => []
  | s :: rest => insert_str s (sort_strs rest)

/-- The set `all` of two maps: the keys of the first, then the keys of the second. -/
def all_keys (m1 m2 : PathMap) : List Str :=
  (m2.map Prod.fst).foldl set_insert ((m1.map Prod.fst).foldl set_insert [])

/-- The part of `compute_status` that follows the three snapshots. -/
def status_of (head_map index_map work_map : PathMap) : Status :=
  ⟨staged_loop head_map index_map (all_keys head_map index_map),
    unstaged_loop work_map index_map (all_keys work_map index_map),
    sort_strs ((work_map.map Prod.fst).filter (fun p => (map_find index_map p).isNone))⟩

/-- The head snapshot of `compute_status`: empty when `head_tree_hex` returns
`std::nullopt`. -/
def head_map_of (rt : Str → Except String (List TreeEntry)) (fuel : Nat) :
    Option Str → Option (Except String PathMap)
  | none => some (.ok [])
  | some t => tree_to_map rt fuel t

/-- Models `compute_status`.  `paths` is the set that `enumerate_paths` returns for the
working tree and `fuel` bounds the depth of the head tree (`none` when it is not enough). -/
def compute_status (z : Zlib) (sha1 : Str → Oid) (root : Str) (fs : FS) (paths : List Str)
    (fuel : Nat) : Option (Except String Status) :=
  match head_tree_hex (read_commit z (git_dir root) fs) fs root with
  | .error e => some (.error e)
  | .ok tree_hex =>
    match head_map_of (read_tree z (git_dir root) fs) fuel tree_hex with
    | none => none
    | some (.error e) => some (.error e)
    | some (.ok head_map) =>
      match build_working_map sha1 fs root paths with
      | .error e => some (.error e)
      | .ok work_map => some (.ok (status_of head_map (index_to_map fs root) work_map))

/-! ## repo.cpp: `commit_index` -/

/-- The computation of `parents` from `HEAD` at the start of `commit_index`. -/
def head_parents (fs : FS) (root : Str) : Except String (List Str) :=
  match read_HEAD fs root with
  | none => .ok []
  | some head_txt =>
    if starts_with (lit "ref:") head_txt then
      if head_txt.length < 5 then .error "basic_string::substr"
      else
        match read_ref fs root (rstrip_newlines (head_txt.drop 5)) with
        | none => .ok []
        | some cur => if cur.length = 40 then .ok [cur] else .ok []
    else
      if (rstrip_newlines head_txt).length = 40 then .ok [rstrip_newlines head_txt] else .ok []

/-- The block of `commit_index` that reads `MERGE_HEAD`: the parents afterwards and
`had_merge_head`. -/
def merge_head_parents (fs : FS) (root : Str) (parents : List Str) : List Str × Bool :=
  match fs (path_join (git_dir root) kMergeHead) with
  | none => (parents, false)
  | some bytes =>
    if looks_hex40 (rstrip_newlines bytes) then
      (if parents = [] ∨ parents.head? ≠ some (rstrip_newlines bytes)
        then parents ++ [rstrip_newlines bytes] else parents, true)
    else (parents, false)

/-- The end of `commit_index` and of `commit_index_with_parents`: the update of the branch
of a symbolic `HEAD`, or of a detached `HEAD`. -/
def advance_head (fs : FS) (root : Str) (head_txt : Option Str) (commit_hex : Str) : FS :=
  match head_txt with
  | some txt =>
    if starts_with (lit "ref:") txt then update_ref fs root (rstrip_newlines (txt.drop 5)) commit_hex
    else set_HEAD_detached fs root commit_hex
  | none => set_HEAD_detached fs root commit_hex

/-- The status that the guard `if (had_merge_head)` of `commit_index` looks at: it is
computed only when `MERGE_HEAD` was read. -/
def guard_status (z : Zlib) (sha1 : Str → Oid) (root : Str) (fs : FS) (paths : List Str)
    (fuel : Nat) : Bool → Option (Except String Status)
  | true => compute_status z sha1 root fs paths fuel
  | false => some (.ok ⟨[], [], []⟩)

/-- Models `Repository::commit_index`: the value returned or the exception thrown, and the
file system at that point.  `initialized` is `is_initialized()`, `sig` is the signature that
`make_signature` builds from the identity and the clock, `paths` is the set that
`enumerate_paths` returns when `compute_status` runs and `fuel` bounds the depth of the head
tree there (`none` when it is not enough). -/
def commit_index (z : Zlib) (sha1 : Str → Oid) (root : Str) (initialized : Bool) (sig : Str)
    (paths : List Str) (fuel : Nat) (fs : FS) (message : Str) :
    Option (Except String Str × FS) :=
  if !initialized then some (Except.error "Not a gitfly repository (missing .gitfly)", fs)
  else
    match write_tree_from_index z sha1 root fs with
    | none => none
    | some (Except.error e) => some (Except.error e, fs)
    | some (.ok (tree_hex, fs1)) =>
      match head_parents fs1 root with
      | .error e => some (Except.error e, fs1)
      | .ok parents0 =>
        let mh := merge_head_parents fs1 root parents0
        match guard_status z sha1 root fs1 paths fuel mh.2 with
        | none => none
        | some (Except.error e) => some (Except.error e, fs1)
        | some (.ok st) =>
          if mh.2 ∧ (st.unstaged ≠ [] ∨ st.untracked ≠ []) then
            some (Except.error "cannot commit: merge in progress, unresolved paths present", fs1)
          else
            let c := write_commit z sha1 (git_dir root) fs1 tree_hex mh.1 sig sig message
            let fs3 := advance_head c.2 root (read_HEAD fs1 root) c.1
            some (Except.ok c.1, if mh.2 then remove_file fs3 (path_join (git_dir root) kMergeHead)
                           else fs3)
/-! ## Predicates used in the statements about the repository -/

/-- The file system `fs1` differs from `fs` at object files and their temporary files only,
and every object file of `fs` is in `fs1` with the same bytes. -/
def StoreExt (gitdir : Str) (fs fs1 : FS) : Prop :=
  (∀ p, (∀ i, p ≠ path_for_oid gitdir i ∧ p ≠ path_for_oid gitdir i ++ lit ".tmp") → fs1 p = fs p)
  ∧ ∀ i d, fs (path_for_oid gitdir i) = some d → fs1 (path_for_oid gitdir i) = some d

/-- What a call of `build` guarantees: it returns the hex form of a digest, and it adds
object files only. -/
def BuildOk (gitdir : Str) (fs : FS) (r : Option (Except String (Str × FS))) : Prop :=
  ∃ (id : Oid) (fs1 : FS), r = some (.ok (to_hex id, fs1)) ∧ StoreExt gitdir fs fs1

/-! ## Stand-ins for SHA-1 and a small repository, for the examples -/

/-- A stand-in for SHA-1 that keeps the first seven bytes of the buffer, which hold the kind
of a framed object. -/
def prefixSha1 : Str → Oid := fun s =>
  ⟨(s.take 7 ++ List.replicate 20 0).take 20, by
    rw [List.length_take, List.length_append, List.length_replicate]
    omega⟩

/-- A repository at `/r` just after `init`: `HEAD` points to the unborn branch `master`. -/
def headFS : FS := fun p =>
  if p = lit "/r/.gitfly/HEAD" then some (lit "ref: refs/heads/master\n") else none

/-! ## worktree.cpp: the paths that `enumerate_paths` returns -/

/-- The components of a path: the parts between the `/`. -/
def segments : Str → Str → List Str
  | [], cur => [cur]
  | c :: rest, cur => if c = kSlash then cur :: segments rest [] else segments rest (cur ++ [c])

/-- A path as `enumerate_paths` returns them: relative to the root, in generic form (every
component non-empty, none of them `.` or `..`), and with no component `.gitfly` (the loop
skips every entry of that name and does not descend into it). -/
def rel_ok (rel : Str) : Bool :=
  (segments rel []).all (fun s =>
    decide (s ≠ [] ∧ s ≠ kGitDir ∧ s ≠ lit "." ∧ s ≠ lit ".."))

/-- The content of `HEAD`, when it is symbolic, names a ref below `refs/` (a branch or a
tag). -/
def head_in_refs (fs : FS) (root : Str) : Prop :=
  ∀ txt, read_HEAD fs root = some txt → starts_with (lit "ref:") txt = true →
    ∃ name, rstrip_newlines (txt.drop 5) = lit "refs/" ++ name
/-- A stand-in for SHA-1 that keeps the first seven and the last thirteen bytes of the
buffer. -/
def edgeSha1 : Str → Oid := fun s =>
  ⟨(s.take 7 ++ (s.reverse.take 13 ++ List.replicate 20 0)).take 20, by
    rw [List.length_take, List.length_append, List.length_append, List.length_replicate]
    omega⟩

/-- A repository at `/r` with an unborn branch, a merge in progress and one file `f` in the
working tree that is not in the index. -/
def unresolvedFS : FS := fun p =>
  if p = lit "/r/.gitfly/HEAD" then some (lit "ref: refs/heads/master\n")
  else if p = lit "/r/.gitfly/MERGE_HEAD" then some (List.replicate 40 98 ++ [kLF])
  else if p = lit "/r/f" then some (lit "x")
  else none

/-- The first commit of the branch `master` in the repository `headFS`, made from an empty
index. -/
def firstCommit : Option (Except String Str × FS) :=
  commit_index rleZlib edgeSha1 (lit "/r") true (lit "A <a@b> 0 +0000") [] 0 headFS (lit "one\n")

/-- The digest of the first commit. -/
def firstTip : Str :=
  match firstCommit with
  | some (.ok c, _) => c
  | _ => []

def kRefPrefix : Str := lit "ref: "

/-- Models `head_symbolic_ref`: the name after `ref: `, `none` for `std::nullopt`. -/
def head_symbolic_ref (fs : FS) (repo_root : Str) : Option Str :=
  match read_HEAD fs repo_root with
  | none => none
  | some head_txt =>
    if starts_with kRefPrefix (rstrip_newlines head_txt) then
      some ((rstrip_newlines head_txt).drop kRefPrefix.length)
    else none

/-- Models `Repository::objects_dir`. -/
def objects_dir (root : Str) : Str := path_join (git_dir root) kObjectsDir

/-- Models `copy_missing_objects(src_obj, dst_obj)`.  `files` is what the directory iteration
over `src_obj` returns: the relative paths of its regular files.  `fs::copy_file` gives the
destination the bytes of the source. -/
def copy_missing_objects (src_fs : FS) (src_obj dst_obj : Str) : List Str → FS → FS
  | [], dst_fs => dst_fs
  | rel :: rest, dst_fs =>
    if (dst_fs (path_join dst_obj rel)).isSome then
      copy_missing_objects src_fs src_obj dst_obj rest dst_fs
    else
      copy_missing_objects src_fs src_obj dst_obj rest
        (fun p => if p = path_join dst_obj rel then src_fs (path_join src_obj rel) else dst_fs p)

/-- The end of `remote::push_branch`, once the fast-forward test has passed: the objects are
copied and the remote ref is updated. -/
def push_finish (local_root remote_root branch : Str) (files : List Str) (local_fs remote_fs : FS)
    (local_tip : Str) : FS :=
  update_ref (copy_missing_objects local_fs (objects_dir local_root) (objects_dir remote_root)
      files remote_fs)
    remote_root (heads_ref branch) local_tip

/-- Models `remote::push_branch`: the exception thrown, if any, and the file map of the
remote repository afterwards.  `local_init` and `remote_init` are `is_initialized()` of the
two repositories, `files` is the directory iteration over the local objects, and `fuel`
bounds the walk of `is_commit_ancestor` (`none` when it is not enough). -/
def push_branch (z : Zlib) (fuel : Nat) (local_root remote_root branch : Str)
    (local_init remote_init : Bool) (files : List Str) (local_fs remote_fs : FS) :
    Option (Except String Unit × FS) :=
  if !local_init ∨ !remote_init then
    some (Except.error "both repos must be initialized", remote_fs)
  else
    match head_symbolic_ref local_fs local_root with
    | none => some (Except.error "push requires symbolic HEAD", remote_fs)
    | some head_sym =>
      if rstrip_newlines head_sym ≠ heads_ref branch then
        some (Except.error "current branch does not match push branch", remote_fs)
      else
        match read_ref local_fs local_root (heads_ref branch) with
        | none => some (Except.error "local branch has no tip", remote_fs)
        | some local_tip =>
          match read_ref remote_fs remote_root (heads_ref branch) with
          | none =>
            some (Except.ok (),
              push_finish local_root remote_root branch files local_fs remote_fs local_tip)
          | some remote_tip =>
            match Repository.is_commit_ancestor z (git_dir local_root) local_fs fuel
                remote_tip local_tip with
            | none => none
            | some (.error e) => some (Except.error e, remote_fs)
            | some (.ok false) => some (Except.error "non-fast-forward", remote_fs)
            | some (.ok true) =>
              some (Except.ok (),
                push_finish local_root remote_root branch files local_fs remote_fs local_tip)

/-! ## cli/commands/serve.cpp

The socket is the sequence of bytes that the client sends, all of it available; what the
server sends back is collected in a string. -/

/-- Models `read_line(fd)`: the bytes up to the next `\n` and what follows it; the end of the
stream makes `recv` fail. -/
def read_line : Str → Except String (Str × Str)
  | [] => .error "recv failed"
  | c :: rest =>
    if c = kLF then .ok ([], rest)
    else
      match read_line rest with
      | .error e => .error e
      | .ok (l, r) => .ok (c :: l, r)

/-- Models `std::isdigit`. -/
def isdigit (c : Byte) : Bool := decide (48 ≤ c.val ∧ c.val ≤ 57)

/-- The value of a string of decimal digits. -/
def digits_value (ds : Str) : Nat := ds.foldl (fun v c => v * 10 + (c.val - 48)) 0

/-- The conversion of `strtoull` in base 10 on what follows the white space: an optional
sign and digits; `none` when there is no digit. -/
def unsigned_field (s : Str) : Option (Bool × Nat) :=
  match s with
  | 45 :: r => if r.takeWhile isdigit = [] then none else some (true, digits_value (r.takeWhile isdigit))
  | 43 :: r => if r.takeWhile isdigit = [] then none else some (false, digits_value (r.takeWhile isdigit))
  | r => if r.takeWhile isdigit = [] then none else some (false, digits_value (r.takeWhile isdigit))

/-- Models `std::stoull` (64-bit `unsigned long long`): it throws when there is no digit or
when the value does not fit; a minus sign negates modulo 2^64. -/
def stoull (s : Str) : Except String Nat :=
  match unsigned_field (s.dropWhile isspace) with
  | none => .error "stoull"
  | some (neg, v) =>
    if 18446744073709551616 ≤ v then .error "stoull"
    else .ok (if neg then (18446744073709551616 - v) % 18446744073709551616 else v)

/-- Models `is >> sz` for a `size_t` once `is >> hex` has succeeded: a failed conversion
stores 0, a value that does not fit stores the largest value. -/
def read_size (s : Str) : Nat :=
  match unsigned_field (s.dropWhile isspace) with
  | none => 0
  | some (neg, v) =>
    if 18446744073709551616 ≤ v then 18446744073709551615
    else if neg then (18446744073709551616 - v) % 18446744073709551616 else v

/-- The loop `for (size_t i = 0; i < n; ++i)` of `recv_objects_into`: what is left of the
stream, or the exception thrown, and the file map at that point.  `none`: the line has no
name after `OBJ `, and `sz` is read without having been written. -/
def recv_objects_loop (objects_dir : Str) : Nat → Str → FS → Option (Except String Str × FS)
  | 0, input, fs => some (.ok input, fs)
  | n + 1, input, fs =>
    match read_line input with
    | .error e => some (.error e, fs)
    | .ok (oline, rest) =>
      if !starts_with (lit "OBJ ") oline then some (.error "bad OBJ", fs)
      else if (read_token (oline.drop 4)).1 = [] then none
      else if 9223372036854775807 < read_size (read_token (oline.drop 4)).2 then
        some (.error "cannot create std::vector larger than max_size()", fs)
      else if rest.length < read_size (read_token (oline.drop 4)).2 then
        some (.error "recv obj failed", fs)
      else if (read_token (oline.drop 4)).1.length < 2 then
        some (.error "basic_string::substr", fs)
      else
        recv_objects_loop objects_dir n (rest.drop (read_size (read_token (oline.drop 4)).2))
          (write_file_atomic fs
            (path_join (path_join objects_dir ((read_token (oline.drop 4)).1.take 2))
              ((read_token (oline.drop 4)).1.drop 2))
            (rest.take (read_size (read_token (oline.drop 4)).2)))

/-- Models `recv_objects_into(fd, objects_dir)` of serve.cpp. -/
def recv_objects_into (objects_dir : Str) (input : Str) (fs : FS) :
    Option (Except String Str × FS) :=
  match read_line input with
  | .error e => some (.error e, fs)
  | .ok (nline, rest) =>
    if !starts_with (lit "NOBJ ") nline then some (.error "bad NOBJ", fs)
    else
      match stoull (nline.drop kRefPrefix.length) with
      | .error e => some (.error e, fs)
      | .ok n =>
        match recv_objects_loop objects_dir n rest fs with
        | none => none
        | some (.error e, fs1) => some (.error e, fs1)
        | some (.ok rest1, fs1) =>
          match read_line rest1 with
          | .error e => some (.error e, fs1)
          | .ok (_, rest2) => some (.ok rest2, fs1)

/-- The text that `send_all_objects` of serve.cpp sends for the files of the objects
directory, without the first line `NOBJ <n>`; `files` is what the directory iteration
returns. -/
def send_objects_text (fs : FS) (objects_dir : Str) : List Str → Except String Str
  | [] => .ok (lit "DONE" ++ [kLF])
  | rel :: rest =>
    match read_file fs (path_join objects_dir rel) with
    | .error e => .error e
    | .ok data =>
      match send_objects_text fs objects_dir rest with
      | .error e => .error e
      | .ok text =>
        .ok (lit "OBJ " ++ rel.filter (fun c => decide (c ≠ kSlash)) ++ [kSpace]
          ++ to_string data.length ++ [kLF] ++ data ++ text)

/-- The line `REF <branch> <tip>` that `handle_client` sends for `OP CLONE` and `OP FETCH`,
without its `\n`. -/
def ref_advert (fs : FS) (root : Str) : Except String Str :=
  match read_HEAD fs root with
  | none => .ok (lit "REF DETACHED ")
  | some head_txt =>
    if starts_with (lit "ref:") (rstrip_newlines head_txt) then
      if (rstrip_newlines head_txt).length < kRefPrefix.length then .error "basic_string::substr"
      else
        .ok (lit "REF "
          ++ (if starts_with (lit "refs/heads/") ((rstrip_newlines head_txt).drop kRefPrefix.length)
              then (rstrip_newlines head_txt).drop (kRefPrefix.length + (lit "refs/heads/").length)
              else (rstrip_newlines head_txt).drop kRefPrefix.length)
          ++ [kSpace]
          ++ (match read_ref fs root ((rstrip_newlines head_txt).drop kRefPrefix.length) with
              | some t => t
              | none => []))
    else .ok (lit "REF DETACHED " ++ rstrip_newlines head_txt)

/-- The branch `OP PUSH <branch>` of `handle_client`, from the line `NEW <oid>` on: what is
sent, the exception thrown, if any, and the file map afterwards.  The lambda `is_ancestor`
is the walk of `Repository::is_commit_ancestor`. -/
def serve_push (z : Zlib) (root : Str) (fuel : Nat) (branch : Str) (input : Str) (fs : FS) :
    Option (Str × Except String Unit × FS) :=
  match read_line input with
  | .error e => some ([], Except.error e, fs)
  | .ok (nline, rest) =>
    if !starts_with (lit "NEW ") nline then some ([], Except.error "bad NEW", fs)
    else
      match recv_objects_into (objects_dir root) rest fs with
      | none => none
      | some (.error e, fs1) => some (lit "OKGO" ++ [kLF], Except.error e, fs1)
      | some (.ok _, fs1) =>
        match read_ref fs1 root (heads_ref branch) with
        | none =>
          some (lit "OKGO" ++ [kLF] ++ lit "OK" ++ [kLF], Except.ok (),
            update_ref fs1 root (heads_ref branch) (nline.drop 4))
        | some cur_tip =>
          match Repository.is_commit_ancestor z (git_dir root) fs1 fuel cur_tip (nline.drop 4) with
          | none => none
          | some (.error e) => some (lit "OKGO" ++ [kLF], Except.error e, fs1)
          | some (.ok false) =>
            some (lit "OKGO" ++ [kLF] ++ lit "ERR non-fast-forward" ++ [kLF], Except.ok (), fs1)
          | some (.ok true) =>
            some (lit "OKGO" ++ [kLF] ++ lit "OK" ++ [kLF], Except.ok (),
              update_ref fs1 root (heads_ref branch) (nline.drop 4))

/-- Models `handle_client(cfd, repo)`: `input` is what the client sends, `files` the
directory iteration over the objects directory; every `send` succeeds. -/
def handle_client (z : Zlib) (root : Str) (fuel : Nat) (files : List Str) (input : Str)
    (fs : FS) : Option (Str × Except String Unit × FS) :=
  match read_line input with
  | .error e => some ([], Except.error e, fs)
  | .ok (_, rest) =>
    match read_line rest with
    | .error e => some ([], Except.error e, fs)
    | .ok (op, rest2) =>
      if starts_with (lit "OP CLONE") op ∨ starts_with (lit "OP FETCH") op then
        match ref_advert fs root with
        | .error e => some ([], Except.error e, fs)
        | .ok line =>
          match send_objects_text fs (objects_dir root) files with
          | .error e => some (line ++ [kLF], Except.error e, fs)
          | .ok text =>
            some (line ++ [kLF] ++ lit "NOBJ " ++ to_string files.length ++ [kLF] ++ text,
              Except.ok (), fs)
      else if starts_with (lit "OP PUSH ") op then
        serve_push z root fuel (op.drop 8) rest2 fs
      else some (lit "ERR unknown op" ++ [kLF], Except.ok (), fs)
/-! ## A push to the server that is not a fast-forward -/

/-- The repository that the server serves: `/r` after the first commit `firstTip` of
`master`. -/
def serveFS : FS :=
  match firstCommit with
  | some (_, fs) => fs
  | none => headFS

/-- The tip that the client proposes. -/
def tipX : Str := List.replicate 40 99

/-- A commit without parent, framed and deflated by the run-length codec. -/
def rootCommitFile : Str :=
  rle_enc (object_header kTypeCommit
      (commit_text (List.replicate 40 100) [] (lit "E <e@e> 0 +0000") (lit "E <e@e> 0 +0000")
        (lit "two\n")).length
    ++ commit_text (List.replicate 40 100) [] (lit "E <e@e> 0 +0000") (lit "E <e@e> 0 +0000")
        (lit "two\n"))

/-- What a client sends to push `tipX` to `master`: the commit `tipX`, which has no parent,
and a second object whose name is the path of the ref file. -/
def pushStream : Str :=
  lit "HELLO\nOP PUSH master\nNEW " ++ tipX ++ lit "\nNOBJ 2\nOBJ " ++ tipX ++ [kSpace]
    ++ to_string rootCommitFile.length ++ [kLF] ++ rootCommitFile
    ++ lit "OBJ ab/r/.gitfly/refs/heads/master 41\n" ++ tipX ++ lit "\nDONE\n"

/-! ## The trees that `write_tree_from_index` writes, and what `tree_to_map` assigns -/

/-- The directory entries that the second loop of `build` appends to `tree_entries`; `self`
gives the digest that the recursive call returns for the child entries. -/
def dir_entries (self : List IndexEntry → Oid) : List (Str × List IndexEntry) → List TreeEntry
  | [] => []
  | (dirname, child_entries) :: rest =>
    ⟨kModeTree, dirname, self child_entries⟩ :: dir_entries self rest

/-- The digest under which `write_tree` stores a list of entries. -/
def tree_oid (sha1 : Str → Oid) (entries_in : List TreeEntry) : Oid :=
  sha1 (object_header kTypeTree (tree_payload (sort_entries entries_in)).length
    ++ tree_payload (sort_entries entries_in))

/-- The vector `tree_entries` that `build` passes to `write_tree` for a group of entries; the
first argument is the depth bound of `build`. -/
def build_entries (sha1 : Str → Oid) : Nat → List IndexEntry → List TreeEntry
  | 0, group => files_of group
  | fuel + 1, group =>
    files_of group
      ++ dir_entries (fun ch => tree_oid sha1 (build_entries sha1 fuel ch)) (subdirs_of group [])

/-- Every tree that `build` writes for a group, at any depth, is read back from the object
store with the kind `tree` and the bytes that were written; `rd` is `ObjectStore::read` on
the store. -/
def trees_stored (rd : Str → Except String Object) (sha1 : Str → Oid) :
    Nat → List IndexEntry → Bool
  | 0, _ => true
  | fuel + 1, group =>
    decide (rd (to_hex (tree_oid sha1 (build_entries sha1 (fuel + 1) group)))
        = .ok ⟨kTypeTree, tree_payload (sort_entries (build_entries sha1 (fuel + 1) group))⟩)
      && (subdirs_of group []).all (fun dc => trees_stored rd sha1 fuel dc.2)

/-- The assignments `out[path] = digest` that the loop of `tree_to_map_impl` makes for the
entries of one tree, in the order in which it makes them; `self` is the recursive call. -/
def pairs_loop (self : Str → Str → Option (Except String (List (Str × Str)))) (pfx : Str) :
    List TreeEntry → Option (Except String (List (Str × Str)))
  | [] => some (.ok [])
  | e :: rest =>
    if e.mode = kModeTree then
      match self (to_hex e.id) (pfx ++ e.name ++ [kSlash]) with
      | none => none
      | some (.error er) => some (.error er)
      | some (.ok l1) =>
        match pairs_loop self pfx rest with
        | none => none
        | some (.error er) => some (.error er)
        | some (.ok l2) => some (.ok (l1 ++ l2))
    else
      match pairs_loop self pfx rest with
      | none => none
      | some (.error er) => some (.error er)
      | some (.ok l2) => some (.ok ((pfx ++ e.name, to_hex e.id) :: l2))

/-- The assignments that `tree_to_map_impl` makes for a tree, in order. -/
def tree_pairs (rt : Str → Except String (List TreeEntry)) :
    Nat → Str → Str → Option (Except String (List (Str × Str)))
  | 0, _, _ => none
  | fuel + 1, tree_hex, pfx =>
    match rt tree_hex with
    | .error e => some (.error e)
    | .ok entries => pairs_loop (tree_pairs rt fuel) pfx entries

/-- The pair that an index entry contributes to the snapshot, below a prefix. -/
def entry_pair (pfx : Str) (e : IndexEntry) : Str × Str := (pfx ++ e.path, to_hex e.oid)
/-- The file system after `write_tree_from_index`. -/
def store_after_write_tree (z : Zlib) (sha1 : Str → Oid) (root : Str) (fs : FS) : FS :=
  match write_tree_from_index z sha1 root fs with
  | some (.ok (_, fs1)) => fs1
  | _ => fs

/-- A repository at `/r` whose index has the path `a<NUL>b`. -/
def nulFS : FS := fun p =>
  if p = lit "/r/.gitfly/index" then
    some (lit "100644 " ++ List.replicate 40 97 ++ [kSpace, 97, kNul, 98, kLF])
  else none

/-- A repository at `/r` whose index has the paths `a`, `d/b` and `d/e/c`. -/
def nestedFS : FS := fun p =>
  if p = lit "/r/.gitfly/index" then
    some (lit "100644 " ++ List.replicate 40 97 ++ lit " a\n"
      ++ lit "100644 " ++ List.replicate 40 98 ++ lit " d/b\n"
      ++ lit "100644 " ++ List.replicate 40 99 ++ lit " d/e/c\n")
  else none

/-- A stand-in for SHA-1 that keeps the first twenty bytes of the buffer. -/
def headSha1 : Str → Oid := fun s =>
  ⟨(s.take 20 ++ List.replicate 20 0).take 20, by
    rw [List.length_take, List.length_append, List.length_replicate]
    omega⟩

/-! ## worktree.cpp: `apply_snapshot` and `write_index_snapshot` -/

/-- The first loop of `apply_snapshot`: every working path that the snapshot does not
contain is removed. -/
def remove_extra (root : Str) (snapshot : PathMap) : List Str → FS → FS
  | [], fs => fs
  | p :: rest, fs =>
    if (map_find snapshot p).isSome then remove_extra root snapshot rest fs
    else remove_extra root snapshot rest (remove_file fs (path_join root p))

/-- The second loop of `apply_snapshot`: every file of the snapshot is written with the
bytes of its blob.  The result is the exception thrown by `read_blob`, if any, and the file
system at that point.  `create_directories` and `write_file_atomic` are taken to succeed:
this is the code for the snapshots whose paths can be written (`Writable`) and do not hold
a path together with a path below it (`no_dir_clash`). -/
def write_snapshot (z : Zlib) (root : Str) : List (Str × Str) → FS → Except String Unit × FS
  | [], fs => (.ok (), fs)
  | (path, hex) :: rest, fs =>
    match read_blob z (git_dir root) fs hex with
    | .error e => (.error e, fs)
    | .ok bytes => write_snapshot z root rest (write_file_atomic fs (path_join root path) bytes)

/-- Models `worktree::apply_snapshot`; `paths` is the set that `enumerate_paths` returns.
The writes are those of `write_snapshot`, with the same condition on the paths. -/
def apply_snapshot (z : Zlib) (root : Str) (paths : List Str) (snapshot : PathMap) (fs : FS) :
    Except String Unit × FS :=
  write_snapshot z root snapshot (remove_extra root snapshot paths fs)

/-- The loop of `write_index_snapshot` that adds each path of the snapshot from the working
tree to the index object. -/
def add_snapshot (z : Zlib) (sha1 : Str → Oid) (root : Str) :
    List (Str × Str) → List IndexEntry → FS → Except String (List IndexEntry) × FS
  | [], entries, fs => (.ok entries, fs)
  | (path, _) :: rest, entries, fs =>
    match Index.add_path z sha1 (git_dir root) fs entries root path kModeFile with
    | (.error e, fs1) => (.error e, fs1)
    | (.ok entries1, fs1) => add_snapshot z sha1 root rest entries1 fs1

/-- Models `worktree::write_index_snapshot`: the index file is emptied, the paths of the
snapshot are added from the working tree to a new index object, which is then saved. -/
def write_index_snapshot (z : Zlib) (sha1 : Str → Oid) (root : Str) (snapshot : PathMap)
    (fs : FS) : Except String Unit × FS :=
  match add_snapshot z sha1 root snapshot [] (write_file_atomic fs (index_path root) []) with
  | (.error e, fs1) => (.error e, fs1)
  | (.ok entries, fs1) => (.ok (), Index.save fs1 root entries)

/-! ## repo.cpp: `merge_branch` -/

/-- The bytes of a string as the text of an exception message. -/
def to_text (s : Str) : String := String.mk (s.map (fun b => Char.ofNat b.val))

/-- Models `head_current_branch`: the name of the ref of a symbolic `HEAD`, empty
otherwise. -/
def head_current_branch (fs : FS) (root : Str) : Except String Str :=
  match read_HEAD fs root with
  | none => .ok []
  | some head_txt =>
    if !starts_with (lit "ref:") head_txt then .ok []
    else if head_txt.length < 5 then .error "basic_string::substr"
    else .ok (rstrip_newlines (head_txt.drop 5))

/-- Models `Repository::commit_index_with_parents`. -/
def commit_index_with_parents (z : Zlib) (sha1 : Str → Oid) (root : Str) (initialized : Bool)
    (sig : Str) (fs : FS) (message : Str) (extra_parents : List Str) :
    Option (Except String Str × FS) :=
  if !initialized then some (Except.error "Not a gitfly repository (missing .gitfly)", fs)
  else
    match write_tree_from_index z sha1 root fs with
    | none => none
    | some (Except.error e) => some (Except.error e, fs)
    | some (.ok (tree_hex, fs1)) =>
      match head_parents fs1 root with
      | .error e => some (Except.error e, fs1)
      | .ok parents0 =>
        let c := write_commit z sha1 (git_dir root) fs1 tree_hex (parents0 ++ extra_parents)
          sig sig message
        some (Except.ok c.1, advance_head c.2 root (read_HEAD fs1 root) c.1)

/-- The loop `for (const auto& path : all)` of `merge_branch` on the repository: each
iteration reads its blobs from the object store as it is then.  The result is the state
reached, or the exception thrown, and the file system at that point. -/
def merge_loop_repo (z : Zlib) (root giver_branch : Str) (baseM ours theirs : PathMap) :
    List Str → MergeState → Except String MergeState × FS
  | [], st => (.ok st, st.fs)
  | path :: rest, st =>
    match merge_path (read_blob z (git_dir root) st.fs) root giver_branch baseM ours theirs
        st path with
    | .error e => (.error e, st.fs)
    | .ok st1 => merge_loop_repo z root giver_branch baseM ours theirs rest st1

/-- The list of the conflicted paths in the message of `merge_branch`, separated by `, `. -/
def conflict_message : List Str → Str
  | [] => []
  | [p] => p
  | p :: q :: rest => p ++ lit ", " ++ conflict_message (q :: rest)

/-- The map `filtered` of `merge_branch`: `result` without the conflicted paths. -/
def erase_all (result : PathMap) (conflicts : List Str) : PathMap :=
  conflicts.foldl map_erase result

/-- The fast-forward branch of `merge_branch`. -/
def merge_fast_forward (z : Zlib) (sha1 : Str → Oid) (root : Str) (paths : List Str)
    (fuel : Nat) (fs : FS) (cur_ref giver_tip : Str) : Option (Except String Unit × FS) :=
  match read_commit z (git_dir root) fs giver_tip with
  | .error e => some (Except.error e, fs)
  | .ok info =>
    match tree_to_map (read_tree z (git_dir root) fs) fuel info.tree_hex with
    | none => none
    | some (.error e) => some (Except.error e, fs)
    | some (.ok tgt) =>
      match apply_snapshot z root paths tgt fs with
      | (.error e, fs1) => some (Except.error e, fs1)
      | (.ok _, fs1) =>
        match write_index_snapshot z sha1 root tgt fs1 with
        | (.error e, fs2) => some (Except.error e, fs2)
        | (.ok _, fs2) => some (Except.ok (), update_ref fs2 root cur_ref giver_tip)

/-- The end of `merge_branch`, from the rewriting of the index on. -/
def merge_finish (z : Zlib) (sha1 : Str → Oid) (root : Str) (initialized : Bool) (sig : Str)
    (giver_branch giver_tip : Str) (st : MergeState) : Option (Except String Unit × FS) :=
  match write_index_snapshot z sha1 root
      (if st.conflicts ≠ [] then erase_all st.result st.conflicts else st.result) st.fs with
  | (.error e, fs2) => some (Except.error e, fs2)
  | (.ok _, fs2) =>
    if st.conflicts ≠ [] then
      some (Except.error ("merge conflicts in: " ++ to_text (conflict_message st.conflicts)), fs2)
    else
      match commit_index_with_parents z sha1 root initialized sig fs2
          (lit "Merge branch '" ++ giver_branch ++ lit "'\n") [giver_tip] with
      | none => none
      | some (.error e, fs3) => some (Except.error e, fs3)
      | some (.ok _, fs3) =>
        some (Except.ok (), remove_file fs3 (path_join (git_dir root) kMergeHead))

/-- The three maps of `merge_branch`: the snapshots of ours, theirs and the base, read in
that order after the three commits. -/
def merge_maps (z : Zlib) (root : Str) (fuel : Nat) (fs : FS) (cur_tip giver_tip base : Str) :
    Option (Except String (PathMap × PathMap × PathMap)) :=
  match read_commit z (git_dir root) fs cur_tip with
  | .error e => some (.error e)
  | .ok cur_info =>
    match read_commit z (git_dir root) fs giver_tip with
    | .error e => some (.error e)
    | .ok giv_info =>
      match read_commit z (git_dir root) fs base with
      | .error e => some (.error e)
      | .ok base_info =>
        match tree_to_map (read_tree z (git_dir root) fs) fuel cur_info.tree_hex with
        | none => none
        | some (.error e) => some (.error e)
        | some (.ok ours) =>
          match tree_to_map (read_tree z (git_dir root) fs) fuel giv_info.tree_hex with
          | none => none
          | some (.error e) => some (.error e)
          | some (.ok theirs) =>
            match tree_to_map (read_tree z (git_dir root) fs) fuel base_info.tree_hex with
            | none => none
            | some (.error e) => some (.error e)
            | some (.ok baseM) => some (.ok (ours, theirs, baseM))

/-- The three-way branch of `merge_branch`, from the writing of `MERGE_HEAD` on. -/
def merge_three_way (z : Zlib) (sha1 : Str → Oid) (root : Str) (initialized : Bool)
    (sig : Str) (fuel : Nat) (fs : FS) (giver_branch cur_tip giver_tip : Str) :
    Option (Except String Unit × FS) :=
  let fs0 := write_file_atomic fs (path_join (git_dir root) kMergeHead) (giver_tip ++ [kLF])
  match lca_commit (read_commit z (git_dir root) fs0) fuel giver_tip cur_tip with
  | none => none
  | some (.error e) => some (Except.error e, fs0)
  | some (.ok none) => some (Except.error "no common ancestor between branches", fs0)
  | some (.ok (some base)) =>
    match merge_maps z root fuel fs0 cur_tip giver_tip base with
    | none => none
    | some (.error e) => some (Except.error e, fs0)
    | some (.ok (ours, theirs, baseM)) =>
      match merge_loop_repo z root giver_branch baseM ours theirs
          (all_paths ours theirs baseM) ⟨ours, [], fs0⟩ with
      | (.error e, fs1) => some (Except.error e, fs1)
      | (.ok st, _) => merge_finish z sha1 root initialized sig giver_branch giver_tip st

/-- Models `Repository::merge_branch`: the exception thrown, if any, and the file system at
that point.  `initialized` is `is_initialized()`, `sig` the signature of the merge commit,
`paths` the set that `enumerate_paths` returns for the working tree, and `fuel` bounds the
walks of the commit graph and the depth of the trees (`none` when it is not enough). -/
def merge_branch (z : Zlib) (sha1 : Str → Oid) (root : Str) (initialized : Bool) (sig : Str)
    (paths : List Str) (fuel : Nat) (fs : FS) (giver_branch : Str) :
    Option (Except String Unit × FS) :=
  if !initialized then some (Except.error "not a gitfly repo", fs)
  else
    match head_current_branch fs root with
    | .error e => some (Except.error e, fs)
    | .ok cur_ref =>
      if cur_ref = [] then some (Except.error "merges unsupported in detached HEAD state", fs)
      else
        match read_ref fs root cur_ref with
        | none => some (Except.error "current branch has no commits", fs)
        | some cur_tip =>
          if cur_tip.length ≠ 40 then some (Except.error "current branch has no commits", fs)
          else
            match read_ref fs root (heads_ref giver_branch) with
            | none => some (Except.error ("unknown branch: " ++ to_text giver_branch), fs)
            | some giver_tip =>
              if giver_tip.length ≠ 40 then
                some (Except.error ("unknown branch: " ++ to_text giver_branch), fs)
              else if giver_tip = cur_tip then
                some (Except.error "cannot merge a branch with itself", fs)
              else
                match Repository.is_commit_ancestor z (git_dir root) fs fuel giver_tip cur_tip with
                | none => none
                | some (.error e) => some (Except.error e, fs)
                | some (.ok true) => some (Except.ok (), fs)
                | some (.ok false) =>
                  match Repository.is_commit_ancestor z (git_dir root) fs fuel
                      cur_tip giver_tip with
                  | none => none
                  | some (.error e) => some (Except.error e, fs)
                  | some (.ok true) =>
                    merge_fast_forward z sha1 root paths fuel fs cur_ref giver_tip
                  | some (.ok false) =>
                    merge_three_way z sha1 root initialized sig fuel fs giver_branch
                      cur_tip giver_tip
/-- A path that the text format of the index keeps: it is not empty, has no `\n`, and
neither starts nor ends with a whitespace character. -/
def index_path_ok (p : Str) : Bool :=
  decide (kLF ∉ p)
    && (match p.head? with
        | some c => !isspace c
        | none => false)
    && (match p.getLast? with
        | some c => !isspace c
        | none => false)

/-- A stand-in for SHA-1 that keeps the first sixteen bytes of the buffer, its length and
three checksums. -/
def mixSha1 : Str → Oid := fun s =>
  ⟨(s.take 16 ++ ([Fin.ofNat s.length,
        Fin.ofNat (s.foldl (fun (a : Nat) (b : Byte) => (a + b.val) % 251) 0),
        Fin.ofNat (s.foldl (fun (a : Nat) (b : Byte) => (3 * a + b.val) % 65521) 0),
        Fin.ofNat (s.foldl (fun (a : Nat) (b : Byte) => (7 * a + b.val) % 65521) 0)] ++ List.replicate 20 0)).take 20,
    by
      rw [List.length_take, List.length_append, List.length_append, List.length_replicate]
      simp only [List.length_cons, List.length_nil]
      omega⟩

/-- The digest of a blob under `mixSha1`. -/
def mixBlob (bytes : Str) : Oid := mixSha1 (object_header kTypeBlob bytes.length ++ bytes)

/-- The first commit `c0` of the example, with the file `f.txt` = `base\n`: the digest and
the object store. -/
def ffCommit0 : Str × FS :=
  let s1 := (write_blob rleZlib mixSha1 (lit "/r/.gitfly") emptyFS (lit "base\n")).2
  let t0 := write_tree rleZlib mixSha1 (lit "/r/.gitfly") s1
    [⟨kModeFile, lit "f.txt", mixBlob (lit "base\n")⟩]
  write_commit rleZlib mixSha1 (lit "/r/.gitfly") t0.2 t0.1 [] (lit "A <a@b> 0 +0000")
    (lit "A <a@b> 0 +0000") (lit "c0\n")

/-- The second commit `cf` of the example, child of `c0`, with `f.txt` = `feature\n`. -/
def ffCommit1 : Str × FS :=
  let s1 := (write_blob rleZlib mixSha1 (lit "/r/.gitfly") ffCommit0.2 (lit "feature\n")).2
  let t1 := write_tree rleZlib mixSha1 (lit "/r/.gitfly") s1
    [⟨kModeFile, lit "f.txt", mixBlob (lit "feature\n")⟩]
  write_commit rleZlib mixSha1 (lit "/r/.gitfly") t1.2 t1.1 [ffCommit0.1] (lit "A <a@b> 0 +0000")
    (lit "A <a@b> 0 +0000") (lit "cf\n")

/-- The repository of the example at `/r`: `HEAD` on `master` at `c0`, the branch `feature`
at `cf`, the working file `f.txt` = `base\n`, and the file `MERGE_HEAD` given. -/
def ffFS (merge_head : Option Str) : FS := fun p =>
  if p = lit "/r/.gitfly/HEAD" then some (lit "ref: refs/heads/master\n")
  else if p = lit "/r/.gitfly/refs/heads/master" then some (ffCommit0.1 ++ [kLF])
  else if p = lit "/r/.gitfly/refs/heads/feature" then some (ffCommit1.1 ++ [kLF])
  else if p = lit "/r/.gitfly/MERGE_HEAD" then merge_head
  else if p = lit "/r/f.txt" then some (lit "base\n")
  else ffCommit1.2 p

/-- The base commit `c0` of the conflict example, with `f.txt` = `base\n` and
`g.txt` = `g\n`: the digest and the object store. -/
def cfCommit0 : Str × FS :=
  let s1 := (write_blob rleZlib mixSha1 (lit "/r/.gitfly") emptyFS (lit "base\n")).2
  let s2 := (write_blob rleZlib mixSha1 (lit "/r/.gitfly") s1 (lit "g\n")).2
  let t0 := write_tree rleZlib mixSha1 (lit "/r/.gitfly") s2
    [⟨kModeFile, lit "f.txt", mixBlob (lit "base\n")⟩, ⟨kModeFile, lit "g.txt", mixBlob (lit "g\n")⟩]
  write_commit rleZlib mixSha1 (lit "/r/.gitfly") t0.2 t0.1 [] (lit "A <a@b> 0 +0000")
    (lit "A <a@b> 0 +0000") (lit "c0\n")

/-- The commit `c1` of `master` in the conflict example, child of `c0`, with
`f.txt` = `master\n`. -/
def cfCommit1 : Str × FS :=
  let s1 := (write_blob rleZlib mixSha1 (lit "/r/.gitfly") cfCommit0.2 (lit "master\n")).2
  let t1 := write_tree rleZlib mixSha1 (lit "/r/.gitfly") s1
    [⟨kModeFile, lit "f.txt", mixBlob (lit "master\n")⟩, ⟨kModeFile, lit "g.txt", mixBlob (lit "g\n")⟩]
  write_commit rleZlib mixSha1 (lit "/r/.gitfly") t1.2 t1.1 [cfCommit0.1] (lit "A <a@b> 0 +0000")
    (lit "A <a@b> 0 +0000") (lit "c1\n")

/-- The commit `c2` of `feature` in the conflict example, child of `c0`, with
`f.txt` = `feature\n`. -/
def cfCommit2 : Str × FS :=
  let s1 := (write_blob rleZlib mixSha1 (lit "/r/.gitfly") cfCommit1.2 (lit "feature\n")).2
  let t2 := write_tree rleZlib mixSha1 (lit "/r/.gitfly") s1
    [⟨kModeFile, lit "f.txt", mixBlob (lit "feature\n")⟩, ⟨kModeFile, lit "g.txt", mixBlob (lit "g\n")⟩]
  write_commit rleZlib mixSha1 (lit "/r/.gitfly") t2.2 t2.1 [cfCommit0.1] (lit "A <a@b> 0 +0000")
    (lit "A <a@b> 0 +0000") (lit "c2\n")

/-- The repository of the conflict example at `/r`: `HEAD` on `master` at `c1`, the branch
`feature` at `c2`, the working file `f.txt` = `master\n`, and the working file `g.txt`
given (`none` when it was deleted). -/
def cfFS (g : Option Str) : FS := fun p =>
  if p = lit "/r/.gitfly/HEAD" then some (lit "ref: refs/heads/master\n")
  else if p = lit "/r/.gitfly/refs/heads/master" then some (cfCommit1.1 ++ [kLF])
  else if p = lit "/r/.gitfly/refs/heads/feature" then some (cfCommit2.1 ++ [kLF])
  else if p = lit "/r/f.txt" then some (lit "master\n")
  else if p = lit "/r/g.txt" then g
  else cfCommit2.2 p

/-- A store with one object file, under the digest `aa…a`: its inflated bytes are
`blob 5`, NUL, `abc`, so that the header declares five bytes and three follow. -/
def lengthFS : FS := fun p =>
  if p = path_for_oid (lit ".gitfly") ⟨List.replicate 20 170, rfl⟩ then
    some (rleZlib.deflate (lit "blob 5" ++ [kNul] ++ lit "abc"))
  else none

/-- The repository of the fast-forward example with `HEAD` on `feature`: the current branch
is at `cf` and `master` at its parent `c0`. -/
def upFS : FS := fun p =>
  if p = lit "/r/.gitfly/HEAD" then some (lit "ref: refs/heads/feature\n")
  else ffFS none p

/-! ## index.cpp: `remove_path`, and sequences of calls on an `Index` -/

/-- Models `Index::remove_path`: `std::erase_if(entries_, e.path == key)`. -/
def Index.remove_path (entries : List IndexEntry) (relpath : Str) : List IndexEntry :=
  entries.filter (fun e => decide (e.path ≠ relpath))

/-- A call on an `Index` object: `add_path(wd, relpath, repo, mode)`, `remove_path(relpath)`,
or `save()` followed by `load()`. -/
inductive IndexOp where
  | add (wd relpath : Str) (mode : Mode)
  | remove (relpath : Str)
  | save_load
deriving DecidableEq

/-- The file system and the entries of the `Index` object of the repository at `root` after
one call; an `add_path` that throws leaves the entries as they were. -/
def index_step (z : Zlib) (sha1 : Str → Oid) (root : Str) (st : FS × List IndexEntry) :
    IndexOp → FS × List IndexEntry
  | .add wd relpath mode =>
    match Index.add_path z sha1 (git_dir root) st.1 st.2 wd relpath mode with
    | (.ok entries, fs1) => (fs1, entries)
    | (.error _, fs1) => (fs1, st.2)
  | .remove relpath => (st.1, Index.remove_path st.2 relpath)
  | .save_load => (Index.save st.1 root st.2, Index.load (Index.save st.1 root st.2) root)

/-- A sequence of calls, from a given file system and the empty index. -/
def index_run (z : Zlib) (sha1 : Str → Oid) (root : Str) (fs : FS) (ops : List IndexOp) :
    FS × List IndexEntry :=
  ops.foldl (index_step z sha1 root) (fs, [])

/-- The path that a call adds is one that the text format of the index keeps. -/
def op_path_ok : IndexOp → Bool
  | .add _ relpath _ => index_path_ok relpath
  | _ => true

/-- A working tree at `/r` with the files `a`, `a ` (with a trailing space) and `b`. -/
def spaceFS : FS := fun p =>
  if p = lit "/r/a" then some (lit "one\n")
  else if p = lit "/r/a " then some (lit "two\n")
  else if p = lit "/r/b" then some (lit "three\n")
  else none

/-! ## repo.cpp: `checkout` -/

/-- The loop of `checkout` over the set `all` of the paths of the working snapshot and of the
index snapshot: true when some path has different digests, a missing path counting as the
empty string. -/
def checkout_dirty (working_map idx_map : PathMap) : Bool :=
  (all_keys working_map idx_map).any (fun p => decide (get working_map p ≠ get idx_map p))

/-- The part of `checkout` that follows the resolution of the target: `branch_ref` is empty
for a detached checkout. -/
def checkout_switch (z : Zlib) (sha1 : Str → Oid) (root : Str) (paths : List Str) (fuel : Nat)
    (fs : FS) (commit_hex branch_ref : Str) : Option (Except String Unit × FS) :=
  match read_commit z (git_dir root) fs commit_hex with
  | .error e => some (Except.error e, fs)
  | .ok cinfo =>
    if cinfo.tree_hex.length ≠ 40 then some (Except.error "commit missing tree", fs)
    else
      match tree_to_map (read_tree z (git_dir root) fs) fuel cinfo.tree_hex with
      | none => none
      | some (.error e) => some (Except.error e, fs)
      | some (.ok snapshot) =>
        match apply_snapshot z root paths snapshot fs with
        | (.error e, fs1) => some (Except.error e, fs1)
        | (.ok _, fs1) =>
          match write_index_snapshot z sha1 root snapshot fs1 with
          | (.error e, fs2) => some (Except.error e, fs2)
          | (.ok _, fs2) =>
            some (Except.ok (),
              if branch_ref ≠ [] then set_HEAD_symbolic fs2 root branch_ref
              else set_HEAD_detached fs2 root commit_hex)

/-- Models `Repository::checkout`: the exception thrown, if any, and the file system at that
point.  `paths` is the set that `enumerate_paths` returns for the working tree and `fuel`
bounds the depth of the tree of the target (`none` when it is not enough). -/
def checkout (z : Zlib) (sha1 : Str → Oid) (root : Str) (initialized : Bool)
    (paths : List Str) (fuel : Nat) (fs : FS) (target : Str) :
    Option (Except String Unit × FS) :=
  if !initialized then some (Except.error "not a gitfly repo (run `gitfly init`)", fs)
  else
    match build_working_map sha1 fs root paths with
    | .error e => some (Except.error e, fs)
    | .ok working_map =>
      if checkout_dirty working_map (index_to_map fs root) then
        some (Except.error "checkout aborted: unstaged changes present", fs)
      else if looks_hex40 target then
        checkout_switch z sha1 root paths fuel fs target []
      else
        match read_ref fs root (heads_ref target) with
        | none => some (Except.error ("unknown branch: " ++ to_text target), fs)
        | some tip => checkout_switch z sha1 root paths fuel fs tip (heads_ref target)

/-- The repository of the fast-forward example with the index file given: `HEAD` on
`master` at `c0`, the branch `feature` at `cf`, the working file `f.txt` = `base\n`. -/
def coFS (index : Option Str) : FS := fun p =>
  if p = lit "/r/.gitfly/index" then index
  else ffFS none p

/-- The index file of the example when `f.txt` = `base\n` is staged. -/
def coIndex : Str := index_text [⟨kModeFile, mixBlob (lit "base\n"), lit "f.txt"⟩]

/-- What a call of `build` leaves in the object store: every object file is as before or
holds a deflated tree. -/
def TreesOnly (z : Zlib) (gitdir : Str) (fs fs1 : FS) : Prop :=
  ∀ i, fs1 (path_for_oid gitdir i) = fs (path_for_oid gitdir i)
    ∨ ∃ l, fs1 (path_for_oid gitdir i)
        = some (z.deflate (object_header kTypeTree (tree_payload l).length ++ tree_payload l))

/-- The digest, in hex, that `write_tree_from_index` returns for the entries of an index. -/
def index_tree_hex (sha1 : Str → Oid) (ents : List IndexEntry) : Str :=
  to_hex (tree_oid sha1 (build_entries sha1 (build_depth ents) ents))

/-- The commit `c1` of `master` in the example of a merge without conflict, child of the
base `c0` of the conflict example (`f.txt` = `base\n`, `g.txt` = `g\n`), with
`g.txt` = `g1\n`; the branch `feature` is at the commit `c2` of the conflict example
(`f.txt` = `feature\n`). -/
def cmCommit1 : Str × FS :=
  let s1 := (write_blob rleZlib mixSha1 (lit "/r/.gitfly") cfCommit2.2 (lit "g1\n")).2
  let t1 := write_tree rleZlib mixSha1 (lit "/r/.gitfly") s1
    [⟨kModeFile, lit "f.txt", mixBlob (lit "base\n")⟩, ⟨kModeFile, lit "g.txt", mixBlob (lit "g1\n")⟩]
  write_commit rleZlib mixSha1 (lit "/r/.gitfly") t1.2 t1.1 [cfCommit0.1] (lit "A <a@b> 0 +0000")
    (lit "A <a@b> 0 +0000") (lit "c1\n")

/-- A commit `c3`, child of `c0`, whose tree has the files of `c0` and a file named `h`
followed by a space, with the content `feature\n`. -/
def cmCommit3 : Str × FS :=
  let t3 := write_tree rleZlib mixSha1 (lit "/r/.gitfly") cmCommit1.2
    [⟨kModeFile, lit "f.txt", mixBlob (lit "base\n")⟩, ⟨kModeFile, lit "g.txt", mixBlob (lit "g\n")⟩,
      ⟨kModeFile, lit "h ", mixBlob (lit "feature\n")⟩]
  write_commit rleZlib mixSha1 (lit "/r/.gitfly") t3.2 t3.1 [cfCommit0.1] (lit "A <a@b> 0 +0000")
    (lit "A <a@b> 0 +0000") (lit "c3\n")

/-- The repository of the example at `/r`: `HEAD` on `master` at `c1`, the working files
`f.txt` = `base\n` and `g.txt` = `g1\n` of `c1`, and the branch `feature` at the commit
given. -/
def cmFS (feature : Str) : FS := fun p =>
  if p = lit "/r/.gitfly/HEAD" then some (lit "ref: refs/heads/master\n")
  else if p = lit "/r/.gitfly/refs/heads/master" then some (cmCommit1.1 ++ [kLF])
  else if p = lit "/r/.gitfly/refs/heads/feature" then some (feature ++ [kLF])
  else if p = lit "/r/f.txt" then some (lit "base\n")
  else if p = lit "/r/g.txt" then some (lit "g1\n")
  else cmCommit3.2 p

/-- The post-merge map of the example: `f.txt` of theirs and `g.txt` of ours. -/
def cmMerged : PathMap :=
  [(lit "f.txt", to_hex (mixBlob (lit "feature\n"))), (lit "g.txt", to_hex (mixBlob (lit "g1\n")))]

/-- Models `struct FetchResult`. -/
structure FetchResult where
  branch : Str
  tip : Str
deriving DecidableEq

/-- The first part of `remote::fetch_head`: the branch and the tip of the `HEAD` of the
remote repository (`DETACHED` and an empty tip when there is no `HEAD`). -/
def remote_head (remote_fs : FS) (remote_root : Str) : FetchResult :=
  match read_HEAD remote_fs remote_root with
  | none => ⟨lit "DETACHED", []⟩
  | some head_txt =>
    if starts_with kRefPrefix (rstrip_newlines head_txt) then
      ⟨if starts_with (lit "refs/heads/") ((rstrip_newlines head_txt).drop kRefPrefix.length)
        then (rstrip_newlines head_txt).drop (kRefPrefix.length + (lit "refs/heads/").length)
        else (rstrip_newlines head_txt).drop kRefPrefix.length,
        match read_ref remote_fs remote_root ((rstrip_newlines head_txt).drop kRefPrefix.length) with
        | some t => t
        | none => []⟩
    else ⟨lit "DETACHED", rstrip_newlines head_txt⟩

/-- Models `remote::fetch_head(local, remote, name)`: the result, or the exception, and the
file map of the local repository afterwards.  The two repositories are two file maps;
`files` is the directory iteration over the objects of the remote one. -/
def fetch_head (local_root remote_root name : Str) (local_init remote_init : Bool)
    (files : List Str) (local_fs remote_fs : FS) : Except String FetchResult × FS :=
  if !local_init ∨ !remote_init then (.error "both repos must be initialized", local_fs)
  else
    let fres := remote_head remote_fs remote_root
    let fs1 := copy_missing_objects remote_fs (objects_dir remote_root) (objects_dir local_root)
      files local_fs
    if fres.tip ≠ [] ∧ fres.branch ≠ lit "DETACHED" then
      (.ok fres, update_ref fs1 local_root
        (lit "refs/remotes/" ++ name ++ lit "/" ++ fres.branch) fres.tip)
    else (.ok fres, fs1)

/-- Models the static function `is_ancestor` of pull.cpp, whose body is the one of
`Repository::is_commit_ancestor`. -/
def is_ancestor (z : Zlib) (gitdir : Str) (fs : FS) (fuel : Nat) (anc desc : Str) :
    Option (Except String Bool) :=
  Gitfly.is_commit_ancestor (read_commit z gitdir fs) fuel anc desc

/-- Models `Repository::heads_dir`: `git_dir / "refs" / "heads"`. -/
def heads_dir (root : Str) : Str := path_join (path_join (git_dir root) (lit "refs")) (lit "heads")

/-- The name of the temporary branch of `cmd_pull`. -/
def kPullTmp : Str := lit ".pull_merge_tmp"

/-- The part of `cmd_pull` that follows `fetch_head`, for a fetched head `fres`: the exit
code and the file map afterwards.  The fast-forward branch performs the steps of the
fast-forward branch of `merge_branch` (`read_commit`, `tree_to_map`, `apply_snapshot`,
`write_index_snapshot`, `update_ref`); an exception is caught and gives the exit code 1. -/
def pull_update (z : Zlib) (sha1 : Str → Oid) (root : Str) (initialized : Bool) (sig : Str)
    (paths : List Str) (fuel : Nat) (fs : FS) (rn : Str) (fres : FetchResult) :
    Option (Nat × FS) :=
  if fres.branch = lit "DETACHED" ∨ fres.tip = [] then some (1, fs)
  else
    match read_ref fs root rn with
    | none => some (1, fs)
    | some local_tip =>
      match is_ancestor z (git_dir root) fs fuel local_tip fres.tip with
      | none => none
      | some (.error _) => some (1, fs)
      | some (.ok true) =>
        match merge_fast_forward z sha1 root paths fuel fs rn fres.tip with
        | none => none
        | some (.error _, fs1) => some (1, fs1)
        | some (.ok _, fs1) => some (0, fs1)
      | some (.ok false) =>
        match merge_branch z sha1 root initialized sig paths fuel
            (update_ref fs root (heads_ref kPullTmp) fres.tip) kPullTmp with
        | none => none
        | some (.error _, fs2) => some (1, fs2)
        | some (.ok _, fs2) => some (0, remove_file fs2 (path_join (heads_dir root) kPullTmp))

/-- Models `cmd_pull` for a remote given as a path: the exit code, or the exception that
leaves `main`, and the file map of the local repository afterwards.  `sig` is the signature
of a merge commit, `files` the directory iteration over the objects of the remote
repository, `paths` what `enumerate_paths` returns for the working tree, and `fuel` bounds
the walks (`none` when it is not enough). -/
def cmd_pull (z : Zlib) (sha1 : Str → Oid) (root remote_root name : Str)
    (initialized remote_init : Bool) (sig : Str) (files paths : List Str) (fuel : Nat)
    (fs remote_fs : FS) : Option (Except String Nat × FS) :=
  if !initialized then some (Except.ok 1, fs)
  else
    match read_HEAD fs root with
    | none => some (Except.ok 1, fs)
    | some head_txt =>
      if !starts_with (lit "ref:") head_txt then some (Except.ok 1, fs)
      else if head_txt.length < kRefPrefix.length then
        some (Except.error "basic_string::substr", fs)
      else
        match fetch_head root remote_root name initialized remote_init files fs remote_fs with
        | (.error _, fs1) => some (Except.ok 1, fs1)
        | (.ok fres, fs1) =>
          (pull_update z sha1 root initialized sig paths fuel fs1
            (rstrip_newlines (head_txt.drop kRefPrefix.length)) fres).map
            (fun r => (Except.ok r.1, r.2))

/-! ## A pull that ends in a conflict, for the examples -/

/-- The relative path of an object file below the objects directory: `<2 hex>/<38 hex>`. -/
def object_rel (hex : Str) : Str := hex.take 2 ++ kSlash :: hex.drop 2

/-- The local repository of the example at `/r`: `HEAD` on `master` at the commit `c1` of
the conflict example, the working files of `c1`, and the objects of `c0` and `c1`. -/
def pullLocalFS : FS := fun p =>
  if p = lit "/r/.gitfly/HEAD" then some (lit "ref: refs/heads/master\n")
  else if p = lit "/r/.gitfly/refs/heads/master" then some (cfCommit1.1 ++ [kLF])
  else if p = lit "/r/f.txt" then some (lit "master\n")
  else if p = lit "/r/g.txt" then some (lit "g\n")
  else cfCommit1.2 p

/-- The remote repository of the example, a second file map: `HEAD` on `master` at the
commit `c2` of the conflict example, with the objects of `c0`, `c1` and `c2`. -/
def pullRemoteFS : FS := fun p =>
  if p = lit "/r/.gitfly/HEAD" then some (lit "ref: refs/heads/master\n")
  else if p = lit "/r/.gitfly/refs/heads/master" then some (cfCommit2.1 ++ [kLF])
  else cfCommit2.2 p

/-- The object files that `c2` adds to those of `c0` and `c1`: the blob of `feature\n`, the
tree and the commit. -/
def pullNewFiles : List Str :=
  [object_rel (to_hex (mixBlob (lit "feature\n"))),
    object_rel (to_hex (tree_oid mixSha1
      [⟨kModeFile, lit "f.txt", mixBlob (lit "feature\n")⟩,
        ⟨kModeFile, lit "g.txt", mixBlob (lit "g\n")⟩])),
    object_rel cfCommit2.1]

/-- The object files of the remote repository of the example. -/
def pullRemoteFiles : List Str :=
  [object_rel (to_hex (mixBlob (lit "base\n"))), object_rel (to_hex (mixBlob (lit "g\n"))),
    object_rel (to_hex (mixBlob (lit "master\n"))),
    object_rel (to_hex (tree_oid mixSha1
      [⟨kModeFile, lit "f.txt", mixBlob (lit "base\n")⟩,
        ⟨kModeFile, lit "g.txt", mixBlob (lit "g\n")⟩])),
    object_rel (to_hex (tree_oid mixSha1
      [⟨kModeFile, lit "f.txt", mixBlob (lit "master\n")⟩,
        ⟨kModeFile, lit "g.txt", mixBlob (lit "g\n")⟩])),
    object_rel cfCommit0.1, object_rel cfCommit1.1] ++ pullNewFiles

/-! ## The commits that the walks of the commit graph read

The loops of `is_commit_ancestor` and `lca_commit` once more, returning besides their
outcome the arguments of their calls of `read_commit`, in the order of the calls. -/

/-- The loop of `is_commit_ancestor` with the commits that it reads. -/
def ancestor_loop_reads (rc : Str → Except String CommitInfo) (ancestor_hex : Str) :
    Nat → List Str → List Str → Option (Except String Bool) × List Str
  | 0, _, _ => (none, [])
  | _ + 1, [], _ => (some (.ok false), [])
  | fuel + 1, cur :: stack, seen =>
    if cur ∈ seen then ancestor_loop_reads rc ancestor_hex fuel stack seen
    else
      match rc cur with
      | .error e => (some (.error e), [cur])
      | .ok info =>
        match push_or_hit ancestor_hex info.parents stack with
        | none => (some (.ok true), [cur])
        | some stack2 =>
          ((ancestor_loop_reads rc ancestor_hex fuel stack2 (cur :: seen)).1,
            cur :: (ancestor_loop_reads rc ancestor_hex fuel stack2 (cur :: seen)).2)

/-- The function `is_commit_ancestor` with the commits that it reads. -/
def is_commit_ancestor_reads (rc : Str → Except String CommitInfo) (fuel : Nat)
    (ancestor_hex descendant_hex : Str) : Option (Except String Bool) × List Str :=
  if ancestor_hex = descendant_hex then (some (.ok true), [])
  else ancestor_loop_reads rc ancestor_hex fuel [descendant_hex] []

/-- The first loop of `lca_commit` with the commits that it reads. -/
def collect_loop_reads (rc : Str → Except String CommitInfo) :
    Nat → List Str → List Str → Option (Except String (List Str)) × List Str
  | 0, _, _ => (none, [])
  | _ + 1, [], ancestors_a => (some (.ok ancestors_a), [])
  | fuel + 1, cur :: stack, ancestors_a =>
    if cur ∈ ancestors_a then collect_loop_reads rc fuel stack ancestors_a
    else
      match rc cur with
      | .error e => (some (.error e), [cur])
      | .ok info =>
        ((collect_loop_reads rc fuel (push_all info.parents stack) (cur :: ancestors_a)).1,
          cur :: (collect_loop_reads rc fuel (push_all info.parents stack)
            (cur :: ancestors_a)).2)

/-- The second loop of `lca_commit` with the commits that it reads. -/
def find_loop_reads (rc : Str → Except String CommitInfo) (ancestors_a : List Str) :
    Nat → List Str → List Str → Option (Except String (Option Str)) × List Str
  | 0, _, _ => (none, [])
  | _ + 1, [], _ => (some (.ok none), [])
  | fuel + 1, cur :: stack_b, seen_b =>
    if cur ∈ seen_b then find_loop_reads rc ancestors_a fuel stack_b seen_b
    else if cur ∈ ancestors_a then (some (.ok (some cur)), [])
    else
      match rc cur with
      | .error e => (some (.error e), [cur])
      | .ok info =>
        ((find_loop_reads rc ancestors_a fuel (push_all info.parents stack_b)
            (cur :: seen_b)).1,
          cur :: (find_loop_reads rc ancestors_a fuel (push_all info.parents stack_b)
            (cur :: seen_b)).2)

/-- The function `lca_commit` with the commits that it reads, those of the first loop
before those of the second. -/
def lca_commit_reads (rc : Str → Except String CommitInfo) (fuel : Nat) (a b : Str) :
    Option (Except String (Option Str)) × List Str :=
  match collect_loop_reads rc fuel [a] [] with
  | (none, reads) => (none, reads)
  | (some (.error e), reads) => (some (.error e), reads)
  | (some (.ok ancestors_a), reads) =>
    ((find_loop_reads rc ancestors_a fuel [b] []).1,
      reads ++ (find_loop_reads rc ancestors_a fuel [b] []).2)

/-! ## The names of the entries of the trees that `write_tree_from_index` writes -/

/-- The names of the vector `tree_entries` that `build` passes to `write_tree` are pairwise
distinct, for a group and for the groups of its directories at every depth; the first
argument is the depth bound of `build`. -/
def tree_names_distinct (sha1 : Str → Oid) : Nat → List IndexEntry → Bool
  | 0, _ => true
  | fuel + 1, group =>
    decide ((build_entries sha1 (fuel + 1) group).map TreeEntry.name).Nodup
      && (subdirs_of group []).all (fun dc => tree_names_distinct sha1 fuel dc.2)

/-- The entries hold no path that ends with `/`, and no path `p` together with a path
that starts with `p/`. -/
def no_path_below_file (ents : List IndexEntry) : Bool :=
  ents.all (fun e => decide (e.path.getLast? ≠ some kSlash))
    && ents.all (fun e1 => ents.all (fun e2 => !(e1.path ++ [kSlash]).isPrefixOf e2.path))

/-- A working tree at `/r` with the file `a`, in an initialised repository. -/
def clashFS0 : FS := fun p =>
  if p = lit "/r/a" then some (lit "one\n")
  else none

/-- The file system of `clashFS0` after `add_path("a")` and `save()`, once the file `a` has
been replaced by a directory `a` with the file `b`. -/
def clashFS1 : FS := fun p =>
  if p = lit "/r/a" then none
  else if p = lit "/r/a/b" then some (lit "two\n")
  else (index_run rleZlib mixSha1 (lit "/r") clashFS0
    [.add (lit "/r") (lit "a") kModeFile, .save_load]).1 p

/-- The state of the index after `load()`, `add_path("a/b")` and `save()` in `clashFS1`. -/
def clashState : FS × List IndexEntry :=
  [IndexOp.add (lit "/r") (lit "a/b") kModeFile, IndexOp.save_load].foldl
    (index_step rleZlib mixSha1 (lit "/r")) (clashFS1, Index.load clashFS1 (lit "/r"))

/-! ## The object stream of the network protocol: the sender, and the receiver of
tcp_remote.cpp -/

/-- Models `send_all_objects(fd, objects_dir)`, of serve.cpp and of tcp_remote.cpp alike:
the bytes sent when every file is read, the line `NOBJ <n>` first.  `files` is what the
directory iteration returns, as paths relative to `objects_dir`. -/
def send_all_objects (fs : FS) (objects_dir : Str) (files : List Str) : Except String Str :=
  match send_objects_text fs objects_dir files with
  | .error e => .error e
  | .ok text => .ok (lit "NOBJ " ++ to_string files.length ++ [kLF] ++ text)

/-- Models `recv_line(fd)` of tcp_remote.cpp: the bytes up to the next `\n` and what
follows it; the end of the stream makes `recv` fail. -/
def recv_line : Str → Except String (Str × Str)
  | [] => .error "recv"
  | c :: rest =>
    if c = kLF then .ok ([], rest)
    else
      match recv_line rest with
      | .error e => .error e
      | .ok (l, r) => .ok (c :: l, r)

/-- The loop `for (size_t i = 0; i < n; ++i)` of `recv_objects_into` of tcp_remote.cpp: what
is left of the stream, or the exception thrown, and the file map at that point. -/
def tcp_remote.recv_objects_loop (objects_dir : Str) : Nat → Str → FS → Except String Str × FS
  | 0, input, fs => (.ok input, fs)
  | n + 1, input, fs =>
    match recv_line input with
    | .error e => (.error e, fs)
    | .ok (oline, rest) =>
      if !starts_with (lit "OBJ ") oline then (.error "expected OBJ <hex> <size>", fs)
      else if (read_token (oline.drop 4)).1.length < 3 then
        (.error "malformed object hex in OBJ header", fs)
      else if 9223372036854775807 < read_size (read_token (oline.drop 4)).2 then
        (.error "cannot create std::vector larger than max_size()", fs)
      else if rest.length < read_size (read_token (oline.drop 4)).2 then
        (.error "recv", fs)
      else
        tcp_remote.recv_objects_loop objects_dir n
          (rest.drop (read_size (read_token (oline.drop 4)).2))
          (write_file_atomic fs
            (path_join (path_join objects_dir ((read_token (oline.drop 4)).1.take 2))
              ((read_token (oline.drop 4)).1.drop 2))
            (rest.take (read_size (read_token (oline.drop 4)).2)))

/-- Models `recv_objects_into(fd, objects_dir)` of tcp_remote.cpp: what is left of the
stream, or the exception thrown, and the file map at that point. -/
def tcp_remote.recv_objects_into (objects_dir : Str) (input : Str) (fs : FS) :
    Except String Str × FS :=
  match recv_line input with
  | .error e => (.error e, fs)
  | .ok (nline, rest) =>
    if !starts_with (lit "NOBJ ") nline then (.error "expected NOBJ <n>", fs)
    else
      match stoull (nline.drop kRefPrefix.length) with
      | .error e => (.error e, fs)
      | .ok n =>
        match tcp_remote.recv_objects_loop objects_dir n rest fs with
        | (.error e, fs1) => (.error e, fs1)
        | (.ok rest1, fs1) =>
          match recv_line rest1 with
          | .error e => (.error e, fs1)
          | .ok (done, rest2) =>
            if done ≠ lit "DONE" then (.error "expected DONE after objects", fs1)
            else (.ok rest2, fs1)

/-- An objects directory at `/s/.gitfly/objects` with two object files: one of five bytes
with two `\n`, and an empty one. -/
def streamFS : FS := fun p =>
  if p = path_join (lit "/s/.gitfly/objects") (object_rel (to_hex (mixBlob (lit "x")))) then
    some [10, 79, 66, 74, 10]
  else if p = path_join (lit "/s/.gitfly/objects") (object_rel (to_hex (mixBlob (lit "y"))))
    then some []
  else none

/-! ## Directories of the working tree

The file map has no directories: a directory is there where a file lies below it.  A write
to a path therefore agrees with the code when the path can be written in the sense below;
the theorems about `apply_snapshot` and the loop of `merge_branch`, which write files of the
working tree, state it as a hypothesis. -/

/-- A working tree at `/r` with the files `a/b`, `a/c` and `d`. -/
def shapeFS : FS := fun p =>
  if p = lit "/r/a/b" then some (lit "one\n")
  else if p = lit "/r/a/c" then some (lit "two\n")
  else if p = lit "/r/d" then some (lit "three\n")
  else none

/-! Theorems -/

/-! ## The run-length codec -/

theorem rle_enc_cons (b : Byte) (rest : Str) :
    (∃ n tail, rle_enc rest = n :: b :: tail ∧ n.val < 255
        ∧ rle_enc (b :: rest) = Fin.ofNat (n.val + 1) :: b :: tail)
    ∨ (rle_enc (b :: rest) = 1 :: b :: rle_enc rest
        ∧ ∀ n tail, rle_enc rest = n :: b :: tail → 255 ≤ n.val) := by
  simp only [rle_enc]
  split
  · rename_i n c tail heq
    split
    · rename_i hc
      left
      exact ⟨n, tail, by rw [← hc.1]; exact heq, hc.2, by rw [hc.1]⟩
    · rename_i hc
      right
      refine ⟨by rw [heq], ?_⟩
      intro n2 tail2 h2
      rw [heq] at h2
      simp only [List.cons.injEq] at h2
      obtain ⟨h3, h4, _⟩ := h2
      subst h3 h4
      by_contra hlt
      exact hc ⟨rfl, by omega⟩
  · rename_i hne
    right
    refine ⟨rfl, ?_⟩
    intro n2 tail2 h2
    exact absurd h2 (hne n2 b tail2)

theorem rle_enc_cons_le (b : Byte) (rest : Str) :
    (rle_enc (b :: rest)).length ≤ (rle_enc rest).length + 2 := by
  rcases rle_enc_cons b rest with ⟨n, tail, h1, _, h2⟩ | ⟨h, _⟩
  · rw [h1, h2]; simp
  · rw [h]; simp

theorem rle_enc_append_le (p s : Str) :
    (rle_enc (p ++ s)).length ≤ 2 * p.length + (rle_enc s).length := by
  induction p with
  | nil => simp
  | cons b rest ih =>
    have := rle_enc_cons_le b (rest ++ s)
    simp only [List.cons_append, List.length_cons]
    omega

theorem rle_enc_replicate_le (n : Nat) (c : Byte) (s : Str) :
    ∃ (m : Byte) (tail : Str), rle_enc (List.replicate (n + 1) c ++ s) = m :: c :: tail
      ∧ 255 * (tail.length + 2) + 2 * m.val ≤ 255 * (rle_enc s).length + 2 * (n + 1) + 510 := by
  induction n with
  | zero =>
    simp only [List.replicate_succ, List.replicate_zero, List.cons_append, List.nil_append]
    rcases rle_enc_cons c s with ⟨k, tail, h1, hk, h2⟩ | ⟨h, _⟩
    · refine ⟨_, tail, h2, ?_⟩
      rw [h1]
      have : (Fin.ofNat (k.val + 1) : Fin 256).val = k.val + 1 := by simp [Fin.ofNat]; omega
      simp only [this, List.length_cons]
      omega
    · refine ⟨1, rle_enc s, h, ?_⟩
      simp only [Fin.val_one]
      omega
  | succ n ih =>
    obtain ⟨m, tail, he, hle⟩ := ih
    have hcons : List.replicate (n + 1 + 1) c ++ s = c :: (List.replicate (n + 1) c ++ s) := by
      simp [List.replicate_succ]
    rw [hcons]
    rcases rle_enc_cons c (List.replicate (n + 1) c ++ s) with ⟨k, tail2, h1, hk, h2⟩ | ⟨h, hfull⟩
    · rw [he] at h1
      simp only [List.cons.injEq, true_and] at h1
      obtain ⟨hm, ht⟩ := h1
      subst hm ht
      refine ⟨_, tail, h2, ?_⟩
      have : (Fin.ofNat (m.val + 1) : Fin 256).val = m.val + 1 := by simp [Fin.ofNat]; omega
      simp only [this]
      omega
    · rw [he] at h
      refine ⟨1, m :: c :: tail, h, ?_⟩
      have hm := hfull m tail he
      simp only [List.length_cons, Fin.val_one]
      omega

theorem rle_enc_replicate_append (n : Nat) (hn : 0 < n) (c : Byte) (s : Str) :
    255 * (rle_enc (List.replicate n c ++ s)).length ≤ 255 * (rle_enc s).length + 2 * n + 510 := by
  obtain ⟨k, rfl⟩ : ∃ k, n = k + 1 := ⟨n - 1, by omega⟩
  obtain ⟨m, tail, h1, h2⟩ := rle_enc_replicate_le k c s
  rw [h1]
  simp only [List.length_cons]
  omega

theorem rle_enc_replicate (n : Nat) (hn : 0 < n) (c : Byte) :
    255 * (rle_enc (List.replicate n c)).length ≤ 2 * n + 510 := by
  have h := rle_enc_replicate_append n hn c []
  rw [List.append_nil] at h
  have h5 : (rle_enc []).length = 0 := rfl
  omega

theorem rle_compresses_run (p : Str) (hp : p = List.replicate 10000 97) :
    32 * max ((rleZlib.deflate (object_header kTypeBlob p.length ++ p)).length * 3) 64
      < (object_header kTypeBlob p.length ++ p).length := by
  have hlen : p.length = 10000 := by rw [hp, List.length_replicate]
  have h1 := rle_enc_append_le (object_header kTypeBlob 10000) p
  have h2 := rle_enc_replicate 10000 (by norm_num) 97
  rw [← hp] at h2
  have h3 : (object_header kTypeBlob 10000).length = 11 := by decide
  have h4 : rleZlib.deflate = rle_enc := rfl
  rw [hlen, h4, List.length_append, h3, hlen]
  rw [h3] at h1
  omega

/-! ## Hex conversion -/

theorem nibble_kHex (n : Nat) (h : n < 16) : nibble (kHex n) = some n := by
  interval_cases n <;> rfl

theorem byte_of_nibbles (b : Byte) : (Fin.ofNat ((b.val / 16) % 16 * 16 + b.val % 16) : Fin 256) = b := by
  apply Fin.ext
  have hb := b.isLt
  simp only [Fin.ofNat, Fin.val_mk]
  omega

theorem from_hex_pairs_hex_of_bytes (bytes : List Byte) :
    from_hex_pairs (hex_of_bytes bytes) = some bytes := by
  induction bytes with
  | nil => rfl
  | cons b rest ih =>
    simp only [hex_of_bytes, from_hex_pairs]
    rw [nibble_kHex _ (Nat.mod_lt _ (by norm_num)), nibble_kHex _ (Nat.mod_lt _ (by norm_num))]
    simp only [ih, byte_of_nibbles]

theorem hex_of_bytes_length (l : List Byte) : (hex_of_bytes l).length = 2 * l.length := by
  induction l with
  | nil => rfl
  | cons b rest ih => simp only [hex_of_bytes, List.length_cons, ih]; omega

theorem to_hex_length (id : Oid) : (to_hex id).length = 40 := by
  simp only [to_hex, hex_of_bytes_length, id.len]

theorem from_hex_to_hex (id : Oid) : from_hex (to_hex id) = some id := by
  unfold from_hex
  simp only [to_hex_length, ne_eq, not_true_eq_false, if_false]
  simp only [to_hex, from_hex_pairs_hex_of_bytes, id.len, dite_true]

/-! ## The decompression loop -/

theorem uncompress_deflate (z : Zlib) (cap : Nat) (s : Str) :
    uncompress z cap (z.deflate s) = if s.length ≤ cap then ZRc.Z_OK s else ZRc.Z_BUF_ERROR := by
  simp only [uncompress, z.inflate_deflate]

theorem z_decompress_overflow (z : Zlib) (s : Str)
    (hbig : 32 * max ((z.deflate s).length * 3) 64 < s.length) :
    z_decompress z (z.deflate s) = .error "zlib uncompress overflow" := by
  unfold z_decompress
  generalize max ((z.deflate s).length * 3) 64 = cap at hbig
  have h0 : ¬ s.length ≤ cap := by omega
  have h1 : ¬ s.length ≤ cap * 2 := by omega
  have h2 : ¬ s.length ≤ cap * 2 * 2 := by omega
  have h3 : ¬ s.length ≤ cap * 2 * 2 * 2 := by omega
  have h4 : ¬ s.length ≤ cap * 2 * 2 * 2 * 2 := by omega
  have h5 : ¬ s.length ≤ cap * 2 * 2 * 2 * 2 * 2 := by omega
  simp only [z_decompress_loop, uncompress_deflate, h0, h1, h2, h3, h4, h5, if_false]

theorem z_decompress_deflate (z : Zlib) (s : Str)
    (hfit : s.length ≤ 32 * max ((z.deflate s).length * 3) 64) :
    z_decompress z (z.deflate s) = .ok s := by
  unfold z_decompress
  generalize max ((z.deflate s).length * 3) 64 = cap at hfit
  simp only [z_decompress_loop, uncompress_deflate]
  by_cases h0 : s.length ≤ cap
  · simp only [h0, if_true]
  by_cases h1 : s.length ≤ cap * 2
  · simp only [h0, h1, if_true, if_false]
  by_cases h2 : s.length ≤ cap * 2 * 2
  · simp only [h0, h1, h2, if_true, if_false]
  by_cases h3 : s.length ≤ cap * 2 * 2 * 2
  · simp only [h0, h1, h2, h3, if_true, if_false]
  by_cases h4 : s.length ≤ cap * 2 * 2 * 2 * 2
  · simp only [h0, h1, h2, h3, h4, if_true, if_false]
  have h5 : s.length ≤ cap * 2 * 2 * 2 * 2 * 2 := by omega
  simp only [h0, h1, h2, h3, h4, h5, if_true, if_false]

/-! ## The object store -/

theorem write_fst (z : Zlib) (sha1 : Str → Oid) (gitdir : Str) (fs : FS) (type payload : Str) :
    (ObjectStore.write z sha1 gitdir fs type payload).1
      = to_hex (sha1 (object_header type payload.length ++ payload)) := by
  unfold ObjectStore.write
  simp only
  split <;> rfl

theorem write_fresh_file (z : Zlib) (sha1 : Str → Oid) (gitdir : Str) (fs : FS) (type payload : Str)
    (hfresh : fs (path_for_oid gitdir (sha1 (object_header type payload.length ++ payload))) = none) :
    (ObjectStore.write z sha1 gitdir fs type payload).2
        (path_for_oid gitdir (sha1 (object_header type payload.length ++ payload)))
      = some (z.deflate (object_header type payload.length ++ payload)) := by
  unfold ObjectStore.write
  simp only [hfresh, Option.isSome_none, Bool.false_eq_true, if_false, write_file_atomic,
    if_true, z_compress]

theorem digitChar_ne_nul (k : Nat) (hk : k < 10) :
    (Fin.ofNat (Nat.digitChar k).toNat : Fin 256) ≠ kNul := by
  interval_cases k <;> decide

theorem toDigitsCore_no_nul (fuel n : Nat) (ds : List Char)
    (hds : ∀ c ∈ ds, (Fin.ofNat c.toNat : Fin 256) ≠ kNul) :
    ∀ c ∈ Nat.toDigitsCore 10 fuel n ds, (Fin.ofNat c.toNat : Fin 256) ≠ kNul := by
  induction fuel generalizing n ds with
  | zero => simpa [Nat.toDigitsCore] using hds
  | succ fuel ih =>
    have hd : ∀ c ∈ Nat.digitChar (n % 10) :: ds, (Fin.ofNat c.toNat : Fin 256) ≠ kNul := by
      intro c hc
      rcases List.mem_cons.mp hc with rfl | hc
      · exact digitChar_ne_nul _ (Nat.mod_lt _ (by norm_num))
      · exact hds c hc
    simp only [Nat.toDigitsCore]
    split
    · exact hd
    · exact ih _ _ hd

theorem to_string_no_nul (n : Nat) : kNul ∉ to_string n := by
  unfold to_string Nat.toDigits
  intro h
  obtain ⟨c, hc, he⟩ := List.mem_map.mp h
  exact toDigitsCore_no_nul _ _ [] (fun c hc => absurd hc (List.not_mem_nil c)) c hc he

theorem indexOf_append_cons (l r : Str) (x : Byte) (h : x ∉ l) :
    (l ++ x :: r).indexOf x = l.length := by
  induction l with
  | nil => simp
  | cons y ys ih =>
    have hxy : ¬ y = x := fun e => h (by rw [e]; exact List.mem_cons_self _ _)
    have hys : x ∉ ys := fun e => h (List.mem_cons_of_mem _ e)
    rw [List.cons_append, List.indexOf_cons_ne _ hxy, ih hys]
    rfl

theorem drop_append_cons (l r : Str) (x : Byte) : (l ++ x :: r).drop (l.length + 1) = r := by
  induction l with
  | nil => simp
  | cons y ys ih => simp

/-- Round trip when the buffer growth of `z_decompress` is enough: for a kind without a
space, an object file that does not exist yet and a framed object of at most
32 * max(3 * compressed size, 64) bytes, reading back the written digest returns the kind
and the payload. -/
theorem read_after_write_fits (z : Zlib) (sha1 : Str → Oid) (gitdir : Str) (fs : FS)
    (type payload : Str) (htype : kSpace ∉ type)
    (hfresh : fs (path_for_oid gitdir (sha1 (object_header type payload.length ++ payload))) = none)
    (hfit : (object_header type payload.length ++ payload).length
      ≤ 32 * max ((z.deflate (object_header type payload.length ++ payload)).length * 3) 64) :
    ObjectStore.read z gitdir (ObjectStore.write z sha1 gitdir fs type payload).2
        (ObjectStore.write z sha1 gitdir fs type payload).1
      = .ok ⟨type, payload⟩ := by
  rw [write_fst]
  unfold ObjectStore.read
  simp only [from_hex_to_hex, read_file, write_fresh_file z sha1 gitdir fs type payload hfresh,
    z_decompress_deflate z _ hfit]
  have hstore : object_header type payload.length ++ payload
      = type ++ kSpace :: (to_string payload.length ++ kNul :: payload) := by
    simp [object_header]
  have hsp : (object_header type payload.length ++ payload).indexOf kSpace = type.length := by
    rw [hstore]
    exact indexOf_append_cons _ _ _ htype
  have hdrop : (object_header type payload.length ++ payload).drop (type.length + 1)
      = to_string payload.length ++ kNul :: payload := by
    rw [hstore]
    simp
  have hnul : (to_string payload.length ++ kNul :: payload).indexOf kNul
      = (to_string payload.length).length :=
    indexOf_append_cons _ _ _ (to_string_no_nul _)
  have hlen : (object_header type payload.length ++ payload).length
      = type.length + 1 + (to_string payload.length).length + 1 + payload.length := by
    rw [hstore]
    simp only [List.length_append, List.length_cons]
    omega
  simp only [hsp, hdrop, hnul]
  have hc : ¬ (type.length = (object_header type payload.length ++ payload).length
      ∨ (object_header type payload.length ++ payload).length
          ≤ type.length + 1 + (to_string payload.length).length) := by
    rw [hlen]
    omega
  rw [if_neg hc]
  have e1 : (object_header type payload.length ++ payload).take type.length = type := by
    rw [hstore]
    simp
  have e2 : (object_header type payload.length ++ payload).drop
      (type.length + 1 + (to_string payload.length).length + 1) = payload := by
    have h := drop_append_cons (to_string payload.length) payload kNul
    rw [← hdrop, List.drop_drop] at h
    have h1 : type.length + 1 + (to_string payload.length).length + 1
        = type.length + 1 + ((to_string payload.length).length + 1) := by omega
    rw [h1]
    exact h
  rw [e1, e2]

/-- C1 (failing case): when the object file does not exist yet and the framed object is
more than 32 * max(3 * compressed size, 64) bytes long, reading back the digest returned by
`ObjectStore::write` throws "zlib uncompress overflow" instead of returning the kind and
the payload: the six buffer sizes tried by `z_decompress` are all too small. -/
theorem read_after_write_overflow (z : Zlib) (sha1 : Str → Oid) (gitdir : Str) (fs : FS)
    (type payload : Str)
    (hfresh : fs (path_for_oid gitdir (sha1 (object_header type payload.length ++ payload))) = none)
    (hbig : 32 * max ((z.deflate (object_header type payload.length ++ payload)).length * 3) 64
      < (object_header type payload.length ++ payload).length) :
    ObjectStore.read z gitdir (ObjectStore.write z sha1 gitdir fs type payload).2
        (ObjectStore.write z sha1 gitdir fs type payload).1
      = .error "zlib uncompress overflow" := by
  rw [write_fst]
  unfold ObjectStore.read
  simp only [from_hex_to_hex, read_file, write_fresh_file z sha1 gitdir fs type payload hfresh,
    z_decompress_overflow z _ hbig]

/-- C1, at a concrete input: with the run-length codec in place of zlib and an empty store,
writing a blob of 10000 bytes `a` and reading it back throws. -/
theorem read_after_write_overflow_witness :
    ObjectStore.read rleZlib (lit ".gitfly")
        (ObjectStore.write rleZlib zeroSha1 (lit ".gitfly") emptyFS kTypeBlob
          (List.replicate 10000 97)).2
        (ObjectStore.write rleZlib zeroSha1 (lit ".gitfly") emptyFS kTypeBlob
          (List.replicate 10000 97)).1
      = .error "zlib uncompress overflow" :=
  read_after_write_overflow rleZlib zeroSha1 (lit ".gitfly") emptyFS kTypeBlob
    (List.replicate 10000 97) rfl (rle_compresses_run (List.replicate 10000 97) rfl)

/-- C2: the digest returned by `ObjectStore::write` is the hex form of the SHA-1 of
`kind ++ ' ' ++ decimal(|p|) ++ NUL ++ p`, whatever the state of the store, and
`compute_blob_hex_oid` returns the digest that `ObjectStore::write` returns for a blob. -/
theorem write_digest (z : Zlib) (sha1 : Str → Oid) (gitdir : Str) (fs : FS) (kind p : Str) :
    (ObjectStore.write z sha1 gitdir fs kind p).1
        = to_hex (sha1 (kind ++ [kSpace] ++ to_string p.length ++ [kNul] ++ p))
    ∧ (∀ (z2 : Zlib) (gitdir2 : Str) (fs2 : FS),
        (ObjectStore.write z2 sha1 gitdir2 fs2 kind p).1
          = (ObjectStore.write z sha1 gitdir fs kind p).1)
    ∧ compute_blob_hex_oid sha1 p = (ObjectStore.write z sha1 gitdir fs kTypeBlob p).1 := by
  refine ⟨?_, ?_, ?_⟩
  · rw [write_fst]; rfl
  · intro z2 gitdir2 fs2
    rw [write_fst, write_fst]
  · rw [write_fst]; rfl

/-- C3: after a first `ObjectStore::write` the object file exists, so a second write of
the same kind and payload does not enter the branch that compresses and writes: it returns
the same digest and leaves the file system exactly as the first write left it. -/
theorem write_twice (z : Zlib) (sha1 : Str → Oid) (gitdir : Str) (fs : FS) (kind p : Str) :
    ((ObjectStore.write z sha1 gitdir fs kind p).2
        (path_for_oid gitdir (sha1 (object_header kind p.length ++ p)))).isSome = true
    ∧ ObjectStore.write z sha1 gitdir (ObjectStore.write z sha1 gitdir fs kind p).2 kind p
      = ObjectStore.write z sha1 gitdir fs kind p := by
  unfold ObjectStore.write
  simp only
  split
  · rename_i h
    simp only [h, if_true, and_self]
  · simp only [write_file_atomic, if_true, Option.isSome_some, and_self]

/-! ## The commit graph -/

theorem mem_push_all (ps stack : List Str) (c : Str) :
    c ∈ push_all ps stack ↔ c ∈ ps ∨ c ∈ stack := by
  unfold push_all
  induction ps generalizing stack with
  | nil => simp
  | cons p ps ih =>
    simp only [List.foldl_cons, ih, List.mem_cons]
    tauto

theorem push_or_hit_eq (anc : Str) (ps stack : List Str) :
    push_or_hit anc ps stack = if anc ∈ ps then none else some (push_all ps stack) := by
  induction ps generalizing stack with
  | nil => simp [push_or_hit, push_all]
  | cons p ps ih =>
    simp only [push_or_hit, ih, List.mem_cons]
    by_cases h : p = anc
    · simp [h]
    · have h2 : ¬ anc = p := fun e => h e.symm
      simp only [h, h2, if_false, false_or]
      rfl

theorem ancestor_loop_eq_walk (rc : Str → Except String CommitInfo) (anc : Str) (fuel : Nat)
    (stack seen : List Str) :
    ancestor_loop rc anc fuel stack seen
      = (walk rc (fun _ => false) (fun i => decide (anc ∈ i.parents)) fuel stack seen).map
          (Except.map WalkOut.toBool) := by
  induction fuel generalizing stack seen with
  | zero => rfl
  | succ fuel ih =>
    cases stack with
    | nil => rfl
    | cons cur stack =>
      simp only [ancestor_loop, walk, ih, push_or_hit_eq]
      by_cases h : cur ∈ seen
      · simp only [h, if_true]
      · simp only [h, if_false, Bool.false_eq_true]
        cases hrc : rc cur with
        | error e => rfl
        | ok info =>
          simp only
          by_cases h2 : anc ∈ info.parents
          · simp only [h2, if_true, decide_True]; rfl
          · simp only [h2, if_false, decide_False, Bool.false_eq_true]

theorem collect_loop_eq_walk (rc : Str → Except String CommitInfo) (fuel : Nat)
    (stack seen : List Str) :
    collect_loop rc fuel stack seen
      = (walk rc (fun _ => false) (fun _ => false) fuel stack seen).map
          (Except.map WalkOut.toSeen) := by
  induction fuel generalizing stack seen with
  | zero => rfl
  | succ fuel ih =>
    cases stack with
    | nil => rfl
    | cons cur stack =>
      simp only [collect_loop, walk, ih]
      by_cases h : cur ∈ seen
      · simp only [h, if_true]
      · simp only [h, if_false, Bool.false_eq_true]
        cases hrc : rc cur with
        | error e => rfl
        | ok info => rfl

theorem find_loop_eq_walk (rc : Str → Except String CommitInfo) (A : List Str) (fuel : Nat)
    (stack seen : List Str) :
    find_loop rc A fuel stack seen
      = (walk rc (fun c => decide (c ∈ A)) (fun _ => false) fuel stack seen).map
          (Except.map WalkOut.toFound) := by
  induction fuel generalizing stack seen with
  | zero => rfl
  | succ fuel ih =>
    cases stack with
    | nil => rfl
    | cons cur stack =>
      simp only [find_loop, walk, ih]
      by_cases h : cur ∈ seen
      · simp only [h, if_true]
      · simp only [h, if_false, Bool.false_eq_true]
        by_cases h2 : cur ∈ A
        · simp only [h2, if_true, decide_True]; rfl
        · simp only [h2, if_false, decide_False, Bool.false_eq_true]
          cases hrc : rc cur with
          | error e => rfl
          | ok info => rfl

theorem walk_mono (rc : Str → Except String CommitInfo) (pre : Str → Bool)
    (hitp : CommitInfo → Bool) (fuel : Nat) (stack seen : List Str) (r : Except String WalkOut)
    (h : walk rc pre hitp fuel stack seen = some r) (fuel2 : Nat) (hle : fuel ≤ fuel2) :
    walk rc pre hitp fuel2 stack seen = some r := by
  induction fuel generalizing stack seen fuel2 with
  | zero => simp [walk] at h
  | succ fuel ih =>
    obtain ⟨k, rfl⟩ : ∃ k, fuel2 = k + 1 := ⟨fuel2 - 1, by omega⟩
    have hk : fuel ≤ k := by omega
    cases stack with
    | nil => simpa [walk] using h
    | cons cur stack =>
      simp only [walk] at h ⊢
      by_cases h1 : cur ∈ seen
      · simp only [h1, if_true] at h ⊢
        exact ih _ _ h _ hk
      · simp only [h1, if_false] at h ⊢
        by_cases h2 : pre cur = true
        · simp only [h2, if_true] at h ⊢
          exact h
        · simp only [h2, if_false, Bool.false_eq_true] at h ⊢
          cases hrc : rc cur with
          | error e => simp only [hrc] at h ⊢; exact h
          | ok info =>
            simp only [hrc] at h ⊢
            by_cases h3 : hitp info = true
            · simp only [h3, if_true] at h ⊢
              exact h
            · simp only [h3, if_false, Bool.false_eq_true] at h ⊢
              exact ih _ _ h _ hk

theorem walk_post (rc : Str → Except String CommitInfo) (pre : Str → Bool)
    (hitp : CommitInfo → Bool) (fuel : Nat) (stack seen : List Str) (out : WalkOut)
    (h : walk rc pre hitp fuel stack seen = some (.ok out)) :
    WalkPost rc pre hitp stack seen out := by
  induction fuel generalizing stack seen with
  | zero => simp [walk] at h
  | succ fuel ih =>
    cases stack with
    | nil =>
      simp only [walk, Option.some.injEq, Except.ok.injEq] at h
      subst h
      exact ⟨fun c hc => hc, fun c hc => absurd hc (List.not_mem_nil c), fun c hc => Or.inl hc,
        fun c hc hn => absurd hc hn⟩
    | cons cur stack =>
      simp only [walk] at h
      by_cases h1 : cur ∈ seen
      · simp only [h1, if_true] at h
        have hp := ih _ _ h
        cases out with
        | found c =>
          obtain ⟨a, b, s, hs, hr⟩ := hp
          exact ⟨a, b, s, List.mem_cons_of_mem _ hs, hr⟩
        | hit =>
          obtain ⟨c, info, ⟨s, hs, hr⟩, b⟩ := hp
          exact ⟨c, info, ⟨s, List.mem_cons_of_mem _ hs, hr⟩, b⟩
        | done seen1 =>
          obtain ⟨a, b, c, d⟩ := hp
          refine ⟨a, ?_, ?_, d⟩
          · intro x hx
            rcases List.mem_cons.mp hx with rfl | hx
            · exact a _ h1
            · exact b _ hx
          · intro x hx
            rcases c x hx with hc | ⟨s, hs, hr⟩
            · exact Or.inl hc
            · exact Or.inr ⟨s, List.mem_cons_of_mem _ hs, hr⟩
      · simp only [h1, if_false] at h
        by_cases h2 : pre cur = true
        · simp only [h2, if_true, Option.some.injEq, Except.ok.injEq] at h
          subst h
          exact ⟨h2, h1, cur, List.mem_cons_self _ _, Relation.ReflTransGen.refl⟩
        · simp only [h2, if_false, Bool.false_eq_true] at h
          cases hrc : rc cur with
          | error e => simp [hrc] at h
          | ok info =>
            simp only [hrc] at h
            by_cases h3 : hitp info = true
            · simp only [h3, if_true, Option.some.injEq, Except.ok.injEq] at h
              subst h
              exact ⟨cur, info, ⟨cur, List.mem_cons_self _ _, Relation.ReflTransGen.refl⟩, hrc, h3⟩
            · simp only [h3, if_false, Bool.false_eq_true] at h
              have hp := ih _ _ h
              have hstep : ∀ s ∈ push_all info.parents stack, ∀ c, Reach rc s c →
                  ∃ s2 ∈ cur :: stack, Reach rc s2 c := by
                intro s hs c hr
                rcases (mem_push_all _ _ _).mp hs with hs | hs
                · exact ⟨cur, List.mem_cons_self _ _,
                    Relation.ReflTransGen.head ⟨info, hrc, hs⟩ hr⟩
                · exact ⟨s, List.mem_cons_of_mem _ hs, hr⟩
              cases out with
              | found c =>
                obtain ⟨a, b, s, hs, hr⟩ := hp
                exact ⟨a, fun hc => b (List.mem_cons_of_mem _ hc), hstep s hs c hr⟩
              | hit =>
                obtain ⟨c, info2, ⟨s, hs, hr⟩, b⟩ := hp
                exact ⟨c, info2, hstep s hs c hr, b⟩
              | done seen1 =>
                obtain ⟨a, b, c, d⟩ := hp
                have hcur : cur ∈ seen1 := a _ (List.mem_cons_self _ _)
                refine ⟨fun x hx => a _ (List.mem_cons_of_mem _ hx), ?_, ?_, ?_⟩
                · intro x hx
                  rcases List.mem_cons.mp hx with rfl | hx
                  · exact hcur
                  · exact b _ ((mem_push_all _ _ _).mpr (Or.inr hx))
                · intro x hx
                  rcases c x hx with hc | ⟨s, hs, hr⟩
                  · rcases List.mem_cons.mp hc with rfl | hc
                    · exact Or.inr ⟨x, List.mem_cons_self _ _, Relation.ReflTransGen.refl⟩
                    · exact Or.inl hc
                  · exact Or.inr (hstep s hs x hr)
                · intro x hx hns
                  by_cases hxc : x = cur
                  · subst hxc
                    refine ⟨by simpa using h2, ?_⟩
                    intro info2 hinfo2
                    rw [hrc] at hinfo2
                    simp only [Except.ok.injEq] at hinfo2
                    subst hinfo2
                    refine ⟨by simpa using h3, ?_⟩
                    intro q hq
                    exact b _ ((mem_push_all _ _ _).mpr (Or.inl hq))
                  · exact d x hx (fun hc => by
                      rcases List.mem_cons.mp hc with rfl | hc
                      · exact hxc rfl
                      · exact hns hc)

theorem parent_closed_mem (rc : Str → Except String CommitInfo) (S : List Str)
    (hS : parent_closed rc S = true) (c : Str) (hc : c ∈ S) :
    ∃ info, rc c = .ok info ∧ ∀ p ∈ info.parents, p ∈ S := by
  unfold parent_closed at hS
  rw [List.all_eq_true] at hS
  have h := hS c hc
  cases hrc : rc c with
  | error e => simp [hrc] at h
  | ok info =>
    simp only [hrc, List.all_eq_true, decide_eq_true_eq] at h
    exact ⟨info, rfl, h⟩

theorem unseen_le (S seen : List Str) (cur : Str) :
    (S.filter (fun c => decide (c ∉ cur :: seen))).length
      ≤ (S.filter (fun c => decide (c ∉ seen))).length := by
  induction S with
  | nil => simp
  | cons x xs ih =>
    simp only [List.filter_cons]
    by_cases h1 : x ∈ seen
    · have h2 : x ∈ cur :: seen := List.mem_cons_of_mem _ h1
      simpa [h1, h2] using ih
    · by_cases h2 : x ∈ cur :: seen
      · simp only [h1, h2, not_true_eq_false, not_false_eq_true, decide_True, decide_False,
          if_true, if_false, List.length_cons, Bool.false_eq_true]
        omega
      · simp only [h1, h2, not_false_eq_true, decide_True, if_true, List.length_cons]
        omega

theorem unseen_lt (S seen : List Str) (cur : Str) (hc : cur ∈ S) (hn : cur ∉ seen) :
    (S.filter (fun c => decide (c ∉ cur :: seen))).length
      < (S.filter (fun c => decide (c ∉ seen))).length := by
  induction S with
  | nil => simp at hc
  | cons x xs ih =>
    simp only [List.filter_cons]
    by_cases hx : x = cur
    · subst hx
      have h2 : x ∈ x :: seen := List.mem_cons_self _ _
      have := unseen_le xs seen x
      simp only [hn, h2, not_true_eq_false, not_false_eq_true, decide_True, decide_False,
        if_true, if_false, List.length_cons, Bool.false_eq_true]
      omega
    · have hc2 : cur ∈ xs := by
        rcases List.mem_cons.mp hc with h | h
        · exact absurd h.symm hx
        · exact h
      have ih2 := ih hc2
      by_cases h1 : x ∈ seen
      · have h2 : x ∈ cur :: seen := List.mem_cons_of_mem _ h1
        simpa [h1, h2] using ih2
      · have h2 : x ∉ cur :: seen := by
          intro h
          rcases List.mem_cons.mp h with h | h
          · exact hx h
          · exact h1 h
        simp only [h1, h2, not_false_eq_true, decide_True, if_true, List.length_cons]
        omega

theorem walk_terminates (rc : Str → Except String CommitInfo) (pre : Str → Bool)
    (hitp : CommitInfo → Bool) (S : List Str) (hS : parent_closed rc S = true) (n : Nat) :
    ∀ (stack seen : List Str), (S.filter (fun c => decide (c ∉ seen))).length ≤ n →
      (∀ c ∈ stack, c ∈ S) → ∃ N out, walk rc pre hitp N stack seen = some (.ok out) := by
  induction n with
  | zero =>
    intro stack
    induction stack with
    | nil => intro seen _ _; exact ⟨1, .done seen, rfl⟩
    | cons cur stack ih =>
      intro seen hn hst
      by_cases h1 : cur ∈ seen
      · obtain ⟨N, out, h⟩ := ih seen hn (fun c hc => hst c (List.mem_cons_of_mem _ hc))
        exact ⟨N + 1, out, by simp only [walk, h1, if_true]; exact h⟩
      · have := unseen_lt S seen cur (hst cur (List.mem_cons_self _ _)) h1
        omega
  | succ n ihn =>
    intro stack
    induction stack with
    | nil => intro seen _ _; exact ⟨1, .done seen, rfl⟩
    | cons cur stack ih =>
      intro seen hn hst
      by_cases h1 : cur ∈ seen
      · obtain ⟨N, out, h⟩ := ih seen hn (fun c hc => hst c (List.mem_cons_of_mem _ hc))
        exact ⟨N + 1, out, by simp only [walk, h1, if_true]; exact h⟩
      · by_cases h2 : pre cur = true
        · exact ⟨1, .found cur, by simp only [walk, h1, h2, if_true, if_false]⟩
        · obtain ⟨info, hrc, hpar⟩ := parent_closed_mem rc S hS cur (hst cur (List.mem_cons_self _ _))
          by_cases h3 : hitp info = true
          · exact ⟨1, .hit, by
              simp only [walk, h1, h2, hrc, h3, if_true, if_false, Bool.false_eq_true]⟩
          · have hlt := unseen_lt S seen cur (hst cur (List.mem_cons_self _ _)) h1
            obtain ⟨N, out, h⟩ := ihn (push_all info.parents stack) (cur :: seen) (by omega)
              (fun c hc => by
                rcases (mem_push_all _ _ _).mp hc with hc | hc
                · exact hpar c hc
                · exact hst c (List.mem_cons_of_mem _ hc))
            exact ⟨N + 1, out, by
              simp only [walk, h1, h2, hrc, h3, if_false, Bool.false_eq_true]; exact h⟩

theorem walk_total (rc : Str → Except String CommitInfo) (pre : Str → Bool)
    (hitp : CommitInfo → Bool) (S : List Str) (hS : parent_closed rc S = true)
    (stack : List Str) (hst : ∀ c ∈ stack, c ∈ S) :
    ∃ N out, (∀ fuel, N ≤ fuel → walk rc pre hitp fuel stack [] = some (.ok out))
      ∧ WalkPost rc pre hitp stack [] out := by
  obtain ⟨N, out, h⟩ := walk_terminates rc pre hitp S hS _ stack [] (le_refl _) hst
  exact ⟨N, out, fun fuel hle => walk_mono rc pre hitp N stack [] _ h fuel hle,
    walk_post rc pre hitp N stack [] out h⟩

theorem reach_mem_of_closed (rc : Str → Except String CommitInfo) (seen1 : List Str)
    (hcl : ∀ c ∈ seen1, ∀ info, rc c = .ok info → ∀ p ∈ info.parents, p ∈ seen1)
    (d c : Str) (hd : d ∈ seen1) (hr : Reach rc d c) : c ∈ seen1 := by
  induction hr with
  | refl => exact hd
  | tail _ hedge ih =>
    obtain ⟨info, hinfo, hp⟩ := hedge
    exact hcl _ ih info hinfo _ hp

theorem reach_iff_ancestor (rc : Str → Except String CommitInfo) (a d : Str) :
    Reach rc d a ↔ Ancestor rc a d := by
  unfold Reach Ancestor
  exact Relation.reflTransGen_iff_eq_or_transGen

theorem ancestor_of_hit (rc : Str → Except String CommitInfo) (a d : Str)
    (h : WalkPost rc (fun _ => false) (fun i => decide (a ∈ i.parents)) [d] [] .hit) :
    Relation.TransGen (Edge rc) d a := by
  obtain ⟨c, info, ⟨s, hs, hr⟩, hrc, hhit⟩ := h
  simp only [List.mem_singleton] at hs
  subst hs
  simp only [decide_eq_true_eq] at hhit
  exact Relation.TransGen.tail' hr ⟨info, hrc, hhit⟩

theorem is_commit_ancestor_sound (rc : Str → Except String CommitInfo) (fuel : Nat) (a d : Str)
    (h : is_commit_ancestor rc fuel a d = some (.ok true)) : Ancestor rc a d := by
  unfold is_commit_ancestor at h
  by_cases had : a = d
  · exact Or.inl had
  · simp only [had, if_false, ancestor_loop_eq_walk] at h
    cases hw : walk rc (fun _ => false) (fun i => decide (a ∈ i.parents)) fuel [d] [] with
    | none => simp [hw] at h
    | some r =>
      cases r with
      | error e => simp [hw, Except.map] at h
      | ok out =>
        have hp := walk_post _ _ _ _ _ _ _ hw
        cases out with
        | found c => simp [hw, Except.map, WalkOut.toBool] at h
        | done seen1 => simp [hw, Except.map, WalkOut.toBool] at h
        | hit => exact Or.inr (ancestor_of_hit rc a d hp)

theorem is_commit_ancestor_correct (rc : Str → Except String CommitInfo) (S : List Str)
    (a d : Str) (hS : parent_closed rc S = true) (hd : d ∈ S) :
    ∃ N b, (∀ fuel, N ≤ fuel → is_commit_ancestor rc fuel a d = some (.ok b))
      ∧ (b = true ↔ (a = d ∨ Relation.TransGen (Edge rc) d a)) := by
  by_cases had : a = d
  · refine ⟨0, true, ?_, ?_⟩
    · intro fuel _
      simp only [is_commit_ancestor, had, if_true]
    · simp [had]
  · obtain ⟨N, out, hrun, hp⟩ := walk_total rc (fun _ => false)
      (fun i => decide (a ∈ i.parents)) S hS [d] (by simpa using hd)
    refine ⟨N, out.toBool, ?_, ?_⟩
    · intro fuel hle
      simp only [is_commit_ancestor, had, if_false, ancestor_loop_eq_walk, hrun fuel hle,
        Option.map_some', Except.map]
    · cases out with
      | found c => exact absurd hp.1 (by simp)
      | hit =>
        simp only [WalkOut.toBool, true_iff]
        exact Or.inr (ancestor_of_hit rc a d hp)
      | done seen1 =>
        simp only [WalkOut.toBool, Bool.false_eq_true, false_iff, not_or]
        refine ⟨had, ?_⟩
        intro htg
        obtain ⟨c, hr, info, hinfo, hmem⟩ := Relation.TransGen.tail'_iff.mp htg
        obtain ⟨_, hst, _, hnew⟩ := hp
        have hcl : ∀ c ∈ seen1, ∀ info, rc c = .ok info → ∀ p ∈ info.parents, p ∈ seen1 :=
          fun c hc info hi => ((hnew c hc (List.not_mem_nil c)).2 info hi).2
        have hc : c ∈ seen1 := reach_mem_of_closed rc seen1 hcl d c (hst d (List.mem_singleton_self d)) hr
        have := ((hnew c hc (List.not_mem_nil c)).2 info hinfo).1
        simp only [decide_eq_false_iff_not] at this
        exact this hmem

/-- C4: over a finite parent-closed set of readable commits that contains `d`,
`is_commit_ancestor(a, d)` returns, for every large enough fuel, one boolean, and that
boolean is true exactly when `a == d` or `a` is reachable from `d` by one or more parent
edges. -/
theorem is_commit_ancestor_iff (rc : Str → Except String CommitInfo) (S : List Str) (a d : Str)
    (hS : parent_closed rc S = true) (hd : d ∈ S) :
    ∃ N b, (∀ fuel, N ≤ fuel → is_commit_ancestor rc fuel a d = some (.ok b))
      ∧ (b = true ↔ (a = d ∨ Relation.TransGen (Edge rc) d a)) := by
  obtain ⟨N, b, hrun, hb⟩ := is_commit_ancestor_correct rc S a d hS hd
  exact ⟨N, b, fun fuel hle => hrun fuel hle, hb⟩

/-- C4 at a concrete input: the small history, `g` against `b`. -/
theorem is_commit_ancestor_iff_witness :
    ∃ N b, (∀ fuel, N ≤ fuel → is_commit_ancestor rcEx fuel (lit "g") (lit "b") = some (.ok b))
      ∧ (b = true ↔ (lit "g" = lit "b" ∨ Relation.TransGen (Edge rcEx) (lit "b") (lit "g"))) :=
  is_commit_ancestor_iff rcEx commitsEx (lit "g") (lit "b") (by decide) (by decide)

theorem is_commit_ancestor_of_ancestor (rc : Str → Except String CommitInfo) (S : List Str)
    (a d : Str) (hS : parent_closed rc S = true) (hd : d ∈ S) (h : Ancestor rc a d) :
    ∃ N, ∀ fuel, N ≤ fuel → is_commit_ancestor rc fuel a d = some (.ok true) := by
  obtain ⟨N, b, hrun, hb⟩ := is_commit_ancestor_correct rc S a d hS hd
  have : b = true := hb.mpr h
  subst this
  exact ⟨N, hrun⟩

/-- C5: `is_commit_ancestor(x, x)` is true for every `x` (whatever the fuel), and over a
finite parent-closed set containing `z`, if `is_commit_ancestor(x, y)` and
`is_commit_ancestor(y, z)` return true then so does `is_commit_ancestor(x, z)`. -/
theorem is_commit_ancestor_refl_trans (rc : Str → Except String CommitInfo) (S : List Str)
    (x y z : Str) (hS : parent_closed rc S = true) (hz : z ∈ S) :
    (∀ fuel, is_commit_ancestor rc fuel x x = some (.ok true))
    ∧ (∀ f1 f2, is_commit_ancestor rc f1 x y = some (.ok true) →
        is_commit_ancestor rc f2 y z = some (.ok true) →
        ∃ N, ∀ fuel, N ≤ fuel → is_commit_ancestor rc fuel x z = some (.ok true)) := by
  refine ⟨?_, ?_⟩
  · intro fuel
    simp only [is_commit_ancestor, if_true]
  · intro f1 f2 h1 h2
    have a1 := (reach_iff_ancestor rc x y).mpr (is_commit_ancestor_sound rc f1 x y h1)
    have a2 := (reach_iff_ancestor rc y z).mpr (is_commit_ancestor_sound rc f2 y z h2)
    exact is_commit_ancestor_of_ancestor rc S x z hS hz
      ((reach_iff_ancestor rc x z).mp (Relation.ReflTransGen.trans a2 a1))

/-- C5 at a concrete input: in the small history `g` is an ancestor of `p1` and `p1` of
`a`, hence `g` of `a`. -/
theorem is_commit_ancestor_refl_trans_witness :
    (∀ fuel, is_commit_ancestor rcEx fuel (lit "g") (lit "g") = some (.ok true))
    ∧ ∃ N, ∀ fuel, N ≤ fuel → is_commit_ancestor rcEx fuel (lit "g") (lit "a") = some (.ok true) :=
  ⟨(is_commit_ancestor_refl_trans rcEx commitsEx (lit "g") (lit "p1") (lit "a")
      (by decide) (by decide)).1,
   (is_commit_ancestor_refl_trans rcEx commitsEx (lit "g") (lit "p1") (lit "a")
      (by decide) (by decide)).2 5 5 (by decide) (by decide)⟩

/-- C6: over a finite parent-closed set containing `x` and `y`, `lca_commit(x, y)` returns
(for every large enough fuel) a result `r`; if `r` is a commit `c` then
`is_commit_ancestor(c, x)` and `is_commit_ancestor(c, y)` are true, and `r` is empty exactly
when no commit is an ancestor (inclusive) of both `x` and `y`. -/
theorem lca_commit_common (rc : Str → Except String CommitInfo) (S : List Str) (x y : Str)
    (hS : parent_closed rc S = true) (hx : x ∈ S) (hy : y ∈ S) :
    ∃ N r, (∀ fuel, N ≤ fuel →
        lca_commit rc fuel x y = some (.ok r)
        ∧ ∀ c, r = some c → is_commit_ancestor rc fuel c x = some (.ok true)
            ∧ is_commit_ancestor rc fuel c y = some (.ok true))
      ∧ (r = none ↔ ¬ ∃ c, Ancestor rc c x ∧ Ancestor rc c y) := by
  obtain ⟨N1, out1, hrun1, hp1⟩ := walk_total rc (fun _ => false) (fun _ => false) S hS [x]
    (by simpa using hx)
  cases out1 with
  | found c => exact absurd hp1.1 (by simp)
  | hit =>
    obtain ⟨_, _, _, _, hh⟩ := hp1
    exact absurd hh (by simp)
  | done A =>
    obtain ⟨_, hstA, hreachA, hnewA⟩ := hp1
    have hclA : ∀ c ∈ A, ∀ info, rc c = .ok info → ∀ p ∈ info.parents, p ∈ A :=
      fun c hc info hi => ((hnewA c hc (List.not_mem_nil c)).2 info hi).2
    have hA : ∀ c, c ∈ A ↔ Reach rc x c := by
      intro c
      constructor
      · intro hc
        rcases hreachA c hc with h | ⟨s, hs, hr⟩
        · exact absurd h (List.not_mem_nil c)
        · simp only [List.mem_singleton] at hs
          subst hs
          exact hr
      · intro hr
        exact reach_mem_of_closed rc A hclA x c (hstA x (List.mem_singleton_self x)) hr
    obtain ⟨N2, out2, hrun2, hp2⟩ := walk_total rc (fun c => decide (c ∈ A)) (fun _ => false) S hS
      [y] (by simpa using hy)
    have hlca : ∀ fuel, max N1 N2 ≤ fuel → lca_commit rc fuel x y = some (.ok out2.toFound) := by
      intro fuel hle
      have e1 := hrun1 fuel (le_trans (le_max_left _ _) hle)
      have e2 := hrun2 fuel (le_trans (le_max_right _ _) hle)
      simp only [lca_commit, collect_loop_eq_walk, e1, Option.map_some', Except.map,
        WalkOut.toSeen, find_loop_eq_walk, e2]
    cases out2 with
    | hit =>
      obtain ⟨_, _, _, _, hh⟩ := hp2
      exact absurd hh (by simp)
    | found c =>
      obtain ⟨hpre, _, s, hs, hr⟩ := hp2
      simp only [List.mem_singleton] at hs
      subst hs
      simp only [decide_eq_true_eq] at hpre
      have hcx : Ancestor rc c x := (reach_iff_ancestor rc c x).mp ((hA c).mp hpre)
      have hcy : Ancestor rc c s := (reach_iff_ancestor rc c s).mp hr
      obtain ⟨N3, h3⟩ := is_commit_ancestor_of_ancestor rc S c x hS hx hcx
      obtain ⟨N4, h4⟩ := is_commit_ancestor_of_ancestor rc S c s hS hy hcy
      refine ⟨max (max N1 N2) (max N3 N4), some c, ?_, ?_⟩
      · intro fuel hle
        refine ⟨hlca fuel (le_trans (le_max_left _ _) hle), ?_⟩
        intro c2 hc2
        simp only [Option.some.injEq] at hc2
        subst hc2
        exact ⟨h3 fuel (le_trans (le_trans (le_max_left _ _) (le_max_right _ _)) hle),
          h4 fuel (le_trans (le_trans (le_max_right _ _) (le_max_right _ _)) hle)⟩
      · simp only [false_iff, not_not, reduceCtorEq]
        exact ⟨c, hcx, hcy⟩
    | done seen2 =>
      obtain ⟨_, hst2, _, hnew2⟩ := hp2
      have hcl2 : ∀ c ∈ seen2, ∀ info, rc c = .ok info → ∀ p ∈ info.parents, p ∈ seen2 :=
        fun c hc info hi => ((hnew2 c hc (List.not_mem_nil c)).2 info hi).2
      refine ⟨max N1 N2, none, ?_, ?_⟩
      · intro fuel hle
        refine ⟨hlca fuel hle, ?_⟩
        intro c hc
        simp at hc
      · simp only [true_iff]
        rintro ⟨c, hcx, hcy⟩
        have h1 : c ∈ A := (hA c).mpr ((reach_iff_ancestor rc c x).mpr hcx)
        have h2 : c ∈ seen2 := reach_mem_of_closed rc seen2 hcl2 y c
          (hst2 y (List.mem_singleton_self y)) ((reach_iff_ancestor rc c y).mpr hcy)
        have := (hnew2 c h2 (List.not_mem_nil c)).1
        simp only [decide_eq_false_iff_not] at this
        exact this h1

/-- C6 at a concrete input: the small history, `a` against `b`. -/
theorem lca_commit_common_witness :
    ∃ N r, (∀ fuel, N ≤ fuel →
        lca_commit rcEx fuel (lit "a") (lit "b") = some (.ok r)
        ∧ ∀ c, r = some c → is_commit_ancestor rcEx fuel c (lit "a") = some (.ok true)
            ∧ is_commit_ancestor rcEx fuel c (lit "b") = some (.ok true))
      ∧ (r = none ↔ ¬ ∃ c, Ancestor rcEx c (lit "a") ∧ Ancestor rcEx c (lit "b")) :=
  lca_commit_common rcEx commitsEx (lit "a") (lit "b") (by decide) (by decide) (by decide)

/-- C7 (failing case): in the small history `lca_commit(a, b)` returns the root `g`,
although `p1`, a strict descendant of `g`, is an ancestor of both `a` and `b`. -/
theorem lca_commit_not_lowest :
    lca_commit rcEx 10 (lit "a") (lit "b") = some (.ok (some (lit "g")))
    ∧ lit "p1" ≠ lit "g"
    ∧ is_commit_ancestor rcEx 10 (lit "g") (lit "p1") = some (.ok true)
    ∧ is_commit_ancestor rcEx 10 (lit "p1") (lit "a") = some (.ok true)
    ∧ is_commit_ancestor rcEx 10 (lit "p1") (lit "b") = some (.ok true) := by
  decide

/-! ## The conflict text -/

theorem common_len_le_left (a b : List Str) : common_len a b ≤ a.length := by
  induction a generalizing b with
  | nil => simp [common_len]
  | cons x xs ih =>
    cases b with
    | nil => simp [common_len]
    | cons y ys =>
      simp only [common_len]
      split
      · have := ih ys
        simp only [List.length_cons]
        omega
      · omega

theorem common_len_le_right (a b : List Str) : common_len a b ≤ b.length := by
  induction a generalizing b with
  | nil => simp [common_len]
  | cons x xs ih =>
    cases b with
    | nil => simp [common_len]
    | cons y ys =>
      simp only [common_len]
      split
      · have := ih ys
        simp only [List.length_cons]
        omega
      · omega

theorem common_len_take (a b : List Str) (n : Nat) :
    (n ≤ a.length ∧ n ≤ b.length ∧ a.take n = b.take n) ↔ n ≤ common_len a b := by
  induction a generalizing b n with
  | nil =>
    cases n with
    | zero => simp [common_len]
    | succ n => simp [common_len]
  | cons x xs ih =>
    cases b with
    | nil =>
      cases n with
      | zero => simp [common_len]
      | succ n => simp [common_len]
    | cons y ys =>
      cases n with
      | zero => simp
      | succ n =>
        simp only [common_len, List.length_cons, List.take_succ_cons, List.cons.injEq,
          Nat.add_le_add_iff_right]
        by_cases hxy : x = y
        · simp only [hxy, true_and, if_true, Nat.add_le_add_iff_right]
          exact ih ys n
        · simp [hxy]

theorem common_len_drop (a b : List Str) (i : Nat) :
    common_len (a.drop i) (b.drop i)
      = if i < a.length ∧ i < b.length ∧ a[i]? = b[i]? then
          common_len (a.drop (i + 1)) (b.drop (i + 1)) + 1
        else 0 := by
  by_cases ha : i < a.length
  · by_cases hb : i < b.length
    · rw [List.drop_eq_getElem_cons ha, List.drop_eq_getElem_cons hb]
      simp only [common_len, ha, hb, true_and, List.getElem?_eq_getElem, Option.some.injEq]
    · have : b.drop i = [] := List.drop_eq_nil_of_le (by omega)
      rw [this]
      simp only [hb, false_and, and_false, if_false]
      cases a.drop i <;> rfl
  · have : a.drop i = [] := List.drop_eq_nil_of_le (by omega)
    rw [this]
    simp only [ha, false_and, if_false]
    rfl

theorem pa_loop_eq (a b : List Str) (fuel pa : Nat) (h : a.length - pa ≤ fuel) :
    pa_loop a b fuel pa = pa + common_len (a.drop pa) (b.drop pa) := by
  induction fuel generalizing pa with
  | zero =>
    have : a.drop pa = [] := List.drop_eq_nil_of_le (by omega)
    simp only [pa_loop, this]
    rfl
  | succ fuel ih =>
    rw [pa_loop, common_len_drop]
    split
    · rw [ih (pa + 1) (by omega)]
      omega
    · rfl

theorem sa_loop_eq (a b : List Str) (pa : Nat) (hpa : pa ≤ a.length) (hpb : pa ≤ b.length)
    (fuel sa : Nat) (h : a.length - pa - sa ≤ fuel) :
    sa_loop a b pa fuel sa
      = sa + common_len ((a.drop pa).reverse.drop sa) ((b.drop pa).reverse.drop sa) := by
  induction fuel generalizing sa with
  | zero =>
    have : (a.drop pa).reverse.drop sa = [] :=
      List.drop_eq_nil_of_le (by simp only [List.length_reverse, List.length_drop]; omega)
    simp only [sa_loop, this]
    rfl
  | succ fuel ih =>
    rw [sa_loop, common_len_drop]
    have hcond : (sa < a.length - pa ∧ sa < b.length - pa ∧
          a[a.length - 1 - sa]? = b[b.length - 1 - sa]?)
        ↔ (sa < (a.drop pa).reverse.length ∧ sa < (b.drop pa).reverse.length ∧
          (a.drop pa).reverse[sa]? = (b.drop pa).reverse[sa]?) := by
      simp only [List.length_reverse, List.length_drop]
      constructor
      · rintro ⟨h1, h2, h3⟩
        refine ⟨h1, h2, ?_⟩
        rw [List.getElem?_reverse (by simp only [List.length_drop]; omega),
          List.getElem?_reverse (by simp only [List.length_drop]; omega)]
        simp only [List.getElem?_drop, List.length_drop]
        have e1 : pa + (a.length - pa - 1 - sa) = a.length - 1 - sa := by omega
        have e2 : pa + (b.length - pa - 1 - sa) = b.length - 1 - sa := by omega
        rw [e1, e2]
        exact h3
      · rintro ⟨h1, h2, h3⟩
        refine ⟨h1, h2, ?_⟩
        rw [List.getElem?_reverse (by simp only [List.length_drop]; omega),
          List.getElem?_reverse (by simp only [List.length_drop]; omega)] at h3
        simp only [List.getElem?_drop, List.length_drop] at h3
        have e1 : pa + (a.length - pa - 1 - sa) = a.length - 1 - sa := by omega
        have e2 : pa + (b.length - pa - 1 - sa) = b.length - 1 - sa := by omega
        rw [e1, e2] at h3
        exact h3
    by_cases hc : sa < a.length - pa ∧ sa < b.length - pa ∧
        a[a.length - 1 - sa]? = b[b.length - 1 - sa]?
    · rw [if_pos hc, if_pos (hcond.mp hc), ih (sa + 1) (by omega)]
      omega
    · rw [if_neg hc, if_neg (fun h => hc (hcond.mpr h))]
      rfl

theorem emit_lines_eq (a : List Str) (n i : Nat) (h : i + n ≤ a.length) :
    emit_lines a n i = some (lines_text ((a.drop i).take n)) := by
  induction n generalizing i with
  | zero => simp [emit_lines, lines_text]
  | succ n ih =>
    have hi : i < a.length := by omega
    rw [emit_lines, ih (i + 1) (by omega), List.drop_eq_getElem_cons hi]
    simp only [List.getElem?_eq_getElem hi, List.take_succ_cons, lines_text,
      List.append_assoc, List.singleton_append]

theorem emit_tail_eq (a : List Str) (n : Nat) (h : n ≤ a.length) :
    emit_tail a n = some (lines_text (a.drop (a.length - n))) := by
  induction n with
  | zero => simp [emit_tail, lines_text]
  | succ n ih =>
    have hi : a.length - (n + 1) < a.length := by omega
    rw [emit_tail, ih (by omega), List.drop_eq_getElem_cons hi]
    have e : a.length - (n + 1) + 1 = a.length - n := by omega
    simp only [List.getElem?_eq_getElem hi, lines_text, List.append_assoc,
      List.singleton_append, e]

theorem conflict_text_eq (ours_txt theirs_txt giver_branch : Str) :
    conflict_text ours_txt theirs_txt giver_branch
      = some (spec_conflict_text (split_lines ours_txt) (split_lines theirs_txt) giver_branch) := by
  unfold conflict_text spec_conflict_text
  generalize split_lines ours_txt = a
  generalize split_lines theirs_txt = b
  have hpa : pa_loop a b a.length 0 = common_len a b := by
    rw [pa_loop_eq a b a.length 0 (by omega)]
    simp
  have hpa1 := common_len_le_left a b
  have hpa2 := common_len_le_right a b
  have hsa : sa_loop a b (common_len a b) a.length 0
      = common_len (a.drop (common_len a b)).reverse (b.drop (common_len a b)).reverse := by
    rw [sa_loop_eq a b _ hpa1 hpa2 a.length 0 (by omega)]
    simp
  have hsa1 := common_len_le_left (a.drop (common_len a b)).reverse (b.drop (common_len a b)).reverse
  have hsa2 := common_len_le_right (a.drop (common_len a b)).reverse (b.drop (common_len a b)).reverse
  simp only [List.length_reverse, List.length_drop] at hsa1 hsa2
  simp only [hpa, hsa]
  generalize common_len (a.drop (common_len a b)).reverse (b.drop (common_len a b)).reverse = sa
    at hsa1 hsa2
  generalize common_len a b = pa at hpa1 hpa2 hsa1 hsa2
  rw [emit_lines_eq a pa 0 (by omega), emit_lines_eq a (a.length - sa - pa) pa (by omega),
    emit_lines_eq b (b.length - sa - pa) pa (by omega), emit_tail_eq a sa (by omega)]
  simp only [List.drop_zero, List.drop_take, lines_text, List.append_assoc, List.cons_append,
    List.nil_append, List.append_nil]

/-! ## The three-way step -/

theorem str_lt_irrefl (a : Str) : str_lt a a = false := by
  induction a with
  | nil => rfl
  | cons x xs ih => simp [str_lt, ih]

theorem str_lt_trans (a b c : Str) (h1 : str_lt a b = true) (h2 : str_lt b c = true) :
    str_lt a c = true := by
  induction a generalizing b c with
  | nil =>
    cases b with
    | nil => simp [str_lt] at h1
    | cons y ys =>
      cases c with
      | nil => simp [str_lt] at h2
      | cons z zs => rfl
  | cons x xs ih =>
    cases b with
    | nil => simp [str_lt] at h1
    | cons y ys =>
      cases c with
      | nil => simp [str_lt] at h2
      | cons z zs =>
        simp only [str_lt] at h1 h2 ⊢
        by_cases hxy : x < y
        · by_cases hyz : y < z
          · have : x < z := lt_trans hxy hyz
            simp [this]
          · by_cases hzy : z < y
            · simp [hyz, hzy] at h2
            · have hyz2 : y = z := le_antisymm (not_lt.mp hzy) (not_lt.mp hyz)
              subst hyz2
              simp [hxy]
        · by_cases hyx : y < x
          · simp [hxy, hyx] at h1
          · have hxy2 : x = y := le_antisymm (not_lt.mp hyx) (not_lt.mp hxy)
            subst hxy2
            simp only [hxy, if_false, lt_self_iff_false] at h1
            by_cases hxz : x < z
            · simp [hxz]
            · by_cases hzx : z < x
              · simp [hxz, hzx] at h2
              · simp only [hxz, hzx, if_false] at h2 ⊢
                exact ih ys zs h1 h2

theorem str_lt_total (a b : Str) (hne : a ≠ b) (h : str_lt a b = false) : str_lt b a = true := by
  induction a generalizing b with
  | nil =>
    cases b with
    | nil => exact absurd rfl hne
    | cons y ys => simp [str_lt] at h
  | cons x xs ih =>
    cases b with
    | nil => rfl
    | cons y ys =>
      simp only [str_lt] at h ⊢
      by_cases hxy : x < y
      · simp [hxy] at h
      · by_cases hyx : y < x
        · simp [hyx]
        · have hxy2 : x = y := le_antisymm (not_lt.mp hyx) (not_lt.mp hxy)
          subst hxy2
          simp only [hxy, if_false] at h ⊢
          exact ih ys (fun e => hne (by rw [e])) h

theorem mem_set_insert (l : List Str) (k x : Str) : x ∈ set_insert l k ↔ x = k ∨ x ∈ l := by
  induction l with
  | nil => simp [set_insert]
  | cons y ys ih =>
    simp only [set_insert]
    split
    · rename_i h
      subst h
      simp
    · split
      · simp
      · simp only [List.mem_cons, ih]
        tauto

theorem set_insert_sorted (l : List Str) (k : Str)
    (h : l.Pairwise (fun p q => str_lt p q = true)) :
    (set_insert l k).Pairwise (fun p q => str_lt p q = true) := by
  induction l with
  | nil => simp [set_insert]
  | cons y ys ih =>
    rw [List.pairwise_cons] at h
    simp only [set_insert]
    split
    · exact List.pairwise_cons.mpr h
    · rename_i hne
      split
      · rename_i hlt
        refine List.pairwise_cons.mpr ⟨?_, List.pairwise_cons.mpr h⟩
        intro x hx
        rcases List.mem_cons.mp hx with rfl | hx
        · exact hlt
        · exact str_lt_trans _ _ _ hlt (h.1 x hx)
      · rename_i hnlt
        refine List.pairwise_cons.mpr ⟨?_, ih h.2⟩
        intro x hx
        rcases (mem_set_insert ys k x).mp hx with rfl | hx
        · exact str_lt_total _ _ hne (by simpa using hnlt)
        · exact h.1 x hx

theorem foldl_set_insert (ks : List Str) (l : List Str)
    (h : l.Pairwise (fun p q => str_lt p q = true)) :
    (ks.foldl set_insert l).Pairwise (fun p q => str_lt p q = true)
      ∧ ∀ x, x ∈ ks.foldl set_insert l ↔ x ∈ ks ∨ x ∈ l := by
  induction ks generalizing l with
  | nil => simp [h]
  | cons k ks ih =>
    obtain ⟨h1, h2⟩ := ih (set_insert l k) (set_insert_sorted l k h)
    refine ⟨h1, ?_⟩
    intro x
    simp only [List.foldl_cons, h2, mem_set_insert, List.mem_cons]
    tauto

theorem all_paths_sorted (ours theirs baseM : PathMap) :
    (all_paths ours theirs baseM).Pairwise (fun p q => str_lt p q = true) := by
  unfold all_paths
  exact (foldl_set_insert _ _ (foldl_set_insert _ _ (foldl_set_insert _ _ List.Pairwise.nil).1).1).1

theorem mem_all_paths (ours theirs baseM : PathMap) (x : Str) :
    x ∈ all_paths ours theirs baseM
      ↔ x ∈ ours.map Prod.fst ∨ x ∈ theirs.map Prod.fst ∨ x ∈ baseM.map Prod.fst := by
  unfold all_paths
  have h1 := foldl_set_insert (ours.map Prod.fst) [] List.Pairwise.nil
  have h2 := foldl_set_insert (theirs.map Prod.fst) _ h1.1
  have h3 := foldl_set_insert (baseM.map Prod.fst) _ h2.1
  rw [h3.2, h2.2, h1.2]
  simp only [List.not_mem_nil, or_false]
  tauto

theorem all_paths_nodup (ours theirs baseM : PathMap) : (all_paths ours theirs baseM).Nodup := by
  have h := all_paths_sorted ours theirs baseM
  exact h.imp (fun {a b} hab e => by rw [e, str_lt_irrefl] at hab; exact absurd hab (by simp))

theorem map_find_none_iff (m : PathMap) (k : Str) : map_find m k = none ↔ k ∉ m.map Prod.fst := by
  induction m with
  | nil => simp [map_find]
  | cons e rest ih =>
    obtain ⟨k1, v⟩ := e
    simp only [map_find, List.map_cons, List.mem_cons]
    by_cases h : k1 = k
    · simp [h]
    · have h2 : ¬ k = k1 := fun e => h e.symm
      simp [h, h2, ih]

theorem map_find_mem (m : PathMap) (k v : Str) (h : map_find m k = some v) : (k, v) ∈ m := by
  induction m with
  | nil => simp [map_find] at h
  | cons e rest ih =>
    obtain ⟨k1, v1⟩ := e
    simp only [map_find] at h
    by_cases hk : k1 = k
    · simp only [hk, if_true, Option.some.injEq] at h
      subst hk h
      exact List.mem_cons_self _ _
    · simp only [hk, if_false] at h
      exact List.mem_cons_of_mem _ (ih h)

theorem map_find_erase (m : PathMap) (k q : Str) :
    map_find (map_erase m k) q = if q = k then none else map_find m q := by
  induction m with
  | nil => simp [map_erase, map_find]
  | cons e rest ih =>
    obtain ⟨k1, v⟩ := e
    unfold map_erase at ih ⊢
    simp only [List.filter_cons]
    by_cases h1 : k1 = k
    · subst h1
      simp only [ne_eq, not_true_eq_false, decide_False, Bool.false_eq_true, if_false, ih,
        map_find]
      by_cases h2 : q = k1
      · simp [h2]
      · have h3 : ¬ k1 = q := fun e => h2 e.symm
        simp [h2, h3]
    · simp only [ne_eq, h1, not_false_eq_true, decide_True, if_true, map_find, ih]
      by_cases h2 : q = k
      · subst h2
        simp [h1]
      · simp [h2]

theorem map_find_assign (m : PathMap) (k v q : Str) :
    map_find (map_assign m k v) q = if q = k then some v else map_find m q := by
  induction m with
  | nil =>
    simp only [map_assign, map_find]
    by_cases h : k = q
    · simp [h]
    · have h2 : ¬ q = k := fun e => h e.symm
      simp [h, h2]
  | cons e rest ih =>
    obtain ⟨k1, v1⟩ := e
    simp only [map_assign]
    by_cases h1 : k = k1
    · subst h1
      simp only [if_true, map_find]
      by_cases h2 : k = q
      · simp [h2]
      · have h3 : ¬ q = k := fun e => h2 e.symm
        simp [h2, h3]
    · simp only [h1, if_false]
      by_cases h2 : str_lt k k1 = true
      · simp only [h2, if_true, map_find]
        by_cases h3 : k = q
        · simp [h3]
        · have h4 : ¬ q = k := fun e => h3 e.symm
          simp [h3, h4]
      · simp only [h2, if_false, map_find, ih, Bool.false_eq_true]
        by_cases h3 : k1 = q
        · have h4 : ¬ q = k := fun e => h1 (by rw [← e, h3])
          simp [h3, h4]
        · simp [h3]

theorem get_empty_iff (m : PathMap) (p : Str) (h : digests_nonempty m) :
    get m p = [] ↔ map_find m p = none := by
  unfold get
  cases hm : map_find m p with
  | none => simp
  | some v =>
    have := h _ (map_find_mem m p v hm)
    simp only [reduceCtorEq, iff_false]
    exact this

theorem get_eq_iff (m1 m2 : PathMap) (p : Str) (h1 : digests_nonempty m1)
    (h2 : digests_nonempty m2) : get m1 p = get m2 p ↔ map_find m1 p = map_find m2 p := by
  have e1 := get_empty_iff m1 p h1
  have e2 := get_empty_iff m2 p h2
  unfold get at e1 e2 ⊢
  cases hm1 : map_find m1 p with
  | none =>
    cases hm2 : map_find m2 p with
    | none => simp
    | some v2 =>
      simp only [hm2, reduceCtorEq, iff_false] at e2
      simp only [reduceCtorEq, iff_false]
      exact fun e => e2 e.symm
  | some v1 =>
    cases hm2 : map_find m2 p with
    | none =>
      simp only [hm1, reduceCtorEq, iff_false] at e1
      simp only [reduceCtorEq, iff_false]
      exact e1
    | some v2 => simp

theorem get_of_find (m : PathMap) (p v : Str) (h : map_find m p = some v) : get m p = v := by
  simp only [get, h]

theorem merge_path_spec (rb : Str → Except String Str) (root giver_branch : Str)
    (baseM ours theirs : PathMap)
    (hB : digests_nonempty baseM) (hO : digests_nonempty ours) (hT : digests_nonempty theirs)
    (hread : ∀ p v, map_find ours p = some v ∨ map_find theirs p = some v →
      ∃ bytes, rb v = .ok bytes)
    (st : MergeState) (p : Str) :
    ∃ st1, merge_path rb root giver_branch baseM ours theirs st p = .ok st1
      ∧ st1.conflicts = st.conflicts ++ (if is_conflict baseM ours theirs p then [p] else [])
      ∧ (∀ q, q ≠ p → map_find st1.result q = map_find st.result q)
      ∧ (map_find st.result p = map_find ours p →
          map_find st1.result p = resolved baseM ours theirs p) := by
  have eOT := get_eq_iff ours theirs p hO hT
  have eOB := get_eq_iff ours baseM p hO hB
  have eTB := get_eq_iff theirs baseM p hT hB
  have eO := get_empty_iff ours p hO
  have eT := get_empty_iff theirs p hT
  unfold merge_path
  simp only [eOT, eOB, eTB, eT, ne_eq]
  by_cases h1 : map_find ours p = map_find theirs p
  · refine ⟨st, by simp only [h1, if_true], ?_, fun _ _ => rfl, ?_⟩
    · simp [is_conflict, h1]
    · intro h
      simp only [resolved, h1, if_true]
      rw [h, h1]
  · simp only [h1, if_false]
    by_cases h2 : map_find ours p = map_find baseM p
    · have h3 : ¬ map_find theirs p = map_find baseM p := fun e => h1 (by rw [h2, e])
      simp only [h2, h3, not_false_eq_true, and_self, if_true]
      have hnc : is_conflict baseM ours theirs p = false := by simp [is_conflict, h2]
      have hres : resolved baseM ours theirs p = map_find theirs p := by
        unfold resolved
        rw [if_neg h1, if_pos h2]
      simp only [hnc, hres, Bool.false_eq_true, if_false, List.append_nil]
      cases hmt : map_find theirs p with
      | none =>
        refine ⟨⟨map_erase st.result p, st.conflicts, remove_file st.fs (path_join root p)⟩,
          by simp only [if_true], rfl, ?_, ?_⟩
        · intro q hq
          simp only [map_find_erase, hq, if_false]
        · intro _
          simp only [map_find_erase, if_true]
      | some v =>
        obtain ⟨bytes, hb⟩ := hread p v (Or.inr hmt)
        have hg : get theirs p = v := get_of_find theirs p v hmt
        simp only [reduceCtorEq, if_false, hg, hb]
        refine ⟨⟨map_assign st.result p v, st.conflicts,
          write_file_atomic st.fs (path_join root p) bytes⟩, rfl, rfl, ?_, ?_⟩
        · intro q hq
          simp only [map_find_assign, hq, if_false]
        · intro _
          simp only [map_find_assign, if_true]
    · simp only [h2, false_and, if_false, not_false_eq_true, and_true]
      by_cases h3 : map_find theirs p = map_find baseM p
      · refine ⟨st, by simp only [h3, if_true], ?_, fun _ _ => rfl, ?_⟩
        · simp [is_conflict, h3]
        · intro h
          simp only [resolved, h1, h2, if_false]
          exact h
      · simp only [h3, if_false]
        have hc : is_conflict baseM ours theirs p = true := by simp [is_conflict, h1, h2, h3]
        have hres : resolved baseM ours theirs p = map_find ours p := by
          simp only [resolved, h1, h2, if_false]
        have hso : ∃ t, side_text rb (get ours p) = .ok t := by
          unfold side_text
          cases hmo : map_find ours p with
          | none => exact ⟨[], by simp only [eO.mpr hmo, ne_eq, not_true_eq_false, if_false]⟩
          | some v =>
            obtain ⟨bytes, hb⟩ := hread p v (Or.inl hmo)
            have hne : v ≠ [] := hO _ (map_find_mem ours p v hmo)
            exact ⟨bytes, by simp only [get_of_find ours p v hmo, ne_eq, hne, not_false_eq_true,
              if_true, hb]⟩
        have hst : ∃ t, side_text rb (get theirs p) = .ok t := by
          unfold side_text
          cases hmt : map_find theirs p with
          | none =>
            have hg : get theirs p = [] := (get_empty_iff theirs p hT).mpr hmt
            exact ⟨[], by simp only [hg, ne_eq, not_true_eq_false, if_false]⟩
          | some v =>
            obtain ⟨bytes, hb⟩ := hread p v (Or.inr hmt)
            have hne : v ≠ [] := hT _ (map_find_mem theirs p v hmt)
            exact ⟨bytes, by simp only [get_of_find theirs p v hmt, ne_eq, hne,
              not_false_eq_true, if_true, hb]⟩
        obtain ⟨t1, ht1⟩ := hso
        obtain ⟨t2, ht2⟩ := hst
        simp only [ht1, ht2, conflict_text_eq, hc, hres, if_true]
        exact ⟨⟨st.result, st.conflicts ++ [p], write_file_atomic st.fs (path_join root p)
          (spec_conflict_text (split_lines t1) (split_lines t2) giver_branch)⟩,
          rfl, rfl, fun _ _ => rfl, fun h => h⟩

theorem merge_loop_spec (rb : Str → Except String Str) (root giver_branch : Str)
    (baseM ours theirs : PathMap)
    (hB : digests_nonempty baseM) (hO : digests_nonempty ours) (hT : digests_nonempty theirs)
    (hread : ∀ p v, map_find ours p = some v ∨ map_find theirs p = some v →
      ∃ bytes, rb v = .ok bytes)
    (L : List Str) (hnd : L.Nodup) (st : MergeState) :
    ∃ st1, merge_loop rb root giver_branch baseM ours theirs L st = .ok st1
      ∧ st1.conflicts = st.conflicts ++ L.filter (is_conflict baseM ours theirs)
      ∧ (∀ q, q ∉ L → map_find st1.result q = map_find st.result q)
      ∧ (∀ q ∈ L, map_find st.result q = map_find ours q →
          map_find st1.result q = resolved baseM ours theirs q) := by
  induction L generalizing st with
  | nil => exact ⟨st, rfl, by simp, fun _ _ => rfl, fun q hq => absurd hq (List.not_mem_nil q)⟩
  | cons p ps ih =>
    rw [List.nodup_cons] at hnd
    obtain ⟨st1, h1, hc1, ho1, hp1⟩ :=
      merge_path_spec rb root giver_branch baseM ours theirs hB hO hT hread st p
    obtain ⟨st2, h2, hc2, ho2, hp2⟩ := ih hnd.2 st1
    refine ⟨st2, by simp only [merge_loop, h1, h2], ?_, ?_, ?_⟩
    · rw [hc2, hc1, List.filter_cons]
      split <;> simp
    · intro q hq
      have hqp : q ≠ p := fun e => hq (by rw [e]; exact List.mem_cons_self _ _)
      have hqps : q ∉ ps := fun e => hq (List.mem_cons_of_mem _ e)
      rw [ho2 q hqps, ho1 q hqp]
    · intro q hq hinit
      rcases List.mem_cons.mp hq with rfl | hq
      · rw [ho2 q hnd.1, hp1 hinit]
      · have hqp : q ≠ p := fun e => hnd.1 (by rw [← e]; exact hq)
        exact hp2 q hq (by rw [ho1 q hqp, hinit])

theorem blobs_readable_mem (rb : Str → Except String Str) (m : PathMap)
    (h : blobs_readable rb m = true) (p v : Str) (hf : map_find m p = some v) :
    ∃ bytes, rb v = .ok bytes := by
  unfold blobs_readable at h
  rw [List.all_eq_true] at h
  have := h _ (map_find_mem m p v hf)
  cases hrb : rb v with
  | ok bytes => exact ⟨bytes, rfl⟩
  | error e => simp [hrb] at this

/-- C8 (failing case): for `a = ["x", "x"]` and `b = []` the backtracking loop of
`myers_diff` reads `trace[1]` at index 5, outside its 5 elements, so `unified_diff` has no
defined result; the same happens for two empty sequences (`v[1]` of a 1-element vector). -/
theorem unified_diff_out_of_bounds :
    myers_diff [lit "x", lit "x"] [] = none
    ∧ unified_diff [lit "x", lit "x"] [] (lit "f.txt") = none
    ∧ unified_diff [] [] (lit "f.txt") = none := by
  decide

/-- C9: when every digest is non-empty and every blob of ours and theirs can be read, the
three-way step ends normally; for every path the map `result` holds ours' entry when ours
and theirs agree, theirs' entry (none when theirs has no entry) when only theirs differs from
base, ours' entry when only ours differs from base; and the conflict list holds exactly the
paths on which the three sides differ pairwise, in strictly ascending order. -/
theorem three_way_resolution (rb : Str → Except String Str) (root giver_branch : Str)
    (baseM ours theirs : PathMap) (fs : FS)
    (hB : digests_nonempty baseM) (hO : digests_nonempty ours) (hT : digests_nonempty theirs)
    (hrO : blobs_readable rb ours = true) (hrT : blobs_readable rb theirs = true) :
    ∃ st, three_way rb root giver_branch baseM ours theirs fs = .ok st
      ∧ (∀ p,
          (map_find ours p = map_find theirs p → map_find st.result p = map_find ours p)
          ∧ (map_find ours p ≠ map_find theirs p → map_find ours p = map_find baseM p →
              map_find st.result p = map_find theirs p)
          ∧ (map_find ours p ≠ map_find theirs p → map_find ours p ≠ map_find baseM p →
              map_find theirs p = map_find baseM p → map_find st.result p = map_find ours p))
      ∧ (∀ p, p ∈ st.conflicts ↔
          (map_find ours p ≠ map_find theirs p ∧ map_find ours p ≠ map_find baseM p
            ∧ map_find theirs p ≠ map_find baseM p))
      ∧ st.conflicts.Pairwise (fun p q => str_lt p q = true) := by
  have hread : ∀ p v, map_find ours p = some v ∨ map_find theirs p = some v →
      ∃ bytes, rb v = .ok bytes := by
    intro p v h
    rcases h with h | h
    · exact blobs_readable_mem rb ours hrO p v h
    · exact blobs_readable_mem rb theirs hrT p v h
  obtain ⟨st, hrun, hconf, hout, hin⟩ :=
    merge_loop_spec rb root giver_branch baseM ours theirs hB hO hT hread
      (all_paths ours theirs baseM) (all_paths_nodup ours theirs baseM) ⟨ours, [], fs⟩
  simp only [List.nil_append] at hconf
  have hres : ∀ p, map_find st.result p = resolved baseM ours theirs p := by
    intro p
    by_cases hp : p ∈ all_paths ours theirs baseM
    · exact hin p hp rfl
    · rw [hout p hp]
      rw [mem_all_paths] at hp
      simp only [not_or] at hp
      have h1 := (map_find_none_iff ours p).mpr hp.1
      have h2 := (map_find_none_iff theirs p).mpr hp.2.1
      simp only [resolved, h1, h2, if_true]
  refine ⟨st, hrun, ?_, ?_, ?_⟩
  · intro p
    rw [hres p]
    unfold resolved
    refine ⟨fun h => by rw [if_pos h], fun h1 h2 => by rw [if_neg h1, if_pos h2],
      fun h1 h2 _ => by rw [if_neg h1, if_neg h2]⟩
  · intro p
    rw [hconf, List.mem_filter, mem_all_paths]
    simp only [is_conflict, decide_eq_true_eq]
    constructor
    · exact fun h => h.2
    · intro h
      refine ⟨?_, h⟩
      by_contra hn
      simp only [not_or] at hn
      have h1 := (map_find_none_iff ours p).mpr hn.1
      have h2 := (map_find_none_iff theirs p).mpr hn.2.1
      exact h.1 (by rw [h1, h2])
  · rw [hconf]
    exact (all_paths_sorted ours theirs baseM).filter _

/-- C9 at a concrete input: the example trees. -/
theorem three_way_resolution_witness :
    ∃ st, three_way rbEx (lit "/repo") (lit "feature") baseEx oursEx theirsEx emptyFS = .ok st
      ∧ (∀ p,
          (map_find oursEx p = map_find theirsEx p → map_find st.result p = map_find oursEx p)
          ∧ (map_find oursEx p ≠ map_find theirsEx p → map_find oursEx p = map_find baseEx p →
              map_find st.result p = map_find theirsEx p)
          ∧ (map_find oursEx p ≠ map_find theirsEx p → map_find oursEx p ≠ map_find baseEx p →
              map_find theirsEx p = map_find baseEx p →
              map_find st.result p = map_find oursEx p))
      ∧ (∀ p, p ∈ st.conflicts ↔
          (map_find oursEx p ≠ map_find theirsEx p ∧ map_find oursEx p ≠ map_find baseEx p
            ∧ map_find theirsEx p ≠ map_find baseEx p))
      ∧ st.conflicts.Pairwise (fun p q => str_lt p q = true) :=
  three_way_resolution rbEx (lit "/repo") (lit "feature") baseEx oursEx theirsEx emptyFS
    (by unfold digests_nonempty; decide) (by unfold digests_nonempty; decide)
    (by unfold digests_nonempty; decide) (by decide) (by decide)

/-- C10: for a conflicted path (the digests of ours, theirs and base differ pairwise, an
absent side counting as the empty digest) whose sides have the texts `ours_txt` and
`theirs_txt` (empty for a side without the path), the loop body records the path as a
conflict and writes to `root/path` the text of the specification built from the lines of the
two texts: common prefix, `<<<<<<< HEAD`, ours' middle, `=======`, theirs' middle,
`>>>>>>> <giver>`, common suffix, every line followed by a newline. -/
theorem merge_path_conflict_text (rb : Str → Except String Str) (root giver_branch : Str)
    (baseM ours theirs : PathMap) (st : MergeState) (path ours_txt theirs_txt : Str)
    (h1 : get ours path ≠ get theirs path) (h2 : get ours path ≠ get baseM path)
    (h3 : get theirs path ≠ get baseM path)
    (ho : side_text rb (get ours path) = .ok ours_txt)
    (ht : side_text rb (get theirs path) = .ok theirs_txt) :
    ∃ st1, merge_path rb root giver_branch baseM ours theirs st path = .ok st1
      ∧ st1.fs (path_join root path)
          = some (spec_conflict_text (split_lines ours_txt) (split_lines theirs_txt) giver_branch)
      ∧ st1.conflicts = st.conflicts ++ [path]
      ∧ (get ours path = [] → split_lines ours_txt = [])
      ∧ (get theirs path = [] → split_lines theirs_txt = []) := by
  refine ⟨⟨st.result, st.conflicts ++ [path], write_file_atomic st.fs (path_join root path)
    (spec_conflict_text (split_lines ours_txt) (split_lines theirs_txt) giver_branch)⟩,
    ?_, ?_, rfl, ?_, ?_⟩
  · unfold merge_path
    simp only [h1, h2, h3, ho, ht, conflict_text_eq, if_false, false_and, ne_eq]
  · simp only [write_file_atomic, if_true]
  · intro he
    rw [he] at ho
    simp only [side_text, ne_eq, not_true_eq_false, if_false, Except.ok.injEq] at ho
    rw [← ho]
    rfl
  · intro he
    rw [he] at ht
    simp only [side_text, ne_eq, not_true_eq_false, if_false, Except.ok.injEq] at ht
    rw [← ht]
    rfl

/-- C10 at a concrete input: the path `f` of the example trees. -/
theorem merge_path_conflict_text_witness :
    ∃ st1, merge_path rbEx (lit "/repo") (lit "feature") baseEx oursEx theirsEx stateEx (lit "f")
        = .ok st1
      ∧ st1.fs (path_join (lit "/repo") (lit "f"))
          = some (spec_conflict_text (split_lines (lit "a\nmaster\nz\n"))
              (split_lines (lit "a\nfeature\nz\n")) (lit "feature"))
      ∧ st1.conflicts = stateEx.conflicts ++ [lit "f"]
      ∧ (get oursEx (lit "f") = [] → split_lines (lit "a\nmaster\nz\n") = [])
      ∧ (get theirsEx (lit "f") = [] → split_lines (lit "a\nfeature\nz\n") = []) :=
  merge_path_conflict_text rbEx (lit "/repo") (lit "feature") baseEx oursEx theirsEx stateEx
    (lit "f") (lit "a\nmaster\nz\n") (lit "a\nfeature\nz\n")
    (by decide) (by decide) (by decide) (by decide) (by decide)

/-- The conflict text of the specification on the example of its scenario S3. -/
theorem spec_conflict_text_example :
    spec_conflict_text (split_lines (lit "a\nmaster\nz\n")) (split_lines (lit "a\nfeature\nz\n"))
        (lit "feature")
      = lit "a\n<<<<<<< HEAD\nmaster\n=======\nfeature\n>>>>>>> feature\nz\n" := by
  decide

/-! ## Trees -/

theorem digitChar_octal (k : Nat) (hk : k < 8) :
    (Fin.ofNat (Nat.digitChar k).toNat : Fin 256).val = 48 + k := by
  interval_cases k <;> decide

theorem toDigitsCore_octal_loop (fuel : Nat) :
    ∀ (n : Nat) (ds : List Char), n < fuel → n < 4294967296 →
      octal_loop ((Nat.toDigitsCore 8 fuel n ds).map (fun c => (Fin.ofNat c.toNat : Fin 256))) 0
        = octal_loop (ds.map (fun c => (Fin.ofNat c.toNat : Fin 256))) n := by
  induction fuel with
  | zero => intro n ds h; omega
  | succ fuel ih =>
    intro n ds hn hb
    have hd := digitChar_octal (n % 8) (Nat.mod_lt _ (by norm_num))
    have hstep : ∀ v, v * 8 + n % 8 < 4294967296 →
        octal_loop ((Nat.digitChar (n % 8) :: ds).map (fun c => (Fin.ofNat c.toNat : Fin 256))) v
          = octal_loop (ds.map (fun c => (Fin.ofNat c.toNat : Fin 256))) (v * 8 + n % 8) := by
      intro v hv
      simp only [List.map_cons, octal_loop, hd]
      have h1 : ¬ (48 + n % 8 < 48 ∨ 55 < 48 + n % 8) := by omega
      rw [if_neg h1]
      have h2 : (v * 8 + (48 + n % 8 - 48)) % 4294967296 = v * 8 + n % 8 := by
        rw [Nat.mod_eq_of_lt] <;> omega
      rw [h2]
    simp only [Nat.toDigitsCore]
    split
    · rename_i h0
      have h3 := hstep 0 (by omega)
      have h4 : 0 * 8 + n % 8 = n := by omega
      rw [h4] at h3
      exact h3
    · rename_i h0
      rw [ih (n / 8) _ (by omega) (by omega), hstep (n / 8) (by omega)]
      have h4 : n / 8 * 8 + n % 8 = n := by omega
      rw [h4]

theorem ascii_octal_to_mode_mode_to_ascii_octal (m : Mode) :
    ascii_octal_to_mode (mode_to_ascii_octal m) = m := by
  unfold ascii_octal_to_mode mode_to_ascii_octal Nat.toDigits
  rw [toDigitsCore_octal_loop (m.val + 1) m.val [] (by omega) m.isLt]
  simp only [List.map_nil, octal_loop]
  apply Fin.ext
  simp only [Fin.ofNat, Fin.val_mk]
  exact Nat.mod_eq_of_lt m.isLt

theorem digitChar_ne_space (k : Nat) (hk : k < 8) :
    (Fin.ofNat (Nat.digitChar k).toNat : Fin 256) ≠ kSpace := by
  interval_cases k <;> decide

theorem toDigitsCore_no_space (fuel n : Nat) (ds : List Char)
    (hds : ∀ c ∈ ds, (Fin.ofNat c.toNat : Fin 256) ≠ kSpace) :
    ∀ c ∈ Nat.toDigitsCore 8 fuel n ds, (Fin.ofNat c.toNat : Fin 256) ≠ kSpace := by
  induction fuel generalizing n ds with
  | zero => simpa [Nat.toDigitsCore] using hds
  | succ fuel ih =>
    have hd : ∀ c ∈ Nat.digitChar (n % 8) :: ds, (Fin.ofNat c.toNat : Fin 256) ≠ kSpace := by
      intro c hc
      rcases List.mem_cons.mp hc with rfl | hc
      · exact digitChar_ne_space _ (Nat.mod_lt _ (by norm_num))
      · exact hds c hc
    simp only [Nat.toDigitsCore]
    split
    · exact hd
    · exact ih _ _ hd

theorem mode_to_ascii_octal_no_space (m : Mode) : kSpace ∉ mode_to_ascii_octal m := by
  unfold mode_to_ascii_octal Nat.toDigits
  intro h
  obtain ⟨c, hc, he⟩ := List.mem_map.mp h
  exact toDigitsCore_no_space _ _ [] (fun c hc => absurd hc (List.not_mem_nil c)) c hc he

theorem take_append_cons (l r : Str) (x : Byte) : (l ++ x :: r).take l.length = l := by
  induction l with
  | nil => simp
  | cons y ys ih => simp

/-- The parsing loop of `read_tree` inverts the serialisation loop of `write_tree` on
entries whose names contain no NUL, whatever the modes and the bytes of the ids. -/
theorem parse_tree_payload (l : List TreeEntry) (hnul : ∀ e ∈ l, kNul ∉ e.name) :
    ∀ fuel, l.length ≤ fuel → parse_tree fuel (tree_payload l) = .ok l := by
  induction l with
  | nil =>
    intro fuel _
    cases fuel with
    | zero => rfl
    | succ f => simp [parse_tree, tree_payload]
  | cons e rest ih =>
    intro fuel hf
    cases fuel with
    | zero => simp at hf
    | succ f =>
      have hrest := ih (fun x hx => hnul x (List.mem_cons_of_mem _ hx)) f (by simpa using hf)
      have hname : kNul ∉ e.name := hnul e (List.mem_cons_self _ _)
      have hsp : (tree_payload (e :: rest)).indexOf kSpace = (mode_to_ascii_octal e.mode).length :=
        indexOf_append_cons _ _ _ (mode_to_ascii_octal_no_space e.mode)
      have hlen : (tree_payload (e :: rest)).length
          = (mode_to_ascii_octal e.mode).length + 1 + (e.name.length + 1
              + (20 + (tree_payload rest).length)) := by
        simp only [tree_payload, List.length_append, List.length_cons, e.id.len]
        omega
      have htake : (tree_payload (e :: rest)).take (mode_to_ascii_octal e.mode).length
          = mode_to_ascii_octal e.mode := take_append_cons _ _ _
      have hdrop : (tree_payload (e :: rest)).drop ((mode_to_ascii_octal e.mode).length + 1)
          = e.name ++ kNul :: (e.id.bytes ++ tree_payload rest) := drop_append_cons _ _ _
      have hnl : (e.name ++ kNul :: (e.id.bytes ++ tree_payload rest)).indexOf kNul
          = e.name.length := indexOf_append_cons _ _ _ hname
      have hlen2 : (e.name ++ kNul :: (e.id.bytes ++ tree_payload rest)).length
          = e.name.length + 1 + (20 + (tree_payload rest).length) := by
        simp only [List.length_append, List.length_cons, e.id.len]
        omega
      have htake2 : (e.name ++ kNul :: (e.id.bytes ++ tree_payload rest)).take e.name.length
          = e.name := take_append_cons _ _ _
      have hdrop2 : (e.name ++ kNul :: (e.id.bytes ++ tree_payload rest)).drop (e.name.length + 1)
          = e.id.bytes ++ tree_payload rest := drop_append_cons _ _ _
      have hne : tree_payload (e :: rest) ≠ [] := by
        intro h
        have := congrArg List.length h
        rw [hlen] at this
        simp at this
      have h20 : (e.id.bytes ++ tree_payload rest).take 20 = e.id.bytes := by
        rw [← e.id.len]; exact List.take_left' rfl
      have hd20 : (e.id.bytes ++ tree_payload rest).drop 20 = tree_payload rest := by
        rw [← e.id.len]; exact List.drop_left' rfl
      have hl20 : ¬ (e.id.bytes ++ tree_payload rest).length < 20 := by
        simp only [List.length_append, e.id.len]; omega
      unfold parse_tree
      simp only [hne, if_false, hsp, htake, hdrop, hnl, htake2, hdrop2]
      have c1 : ¬ (mode_to_ascii_octal e.mode).length = (tree_payload (e :: rest)).length := by
        rw [hlen]; omega
      have c2 : ¬ e.name.length
          = (e.name ++ kNul :: (e.id.bytes ++ tree_payload rest)).length := by
        rw [hlen2]; omega
      simp only [c1, c2, if_false, dif_neg hl20, hd20, hrest,
        ascii_octal_to_mode_mode_to_ascii_octal]
      congr 2
      cases e with
      | mk mode name id =>
        cases id with
        | mk bytes len => simp only [TreeEntry.mk.injEq, Oid.mk.injEq, true_and]; exact h20
theorem tree_payload_length (l : List TreeEntry) : 22 * l.length ≤ (tree_payload l).length := by
  induction l with
  | nil => simp [tree_payload]
  | cons e rest ih =>
    simp only [tree_payload, List.length_append, List.length_cons, e.id.len]
    omega

/-- The bound on the iterations of `parse_tree` is never reached: any bound of at least the
number of bytes gives the same result. -/
theorem parse_tree_fuel (f1 : Nat) : ∀ (f2 : Nat) (data : Str), data.length ≤ f1 → data.length ≤ f2 →
    parse_tree f1 data = parse_tree f2 data := by
  induction f1 with
  | zero =>
    intro f2 data h1 _
    have hd : data = [] := List.length_eq_zero.mp (by omega)
    subst hd
    cases f2 <;> simp [parse_tree]
  | succ f1 ih =>
    intro f2 data h1 h2
    cases f2 with
    | zero =>
      have hd : data = [] := List.length_eq_zero.mp (by omega)
      subst hd
      simp [parse_tree]
    | succ f2 =>
      unfold parse_tree
      by_cases hd : data = []
      · simp only [hd, if_true]
      · have hpos : 0 < data.length := List.length_pos.mpr hd
        have hlen : (List.drop 20 (List.drop (List.indexOf kNul
            (List.drop (List.indexOf kSpace data + 1) data) + 1)
            (List.drop (List.indexOf kSpace data + 1) data))).length < data.length := by
          simp only [List.length_drop]
          omega
        have key := ih f2 _ (Nat.le_of_lt_succ (Nat.lt_of_lt_of_le hlen h1))
          (Nat.le_of_lt_succ (Nat.lt_of_lt_of_le hlen h2))
        simp only [hd, if_false, key]

theorem insert_entry_perm (e : TreeEntry) (l : List TreeEntry) :
    (insert_entry e l).Perm (e :: l) := by
  induction l with
  | nil => exact List.Perm.refl _
  | cons x rest ih =>
    simp only [insert_entry]
    split
    · exact (List.Perm.cons x ih).trans (List.Perm.swap e x rest)
    · exact List.Perm.refl _

theorem sort_entries_perm (l : List TreeEntry) : (sort_entries l).Perm l := by
  induction l with
  | nil => exact List.Perm.refl _
  | cons e rest ih => exact (insert_entry_perm e _).trans (List.Perm.cons e ih)

theorem insert_entry_sorted (e : TreeEntry) (l : List TreeEntry)
    (hs : l.Pairwise (fun a b => str_lt a.name b.name = true))
    (hne : ∀ x ∈ l, x.name ≠ e.name) :
    (insert_entry e l).Pairwise (fun a b => str_lt a.name b.name = true) := by
  induction l with
  | nil => simp [insert_entry]
  | cons x rest ih =>
    rw [List.pairwise_cons] at hs
    simp only [insert_entry]
    split
    · rename_i hlt
      rw [List.pairwise_cons]
      refine ⟨?_, ih hs.2 (fun y hy => hne y (List.mem_cons_of_mem _ hy))⟩
      intro y hy
      rcases List.mem_cons.mp ((insert_entry_perm e rest).subset hy) with rfl | hy
      · exact hlt
      · exact hs.1 y hy
    · rename_i hlt
      have hex : str_lt e.name x.name = true :=
        str_lt_total x.name e.name (hne x (List.mem_cons_self _ _)) (by simpa using hlt)
      rw [List.pairwise_cons]
      refine ⟨?_, List.pairwise_cons.mpr hs⟩
      intro y hy
      rcases List.mem_cons.mp hy with rfl | hy
      · exact hex
      · exact str_lt_trans _ _ _ hex (hs.1 y hy)

/-- With pairwise distinct names the sorted entries are in strictly ascending order of
name. -/
theorem sort_entries_sorted (l : List TreeEntry) (hnd : (l.map TreeEntry.name).Nodup) :
    (sort_entries l).Pairwise (fun a b => str_lt a.name b.name = true) := by
  induction l with
  | nil => simp [sort_entries]
  | cons e rest ih =>
    rw [List.map_cons, List.nodup_cons] at hnd
    apply insert_entry_sorted e _ (ih hnd.2)
    intro x hx heq
    exact hnd.1 (List.mem_map.mpr ⟨x, (sort_entries_perm rest).subset hx, heq⟩)

theorem sort_entries_perm_eq (l l2 : List TreeEntry) (hnd : (l.map TreeEntry.name).Nodup)
    (hp : l.Perm l2) : sort_entries l2 = sort_entries l := by
  have hnd2 : (l2.map TreeEntry.name).Nodup := (hp.map TreeEntry.name).nodup_iff.mp hnd
  haveI : IsAntisymm TreeEntry (fun a b => str_lt a.name b.name = true) :=
    ⟨fun a b h1 h2 => by
      have h3 := str_lt_trans _ _ _ h1 h2
      rw [str_lt_irrefl] at h3
      exact absurd h3 (by simp)⟩
  exact List.eq_of_perm_of_sorted
    (((sort_entries_perm l2).trans hp.symm).trans (sort_entries_perm l).symm)
    (sort_entries_sorted l2 hnd2) (sort_entries_sorted l hnd)

/-- C13: for a list of tree entries with pairwise distinct names and a permutation of it,
`write_tree` sorts both into the same sequence, so it builds the same payload bytes, returns
the same digest and leaves the same file system. -/
theorem write_tree_permutation (z : Zlib) (sha1 : Str → Oid) (gitdir : Str) (fs : FS)
    (entries shuffled : List TreeEntry) (hnd : (entries.map TreeEntry.name).Nodup)
    (hp : entries.Perm shuffled) :
    tree_payload (sort_entries shuffled) = tree_payload (sort_entries entries)
    ∧ (write_tree z sha1 gitdir fs shuffled).1 = (write_tree z sha1 gitdir fs entries).1
    ∧ write_tree z sha1 gitdir fs shuffled = write_tree z sha1 gitdir fs entries := by
  have h := sort_entries_perm_eq entries shuffled hnd hp
  unfold write_tree
  rw [h]
  exact ⟨rfl, rfl, rfl⟩

/-- C13 at a concrete input: the entries `b`, `a.txt` and the same entries in the other
order. -/
theorem write_tree_permutation_witness :
    tree_payload (sort_entries
        [⟨kModeFile, lit "a.txt", ⟨List.replicate 20 1, rfl⟩⟩,
          ⟨kModeTree, lit "b", ⟨List.replicate 20 2, rfl⟩⟩])
      = tree_payload (sort_entries
        [⟨kModeTree, lit "b", ⟨List.replicate 20 2, rfl⟩⟩,
          ⟨kModeFile, lit "a.txt", ⟨List.replicate 20 1, rfl⟩⟩])
    ∧ (write_tree rleZlib zeroSha1 (lit ".gitfly") emptyFS
        [⟨kModeFile, lit "a.txt", ⟨List.replicate 20 1, rfl⟩⟩,
          ⟨kModeTree, lit "b", ⟨List.replicate 20 2, rfl⟩⟩]).1
      = (write_tree rleZlib zeroSha1 (lit ".gitfly") emptyFS
        [⟨kModeTree, lit "b", ⟨List.replicate 20 2, rfl⟩⟩,
          ⟨kModeFile, lit "a.txt", ⟨List.replicate 20 1, rfl⟩⟩]).1
    ∧ write_tree rleZlib zeroSha1 (lit ".gitfly") emptyFS
        [⟨kModeFile, lit "a.txt", ⟨List.replicate 20 1, rfl⟩⟩,
          ⟨kModeTree, lit "b", ⟨List.replicate 20 2, rfl⟩⟩]
      = write_tree rleZlib zeroSha1 (lit ".gitfly") emptyFS
        [⟨kModeTree, lit "b", ⟨List.replicate 20 2, rfl⟩⟩,
          ⟨kModeFile, lit "a.txt", ⟨List.replicate 20 1, rfl⟩⟩] :=
  write_tree_permutation rleZlib zeroSha1 (lit ".gitfly") emptyFS
    [⟨kModeTree, lit "b", ⟨List.replicate 20 2, rfl⟩⟩,
      ⟨kModeFile, lit "a.txt", ⟨List.replicate 20 1, rfl⟩⟩]
    [⟨kModeFile, lit "a.txt", ⟨List.replicate 20 1, rfl⟩⟩,
      ⟨kModeTree, lit "b", ⟨List.replicate 20 2, rfl⟩⟩]
    (by decide) (List.Perm.swap _ _ _)
/-- Reading an object whose file holds the deflated framed bytes, when the buffer growth of
`z_decompress` is enough. -/
theorem read_of_file (z : Zlib) (gitdir : Str) (fs : FS) (oid : Oid) (type payload : Str)
    (htype : kSpace ∉ type)
    (hfile : fs (path_for_oid gitdir oid)
      = some (z.deflate (object_header type payload.length ++ payload)))
    (hfit : (object_header type payload.length ++ payload).length
      ≤ 32 * max ((z.deflate (object_header type payload.length ++ payload)).length * 3) 64) :
    ObjectStore.read z gitdir fs (to_hex oid) = .ok ⟨type, payload⟩ := by
  unfold ObjectStore.read
  simp only [from_hex_to_hex, read_file, hfile, z_decompress_deflate z _ hfit]
  have hstore : object_header type payload.length ++ payload
      = type ++ kSpace :: (to_string payload.length ++ kNul :: payload) := by
    simp [object_header]
  have hsp : (object_header type payload.length ++ payload).indexOf kSpace = type.length := by
    rw [hstore]
    exact indexOf_append_cons _ _ _ htype
  have hdrop : (object_header type payload.length ++ payload).drop (type.length + 1)
      = to_string payload.length ++ kNul :: payload := by
    rw [hstore]
    simp
  have hnul : (to_string payload.length ++ kNul :: payload).indexOf kNul
      = (to_string payload.length).length :=
    indexOf_append_cons _ _ _ (to_string_no_nul _)
  have hlen : (object_header type payload.length ++ payload).length
      = type.length + 1 + (to_string payload.length).length + 1 + payload.length := by
    rw [hstore]
    simp only [List.length_append, List.length_cons]
    omega
  simp only [hsp, hdrop, hnul]
  have hc : ¬ (type.length = (object_header type payload.length ++ payload).length
      ∨ (object_header type payload.length ++ payload).length
          ≤ type.length + 1 + (to_string payload.length).length) := by
    rw [hlen]
    omega
  rw [if_neg hc]
  have e1 : (object_header type payload.length ++ payload).take type.length = type := by
    rw [hstore]
    simp
  have e2 : (object_header type payload.length ++ payload).drop
      (type.length + 1 + (to_string payload.length).length + 1) = payload := by
    have h := drop_append_cons (to_string payload.length) payload kNul
    rw [← hdrop, List.drop_drop] at h
    have h1 : type.length + 1 + (to_string payload.length).length + 1
        = type.length + 1 + ((to_string payload.length).length + 1) := by omega
    rw [h1]
    exact h
  rw [e1, e2]

/-- Reading an object whose file holds deflated framed bytes that are longer than the
largest buffer `z_decompress` tries. -/
theorem read_of_file_overflow (z : Zlib) (gitdir : Str) (fs : FS) (oid : Oid) (store : Str)
    (hfile : fs (path_for_oid gitdir oid) = some (z.deflate store))
    (hbig : 32 * max ((z.deflate store).length * 3) 64 < store.length) :
    ObjectStore.read z gitdir fs (to_hex oid) = .error "zlib uncompress overflow" := by
  unfold ObjectStore.read
  simp only [from_hex_to_hex, read_file, hfile, z_decompress_overflow z _ hbig]

/-- The file of an object after `ObjectStore::write`, when it was absent or already held
the same bytes. -/
theorem write_file_present (z : Zlib) (sha1 : Str → Oid) (gitdir : Str) (fs : FS)
    (type payload : Str)
    (hfile : fs (path_for_oid gitdir (sha1 (object_header type payload.length ++ payload))) = none
      ∨ fs (path_for_oid gitdir (sha1 (object_header type payload.length ++ payload)))
          = some (z.deflate (object_header type payload.length ++ payload))) :
    (ObjectStore.write z sha1 gitdir fs type payload).2
        (path_for_oid gitdir (sha1 (object_header type payload.length ++ payload)))
      = some (z.deflate (object_header type payload.length ++ payload)) := by
  rcases hfile with h | h
  · exact write_fresh_file z sha1 gitdir fs type payload h
  · unfold ObjectStore.write
    simp only [h, Option.isSome_some, if_true]

theorem rle_enc_le (s : Str) : (rle_enc s).length ≤ 2 * s.length := by
  have h := rle_enc_append_le s []
  rw [List.append_nil] at h
  have h5 : (rle_enc []).length = 0 := rfl
  omega

/-- The run-length codec on a long run between two short parts: the six buffer sizes of
`z_decompress` are all too small. -/
theorem rle_run_overflow (pre run suf : Str) (n : Nat) (c : Byte)
    (hrun : run = List.replicate n c)
    (hn : 48705 * (pre.length + suf.length) + 48960 < 63 * n) (hn2 : 2048 < n) :
    32 * max ((rleZlib.deflate (pre ++ (run ++ suf))).length * 3) 64
      < (pre ++ (run ++ suf)).length := by
  have h1 := rle_enc_append_le pre (run ++ suf)
  have h2 := rle_enc_replicate_append n (by omega) c suf
  rw [← hrun] at h2
  have h3 := rle_enc_le suf
  have h4 : rleZlib.deflate = rle_enc := rfl
  have h5 : run.length = n := by rw [hrun, List.length_replicate]
  rw [h4]
  simp only [List.length_append, h5]
  omega

/-- Round trip of a tree when the buffer growth of `z_decompress` is enough: for entries
with NUL-free names, an object file that is absent or holds the same tree, and a framed tree
of at most 32 * max(3 * compressed size, 64) bytes, `read_tree(write_tree(entries))` is the
list of the entries sorted by name. -/
theorem read_tree_write_tree_fits (z : Zlib) (sha1 : Str → Oid) (gitdir : Str) (fs : FS)
    (entries : List TreeEntry) (hnul : ∀ e ∈ entries, kNul ∉ e.name)
    (hfile : fs (path_for_oid gitdir (sha1 (object_header kTypeTree
          (tree_payload (sort_entries entries)).length ++ tree_payload (sort_entries entries))))
        = none
      ∨ fs (path_for_oid gitdir (sha1 (object_header kTypeTree
          (tree_payload (sort_entries entries)).length ++ tree_payload (sort_entries entries))))
        = some (z.deflate (object_header kTypeTree
          (tree_payload (sort_entries entries)).length ++ tree_payload (sort_entries entries))))
    (hfit : (object_header kTypeTree (tree_payload (sort_entries entries)).length
        ++ tree_payload (sort_entries entries)).length
      ≤ 32 * max ((z.deflate (object_header kTypeTree
          (tree_payload (sort_entries entries)).length
            ++ tree_payload (sort_entries entries))).length * 3) 64) :
    read_tree z gitdir (write_tree z sha1 gitdir fs entries).2
        (write_tree z sha1 gitdir fs entries).1
      = .ok (sort_entries entries) := by
  unfold read_tree write_tree
  rw [write_fst, read_of_file z gitdir _ _ kTypeTree _ (by decide)
    (write_file_present z sha1 gitdir fs kTypeTree _ hfile) hfit]
  simp only [ne_eq, not_true_eq_false, if_false]
  have hn : ∀ e ∈ sort_entries entries, kNul ∉ e.name :=
    fun e he => hnul e ((sort_entries_perm entries).subset he)
  exact parse_tree_payload _ hn _
    (by have := tree_payload_length (sort_entries entries); omega)

/-- C14 (failing case): when the tree file does not exist yet and the framed tree is more
than 32 * max(3 * compressed size, 64) bytes long, `read_tree(write_tree(entries))` throws
"zlib uncompress overflow" instead of returning the entries. -/
theorem read_tree_write_tree_overflow (z : Zlib) (sha1 : Str → Oid) (gitdir : Str) (fs : FS)
    (entries : List TreeEntry)
    (hfresh : fs (path_for_oid gitdir (sha1 (object_header kTypeTree
        (tree_payload (sort_entries entries)).length ++ tree_payload (sort_entries entries))))
      = none)
    (hbig : 32 * max ((z.deflate (object_header kTypeTree
          (tree_payload (sort_entries entries)).length
            ++ tree_payload (sort_entries entries))).length * 3) 64
      < (object_header kTypeTree (tree_payload (sort_entries entries)).length
        ++ tree_payload (sort_entries entries)).length) :
    read_tree z gitdir (write_tree z sha1 gitdir fs entries).2
        (write_tree z sha1 gitdir fs entries).1
      = .error "zlib uncompress overflow" := by
  unfold read_tree write_tree
  rw [read_after_write_overflow z sha1 gitdir fs kTypeTree _ hfresh hbig]

theorem tree_overflow_example (name : Str) (hname : name = List.replicate 100000 97) :
    32 * max ((rleZlib.deflate (object_header kTypeTree
          (tree_payload (sort_entries [⟨kModeFile, name, ⟨List.replicate 20 0, rfl⟩⟩])).length
            ++ tree_payload (sort_entries
              [⟨kModeFile, name, ⟨List.replicate 20 0, rfl⟩⟩]))).length * 3) 64
      < (object_header kTypeTree
          (tree_payload (sort_entries [⟨kModeFile, name, ⟨List.replicate 20 0, rfl⟩⟩])).length
        ++ tree_payload (sort_entries [⟨kModeFile, name, ⟨List.replicate 20 0, rfl⟩⟩])).length := by
  have hlen : name.length = 100000 := by rw [hname, List.length_replicate]
  have hm : mode_to_ascii_octal kModeFile = lit "100644" := by decide
  have hp : tree_payload (sort_entries [⟨kModeFile, name, ⟨List.replicate 20 0, rfl⟩⟩])
      = lit "100644 " ++ (name ++ kNul :: List.replicate 20 0) := by
    simp only [sort_entries, insert_entry, tree_payload, hm, List.append_nil]
    rfl
  have hl : (lit "100644 " ++ (name ++ kNul :: List.replicate 20 0)).length = 100028 := by
    simp only [List.length_append, List.length_cons, List.length_replicate, hlen]
    rfl
  rw [hp, hl]
  have hsh : object_header kTypeTree 100028 ++ (lit "100644 " ++ (name ++ kNul :: List.replicate 20 0))
      = (object_header kTypeTree 100028 ++ lit "100644 ")
        ++ (name ++ kNul :: List.replicate 20 0) := by
    rw [List.append_assoc]
  rw [hsh]
  have h1 : (object_header kTypeTree 100028 ++ lit "100644 ").length = 19 := by decide
  have h2 : (kNul :: List.replicate 20 (0 : Byte)).length = 21 := by decide
  exact rle_run_overflow _ name _ 100000 97 hname (by rw [h1, h2]; norm_num) (by norm_num)

/-- C14 at a concrete input: with the run-length codec in place of zlib and an empty store,
writing the tree of one entry whose name is 100000 bytes `a` and reading it back throws. -/
theorem read_tree_write_tree_overflow_witness :
    read_tree rleZlib (lit ".gitfly")
        (write_tree rleZlib zeroSha1 (lit ".gitfly") emptyFS
          [⟨kModeFile, List.replicate 100000 97, ⟨List.replicate 20 0, rfl⟩⟩]).2
        (write_tree rleZlib zeroSha1 (lit ".gitfly") emptyFS
          [⟨kModeFile, List.replicate 100000 97, ⟨List.replicate 20 0, rfl⟩⟩]).1
      = .error "zlib uncompress overflow" :=
  read_tree_write_tree_overflow rleZlib zeroSha1 (lit ".gitfly") emptyFS
    [⟨kModeFile, List.replicate 100000 97, ⟨List.replicate 20 0, rfl⟩⟩] rfl
    (tree_overflow_example (List.replicate 100000 97) rfl)

/-! ## Commits -/

theorem parse_commit_line (line : Str) (hline : kLF ∉ line) :
    ∀ (rest cur : Str) (info : CommitInfo),
      parse_commit (line ++ rest) cur info = parse_commit rest (cur ++ line) info := by
  induction line with
  | nil => intro rest cur info; simp
  | cons c cs ih =>
    intro rest cur info
    have hc : ¬ c = kLF := fun e => hline (by rw [e]; exact List.mem_cons_self _ _)
    have hcs : kLF ∉ cs := fun e => hline (List.mem_cons_of_mem _ e)
    rw [List.cons_append, parse_commit]
    simp only [hc, if_false]
    rw [ih hcs]
    simp

theorem parse_commit_header (line : Str) (hline : kLF ∉ line) (hne : line ≠ [])
    (rest : Str) (info : CommitInfo) :
    parse_commit (line ++ kLF :: rest) [] info = parse_commit rest [] (header_line info line) := by
  rw [parse_commit_line line hline, List.nil_append, parse_commit]
  simp only [hne, if_true, if_false]

theorem header_line_tree (info : CommitInfo) (t : Str) (ht : t.length = 40) :
    header_line info (kTreePrefix ++ t)
      = ⟨t, info.parents, info.author, info.committer, info.message⟩ := by
  have h1 : starts_with kTreePrefix (kTreePrefix ++ t) = true := by
    simp [starts_with]
  have h2 : ((kTreePrefix ++ t).drop kTreePrefix.length).take 40 = t := by
    rw [List.drop_left, ← ht, List.take_length]
  simp only [header_line, h1, if_true, h2]

theorem header_line_parent (info : CommitInfo) (p : Str) (hp : p.length = 40) :
    header_line info (kParentPrefix ++ p)
      = ⟨info.tree_hex, info.parents ++ [p], info.author, info.committer, info.message⟩ := by
  have h0 : starts_with kTreePrefix (kParentPrefix ++ p) = false := by
    have e : kParentPrefix = [112, 97, 114, 101, 110, 116, 32] := by decide
    have e2 : kTreePrefix = [116, 114, 101, 101, 32] := by decide
    rw [e, e2]
    simp [starts_with]
  have h1 : starts_with kParentPrefix (kParentPrefix ++ p) = true := by
    simp [starts_with]
  have h2 : ((kParentPrefix ++ p).drop kParentPrefix.length).take 40 = p := by
    rw [List.drop_left, ← hp, List.take_length]
  simp only [header_line, h0, h1, if_true, if_false, h2, Bool.false_eq_true]

theorem header_line_author (info : CommitInfo) (a : Str) :
    header_line info (kAuthorPrefix ++ a)
      = ⟨info.tree_hex, info.parents, a, info.committer, info.message⟩ := by
  have e : kAuthorPrefix = [97, 117, 116, 104, 111, 114, 32] := by decide
  have h0 : starts_with kTreePrefix (kAuthorPrefix ++ a) = false := by
    have e2 : kTreePrefix = [116, 114, 101, 101, 32] := by decide
    rw [e, e2]
    simp [starts_with]
  have h00 : starts_with kParentPrefix (kAuthorPrefix ++ a) = false := by
    have e2 : kParentPrefix = [112, 97, 114, 101, 110, 116, 32] := by decide
    rw [e, e2]
    simp [starts_with]
  have h1 : starts_with kAuthorPrefix (kAuthorPrefix ++ a) = true := by
    simp [starts_with]
  have h2 : (kAuthorPrefix ++ a).drop kAuthorPrefix.length = a := List.drop_left _ _
  simp only [header_line, h0, h00, h1, if_true, if_false, h2, Bool.false_eq_true]

theorem header_line_committer (info : CommitInfo) (c : Str) :
    header_line info (kCommitterPrefix ++ c)
      = ⟨info.tree_hex, info.parents, info.author, c, info.message⟩ := by
  have e : kCommitterPrefix = [99, 111, 109, 109, 105, 116, 116, 101, 114, 32] := by decide
  have h0 : starts_with kTreePrefix (kCommitterPrefix ++ c) = false := by
    have e2 : kTreePrefix = [116, 114, 101, 101, 32] := by decide
    rw [e, e2]
    simp [starts_with]
  have h00 : starts_with kParentPrefix (kCommitterPrefix ++ c) = false := by
    have e2 : kParentPrefix = [112, 97, 114, 101, 110, 116, 32] := by decide
    rw [e, e2]
    simp [starts_with]
  have h000 : starts_with kAuthorPrefix (kCommitterPrefix ++ c) = false := by
    have e2 : kAuthorPrefix = [97, 117, 116, 104, 111, 114, 32] := by decide
    rw [e, e2]
    simp [starts_with]
  have h1 : starts_with kCommitterPrefix (kCommitterPrefix ++ c) = true := by
    simp [starts_with]
  have h2 : (kCommitterPrefix ++ c).drop kCommitterPrefix.length = c := List.drop_left _ _
  simp only [header_line, h0, h00, h000, h1, if_true, if_false, h2, Bool.false_eq_true]

theorem isxdigit_ne_lf (c : Byte) (h : isxdigit c = true) : c ≠ kLF := by
  intro e
  rw [e] at h
  exact absurd h (by decide)

theorem looks_hex40_length (s : Str) (h : looks_hex40 s = true) : s.length = 40 := by
  unfold looks_hex40 at h
  by_contra hne
  simp [hne] at h

theorem looks_hex40_no_lf (s : Str) (h : looks_hex40 s = true) : kLF ∉ s := by
  unfold looks_hex40 at h
  have hl := looks_hex40_length s h
  simp only [hl, ne_eq, not_true_eq_false, if_false, List.all_eq_true] at h
  intro hm
  exact isxdigit_ne_lf _ (h _ hm) rfl

theorem prefix_append_no_lf (pre s : Str) (hpre : kLF ∉ pre) (hs : kLF ∉ s) : kLF ∉ pre ++ s := by
  intro h
  rcases List.mem_append.mp h with h | h
  · exact hpre h
  · exact hs h

theorem parse_commit_parents (ps : List Str) (hps : ∀ p ∈ ps, looks_hex40 p = true) :
    ∀ (rest : Str) (info : CommitInfo),
      parse_commit (parent_lines ps ++ rest) [] info
        = parse_commit rest [] ⟨info.tree_hex, info.parents ++ ps, info.author, info.committer,
            info.message⟩ := by
  induction ps with
  | nil => intro rest info; simp [parent_lines]
  | cons p ps ih =>
    intro rest info
    have hp := hps p (List.mem_cons_self _ _)
    have hline : kLF ∉ kParentPrefix ++ p :=
      prefix_append_no_lf _ _ (by decide) (looks_hex40_no_lf p hp)
    have hne : kParentPrefix ++ p ≠ [] := by
      have e : kParentPrefix = [112, 97, 114, 101, 110, 116, 32] := by decide
      rw [e]; simp
    simp only [parent_lines, List.cons_append, List.append_assoc]
    rw [← List.append_assoc, parse_commit_header _ hline hne,
      header_line_parent _ _ (looks_hex40_length p hp),
      ih (fun q hq => hps q (List.mem_cons_of_mem _ hq))]
    simp

/-- The parsing loop of `read_commit` inverts the text that `write_commit` builds. -/
theorem parse_commit_text (t : Str) (ps : List Str) (a c m : Str)
    (ht : looks_hex40 t = true) (hps : ∀ p ∈ ps, looks_hex40 p = true)
    (ha : kLF ∉ a) (hc : kLF ∉ c) :
    parse_commit (commit_text t ps a c m) [] ⟨[], [], [], [], []⟩ = ⟨t, ps, a, c, m⟩ := by
  have h1 : kLF ∉ kTreePrefix ++ t := prefix_append_no_lf _ _ (by decide) (looks_hex40_no_lf t ht)
  have h1n : kTreePrefix ++ t ≠ [] := by
    have e : kTreePrefix = [116, 114, 101, 101, 32] := by decide
    rw [e]; simp
  have h2 : kLF ∉ kAuthorPrefix ++ a := prefix_append_no_lf _ _ (by decide) ha
  have h2n : kAuthorPrefix ++ a ≠ [] := by
    have e : kAuthorPrefix = [97, 117, 116, 104, 111, 114, 32] := by decide
    rw [e]; simp
  have h3 : kLF ∉ kCommitterPrefix ++ c := prefix_append_no_lf _ _ (by decide) hc
  have h3n : kCommitterPrefix ++ c ≠ [] := by
    have e : kCommitterPrefix = [99, 111, 109, 109, 105, 116, 116, 101, 114, 32] := by decide
    rw [e]; simp
  unfold commit_text
  rw [parse_commit_header _ h1 h1n, header_line_tree _ _ (looks_hex40_length t ht),
    parse_commit_parents ps hps, parse_commit_header _ h2 h2n, header_line_author,
    parse_commit_header _ h3 h3n, header_line_committer, parse_commit]
  simp

/-- Round trip of a commit when the buffer growth of `z_decompress` is enough: for a 40-hex
tree id, 40-hex parent ids, author and committer lines without a newline, an object file that
is absent or holds the same commit and a framed commit of at most
32 * max(3 * compressed size, 64) bytes, `read_commit(write_commit(...))` returns the five
fields, the message verbatim. -/
theorem read_commit_write_commit_fits (z : Zlib) (sha1 : Str → Oid) (gitdir : Str) (fs : FS)
    (t : Str) (ps : List Str) (a c m : Str)
    (ht : looks_hex40 t = true) (hps : ∀ p ∈ ps, looks_hex40 p = true)
    (ha : kLF ∉ a) (hc : kLF ∉ c)
    (hfile : fs (path_for_oid gitdir (sha1 (object_header kTypeCommit
          (commit_text t ps a c m).length ++ commit_text t ps a c m))) = none
      ∨ fs (path_for_oid gitdir (sha1 (object_header kTypeCommit
          (commit_text t ps a c m).length ++ commit_text t ps a c m)))
        = some (z.deflate (object_header kTypeCommit
          (commit_text t ps a c m).length ++ commit_text t ps a c m)))
    (hfit : (object_header kTypeCommit (commit_text t ps a c m).length
        ++ commit_text t ps a c m).length
      ≤ 32 * max ((z.deflate (object_header kTypeCommit (commit_text t ps a c m).length
          ++ commit_text t ps a c m)).length * 3) 64) :
    read_commit z gitdir (write_commit z sha1 gitdir fs t ps a c m).2
        (write_commit z sha1 gitdir fs t ps a c m).1
      = .ok ⟨t, ps, a, c, m⟩ := by
  unfold read_commit write_commit
  rw [write_fst, read_of_file z gitdir _ _ kTypeCommit _ (by decide)
    (write_file_present z sha1 gitdir fs kTypeCommit _ hfile) hfit]
  simp only [ne_eq, not_true_eq_false, if_false, parse_commit_text t ps a c m ht hps ha hc]

/-- C16 (failing case): when the commit file does not exist yet and the framed commit is
more than 32 * max(3 * compressed size, 64) bytes long, `read_commit(write_commit(...))`
throws "zlib uncompress overflow" instead of returning the fields. -/
theorem read_commit_write_commit_overflow (z : Zlib) (sha1 : Str → Oid) (gitdir : Str) (fs : FS)
    (t : Str) (ps : List Str) (a c m : Str)
    (hfresh : fs (path_for_oid gitdir (sha1 (object_header kTypeCommit
        (commit_text t ps a c m).length ++ commit_text t ps a c m))) = none)
    (hbig : 32 * max ((z.deflate (object_header kTypeCommit (commit_text t ps a c m).length
          ++ commit_text t ps a c m)).length * 3) 64
      < (object_header kTypeCommit (commit_text t ps a c m).length
        ++ commit_text t ps a c m).length) :
    read_commit z gitdir (write_commit z sha1 gitdir fs t ps a c m).2
        (write_commit z sha1 gitdir fs t ps a c m).1
      = .error "zlib uncompress overflow" := by
  unfold read_commit write_commit
  rw [read_after_write_overflow z sha1 gitdir fs kTypeCommit _ hfresh hbig]

theorem commit_overflow_example (m : Str) (hm : m = List.replicate 200000 97) :
    32 * max ((rleZlib.deflate (object_header kTypeCommit
          (commit_text (List.replicate 40 97) [] (lit "A <a@b> 0 +0000")
            (lit "A <a@b> 0 +0000") m).length
          ++ commit_text (List.replicate 40 97) [] (lit "A <a@b> 0 +0000")
            (lit "A <a@b> 0 +0000") m)).length * 3) 64
      < (object_header kTypeCommit
          (commit_text (List.replicate 40 97) [] (lit "A <a@b> 0 +0000")
            (lit "A <a@b> 0 +0000") m).length
          ++ commit_text (List.replicate 40 97) [] (lit "A <a@b> 0 +0000")
            (lit "A <a@b> 0 +0000") m).length := by
  have hlen : m.length = 200000 := by rw [hm, List.length_replicate]
  have hp : commit_text (List.replicate 40 97) [] (lit "A <a@b> 0 +0000")
      (lit "A <a@b> 0 +0000") m
      = commit_text (List.replicate 40 97) [] (lit "A <a@b> 0 +0000")
          (lit "A <a@b> 0 +0000") [] ++ (m ++ []) := by
    simp [commit_text]
  have hl0 : (commit_text (List.replicate 40 97) [] (lit "A <a@b> 0 +0000")
      (lit "A <a@b> 0 +0000") []).length = 96 := by decide
  rw [hp]
  have hl : (commit_text (List.replicate 40 97) [] (lit "A <a@b> 0 +0000")
      (lit "A <a@b> 0 +0000") [] ++ (m ++ [])).length = 200096 := by
    rw [List.length_append, hl0, List.append_nil, hlen]
  rw [hl, ← List.append_assoc]
  have h1 : (object_header kTypeCommit 200096
      ++ commit_text (List.replicate 40 97) [] (lit "A <a@b> 0 +0000")
        (lit "A <a@b> 0 +0000") []).length = 110 := by decide
  exact rle_run_overflow _ m [] 200000 97 hm (by rw [h1]; norm_num) (by norm_num)

/-- C16 at a concrete input: with the run-length codec in place of zlib and an empty store,
writing a commit whose message is 200000 bytes `a` and reading it back throws. -/
theorem read_commit_write_commit_overflow_witness :
    read_commit rleZlib (lit ".gitfly")
        (write_commit rleZlib zeroSha1 (lit ".gitfly") emptyFS (List.replicate 40 97) []
          (lit "A <a@b> 0 +0000") (lit "A <a@b> 0 +0000") (List.replicate 200000 97)).2
        (write_commit rleZlib zeroSha1 (lit ".gitfly") emptyFS (List.replicate 40 97) []
          (lit "A <a@b> 0 +0000") (lit "A <a@b> 0 +0000") (List.replicate 200000 97)).1
      = .error "zlib uncompress overflow" :=
  read_commit_write_commit_overflow rleZlib zeroSha1 (lit ".gitfly") emptyFS
    (List.replicate 40 97) [] (lit "A <a@b> 0 +0000") (lit "A <a@b> 0 +0000")
    (List.replicate 200000 97) rfl (commit_overflow_example (List.replicate 200000 97) rfl)

/-! ## Paths of the control directory -/

theorem path_join_eq (a b : Str) (ha : a ≠ []) (ha2 : a.getLast? ≠ some kSlash)
    (hb : b.head? ≠ some kSlash) : path_join a b = a ++ kSlash :: b := by
  unfold path_join
  rw [if_neg hb, if_neg (by tauto)]

theorem git_dir_ne_nil (root : Str) : git_dir root ≠ [] := by
  unfold git_dir path_join kGitDir
  have h : (lit ".gitfly").head? ≠ some kSlash := by decide
  rw [if_neg h]
  split
  · intro e
    have := congrArg List.length e
    have h2 : (lit ".gitfly").length = 7 := by decide
    rw [List.length_append, h2, List.length_nil] at this
    omega
  · intro e
    have := congrArg List.length e
    simp at this

theorem git_dir_last (root : Str) : (git_dir root).getLast? ≠ some kSlash := by
  unfold git_dir path_join kGitDir
  have h : (lit ".gitfly").head? ≠ some kSlash := by decide
  have e : lit ".gitfly" = [46, 103, 105, 116, 102, 108, 121] := by decide
  rw [if_neg h]
  split
  · rw [e, List.getLast?_append]
    simp
    decide
  · have e2 : root ++ kSlash :: lit ".gitfly" = (root ++ [kSlash]) ++ lit ".gitfly" := by simp
    rw [e2, e, List.getLast?_append]
    simp
    decide

theorem kHex_ne_slash (n : Nat) (h : n < 16) : kHex n ≠ kSlash := by
  interval_cases n <;> decide

theorem hex_of_bytes_no_slash (l : List Byte) : kSlash ∉ hex_of_bytes l := by
  induction l with
  | nil => simp [hex_of_bytes]
  | cons b rest ih =>
    simp only [hex_of_bytes, List.mem_cons, not_or]
    exact ⟨fun e => kHex_ne_slash _ (Nat.mod_lt _ (by norm_num)) e.symm,
      fun e => kHex_ne_slash _ (Nat.mod_lt _ (by norm_num)) e.symm, ih⟩

theorem to_hex_cons (id : Oid) : ∃ (a b : Byte) (rest : Str), to_hex id = a :: b :: rest
    ∧ a ≠ kSlash ∧ b ≠ kSlash ∧ rest.head? ≠ some kSlash ∧ rest.length = 38 := by
  have hl := to_hex_length id
  have hs : kSlash ∉ to_hex id := hex_of_bytes_no_slash _
  match h : to_hex id with
  | [] => rw [h] at hl; simp at hl
  | [_] => rw [h] at hl; simp at hl
  | a :: b :: rest =>
    rw [h] at hl hs
    simp only [List.mem_cons, not_or] at hs
    refine ⟨a, b, rest, rfl, fun e => hs.1 e.symm, fun e => hs.2.1 e.symm, ?_, by simpa using hl⟩
    cases rest with
    | nil => simp
    | cons c cs =>
      simp only [List.head?_cons, ne_eq, Option.some.injEq]
      intro e
      exact hs.2.2 (by rw [e]; exact List.mem_cons_self _ _)

/-- The path of an object below a control directory `G`: `G/objects/<2 hex>/<38 hex>`. -/
theorem path_for_oid_eq (G : Str) (hG : G ≠ []) (hG2 : G.getLast? ≠ some kSlash) (id : Oid) :
    path_for_oid G id
      = G ++ (lit "/objects/" ++ ((to_hex id).take 2 ++ kSlash :: (to_hex id).drop 2)) := by
  obtain ⟨a, b, rest, he, ha, hb, hr, _⟩ := to_hex_cons id
  unfold path_for_oid
  rw [he]
  simp only [List.take_succ_cons, List.take_zero, List.drop_succ_cons, List.drop_zero]
  have h1 : path_join G kObjectsDir = G ++ kSlash :: kObjectsDir :=
    path_join_eq _ _ hG hG2 (by decide)
  have h2 : path_join (G ++ kSlash :: kObjectsDir) [a, b] = (G ++ kSlash :: kObjectsDir) ++ kSlash :: [a, b] := by
    apply path_join_eq
    · simp
    · have e : G ++ kSlash :: kObjectsDir = (G ++ [kSlash]) ++ kObjectsDir := by simp
      have e3 : kObjectsDir = [111, 98, 106, 101, 99, 116, 115] := by decide
      rw [e, e3, List.getLast?_append]
      simp
      decide
    · simp only [List.head?_cons, ne_eq, Option.some.injEq]
      exact ha
  have h3 : path_join ((G ++ kSlash :: kObjectsDir) ++ kSlash :: [a, b]) rest
      = ((G ++ kSlash :: kObjectsDir) ++ kSlash :: [a, b]) ++ kSlash :: rest := by
    apply path_join_eq
    · simp
    · have e : (G ++ kSlash :: kObjectsDir) ++ kSlash :: [a, b]
          = ((G ++ kSlash :: kObjectsDir) ++ [kSlash, a]) ++ [b] := by simp
      rw [e, List.getLast?_append]
      simp
      exact hb
    · exact hr
  rw [h1, h2, h3]
  have e4 : lit "/objects/" = kSlash :: (kObjectsDir ++ [kSlash]) := by decide
  rw [e4]
  simp

/-- A path of the control directory whose first component does not start with `o` is not
the path of an object, nor the temporary file of one. -/
theorem not_object_path (G x : Str) (hG : G ≠ []) (hG2 : G.getLast? ≠ some kSlash)
    (hx : x.head? ≠ some 111) (id : Oid) :
    G ++ kSlash :: x ≠ path_for_oid G id ∧ G ++ kSlash :: x ≠ path_for_oid G id ++ lit ".tmp" := by
  rw [path_for_oid_eq G hG hG2 id]
  have e4 : lit "/objects/" = kSlash :: 111 :: lit "bjects/" := by decide
  constructor
  · intro e
    rw [e4] at e
    have e2 := List.append_cancel_left e
    simp only [List.cons_append, List.cons.injEq, true_and] at e2
    rw [e2] at hx
    simp at hx
  · intro e
    rw [e4, List.append_assoc] at e
    have e2 := List.append_cancel_left e
    simp only [List.cons_append, List.cons.injEq, true_and] at e2
    rw [e2] at hx
    simp at hx

/-- What `ObjectStore::write` leaves alone: every file other than the object file and its
temporary file. -/
theorem write_frame (z : Zlib) (sha1 : Str → Oid) (gitdir : Str) (fs : FS) (type payload : Str)
    (p : Str)
    (hp : ∀ id, p ≠ path_for_oid gitdir id ∧ p ≠ path_for_oid gitdir id ++ lit ".tmp") :
    (ObjectStore.write z sha1 gitdir fs type payload).2 p = fs p := by
  unfold ObjectStore.write
  simp only
  split
  · rfl
  · simp only [write_file_atomic, (hp _).1, (hp _).2, if_false]

/-- `ObjectStore::write` never removes or changes an object file that exists. -/
theorem write_keeps (z : Zlib) (sha1 : Str → Oid) (gitdir : Str) (fs : FS) (type payload : Str)
    (hG : gitdir ≠ []) (hG2 : gitdir.getLast? ≠ some kSlash) (id : Oid) (data : Str)
    (h : fs (path_for_oid gitdir id) = some data) :
    (ObjectStore.write z sha1 gitdir fs type payload).2 (path_for_oid gitdir id) = some data := by
  unfold ObjectStore.write
  simp only
  split
  · exact h
  · rename_i hnone
    simp only [write_file_atomic]
    split
    · rename_i heq
      rw [← heq, h] at hnone
      simp at hnone
    · split
      · rename_i heq
        have := congrArg List.length heq
        rw [path_for_oid_eq gitdir hG hG2, path_for_oid_eq gitdir hG hG2] at this
        obtain ⟨a, b, rest, he, _, _, _, hl⟩ := to_hex_cons id
        obtain ⟨a2, b2, rest2, he2, _, _, _, hl2⟩ := to_hex_cons
          (sha1 (object_header type payload.length ++ payload))
        rw [he, he2] at this
        simp only [List.length_append, List.take_succ_cons, List.take_zero, List.length_cons,
          List.drop_succ_cons, List.drop_zero, hl, hl2, List.length_nil] at this
        have h4 : (lit ".tmp").length = 4 := by decide
        omega
      · exact h
/-! ## `write_tree_from_index` returns, and writes object files only -/

theorem split_first_rest_length (p : Str) (h : (split_first p).2 ≠ []) :
    (split_first p).2.length < p.length := by
  unfold split_first at h ⊢
  split
  · rename_i h1
    rw [if_pos h1] at h
    exact absurd rfl h
  · simp only [List.length_drop]
    have := List.indexOf_le_length (a := kSlash) (l := p)
    omega

theorem subdirs_push_mem (m : List (Str × List IndexEntry)) (k : Str) (e : IndexEntry)
    (d : Str) (ch : List IndexEntry) (c : IndexEntry)
    (h : (d, ch) ∈ subdirs_push m k e) (hc : c ∈ ch) :
    c = e ∨ ∃ ch2, (d, ch2) ∈ m ∧ c ∈ ch2 := by
  induction m with
  | nil =>
    simp only [subdirs_push, List.mem_singleton, Prod.mk.injEq] at h
    rw [h.2] at hc
    left
    simpa using hc
  | cons x rest ih =>
    obtain ⟨k1, v1⟩ := x
    simp only [subdirs_push] at h
    split at h
    · rcases List.mem_cons.mp h with h | h
      · simp only [Prod.mk.injEq] at h
        rw [h.2] at hc
        rcases List.mem_append.mp hc with hc | hc
        · right
          exact ⟨v1, by rw [h.1]; exact List.mem_cons_self _ _, hc⟩
        · left
          simpa using hc
      · right
        exact ⟨ch, List.mem_cons_of_mem _ h, hc⟩
    · split at h
      · rcases List.mem_cons.mp h with h | h
        · simp only [Prod.mk.injEq] at h
          rw [h.2] at hc
          left
          simpa using hc
        · right
          exact ⟨ch, h, hc⟩
      · rcases List.mem_cons.mp h with h | h
        · right
          exact ⟨ch, by rw [h]; exact List.mem_cons_self _ _, hc⟩
        · rcases ih h with h2 | ⟨ch2, h2, h3⟩
          · left; exact h2
          · right
            exact ⟨ch2, List.mem_cons_of_mem _ h2, h3⟩

theorem subdirs_of_mem (group : List IndexEntry) :
    ∀ (m : List (Str × List IndexEntry)) (d : Str) (ch : List IndexEntry) (c : IndexEntry),
      (d, ch) ∈ subdirs_of group m → c ∈ ch →
      (∃ ch2, (d, ch2) ∈ m ∧ c ∈ ch2)
      ∨ ∃ e ∈ group, (split_first e.path).2 ≠ []
          ∧ c = ⟨e.mode, e.oid, (split_first e.path).2⟩ := by
  induction group with
  | nil =>
    intro m d ch c h hc
    left
    exact ⟨ch, h, hc⟩
  | cons e rest ih =>
    intro m d ch c h hc
    simp only [subdirs_of] at h
    split at h
    · rcases ih m d ch c h hc with h2 | ⟨e2, he2, h3⟩
      · left; exact h2
      · right; exact ⟨e2, List.mem_cons_of_mem _ he2, h3⟩
    · rename_i hne
      rcases ih _ d ch c h hc with ⟨ch2, h2, h3⟩ | ⟨e2, he2, h3⟩
      · rcases subdirs_push_mem m _ _ d ch2 c h2 h3 with h4 | h4
        · right
          exact ⟨e, List.mem_cons_self _ _, hne, h4⟩
        · left; exact h4
      · right; exact ⟨e2, List.mem_cons_of_mem _ he2, h3⟩

theorem storeExt_refl (gitdir : Str) (fs : FS) : StoreExt gitdir fs fs :=
  ⟨fun _ _ => rfl, fun _ _ h => h⟩

theorem storeExt_trans (gitdir : Str) (fs fs1 fs2 : FS) (h1 : StoreExt gitdir fs fs1)
    (h2 : StoreExt gitdir fs1 fs2) : StoreExt gitdir fs fs2 :=
  ⟨fun p hp => by rw [h2.1 p hp, h1.1 p hp], fun i d h => h2.2 i d (h1.2 i d h)⟩

theorem storeExt_write (z : Zlib) (sha1 : Str → Oid) (gitdir : Str) (fs : FS) (type payload : Str)
    (hG : gitdir ≠ []) (hG2 : gitdir.getLast? ≠ some kSlash) :
    StoreExt gitdir fs (ObjectStore.write z sha1 gitdir fs type payload).2 :=
  ⟨fun p hp => write_frame z sha1 gitdir fs type payload p hp,
    fun i d h => write_keeps z sha1 gitdir fs type payload hG hG2 i d h⟩

theorem build_dirs_ok (gitdir : Str)
    (self : FS → List IndexEntry → Option (Except String (Str × FS)))
    (dirs : List (Str × List IndexEntry))
    (hself : ∀ d ch, (d, ch) ∈ dirs → ∀ fs, BuildOk gitdir fs (self fs ch)) :
    ∀ fs, ∃ es fs1, build_dirs self fs dirs = some (.ok (es, fs1)) ∧ StoreExt gitdir fs fs1 := by
  induction dirs with
  | nil => intro fs; exact ⟨[], fs, rfl, storeExt_refl _ _⟩
  | cons x rest ih =>
    intro fs
    obtain ⟨d, ch⟩ := x
    obtain ⟨id, fs1, h1, hf1⟩ := hself d ch (List.mem_cons_self _ _) fs
    obtain ⟨es, fs2, h2, hf2⟩ :=
      ih (fun d2 ch2 hm => hself d2 ch2 (List.mem_cons_of_mem _ hm)) fs1
    refine ⟨⟨kModeTree, d, id⟩ :: es, fs2, ?_, storeExt_trans _ _ _ _ hf1 hf2⟩
    simp only [build_dirs, h1, from_hex_to_hex, h2]

theorem subdirs_push_nonempty (m : List (Str × List IndexEntry)) (k : Str) (e : IndexEntry)
    (hm : ∀ x ∈ m, x.2 ≠ []) : ∀ x ∈ subdirs_push m k e, x.2 ≠ [] := by
  induction m with
  | nil =>
    intro x hx
    simp only [subdirs_push, List.mem_singleton] at hx
    rw [hx]
    simp
  | cons y rest ih =>
    obtain ⟨k1, v1⟩ := y
    intro x hx
    simp only [subdirs_push] at hx
    split at hx
    · rcases List.mem_cons.mp hx with hx | hx
      · rw [hx]; simp
      · exact hm x (List.mem_cons_of_mem _ hx)
    · split at hx
      · rcases List.mem_cons.mp hx with hx | hx
        · rw [hx]; simp
        · exact hm x hx
      · rcases List.mem_cons.mp hx with hx | hx
        · rw [hx]; exact hm _ (List.mem_cons_self _ _)
        · exact ih (fun y hy => hm y (List.mem_cons_of_mem _ hy)) x hx

theorem subdirs_of_nonempty (group : List IndexEntry) :
    ∀ (m : List (Str × List IndexEntry)), (∀ x ∈ m, x.2 ≠ []) →
      ∀ x ∈ subdirs_of group m, x.2 ≠ [] := by
  induction group with
  | nil => intro m hm x hx; exact hm x hx
  | cons e rest ih =>
    intro m hm x hx
    simp only [subdirs_of] at hx
    split at hx
    · exact ih m hm x hx
    · exact ih _ (subdirs_push_nonempty m _ _ hm) x hx

theorem build_ok (z : Zlib) (sha1 : Str → Oid) (gitdir : Str)
    (hG : gitdir ≠ []) (hG2 : gitdir.getLast? ≠ some kSlash) (fuel : Nat) :
    ∀ (fs : FS) (group : List IndexEntry), 0 < fuel → (∀ e ∈ group, e.path.length < fuel) →
      BuildOk gitdir fs (build z sha1 gitdir fuel fs group) := by
  induction fuel with
  | zero => intro fs group h0; omega
  | succ fuel ih =>
    intro fs group _ h
    have hself : ∀ d ch, (d, ch) ∈ subdirs_of group [] →
        ∀ fs2, BuildOk gitdir fs2 (build z sha1 gitdir fuel fs2 ch) := by
      intro d ch hm fs2
      have hlt : ∀ c ∈ ch, c.path.length < fuel := by
        intro c hc
        rcases subdirs_of_mem group [] d ch c hm hc with ⟨ch2, h2, _⟩ | ⟨e, he, hne, hce⟩
        · simp at h2
        · rw [hce]
          have := split_first_rest_length e.path hne
          have := h e he
          show (split_first e.path).2.length < fuel
          omega
      have hne := subdirs_of_nonempty group [] (by simp) (d, ch) hm
      obtain ⟨c, hc⟩ := List.exists_mem_of_ne_nil ch hne
      exact ih fs2 ch (by have := hlt c hc; omega) hlt
    obtain ⟨es, fs1, h1, hf1⟩ := build_dirs_ok gitdir _ _ hself fs
    refine ⟨sha1 (object_header kTypeTree (tree_payload (sort_entries (files_of group ++ es))).length
      ++ tree_payload (sort_entries (files_of group ++ es))),
      (write_tree z sha1 gitdir fs1 (files_of group ++ es)).2, ?_,
      storeExt_trans _ _ _ _ hf1 (storeExt_write z sha1 gitdir fs1 kTypeTree _ hG hG2)⟩
    simp only [build, h1]
    congr 2
    apply Prod.ext
    · exact write_fst _ _ _ _ _ _
    · rfl

theorem foldl_max_le (l : List Nat) : ∀ (a : Nat), a ≤ l.foldl max a ∧ ∀ x ∈ l, x ≤ l.foldl max a := by
  induction l with
  | nil => intro a; simp
  | cons y rest ih =>
    intro a
    simp only [List.foldl_cons]
    obtain ⟨h1, h2⟩ := ih (max a y)
    refine ⟨by omega, ?_⟩
    intro x hx
    rcases List.mem_cons.mp hx with rfl | hx
    · omega
    · exact h2 x hx

/-- The bound `build_depth` is enough: `write_tree_from_index` returns a digest and adds
object files only. -/
theorem write_tree_from_entries_ok (z : Zlib) (sha1 : Str → Oid) (gitdir : Str)
    (hG : gitdir ≠ []) (hG2 : gitdir.getLast? ≠ some kSlash) (fs : FS)
    (ents : List IndexEntry) :
    BuildOk gitdir fs (write_tree_from_entries z sha1 gitdir fs ents) := by
  unfold write_tree_from_entries build_depth
  apply build_ok z sha1 gitdir hG hG2
  · omega
  · intro e he
    have := (foldl_max_le (ents.map (fun e => e.path.length)) 0).2 e.path.length
      (List.mem_map.mpr ⟨e, he, rfl⟩)
    omega

/-! ## `commit_index` -/

theorem ctrl_path (root x : Str) (hx : x.head? ≠ some kSlash) :
    path_join (git_dir root) x = git_dir root ++ kSlash :: x :=
  path_join_eq _ _ (git_dir_ne_nil root) (git_dir_last root) hx

/-- A file of the control directory whose name starts neither with `/` nor with `o` is not
an object file, nor the temporary file of one. -/
theorem ctrl_not_object (root x : Str) (hx : x.head? ≠ some kSlash) (hx2 : x.head? ≠ some 111)
    (i : Oid) :
    path_join (git_dir root) x ≠ path_for_oid (git_dir root) i
    ∧ path_join (git_dir root) x ≠ path_for_oid (git_dir root) i ++ lit ".tmp" := by
  rw [ctrl_path root x hx]
  exact not_object_path _ _ (git_dir_ne_nil root) (git_dir_last root) hx2 i

/-- The temporary file of such a file is not an object file either. -/
theorem ctrl_tmp_not_object (root x : Str) (hx : x.head? ≠ some kSlash)
    (hx2 : x.head? ≠ some 111) (hx3 : x ≠ []) (i : Oid) :
    path_join (git_dir root) x ++ lit ".tmp" ≠ path_for_oid (git_dir root) i := by
  rw [ctrl_path root x hx]
  have h := (not_object_path (git_dir root) (x ++ lit ".tmp") (git_dir_ne_nil root)
    (git_dir_last root) (by
      cases x with
      | nil => exact absurd rfl hx3
      | cons c cs => simpa using hx2) i).1
  simpa using h

theorem storeExt_ctrl (root x : Str) (fs fs1 : FS) (h : StoreExt (git_dir root) fs fs1)
    (hx : x.head? ≠ some kSlash) (hx2 : x.head? ≠ some 111) :
    fs1 (path_join (git_dir root) x) = fs (path_join (git_dir root) x) :=
  h.1 _ (fun i => ctrl_not_object root x hx hx2 i)

theorem index_path_eq (root : Str) : index_path root = path_join (git_dir root) (lit "index") := rfl

theorem write_tree_from_index_ok (z : Zlib) (sha1 : Str → Oid) (root : Str) (fs : FS) :
    BuildOk (git_dir root) fs (write_tree_from_index z sha1 root fs) :=
  write_tree_from_entries_ok z sha1 (git_dir root) (git_dir_ne_nil root) (git_dir_last root) fs _

theorem rstrip_newlines_append_lf (s : Str)
    (h : ∀ c, s.getLast? = some c → c ≠ kLF ∧ c ≠ kCR) : rstrip_newlines (s ++ [kLF]) = s := by
  unfold rstrip_newlines
  rw [List.reverse_append]
  simp only [List.reverse_cons, List.reverse_nil, List.nil_append, List.singleton_append]
  rw [List.dropWhile_cons_of_pos (by simp)]
  cases hr : s.reverse with
  | nil =>
    simp only [List.dropWhile_nil, List.reverse_nil]
    exact (List.reverse_eq_nil_iff.mp hr).symm
  | cons c cs =>
    have hl : s.getLast? = some c := by
      rw [← List.head?_reverse, hr]
      rfl
    have hc := h c hl
    rw [List.dropWhile_cons_of_neg (by simp [hc.1, hc.2]), ← hr, List.reverse_reverse]

theorem to_hex_last (id : Oid) : ∀ c, (to_hex id).getLast? = some c → c ≠ kLF ∧ c ≠ kCR := by
  intro c hc
  have hmem : c ∈ to_hex id := List.mem_of_getLast?_eq_some hc
  have hx : ∀ (l : List Byte), ∀ c ∈ hex_of_bytes l, c ≠ kLF ∧ c ≠ kCR := by
    intro l
    induction l with
    | nil => intro c hc; simp [hex_of_bytes] at hc
    | cons b rest ih =>
      intro c hc
      simp only [hex_of_bytes, List.mem_cons] at hc
      have hk : ∀ n, n < 16 → kHex n ≠ kLF ∧ kHex n ≠ kCR := by
        intro n hn
        interval_cases n <;> decide
      rcases hc with rfl | rfl | hc
      · exact hk _ (Nat.mod_lt _ (by norm_num))
      · exact hk _ (Nat.mod_lt _ (by norm_num))
      · exact ih c hc
  exact hx _ c hmem

/-- `ObjectStore::read` looks at the file of the object only. -/
theorem read_congr (z : Zlib) (gitdir : Str) (fs fs1 : FS) (hex : Str)
    (h : ∀ i, fs1 (path_for_oid gitdir i) = fs (path_for_oid gitdir i)) :
    ObjectStore.read z gitdir fs1 hex = ObjectStore.read z gitdir fs hex := by
  unfold ObjectStore.read
  cases from_hex hex with
  | none => rfl
  | some oid => simp only [read_file, h oid]

theorem read_commit_congr (z : Zlib) (gitdir : Str) (fs fs1 : FS) (hex : Str)
    (h : ∀ i, fs1 (path_for_oid gitdir i) = fs (path_for_oid gitdir i)) :
    read_commit z gitdir fs1 hex = read_commit z gitdir fs hex := by
  unfold read_commit
  rw [read_congr z gitdir fs fs1 hex h]

/-- The file system after `update_ref` of a ref below `refs/`: the object files are the
same. -/
theorem update_ref_objects (fs : FS) (root name hex : Str) (i : Oid) :
    update_ref fs root (lit "refs/" ++ name) hex (path_for_oid (git_dir root) i)
      = fs (path_for_oid (git_dir root) i) := by
  have hx : (lit "refs/" ++ name).head? ≠ some kSlash := by
    have e : lit "refs/" = [114, 101, 102, 115, 47] := by decide
    rw [e]; simp; decide
  have hx2 : (lit "refs/" ++ name).head? ≠ some 111 := by
    have e : lit "refs/" = [114, 101, 102, 115, 47] := by decide
    rw [e]; simp
  have hx3 : lit "refs/" ++ name ≠ [] := by
    have e : lit "refs/" = [114, 101, 102, 115, 47] := by decide
    rw [e]; simp
  unfold update_ref write_file_atomic ref_path
  rw [if_neg (fun e => (ctrl_not_object root _ hx hx2 i).1 e.symm),
    if_neg (fun e => (ctrl_tmp_not_object root _ hx hx2 hx3 i) e.symm)]
theorem looks_hex40_to_hex (id : Oid) : looks_hex40 (to_hex id) = true := by
  unfold looks_hex40
  rw [if_neg (by simp [to_hex_length])]
  rw [List.all_eq_true]
  have hx : ∀ (l : List Byte), ∀ c ∈ hex_of_bytes l, isxdigit c = true := by
    intro l
    induction l with
    | nil => intro c hc; simp [hex_of_bytes] at hc
    | cons b rest ih =>
      intro c hc
      simp only [hex_of_bytes, List.mem_cons] at hc
      have hk : ∀ n, n < 16 → isxdigit (kHex n) = true := by
        intro n hn
        interval_cases n <;> decide
      rcases hc with rfl | rfl | hc
      · exact hk _ (Nat.mod_lt _ (by norm_num))
      · exact hk _ (Nat.mod_lt _ (by norm_num))
      · exact ih c hc
  exact hx _

theorem refs_name_head (name : Str) :
    (lit "refs/" ++ name).head? ≠ some kSlash ∧ (lit "refs/" ++ name).head? ≠ some 111
    ∧ lit "refs/" ++ name ≠ [] := by
  have e : lit "refs/" = [114, 101, 102, 115, 47] := by decide
  rw [e]
  refine ⟨by simp; decide, by simp, by simp⟩

theorem refs_name_last (name : Str) (hname : kLF ∉ name ∧ kCR ∉ name) :
    ∀ c, (lit "refs/" ++ name).getLast? = some c → c ≠ kLF ∧ c ≠ kCR := by
  intro c hc
  have hm := List.mem_of_getLast?_eq_some hc
  rcases List.mem_append.mp hm with h | h
  · have e : lit "refs/" = [114, 101, 102, 115, 47] := by decide
    rw [e] at h
    simp only [List.mem_cons, List.mem_singleton, List.not_mem_nil, or_false] at h
    rcases h with rfl | rfl | rfl | rfl | rfl <;> decide
  · exact ⟨fun e => hname.1 (e ▸ h), fun e => hname.2 (e ▸ h)⟩

/-- How `commit_index` and the other readers of `HEAD` decode `ref: <r>\n`. -/
theorem symbolic_head (r : Str) (hr : ∀ c, r.getLast? = some c → c ≠ kLF ∧ c ≠ kCR) :
    starts_with (lit "ref:") (lit "ref: " ++ r ++ [kLF]) = true
    ∧ ¬ (lit "ref: " ++ r ++ [kLF]).length < 5
    ∧ rstrip_newlines ((lit "ref: " ++ r ++ [kLF]).drop 5) = r := by
  have e : lit "ref: " = [114, 101, 102, 58, 32] := by decide
  have e2 : lit "ref:" = [114, 101, 102, 58] := by decide
  refine ⟨?_, ?_, ?_⟩
  · rw [e, e2]; simp [starts_with]
  · rw [e]; simp
  · rw [e]
    simp only [List.cons_append, List.nil_append, List.drop_succ_cons, List.drop_zero]
    exact rstrip_newlines_append_lf r hr

theorem read_ref_ext (root name : Str) (fs fs1 : FS) (h : StoreExt (git_dir root) fs fs1) :
    read_ref fs1 root (lit "refs/" ++ name) = read_ref fs root (lit "refs/" ++ name) := by
  unfold read_ref ref_path
  rw [storeExt_ctrl root _ fs fs1 h (refs_name_head name).1 (refs_name_head name).2.1]

theorem read_HEAD_ext (root : Str) (fs fs1 : FS) (h : StoreExt (git_dir root) fs fs1) :
    read_HEAD fs1 root = read_HEAD fs root := by
  unfold read_HEAD head_file
  exact storeExt_ctrl root _ fs fs1 h (by decide) (by decide)

theorem merge_head_ext (root : Str) (fs fs1 : FS) (h : StoreExt (git_dir root) fs fs1) :
    fs1 (path_join (git_dir root) kMergeHead) = fs (path_join (git_dir root) kMergeHead) :=
  storeExt_ctrl root _ fs fs1 h (by decide) (by decide)

theorem index_ext (root : Str) (fs fs1 : FS) (h : StoreExt (git_dir root) fs fs1) :
    fs1 (index_path root) = fs (index_path root) := by
  rw [index_path_eq]
  exact storeExt_ctrl root _ fs fs1 h (by decide) (by decide)

/-- The parents that `commit_index` takes from a symbolic `HEAD`: the value of the ref when
it has 40 characters, none when the ref is missing. -/
theorem head_parents_symbolic (fs : FS) (root name : Str) (hname : kLF ∉ name ∧ kCR ∉ name)
    (hhead : read_HEAD fs root = some (lit "ref: " ++ (lit "refs/" ++ name) ++ [kLF]))
    (prev : Option Str) (hprev : read_ref fs root (lit "refs/" ++ name) = prev)
    (hlen : ∀ h, prev = some h → h.length = 40) :
    head_parents fs root = .ok prev.toList := by
  obtain ⟨h1, h2, h3⟩ := symbolic_head (lit "refs/" ++ name) (refs_name_last name hname)
  unfold head_parents
  simp only [hhead, h1, if_true, h2, if_false, h3, hprev]
  cases prev with
  | none => rfl
  | some h => simp only [hlen h rfl, if_true, Option.toList]

/-- `commit_index` on a symbolic `HEAD` without `MERGE_HEAD`: the tree of the index is
written, the commit is written with the previous value of the ref as only parent (no parent
for an unborn branch), and the ref is updated. -/
theorem commit_index_symbolic (z : Zlib) (sha1 : Str → Oid) (root sig : Str) (paths : List Str)
    (fuel : Nat) (fs : FS) (msg name : Str) (hname : kLF ∉ name ∧ kCR ∉ name)
    (hhead : read_HEAD fs root = some (lit "ref: " ++ (lit "refs/" ++ name) ++ [kLF]))
    (hmh : fs (path_join (git_dir root) kMergeHead) = none)
    (prev : Option Str) (hprev : read_ref fs root (lit "refs/" ++ name) = prev)
    (hlen : ∀ h, prev = some h → h.length = 40) :
    ∃ (id : Oid) (fs1 : FS),
      write_tree_from_index z sha1 root fs = some (.ok (to_hex id, fs1))
      ∧ StoreExt (git_dir root) fs fs1
      ∧ commit_index z sha1 root true sig paths fuel fs msg
        = some (Except.ok
            (write_commit z sha1 (git_dir root) fs1 (to_hex id) prev.toList sig sig msg).1,
          update_ref (write_commit z sha1 (git_dir root) fs1 (to_hex id) prev.toList sig sig msg).2
            root (lit "refs/" ++ name)
            (write_commit z sha1 (git_dir root) fs1 (to_hex id) prev.toList sig sig msg).1) := by
  obtain ⟨id, fs1, hwt, hext⟩ := write_tree_from_index_ok z sha1 root fs
  refine ⟨id, fs1, hwt, hext, ?_⟩
  have hH : read_HEAD fs1 root = some (lit "ref: " ++ (lit "refs/" ++ name) ++ [kLF]) := by
    rw [read_HEAD_ext root fs fs1 hext, hhead]
  have hP : head_parents fs1 root = .ok prev.toList :=
    head_parents_symbolic fs1 root name hname hH prev
      (by rw [read_ref_ext root name fs fs1 hext, hprev]) hlen
  have hM : merge_head_parents fs1 root prev.toList = (prev.toList, false) := by
    unfold merge_head_parents
    rw [merge_head_ext root fs fs1 hext, hmh]
  obtain ⟨h1, h2, h3⟩ := symbolic_head (lit "refs/" ++ name) (refs_name_last name hname)
  simp only [commit_index, Bool.not_true, Bool.false_eq_true, if_false, hwt, hP, hM, guard_status,
    false_and, advance_head, hH, h1, if_true, h3]
theorem ctrl_path_ne (root x y : Str) (hx : x.head? ≠ some kSlash) (hy : y.head? ≠ some kSlash)
    (hne : x ≠ y) : path_join (git_dir root) x ≠ path_join (git_dir root) y := by
  rw [ctrl_path root x hx, ctrl_path root y hy]
  intro e
  have e2 := List.append_cancel_left e
  simp only [List.cons.injEq, true_and] at e2
  exact hne e2

theorem ctrl_path_ne_tmp (root x y : Str) (hx : x.head? ≠ some kSlash)
    (hy : y.head? ≠ some kSlash) (hne : x ≠ y ++ lit ".tmp") :
    path_join (git_dir root) x ≠ path_join (git_dir root) y ++ lit ".tmp" := by
  rw [ctrl_path root x hx, ctrl_path root y hy]
  intro e
  rw [List.append_assoc] at e
  have e2 := List.append_cancel_left e
  simp only [List.cons_append, List.cons.injEq, true_and] at e2
  exact hne e2

theorem head_ne_refs (name s : Str) : kHeadFile ≠ lit "refs/" ++ name ++ s := by
  have e : lit "refs/" = [114, 101, 102, 115, 47] := by decide
  have e2 : kHeadFile = [72, 69, 65, 68] := by decide
  rw [e, e2]
  simp

/-- After `update_ref` of a ref below `refs/` with a digest, `read_ref` returns the digest and
`HEAD` is as before. -/
theorem update_ref_read (fs : FS) (root name : Str) (id : Oid) :
    read_ref (update_ref fs root (lit "refs/" ++ name) (to_hex id)) root (lit "refs/" ++ name)
        = some (to_hex id)
    ∧ read_HEAD (update_ref fs root (lit "refs/" ++ name) (to_hex id)) root = read_HEAD fs root := by
  constructor
  · unfold read_ref update_ref write_file_atomic
    simp only [if_true]
    rw [rstrip_newlines_append_lf _ (to_hex_last id)]
  · unfold read_HEAD update_ref write_file_atomic head_file ref_path
    have h1 := ctrl_path_ne root kHeadFile (lit "refs/" ++ name) (by decide)
      (refs_name_head name).1 (by simpa using head_ne_refs name [])
    have h2 := ctrl_path_ne_tmp root kHeadFile (lit "refs/" ++ name) (by decide)
      (refs_name_head name).1 (head_ne_refs name _)
    rw [if_neg h1, if_neg h2]

/-- `commit_index` on a symbolic `HEAD` without `MERGE_HEAD`, when the buffer growth of
`z_decompress` is enough for the commit: the ref holds the returned digest, `HEAD` is as
before, and the commit read back has the tree that `write_tree_from_index` returned, the
previous value of the ref as only parent (no parent for an unborn branch) and the message. -/
theorem commit_index_read_commit_fits (z : Zlib) (sha1 : Str → Oid) (root sig : Str)
    (paths : List Str) (fuel : Nat) (fs : FS) (msg name : Str) (hname : kLF ∉ name ∧ kCR ∉ name)
    (hhead : read_HEAD fs root = some (lit "ref: " ++ (lit "refs/" ++ name) ++ [kLF]))
    (hmh : fs (path_join (git_dir root) kMergeHead) = none)
    (prev : Option Str) (hprev : read_ref fs root (lit "refs/" ++ name) = prev)
    (hhex : ∀ h, prev = some h → looks_hex40 h = true) (hsig : kLF ∉ sig)
    (tree_hex : Str) (fs1 : FS)
    (hwt : write_tree_from_index z sha1 root fs = some (.ok (tree_hex, fs1)))
    (hfile : fs1 (path_for_oid (git_dir root) (sha1 (object_header kTypeCommit
          (commit_text tree_hex prev.toList sig sig msg).length
            ++ commit_text tree_hex prev.toList sig sig msg))) = none
      ∨ fs1 (path_for_oid (git_dir root) (sha1 (object_header kTypeCommit
          (commit_text tree_hex prev.toList sig sig msg).length
            ++ commit_text tree_hex prev.toList sig sig msg)))
        = some (z.deflate (object_header kTypeCommit
          (commit_text tree_hex prev.toList sig sig msg).length
            ++ commit_text tree_hex prev.toList sig sig msg)))
    (hfit : (object_header kTypeCommit (commit_text tree_hex prev.toList sig sig msg).length
        ++ commit_text tree_hex prev.toList sig sig msg).length
      ≤ 32 * max ((z.deflate (object_header kTypeCommit
          (commit_text tree_hex prev.toList sig sig msg).length
            ++ commit_text tree_hex prev.toList sig sig msg)).length * 3) 64) :
    ∃ (c : Str) (fs2 : FS),
      commit_index z sha1 root true sig paths fuel fs msg = some (Except.ok c, fs2)
      ∧ read_ref fs2 root (lit "refs/" ++ name) = some c
      ∧ read_HEAD fs2 root = some (lit "ref: " ++ (lit "refs/" ++ name) ++ [kLF])
      ∧ read_commit z (git_dir root) fs2 c = .ok ⟨tree_hex, prev.toList, sig, sig, msg⟩ := by
  obtain ⟨id, fs1b, hwt2, hext, hci⟩ := commit_index_symbolic z sha1 root sig paths fuel fs msg
    name hname hhead hmh prev hprev (fun h hh => looks_hex40_length h (hhex h hh))
  rw [hwt] at hwt2
  simp only [Option.some.injEq, Except.ok.injEq, Prod.mk.injEq] at hwt2
  obtain ⟨ht, hf⟩ := hwt2
  subst ht hf
  refine ⟨_, _, hci, ?_, ?_, ?_⟩
  · unfold write_commit
    rw [write_fst]
    exact (update_ref_read _ root name _).1
  · unfold write_commit
    rw [write_fst, (update_ref_read _ root name _).2,
      read_HEAD_ext root fs1 _ (storeExt_write z sha1 _ fs1 _ _ (git_dir_ne_nil root)
        (git_dir_last root)),
      read_HEAD_ext root fs fs1 hext, hhead]
  · rw [read_commit_congr z (git_dir root) _ _ _ (fun i => update_ref_objects _ root name _ i)]
    exact read_commit_write_commit_fits z sha1 (git_dir root) fs1 (to_hex id) prev.toList sig sig
      msg (looks_hex40_to_hex id)
      (by
        intro p hp
        cases prev with
        | none => simp [Option.toList] at hp
        | some h =>
          simp only [Option.toList, List.mem_singleton] at hp
          rw [hp]
          exact hhex h rfl)
      hsig hsig hfile hfit

/-- C17 (failing case): `commit_index` on a symbolic `HEAD` without `MERGE_HEAD` updates the
ref to the digest it returns and leaves `HEAD` symbolic, but when the commit file does not
exist yet and the framed commit is more than 32 * max(3 * compressed size, 64) bytes long,
`read_commit` of the returned digest throws "zlib uncompress overflow" instead of returning
the tree, the parents and the message. -/
theorem commit_index_read_commit_overflow (z : Zlib) (sha1 : Str → Oid) (root sig : Str)
    (paths : List Str) (fuel : Nat) (fs : FS) (msg name : Str) (hname : kLF ∉ name ∧ kCR ∉ name)
    (hhead : read_HEAD fs root = some (lit "ref: " ++ (lit "refs/" ++ name) ++ [kLF]))
    (hmh : fs (path_join (git_dir root) kMergeHead) = none)
    (prev : Option Str) (hprev : read_ref fs root (lit "refs/" ++ name) = prev)
    (hlen : ∀ h, prev = some h → h.length = 40)
    (tree_hex : Str) (fs1 : FS)
    (hwt : write_tree_from_index z sha1 root fs = some (.ok (tree_hex, fs1)))
    (hfresh : fs1 (path_for_oid (git_dir root) (sha1 (object_header kTypeCommit
          (commit_text tree_hex prev.toList sig sig msg).length
            ++ commit_text tree_hex prev.toList sig sig msg))) = none)
    (hbig : 32 * max ((z.deflate (object_header kTypeCommit
          (commit_text tree_hex prev.toList sig sig msg).length
            ++ commit_text tree_hex prev.toList sig sig msg)).length * 3) 64
      < (object_header kTypeCommit (commit_text tree_hex prev.toList sig sig msg).length
        ++ commit_text tree_hex prev.toList sig sig msg).length) :
    ∃ (c : Str) (fs2 : FS),
      commit_index z sha1 root true sig paths fuel fs msg = some (Except.ok c, fs2)
      ∧ read_ref fs2 root (lit "refs/" ++ name) = some c
      ∧ read_HEAD fs2 root = some (lit "ref: " ++ (lit "refs/" ++ name) ++ [kLF])
      ∧ read_commit z (git_dir root) fs2 c = .error "zlib uncompress overflow" := by
  obtain ⟨id, fs1b, hwt2, hext, hci⟩ := commit_index_symbolic z sha1 root sig paths fuel fs msg
    name hname hhead hmh prev hprev hlen
  rw [hwt] at hwt2
  simp only [Option.some.injEq, Except.ok.injEq, Prod.mk.injEq] at hwt2
  obtain ⟨ht, hf⟩ := hwt2
  subst ht hf
  refine ⟨_, _, hci, ?_, ?_, ?_⟩
  · unfold write_commit
    rw [write_fst]
    exact (update_ref_read _ root name _).1
  · unfold write_commit
    rw [write_fst, (update_ref_read _ root name _).2,
      read_HEAD_ext root fs1 _ (storeExt_write z sha1 _ fs1 _ _ (git_dir_ne_nil root)
        (git_dir_last root)),
      read_HEAD_ext root fs fs1 hext, hhead]
  · rw [read_commit_congr z (git_dir root) _ _ _ (fun i => update_ref_objects _ root name _ i)]
    exact read_commit_write_commit_overflow z sha1 (git_dir root) fs1 (to_hex id) prev.toList
      sig sig msg hfresh hbig
theorem prefixSha1_commit (n : Nat) (x : Str) :
    prefixSha1 (object_header kTypeCommit n ++ x) = prefixSha1 (lit "commit ") := by
  have e : kTypeCommit = [99, 111, 109, 109, 105, 116] := by decide
  have e2 : lit "commit " = [99, 111, 109, 109, 105, 116, 32] := by decide
  unfold prefixSha1 object_header
  rw [e, e2]
  simp [kSpace]

theorem commit_text_length (t : Str) (ps : List Str) (a c m : Str) :
    (commit_text t ps a c m).length
      = t.length + (parent_lines ps).length + a.length + c.length + m.length + 26 := by
  have e1 : kTreePrefix.length = 5 := by decide
  have e2 : kAuthorPrefix.length = 7 := by decide
  have e3 : kCommitterPrefix.length = 10 := by decide
  simp only [commit_text, List.length_append, List.length_cons, e1, e2, e3]
  omega

theorem commit_overflow_sizes (t m : Str) (ps : List Str) (ht : t.length = 40) (hps : ps = [])
    (hm : m = List.replicate 200000 97) :
    32 * max ((rleZlib.deflate (object_header kTypeCommit
          (commit_text t ps (lit "A <a@b> 0 +0000") (lit "A <a@b> 0 +0000") m).length
          ++ commit_text t ps (lit "A <a@b> 0 +0000") (lit "A <a@b> 0 +0000") m)).length * 3) 64
      < (object_header kTypeCommit
          (commit_text t ps (lit "A <a@b> 0 +0000") (lit "A <a@b> 0 +0000") m).length
          ++ commit_text t ps (lit "A <a@b> 0 +0000") (lit "A <a@b> 0 +0000") m).length := by
  subst hps
  have hlen : m.length = 200000 := by rw [hm, List.length_replicate]
  have hs : (lit "A <a@b> 0 +0000").length = 15 := by decide
  have hl : (commit_text t [] (lit "A <a@b> 0 +0000") (lit "A <a@b> 0 +0000") m).length
      = 200096 := by
    rw [commit_text_length, ht, hs, hlen]
    rfl
  have hp : commit_text t [] (lit "A <a@b> 0 +0000") (lit "A <a@b> 0 +0000") m
      = commit_text t [] (lit "A <a@b> 0 +0000") (lit "A <a@b> 0 +0000") [] ++ (m ++ []) := by
    simp [commit_text]
  have hl0 : (commit_text t [] (lit "A <a@b> 0 +0000") (lit "A <a@b> 0 +0000") []).length
      = 96 := by
    rw [commit_text_length, ht, hs]
    rfl
  rw [hl, hp, ← List.append_assoc]
  have h0 : (object_header kTypeCommit 200096).length = 14 := by decide
  have h1 : (object_header kTypeCommit 200096
      ++ commit_text t [] (lit "A <a@b> 0 +0000") (lit "A <a@b> 0 +0000") []).length = 110 := by
    rw [List.length_append, h0, hl0]
  exact rle_run_overflow _ m [] 200000 97 hm (by rw [h1]; norm_num) (by norm_num)

set_option maxRecDepth 100000 in
theorem headFS_commit_fresh :
    (write_tree rleZlib prefixSha1 (git_dir (lit "/r")) headFS []).2
      (path_for_oid (git_dir (lit "/r")) (prefixSha1 (lit "commit "))) = none := by
  decide

theorem headFS_commit_fresh_any (t a m : Str) (ps : List Str) :
    (write_tree rleZlib prefixSha1 (git_dir (lit "/r")) headFS []).2
      (path_for_oid (git_dir (lit "/r")) (prefixSha1 (object_header kTypeCommit
        (commit_text t ps a a m).length ++ commit_text t ps a a m))) = none := by
  rw [prefixSha1_commit]
  exact headFS_commit_fresh

/-- C17 at a concrete input: in a repository just after `init`, with the run-length codec in
place of zlib, committing with a message of 200000 bytes `a` updates the branch, and reading
the new commit throws. -/
theorem commit_index_read_commit_overflow_witness :
    ∃ (c : Str) (fs2 : FS),
      commit_index rleZlib prefixSha1 (lit "/r") true (lit "A <a@b> 0 +0000") [] 0 headFS
          (List.replicate 200000 97) = some (Except.ok c, fs2)
      ∧ read_ref fs2 (lit "/r") (lit "refs/" ++ lit "heads/master") = some c
      ∧ read_HEAD fs2 (lit "/r")
          = some (lit "ref: " ++ (lit "refs/" ++ lit "heads/master") ++ [kLF])
      ∧ read_commit rleZlib (git_dir (lit "/r")) fs2 c = .error "zlib uncompress overflow" :=
  commit_index_read_commit_overflow rleZlib prefixSha1 (lit "/r") (lit "A <a@b> 0 +0000") [] 0
    headFS (List.replicate 200000 97) (lit "heads/master") (by decide) (by decide) (by decide)
    none (by decide) (by simp)
    (write_tree rleZlib prefixSha1 (git_dir (lit "/r")) headFS []).1
    (write_tree rleZlib prefixSha1 (git_dir (lit "/r")) headFS []).2
    rfl
    (headFS_commit_fresh_any _ _ _ _)
    (commit_overflow_sizes _ _ _ (by unfold write_tree; rw [write_fst]; exact to_hex_length _) rfl
      rfl)

/-! ## Paths of the working tree -/

theorem segments_append (a : Str) (ha : kSlash ∉ a) :
    ∀ (b cur : Str), segments (a ++ kSlash :: b) cur = (cur ++ a) :: segments b [] := by
  induction a with
  | nil => intro b cur; simp [segments]
  | cons c cs ih =>
    intro b cur
    have hc : ¬ c = kSlash := fun e => ha (by rw [e]; exact List.mem_cons_self _ _)
    rw [List.cons_append, segments, if_neg hc, ih (fun e => ha (List.mem_cons_of_mem _ e))]
    simp

theorem rel_ok_head (rel : Str) (h : rel_ok rel = true) : rel.head? ≠ some kSlash := by
  cases rel with
  | nil => simp
  | cons c cs =>
    intro e
    simp only [List.head?_cons, Option.some.injEq] at e
    subst e
    unfold rel_ok at h
    simp [segments] at h

theorem rel_ok_not_gitdir (rel x : Str) (h : rel_ok rel = true) : rel ≠ kGitDir ++ kSlash :: x := by
  intro e
  unfold rel_ok at h
  rw [e, segments_append kGitDir (by decide)] at h
  simp at h

/-- The two forms of `root / x` for a relative `x`, shared by all `x`. -/
theorem path_join_root (root : Str) :
    ∃ sep : Str, ∀ x : Str, x.head? ≠ some kSlash → path_join root x = root ++ (sep ++ x) := by
  by_cases h : root = [] ∨ root.getLast? = some kSlash
  · refine ⟨[], fun x hx => ?_⟩
    unfold path_join
    rw [if_neg hx, if_pos h]
    rfl
  · refine ⟨[kSlash], fun x hx => ?_⟩
    unfold path_join
    rw [if_neg hx, if_neg h]
    rfl

/-- A file of the working tree is not an object file, nor the temporary file of one. -/
theorem work_not_object (root rel : Str) (h : rel_ok rel = true) (i : Oid) :
    path_join root rel ≠ path_for_oid (git_dir root) i
    ∧ path_join root rel ≠ path_for_oid (git_dir root) i ++ lit ".tmp" := by
  obtain ⟨sep, hsep⟩ := path_join_root root
  have hg : git_dir root = root ++ (sep ++ kGitDir) := hsep kGitDir (by decide)
  rw [hsep rel (rel_ok_head rel h),
    path_for_oid_eq (git_dir root) (git_dir_ne_nil root) (git_dir_last root) i, hg]
  have e4 : lit "/objects/" = kSlash :: lit "objects/" := by decide
  constructor
  · intro e
    rw [List.append_assoc, List.append_assoc] at e
    have e2 := List.append_cancel_left (List.append_cancel_left e)
    rw [e4] at e2
    exact rel_ok_not_gitdir rel _ h (by rw [e2]; rfl)
  · intro e
    rw [List.append_assoc, List.append_assoc, List.append_assoc, List.append_assoc] at e
    have e2 := List.append_cancel_left (List.append_cancel_left e)
    rw [e4] at e2
    exact rel_ok_not_gitdir rel _ h (by rw [e2]; rfl)

/-! ## The status does not depend on object files that are added -/

theorem read_mono (z : Zlib) (gitdir : Str) (fs fs1 : FS) (h : StoreExt gitdir fs fs1)
    (hex : Str) (obj : Object) (hr : ObjectStore.read z gitdir fs hex = .ok obj) :
    ObjectStore.read z gitdir fs1 hex = .ok obj := by
  unfold ObjectStore.read at hr ⊢
  cases hh : from_hex hex with
  | none => rw [hh] at hr; simp at hr
  | some oid =>
    rw [hh] at hr
    simp only at hr ⊢
    cases hf : fs (path_for_oid gitdir oid) with
    | none => simp [read_file, hf] at hr
    | some comp =>
      simp only [read_file, hf] at hr
      simp only [read_file, h.2 oid comp hf]
      exact hr

theorem read_commit_mono (z : Zlib) (gitdir : Str) (fs fs1 : FS) (h : StoreExt gitdir fs fs1)
    (hex : Str) (info : CommitInfo) (hr : read_commit z gitdir fs hex = .ok info) :
    read_commit z gitdir fs1 hex = .ok info := by
  unfold read_commit at hr ⊢
  cases ho : ObjectStore.read z gitdir fs hex with
  | error e => rw [ho] at hr; simp at hr
  | ok obj =>
    rw [ho] at hr
    rw [read_mono z gitdir fs fs1 h hex obj ho]
    exact hr

theorem read_tree_mono (z : Zlib) (gitdir : Str) (fs fs1 : FS) (h : StoreExt gitdir fs fs1)
    (hex : Str) (es : List TreeEntry) (hr : read_tree z gitdir fs hex = .ok es) :
    read_tree z gitdir fs1 hex = .ok es := by
  unfold read_tree at hr ⊢
  cases ho : ObjectStore.read z gitdir fs hex with
  | error e => rw [ho] at hr; simp at hr
  | ok obj =>
    rw [ho] at hr
    rw [read_mono z gitdir fs fs1 h hex obj ho]
    exact hr

theorem tree_to_map_loop_mono
    (self self1 : Str → Str → PathMap → Option (Except String PathMap))
    (hself : ∀ a b c m, self a b c = some (.ok m) → self1 a b c = some (.ok m)) (pfx : Str)
    (es : List TreeEntry) :
    ∀ (out m : PathMap), tree_to_map_loop self pfx es out = some (.ok m) →
      tree_to_map_loop self1 pfx es out = some (.ok m) := by
  induction es with
  | nil => intro out m h; exact h
  | cons e rest ih =>
    intro out m h
    simp only [tree_to_map_loop] at h ⊢
    split
    · rename_i hm
      rw [if_pos hm] at h
      cases hs : self (to_hex e.id) (pfx ++ e.name ++ [kSlash]) out with
      | none => rw [hs] at h; simp at h
      | some r =>
        cases r with
        | error er => rw [hs] at h; simp at h
        | ok out1 =>
          rw [hs] at h
          rw [hself _ _ _ _ hs]
          exact ih out1 m h
    · rename_i hm
      rw [if_neg hm] at h
      exact ih _ m h

theorem tree_to_map_impl_mono (rt rt1 : Str → Except String (List TreeEntry))
    (hrt : ∀ h es, rt h = .ok es → rt1 h = .ok es) (fuel : Nat) :
    ∀ (t pfx : Str) (out m : PathMap), tree_to_map_impl rt fuel t pfx out = some (.ok m) →
      tree_to_map_impl rt1 fuel t pfx out = some (.ok m) := by
  induction fuel with
  | zero => intro t pfx out m h; simp [tree_to_map_impl] at h
  | succ fuel ih =>
    intro t pfx out m h
    simp only [tree_to_map_impl] at h ⊢
    cases hr : rt t with
    | error e => rw [hr] at h; simp at h
    | ok es =>
      rw [hr] at h
      rw [hrt t es hr]
      exact tree_to_map_loop_mono _ _ ih pfx es out m h

theorem working_map_loop_ext (sha1 : Str → Oid) (fs fs1 : FS) (root : Str) (paths : List Str)
    (h : ∀ rel ∈ paths, fs1 (path_join root rel) = fs (path_join root rel)) :
    ∀ m, working_map_loop sha1 fs1 root paths m = working_map_loop sha1 fs root paths m := by
  induction paths with
  | nil => intro m; rfl
  | cons rel rest ih =>
    intro m
    simp only [working_map_loop, read_file, h rel (List.mem_cons_self _ _)]
    cases fs (path_join root rel) with
    | none => rfl
    | some bytes => exact ih (fun r hr => h r (List.mem_cons_of_mem _ hr)) _
theorem head_tree_hex_mono (rc rc1 : Str → Except String CommitInfo)
    (hrc : ∀ h i, rc h = .ok i → rc1 h = .ok i) (root : Str) (fs fs1 : FS)
    (hext : StoreExt (git_dir root) fs fs1) (hsane : head_in_refs fs root)
    (x : Option Str) (h : head_tree_hex rc fs root = .ok x) :
    head_tree_hex rc1 fs1 root = .ok x := by
  unfold head_tree_hex at h ⊢
  rw [read_HEAD_ext root fs fs1 hext]
  cases hH : read_HEAD fs root with
  | none => rw [hH] at h; exact h
  | some s =>
    rw [hH] at h
    simp only at h ⊢
    by_cases hs : starts_with (lit "ref:") s = true
    · rw [if_pos hs] at h ⊢
      by_cases hl : s.length < 5
      · rw [if_pos hl] at h; simp at h
      · rw [if_neg hl] at h ⊢
        obtain ⟨name, hn⟩ := hsane s hH hs
        rw [hn] at h ⊢
        rw [read_ref_ext root name fs fs1 hext]
        cases hr : read_ref fs root (lit "refs/" ++ name) with
        | none => rw [hr] at h; exact h
        | some cur =>
          rw [hr] at h
          simp only at h ⊢
          by_cases hc : looks_hex40 cur = true
          · rw [if_pos hc] at h ⊢
            cases hi : rc cur with
            | error e => rw [hi] at h; simp at h
            | ok info => rw [hi] at h; rw [hrc cur info hi]; exact h
          · rw [if_neg hc] at h ⊢
            exact h
    · rw [if_neg hs] at h ⊢
      cases hi : rc (rstrip_newlines s) with
      | error e => rw [hi] at h; simp at h
      | ok info => rw [hi] at h; rw [hrc _ info hi]; exact h

theorem head_parents_ext (root : Str) (fs fs1 : FS) (hext : StoreExt (git_dir root) fs fs1)
    (hsane : head_in_refs fs root) : head_parents fs1 root = head_parents fs root := by
  unfold head_parents
  rw [read_HEAD_ext root fs fs1 hext]
  cases hH : read_HEAD fs root with
  | none => rfl
  | some s =>
    simp only
    by_cases hs : starts_with (lit "ref:") s = true
    · rw [if_pos hs, if_pos hs]
      obtain ⟨name, hn⟩ := hsane s hH hs
      rw [hn, read_ref_ext root name fs fs1 hext]
    · rw [if_neg hs, if_neg hs]

theorem index_to_map_ext (root : Str) (fs fs1 : FS) (hext : StoreExt (git_dir root) fs fs1) :
    index_to_map fs1 root = index_to_map fs root := by
  unfold index_to_map Index.load
  rw [index_ext root fs fs1 hext]

/-- The status is the same after object files have been added. -/
theorem compute_status_mono (z : Zlib) (sha1 : Str → Oid) (root : Str) (fs fs1 : FS)
    (hext : StoreExt (git_dir root) fs fs1) (hsane : head_in_refs fs root)
    (paths : List Str) (hpaths : ∀ rel ∈ paths, rel_ok rel = true) (fuel : Nat) (st : Status)
    (h : compute_status z sha1 root fs paths fuel = some (.ok st)) :
    compute_status z sha1 root fs1 paths fuel = some (.ok st) := by
  unfold compute_status at h ⊢
  cases hh : head_tree_hex (read_commit z (git_dir root) fs) fs root with
  | error e => rw [hh] at h; simp at h
  | ok tree_hex =>
    rw [hh] at h
    rw [head_tree_hex_mono _ _ (fun a b c => read_commit_mono z _ fs fs1 hext a b c) root fs fs1
      hext hsane tree_hex hh]
    simp only at h ⊢
    cases hm : head_map_of (read_tree z (git_dir root) fs) fuel tree_hex with
    | none => rw [hm] at h; simp at h
    | some r =>
      cases r with
      | error e => rw [hm] at h; simp at h
      | ok head_map =>
        rw [hm] at h
        have hm1 : head_map_of (read_tree z (git_dir root) fs1) fuel tree_hex
            = some (.ok head_map) := by
          cases tree_hex with
          | none => exact hm
          | some t =>
            exact tree_to_map_impl_mono _ _
              (fun a b c => read_tree_mono z _ fs fs1 hext a b c) fuel t [] [] head_map hm
        rw [hm1]
        simp only at h ⊢
        have hw : build_working_map sha1 fs1 root paths = build_working_map sha1 fs root paths :=
          working_map_loop_ext sha1 fs fs1 root paths
            (fun rel hrel => hext.1 _ (fun i => work_not_object root rel (hpaths rel hrel) i)) []
        rw [hw, index_to_map_ext root fs fs1 hext]
        exact h

/-- When the status can be computed, the parents that `commit_index` takes from `HEAD` are
computed without an exception. -/
theorem head_parents_of_status (z : Zlib) (sha1 : Str → Oid) (root : Str) (fs : FS)
    (paths : List Str) (fuel : Nat) (st : Status)
    (h : compute_status z sha1 root fs paths fuel = some (.ok st)) :
    ∃ ps, head_parents fs root = .ok ps := by
  unfold compute_status at h
  unfold head_parents
  cases hH : read_HEAD fs root with
  | none => exact ⟨[], rfl⟩
  | some s =>
    simp only
    by_cases hs : starts_with (lit "ref:") s = true
    · rw [if_pos hs]
      by_cases hl : s.length < 5
      · simp [head_tree_hex, hH, hs, hl] at h
      · rw [if_neg hl]
        cases read_ref fs root (rstrip_newlines (s.drop 5)) with
        | none => exact ⟨[], rfl⟩
        | some cur =>
          simp only
          split
          · exact ⟨[cur], rfl⟩
          · exact ⟨[], rfl⟩
    · rw [if_neg hs]
      split
      · exact ⟨_, rfl⟩
      · exact ⟨[], rfl⟩

/-- What `commit_index` does when `MERGE_HEAD` holds a 40-hex digest and the status can be
computed: it throws after having written the trees of the index when the status has an
unstaged or untracked entry, and otherwise writes the commit, with the digest of
`MERGE_HEAD` appended to the parents unless it is the first parent, moves the head and
removes `MERGE_HEAD`. -/
theorem commit_index_merge (z : Zlib) (sha1 : Str → Oid) (root sig : Str) (paths : List Str)
    (fuel : Nat) (fs : FS) (msg bytes : Str)
    (hmh : fs (path_join (git_dir root) kMergeHead) = some bytes)
    (hvalid : looks_hex40 (rstrip_newlines bytes) = true)
    (hsane : head_in_refs fs root) (hpaths : ∀ rel ∈ paths, rel_ok rel = true)
    (st : Status) (hst : compute_status z sha1 root fs paths fuel = some (.ok st)) :
    ∃ (id : Oid) (fs1 : FS) (ps : List Str),
      write_tree_from_index z sha1 root fs = some (.ok (to_hex id, fs1))
      ∧ StoreExt (git_dir root) fs fs1
      ∧ head_parents fs root = .ok ps
      ∧ commit_index z sha1 root true sig paths fuel fs msg
        = if st.unstaged ≠ [] ∨ st.untracked ≠ [] then
            some (Except.error "cannot commit: merge in progress, unresolved paths present", fs1)
          else
            some (Except.ok (write_commit z sha1 (git_dir root) fs1 (to_hex id)
                (if ps = [] ∨ ps.head? ≠ some (rstrip_newlines bytes)
                  then ps ++ [rstrip_newlines bytes] else ps) sig sig msg).1,
              remove_file (advance_head (write_commit z sha1 (git_dir root) fs1 (to_hex id)
                (if ps = [] ∨ ps.head? ≠ some (rstrip_newlines bytes)
                  then ps ++ [rstrip_newlines bytes] else ps) sig sig msg).2 root
                  (read_HEAD fs root)
                  (write_commit z sha1 (git_dir root) fs1 (to_hex id)
                    (if ps = [] ∨ ps.head? ≠ some (rstrip_newlines bytes)
                      then ps ++ [rstrip_newlines bytes] else ps) sig sig msg).1)
                (path_join (git_dir root) kMergeHead)) := by
  obtain ⟨id, fs1, hwt, hext⟩ := write_tree_from_index_ok z sha1 root fs
  obtain ⟨ps, hps⟩ := head_parents_of_status z sha1 root fs paths fuel st hst
  refine ⟨id, fs1, ps, hwt, hext, hps, ?_⟩
  have hP : head_parents fs1 root = .ok ps := by rw [head_parents_ext root fs fs1 hext hsane, hps]
  have hM : merge_head_parents fs1 root ps
      = (if ps = [] ∨ ps.head? ≠ some (rstrip_newlines bytes)
          then ps ++ [rstrip_newlines bytes] else ps, true) := by
    unfold merge_head_parents
    rw [merge_head_ext root fs fs1 hext, hmh]
    simp only [hvalid, if_true]
  have hS := compute_status_mono z sha1 root fs fs1 hext hsane paths hpaths fuel st hst
  simp only [commit_index, Bool.not_true, Bool.false_eq_true, if_false, hwt, hP, hM, guard_status,
    hS, true_and, if_true, read_HEAD_ext root fs fs1 hext]
/-- C18: when `MERGE_HEAD` holds a valid 40-hex digest (and `HEAD` is detached or names a
ref below `refs/`, the status being computable), `commit_index` throws if and only if
`compute_status` reports at least one unstaged or untracked entry; when it throws, `HEAD`,
every ref below `refs/`, the index and `MERGE_HEAD` are as before. -/
theorem commit_index_merge_guard (z : Zlib) (sha1 : Str → Oid) (root sig : Str)
    (paths : List Str) (fuel : Nat) (fs : FS) (msg bytes : Str)
    (hmh : fs (path_join (git_dir root) kMergeHead) = some bytes)
    (hvalid : looks_hex40 (rstrip_newlines bytes) = true)
    (hsane : head_in_refs fs root) (hpaths : ∀ rel ∈ paths, rel_ok rel = true)
    (st : Status) (hst : compute_status z sha1 root fs paths fuel = some (.ok st)) :
    ∃ (r : Except String Str) (fs2 : FS),
      commit_index z sha1 root true sig paths fuel fs msg = some (r, fs2)
      ∧ ((∃ e, r = Except.error e) ↔ (st.unstaged ≠ [] ∨ st.untracked ≠ []))
      ∧ ((∃ e, r = Except.error e) →
          fs2 (head_file root) = fs (head_file root)
          ∧ (∀ name, fs2 (ref_path root (lit "refs/" ++ name))
              = fs (ref_path root (lit "refs/" ++ name)))
          ∧ fs2 (index_path root) = fs (index_path root)
          ∧ fs2 (path_join (git_dir root) kMergeHead)
              = fs (path_join (git_dir root) kMergeHead)) := by
  obtain ⟨id, fs1, ps, hwt, hext, hps, hci⟩ := commit_index_merge z sha1 root sig paths fuel fs
    msg bytes hmh hvalid hsane hpaths st hst
  by_cases hun : st.unstaged ≠ [] ∨ st.untracked ≠ []
  · rw [if_pos hun] at hci
    refine ⟨_, fs1, hci, ⟨fun _ => hun, fun _ => ⟨_, rfl⟩⟩, fun _ => ⟨?_, ?_, ?_, ?_⟩⟩
    · exact storeExt_ctrl root kHeadFile fs fs1 hext (by decide) (by decide)
    · intro name
      exact storeExt_ctrl root _ fs fs1 hext (refs_name_head name).1 (refs_name_head name).2.1
    · exact index_ext root fs fs1 hext
    · exact merge_head_ext root fs fs1 hext
  · rw [if_neg hun] at hci
    refine ⟨_, _, hci, ⟨fun h => ?_, fun h => absurd h hun⟩, fun h => ?_⟩
    · obtain ⟨e, he⟩ := h
      simp at he
    · obtain ⟨e, he⟩ := h
      simp at he

set_option maxRecDepth 100000 in
theorem unresolvedFS_status :
    compute_status rleZlib edgeSha1 (lit "/r") unresolvedFS [lit "f"] 1
      = some (.ok ⟨[], [], [lit "f"]⟩) := by
  decide

theorem unresolvedFS_head : head_in_refs unresolvedFS (lit "/r") := by
  intro txt h _
  have e : read_HEAD unresolvedFS (lit "/r") = some (lit "ref: refs/heads/master\n") := by decide
  rw [e] at h
  simp only [Option.some.injEq] at h
  subst h
  exact ⟨lit "heads/master", by decide⟩

/-- C18 at a concrete input: with a merge in progress and the untracked file `f`,
`commit_index` throws and leaves `HEAD`, the refs, the index and `MERGE_HEAD` as they
were. -/
theorem commit_index_merge_guard_witness :
    ∃ (r : Except String Str) (fs2 : FS),
      commit_index rleZlib edgeSha1 (lit "/r") true (lit "A <a@b> 0 +0000") [lit "f"] 1
          unresolvedFS (lit "m\n") = some (r, fs2)
      ∧ ((∃ e, r = Except.error e)
          ↔ ((⟨[], [], [lit "f"]⟩ : Status).unstaged ≠ []
              ∨ (⟨[], [], [lit "f"]⟩ : Status).untracked ≠ []))
      ∧ ((∃ e, r = Except.error e) →
          fs2 (head_file (lit "/r")) = unresolvedFS (head_file (lit "/r"))
          ∧ (∀ name, fs2 (ref_path (lit "/r") (lit "refs/" ++ name))
              = unresolvedFS (ref_path (lit "/r") (lit "refs/" ++ name)))
          ∧ fs2 (index_path (lit "/r")) = unresolvedFS (index_path (lit "/r"))
          ∧ fs2 (path_join (git_dir (lit "/r")) kMergeHead)
              = unresolvedFS (path_join (git_dir (lit "/r")) kMergeHead)) :=
  commit_index_merge_guard rleZlib edgeSha1 (lit "/r") (lit "A <a@b> 0 +0000") [lit "f"] 1
    unresolvedFS (lit "m\n") (List.replicate 40 98 ++ [kLF]) (by decide) (by decide)
    unresolvedFS_head (by decide) ⟨[], [], [lit "f"]⟩ unresolvedFS_status

set_option maxRecDepth 100000 in
/-- C12 (server part): the repository `/r` has `master` at its first commit `firstTip`.  A
client pushes `tipX`, a commit without parent, so `firstTip` is not an ancestor of `tipX`;
among the objects it sends one whose name is `ab/r/.gitfly/refs/heads/master`.
`handle_client` stores that object over the ref file before the fast-forward test, the test
then compares `tipX` with itself, the server answers `OK`, and `master` is at `tipX`. -/
theorem handle_client_push_overwrites_ref :
    read_ref serveFS (lit "/r") (heads_ref (lit "master")) = some firstTip
    ∧ firstTip ≠ tipX
    ∧ (handle_client rleZlib (lit "/r") 3 [] pushStream serveFS).map (fun r => (r.1, r.2.1))
      = some (lit "OKGO\nOK\n", Except.ok ())
    ∧ (handle_client rleZlib (lit "/r") 3 [] pushStream serveFS).map
        (fun r => read_ref r.2.2 (lit "/r") (heads_ref (lit "master"))) = some (some tipX)
    ∧ (handle_client rleZlib (lit "/r") 3 [] pushStream serveFS).map
        (fun r => Repository.is_commit_ancestor rleZlib (git_dir (lit "/r")) r.2.2 3 firstTip tipX)
      = some (some (Except.ok false)) := by
  decide
/-! ## Push between two repositories of the file system -/

theorem rstrip_newlines_last (s : Str) :
    ∀ c, (rstrip_newlines s).getLast? = some c → c ≠ kLF ∧ c ≠ kCR := by
  intro c hc
  unfold rstrip_newlines at hc
  rw [List.getLast?_reverse] at hc
  have h := List.head?_dropWhile_not (fun c => decide (c = kLF ∨ c = kCR)) s.reverse
  rw [hc] at h
  simpa using h

theorem read_ref_last (fs : FS) (root name t : Str) (h : read_ref fs root name = some t) :
    ∀ c, t.getLast? = some c → c ≠ kLF ∧ c ≠ kCR := by
  unfold read_ref at h
  cases hf : fs (ref_path root name) with
  | none => rw [hf] at h; cases h
  | some bytes =>
    rw [hf] at h
    simp only [Option.some.injEq] at h
    subst h
    exact rstrip_newlines_last bytes

theorem copy_missing_objects_keeps (src_fs : FS) (src_obj dst_obj : Str) (files : List Str) :
    ∀ (dst_fs : FS) (p : Str), (dst_fs p).isSome = true →
      copy_missing_objects src_fs src_obj dst_obj files dst_fs p = dst_fs p := by
  induction files with
  | nil => intro dst_fs p _; rfl
  | cons rel rest ih =>
    intro dst_fs p hp
    unfold copy_missing_objects
    split
    · exact ih dst_fs p hp
    · rename_i hnone
      have hne : p ≠ path_join dst_obj rel := by
        intro e
        rw [e] at hp
        exact hnone hp
      rw [ih _ p (by simp only [if_neg hne]; exact hp)]
      simp only [if_neg hne]

/-- After `copy_missing_objects`, every file of the source directory exists in the
destination. -/
theorem copy_missing_objects_all (src_fs : FS) (src_obj dst_obj : Str) (files : List Str)
    (hsrc : ∀ rel ∈ files, (src_fs (path_join src_obj rel)).isSome = true) :
    ∀ (dst_fs : FS), ∀ rel ∈ files,
      (copy_missing_objects src_fs src_obj dst_obj files dst_fs (path_join dst_obj rel)).isSome
        = true := by
  induction files with
  | nil => intro _ rel h; cases h
  | cons r rest ih =>
    intro dst_fs rel hrel
    have hsrc2 : ∀ rel ∈ rest, (src_fs (path_join src_obj rel)).isSome = true :=
      fun x hx => hsrc x (List.mem_cons_of_mem _ hx)
    unfold copy_missing_objects
    rcases List.mem_cons.mp hrel with e | hin
    · subst e
      split
      · rename_i hsome
        rw [copy_missing_objects_keeps _ _ _ _ _ _ hsome]
        exact hsome
      · have h2 : ((fun p => if p = path_join dst_obj rel then src_fs (path_join src_obj rel)
            else dst_fs p) (path_join dst_obj rel)).isSome = true := by
          simp only [if_true]
          exact hsrc rel (List.mem_cons_self _ _)
        rw [copy_missing_objects_keeps _ _ _ _ _ _ h2]
        exact h2
    · split
      · exact ih hsrc2 _ rel hin
      · exact ih hsrc2 _ rel hin

/-- A file below the objects directory is neither a ref file nor the temporary file of
one. -/
theorem objects_file_not_ref (root rel name : Str) (hrel : rel.head? ≠ some kSlash) :
    path_join (objects_dir root) rel ≠ ref_path root (lit "refs/" ++ name)
    ∧ path_join (objects_dir root) rel ≠ ref_path root (lit "refs/" ++ name) ++ lit ".tmp" := by
  have eo : objects_dir root = git_dir root ++ kSlash :: kObjectsDir := by
    unfold objects_dir
    exact ctrl_path root _ (by decide)
  have e1 : path_join (objects_dir root) rel = git_dir root ++ kSlash :: (kObjectsDir ++ kSlash :: rel) := by
    rw [path_join_eq _ _ (by rw [eo]; simp) (by rw [eo]; simp [List.getLast?_append, List.getLast?_cons_cons]; decide) hrel, eo]
    simp
  have e2 : ref_path root (lit "refs/" ++ name) = git_dir root ++ kSlash :: (lit "refs/" ++ name) := by
    unfold ref_path
    exact ctrl_path root _ (refs_name_head name).1
  have eo2 : kObjectsDir = [111, 98, 106, 101, 99, 116, 115] := by decide
  have er : lit "refs/" = [114, 101, 102, 115, 47] := by decide
  rw [e1, e2, eo2, er]
  constructor
  · intro e
    have e3 := List.append_cancel_left e
    simp at e3
  · intro e
    rw [List.append_assoc] at e
    have e3 := List.append_cancel_left e
    simp at e3

theorem heads_ref_eq (branch : Str) : heads_ref branch = lit "refs/" ++ (lit "heads/" ++ branch) := by
  unfold heads_ref
  rw [← List.append_assoc]
  rfl

/-- The end of a push: the remote ref holds the local tip and every local object file
exists in the remote store. -/
theorem push_finish_spec (local_root remote_root branch : Str) (files : List Str)
    (local_fs remote_fs : FS) (L : Str)
    (hL : ∀ c, L.getLast? = some c → c ≠ kLF ∧ c ≠ kCR)
    (hfiles : ∀ rel ∈ files, rel.head? ≠ some kSlash
      ∧ (local_fs (path_join (objects_dir local_root) rel)).isSome = true) :
    read_ref (push_finish local_root remote_root branch files local_fs remote_fs L)
        remote_root (heads_ref branch) = some L
    ∧ ∀ rel ∈ files,
        (push_finish local_root remote_root branch files local_fs remote_fs L
          (path_join (objects_dir remote_root) rel)).isSome = true := by
  constructor
  · unfold push_finish read_ref update_ref write_file_atomic
    simp only [if_true]
    rw [rstrip_newlines_append_lf _ hL]
  · intro rel hrel
    unfold push_finish update_ref write_file_atomic
    rw [heads_ref_eq]
    have h := objects_file_not_ref remote_root rel (lit "heads/" ++ branch) (hfiles rel hrel).1
    simp only [if_neg h.1, if_neg h.2]
    exact copy_missing_objects_all _ _ _ _ (fun x hx => (hfiles x hx).2) _ rel hrel

/-- C12 (file-system part): `push_branch` with both repositories initialised, the local
`HEAD` symbolic on the pushed branch and a local tip `L`, when the ancestor walk ends.  It
succeeds exactly when the remote has no ref for the branch or `is_commit_ancestor(R, L)`
holds for its tip `R`; on success the remote ref is `L` and every local object file exists
in the remote store; when it fails the remote repository is unchanged, and the failure is
`non-fast-forward` when the test returns false. -/
theorem push_branch_fast_forward (z : Zlib) (fuel : Nat) (local_root remote_root branch : Str)
    (files : List Str) (local_fs remote_fs : FS) (hs L : Str)
    (hhead : head_symbolic_ref local_fs local_root = some hs)
    (hbranch : rstrip_newlines hs = heads_ref branch)
    (htip : read_ref local_fs local_root (heads_ref branch) = some L)
    (hfiles : ∀ rel ∈ files, rel.head? ≠ some kSlash
      ∧ (local_fs (path_join (objects_dir local_root) rel)).isSome = true)
    (hfuel : ∀ R, read_ref remote_fs remote_root (heads_ref branch) = some R →
      Repository.is_commit_ancestor z (git_dir local_root) local_fs fuel R L ≠ none) :
    ∃ r fs1, push_branch z fuel local_root remote_root branch true true files local_fs remote_fs
        = some (r, fs1)
      ∧ (r = Except.ok () ↔
          (read_ref remote_fs remote_root (heads_ref branch) = none
            ∨ ∃ R, read_ref remote_fs remote_root (heads_ref branch) = some R
              ∧ Repository.is_commit_ancestor z (git_dir local_root) local_fs fuel R L
                = some (.ok true)))
      ∧ (r = Except.ok () →
          read_ref fs1 remote_root (heads_ref branch) = some L
          ∧ ∀ rel ∈ files, (fs1 (path_join (objects_dir remote_root) rel)).isSome = true)
      ∧ (r ≠ Except.ok () → fs1 = remote_fs)
      ∧ (∀ R, read_ref remote_fs remote_root (heads_ref branch) = some R →
          Repository.is_commit_ancestor z (git_dir local_root) local_fs fuel R L
            = some (.ok false) → r = Except.error "non-fast-forward") := by
  have hfin := push_finish_spec local_root remote_root branch files local_fs remote_fs L
    (read_ref_last _ _ _ _ htip) hfiles
  unfold push_branch
  simp only [Bool.not_true, Bool.false_eq_true, or_self, if_false, hhead, hbranch, ne_eq,
    not_true_eq_false, htip]
  cases hR : read_ref remote_fs remote_root (heads_ref branch) with
  | none =>
    refine ⟨_, _, rfl, ?_, fun _ => hfin, fun h => absurd rfl h, (fun R h => by cases h)⟩
    simp
  | some R =>
    simp only
    have hf := hfuel R hR
    cases ha : Repository.is_commit_ancestor z (git_dir local_root) local_fs fuel R L with
    | none => exact absurd ha hf
    | some res =>
      cases res with
      | error e =>
        refine ⟨_, _, rfl, ?_, (fun h => by cases h), fun _ => rfl, fun R2 h h2 => ?_⟩
        · simp [ha]
        · simp only [Option.some.injEq] at h
          subst h
          rw [ha] at h2
          cases h2
      | ok b =>
        cases b with
        | false =>
          refine ⟨_, _, rfl, ?_, (fun h => by cases h), fun _ => rfl, fun _ _ _ => rfl⟩
          simp [ha]
        | true =>
          refine ⟨_, _, rfl, ?_, fun _ => hfin, fun h => absurd rfl h, fun R2 h h2 => ?_⟩
          · simp [ha]
          · simp only [Option.some.injEq] at h
            subst h
            rw [ha] at h2
            cases h2

set_option maxRecDepth 100000 in
/-- The hypotheses of `push_branch_fast_forward` hold for a push of `master` from the
repository `serveFS` to a repository without that branch. -/
theorem push_branch_fast_forward_example :
    ∃ r fs1, push_branch rleZlib 3 (lit "/r") (lit "/r") (lit "master") true true [] serveFS headFS
        = some (r, fs1)
      ∧ (r = Except.ok () ↔
          (read_ref headFS (lit "/r") (heads_ref (lit "master")) = none
            ∨ ∃ R, read_ref headFS (lit "/r") (heads_ref (lit "master")) = some R
              ∧ Repository.is_commit_ancestor rleZlib (git_dir (lit "/r")) serveFS 3 R firstTip
                = some (.ok true)))
      ∧ (r = Except.ok () →
          read_ref fs1 (lit "/r") (heads_ref (lit "master")) = some firstTip
          ∧ ∀ rel ∈ ([] : List Str), (fs1 (path_join (objects_dir (lit "/r")) rel)).isSome = true)
      ∧ (r ≠ Except.ok () → fs1 = headFS)
      ∧ (∀ R, read_ref headFS (lit "/r") (heads_ref (lit "master")) = some R →
          Repository.is_commit_ancestor rleZlib (git_dir (lit "/r")) serveFS 3 R firstTip
            = some (.ok false) → r = Except.error "non-fast-forward") :=
  push_branch_fast_forward rleZlib 3 (lit "/r") (lit "/r") (lit "master") [] serveFS headFS
    (lit "refs/heads/master") firstTip (by decide) (by decide) (by decide)
    (fun _ h => by cases h)
    (fun R h => by
      have e : read_ref headFS (lit "/r") (heads_ref (lit "master")) = none := by decide
      rw [e] at h
      cases h)

/-! ## `tree_to_map` of the tree written from the index -/

theorem tree_to_map_loop_pairs
    (self : Str → Str → PathMap → Option (Except String PathMap))
    (selfp : Str → Str → Option (Except String (List (Str × Str)))) (pfx : Str)
    (hself : ∀ hex p l, selfp hex p = some (.ok l) →
      ∀ out, self hex p out = some (.ok (l.foldl (fun m kv => map_assign m kv.1 kv.2) out))) :
    ∀ (entries : List TreeEntry) (l : List (Str × Str)),
      pairs_loop selfp pfx entries = some (.ok l) →
      ∀ out, tree_to_map_loop self pfx entries out
        = some (.ok (l.foldl (fun m kv => map_assign m kv.1 kv.2) out)) := by
  intro entries
  induction entries with
  | nil =>
    intro l h out
    simp only [pairs_loop, Option.some.injEq, Except.ok.injEq] at h
    subst h
    rfl
  | cons e rest ih =>
    intro l h out
    simp only [pairs_loop] at h
    simp only [tree_to_map_loop]
    split at h
    · rename_i hm
      rw [if_pos hm]
      cases hs : selfp (to_hex e.id) (pfx ++ e.name ++ [kSlash]) with
      | none => rw [hs] at h; cases h
      | some r =>
        cases r with
        | error er => rw [hs] at h; simp at h
        | ok l1 =>
          rw [hs] at h
          simp only at h
          cases hr : pairs_loop selfp pfx rest with
          | none => rw [hr] at h; cases h
          | some r2 =>
            cases r2 with
            | error er => rw [hr] at h; simp at h
            | ok l2 =>
              rw [hr] at h
              simp only [Option.some.injEq, Except.ok.injEq] at h
              subst h
              rw [hself _ _ _ hs out]
              simp only
              rw [ih l2 hr, List.foldl_append]
    · rename_i hm
      rw [if_neg hm]
      cases hr : pairs_loop selfp pfx rest with
      | none => rw [hr] at h; cases h
      | some r2 =>
        cases r2 with
        | error er => rw [hr] at h; simp at h
        | ok l2 =>
          rw [hr] at h
          simp only [Option.some.injEq, Except.ok.injEq] at h
          subst h
          rw [ih l2 hr]
          rfl

/-- The map that `tree_to_map_impl` returns is `out` after the assignments of `tree_pairs`. -/
theorem tree_to_map_impl_pairs (rt : Str → Except String (List TreeEntry)) (fuel : Nat) :
    ∀ (hex pfx : Str) (l : List (Str × Str)), tree_pairs rt fuel hex pfx = some (.ok l) →
      ∀ out, tree_to_map_impl rt fuel hex pfx out
        = some (.ok (l.foldl (fun m kv => map_assign m kv.1 kv.2) out)) := by
  induction fuel with
  | zero => intro hex pfx l h; cases h
  | succ fuel ih =>
    intro hex pfx l h out
    simp only [tree_pairs] at h
    simp only [tree_to_map_impl]
    cases hr : rt hex with
    | error e => rw [hr] at h; simp at h
    | ok entries =>
      rw [hr] at h
      simp only at h ⊢
      exact tree_to_map_loop_pairs _ _ pfx ih entries l h out

/-- When every entry of the tree contributes the list `c e`, the loop returns their
concatenation. -/
theorem pairs_loop_flat (selfp : Str → Str → Option (Except String (List (Str × Str))))
    (pfx : Str) (c : TreeEntry → List (Str × Str)) (entries : List TreeEntry)
    (h : ∀ e ∈ entries,
      (e.mode = kModeTree → selfp (to_hex e.id) (pfx ++ e.name ++ [kSlash]) = some (.ok (c e)))
      ∧ (e.mode ≠ kModeTree → c e = [(pfx ++ e.name, to_hex e.id)])) :
    pairs_loop selfp pfx entries = some (.ok (entries.flatMap c)) := by
  induction entries with
  | nil => rfl
  | cons e rest ih =>
    have hr := ih (fun x hx => h x (List.mem_cons_of_mem _ hx))
    have he := h e (List.mem_cons_self _ _)
    simp only [pairs_loop, hr, List.flatMap_cons]
    by_cases hm : e.mode = kModeTree
    · rw [if_pos hm, he.1 hm]
    · rw [if_neg hm, he.2 hm]
      rfl
/-! ### How `build` partitions a group -/

theorem split_first_dir (p : Str) (h : (split_first p).2 ≠ []) :
    p = (split_first p).1 ++ kSlash :: (split_first p).2 := by
  unfold split_first at h ⊢
  by_cases h1 : p.indexOf kSlash = p.length
  · rw [if_pos h1] at h
    exact absurd rfl h
  · rw [if_neg h1]
    have hlt : p.indexOf kSlash < p.length :=
      Nat.lt_of_le_of_ne List.indexOf_le_length h1
    have h2 := List.drop_eq_getElem_cons hlt
    rw [List.getElem_indexOf hlt] at h2
    show p = p.take (p.indexOf kSlash) ++ kSlash :: p.drop (p.indexOf kSlash + 1)
    rw [← h2, List.take_append_drop]

theorem split_first_file (p : Str) (h : (split_first p).2 = [])
    (hl : p.getLast? ≠ some kSlash) : (split_first p).1 = p := by
  unfold split_first at h ⊢
  by_cases h1 : p.indexOf kSlash = p.length
  · rw [if_pos h1]
  · exfalso
    rw [if_neg h1] at h
    have hlt : p.indexOf kSlash < p.length :=
      Nat.lt_of_le_of_ne List.indexOf_le_length h1
    have h3 : p.length ≤ p.indexOf kSlash + 1 := by
      have := congrArg List.length h
      simp only [List.length_drop, List.length_nil] at this
      omega
    have h4 : p.indexOf kSlash = p.length - 1 := by omega
    apply hl
    rw [List.getLast?_eq_getElem?, ← h4, List.getElem?_eq_getElem hlt, List.getElem_indexOf hlt]

theorem split_first_rest_last (p : Str) (h : (split_first p).2 ≠ [])
    (hl : p.getLast? ≠ some kSlash) : (split_first p).2.getLast? ≠ some kSlash := by
  have e := split_first_dir p h
  intro hc
  apply hl
  rw [e, List.getLast?_append]
  obtain ⟨a, l, hr⟩ := List.exists_cons_of_ne_nil h
  rw [hr] at hc ⊢
  rw [List.getLast?_cons_cons, hc]
  rfl

theorem subdirs_push_flat (m : List (Str × List IndexEntry)) (k : Str) (e : IndexEntry) :
    ((subdirs_push m k e).flatMap (fun dc => dc.2.map (fun c => (dc.1, c)))).Perm
      (m.flatMap (fun dc => dc.2.map (fun c => (dc.1, c))) ++ [(k, e)]) := by
  induction m with
  | nil => simp [subdirs_push]
  | cons x rest ih =>
    obtain ⟨k1, v1⟩ := x
    simp only [subdirs_push]
    split
    · rename_i hk
      subst hk
      simp only [List.flatMap_cons, List.map_append, List.map_cons, List.map_nil,
        List.append_assoc]
      exact List.Perm.append_left _ List.perm_append_comm
    · split
      · simp only [List.flatMap_cons, List.map_cons, List.map_nil]
        exact List.perm_append_comm
      · simp only [List.flatMap_cons, List.append_assoc]
        exact List.Perm.append_left _ ih

/-- The pairs (directory name, child entry) of the map `subdirs` are those of the entries
with a non-empty rest, up to order. -/
theorem subdirs_of_flat (group : List IndexEntry) :
    ∀ (m : List (Str × List IndexEntry)),
      ((subdirs_of group m).flatMap (fun dc => dc.2.map (fun c => (dc.1, c)))).Perm
        (m.flatMap (fun dc => dc.2.map (fun c => (dc.1, c)))
          ++ (group.filter (fun e => decide ((split_first e.path).2 ≠ []))).map
              (fun e => ((split_first e.path).1,
                (⟨e.mode, e.oid, (split_first e.path).2⟩ : IndexEntry)))) := by
  induction group with
  | nil => intro m; simp [subdirs_of]
  | cons e rest ih =>
    intro m
    simp only [subdirs_of]
    split
    · rename_i he
      rw [List.filter_cons_of_neg (by simp [he])]
      exact ih m
    · rename_i he
      rw [List.filter_cons_of_pos (by simp [he])]
      refine (ih _).trans ?_
      simp only [List.map_cons]
      have h := subdirs_push_flat m (split_first e.path).1
        (⟨e.mode, e.oid, (split_first e.path).2⟩ : IndexEntry)
      refine (List.Perm.append_right _ h).trans ?_
      simp

theorem files_of_eq (group : List IndexEntry) :
    files_of group = (group.filter (fun e => decide ((split_first e.path).2 = []))).map
      (fun e => (⟨e.mode, (split_first e.path).1, e.oid⟩ : TreeEntry)) := by
  induction group with
  | nil => rfl
  | cons e rest ih =>
    simp only [files_of]
    split
    · rename_i he
      rw [List.filter_cons_of_pos (by simp [he]), List.map_cons, ih]
    · rename_i he
      rw [List.filter_cons_of_neg (by simp [he]), ih]

/-- A child entry of the map `subdirs` comes from an entry of the group whose path is
`dirname/child path`. -/
theorem subdirs_of_child (group : List IndexEntry) (d : Str) (ch : List IndexEntry)
    (c : IndexEntry) (h : (d, ch) ∈ subdirs_of group []) (hc : c ∈ ch) :
    ∃ e ∈ group, (split_first e.path).2 ≠ [] ∧ d = (split_first e.path).1
      ∧ c = ⟨e.mode, e.oid, (split_first e.path).2⟩ := by
  have hp := subdirs_of_flat group []
  have hm : (d, c) ∈ (subdirs_of group []).flatMap (fun dc => dc.2.map (fun c => (dc.1, c))) :=
    List.mem_flatMap.mpr ⟨(d, ch), h, List.mem_map.mpr ⟨c, hc, rfl⟩⟩
  have hm2 := hp.subset hm
  simp only [List.flatMap_nil, List.nil_append, List.mem_map, List.mem_filter,
    decide_eq_true_eq, Prod.mk.injEq] at hm2
  obtain ⟨e, ⟨he, hne⟩, h1, h2⟩ := hm2
  exact ⟨e, he, hne, h1.symm, h2.symm⟩

/-- The entries of a group, as pairs below a prefix, are those of its files and of the
children of its directories, up to order. -/
theorem group_pairs_perm (pfx : Str) (group : List IndexEntry)
    (hl : ∀ e ∈ group, e.path.getLast? ≠ some kSlash) :
    (((files_of group).map (fun t => (pfx ++ t.name, to_hex t.id)))
      ++ (subdirs_of group []).flatMap
          (fun dc => dc.2.map (entry_pair (pfx ++ dc.1 ++ [kSlash])))).Perm
      (group.map (entry_pair pfx)) := by
  have h1 : (files_of group).map (fun t => (pfx ++ t.name, to_hex t.id))
      = (group.filter (fun e => decide ((split_first e.path).2 = []))).map (entry_pair pfx) := by
    rw [files_of_eq, List.map_map]
    apply List.map_congr_left
    intro e he
    have he2 := List.mem_filter.mp he
    simp only [decide_eq_true_eq] at he2
    simp only [Function.comp, entry_pair]
    rw [split_first_file e.path he2.2 (hl e he2.1)]
  have h2 : ((subdirs_of group []).flatMap
        (fun dc => dc.2.map (entry_pair (pfx ++ dc.1 ++ [kSlash])))).Perm
      ((group.filter (fun e => !decide ((split_first e.path).2 = []))).map (entry_pair pfx)) := by
    have hp := (subdirs_of_flat group []).map
      (fun (x : Str × IndexEntry) => entry_pair (pfx ++ x.1 ++ [kSlash]) x.2)
    rw [List.map_flatMap] at hp
    simp only [List.map_map, List.flatMap_nil, List.nil_append] at hp
    have e1 : (group.filter (fun e => !decide ((split_first e.path).2 = [])))
        = group.filter (fun e => decide ((split_first e.path).2 ≠ [])) := by
      apply List.filter_congr
      intro x _
      simp
    rw [e1]
    refine (List.Perm.trans (by exact List.Perm.of_eq rfl) hp).trans (List.Perm.of_eq ?_)
    apply List.map_congr_left
    intro e he
    have he2 := List.mem_filter.mp he
    simp only [decide_eq_true_eq] at he2
    simp only [Function.comp, entry_pair]
    congr 1
    conv_rhs => rw [split_first_dir e.path he2.2]
    simp
  rw [h1]
  exact (List.Perm.append_left _ h2).trans
    ((List.filter_append_perm _ group).map (entry_pair pfx) |> fun h => by
      rw [List.map_append] at h
      exact h)
/-! ### The digest that `build` returns -/

theorem build_dirs_eq (gitdir : Str)
    (self : FS → List IndexEntry → Option (Except String (Str × FS)))
    (selfo : List IndexEntry → Oid) (dirs : List (Str × List IndexEntry))
    (hself : ∀ d ch, (d, ch) ∈ dirs → ∀ fs, ∃ fs1,
      self fs ch = some (.ok (to_hex (selfo ch), fs1)) ∧ StoreExt gitdir fs fs1) :
    ∀ fs, ∃ fs1, build_dirs self fs dirs = some (.ok (dir_entries selfo dirs, fs1))
      ∧ StoreExt gitdir fs fs1 := by
  induction dirs with
  | nil => intro fs; exact ⟨fs, rfl, storeExt_refl _ _⟩
  | cons x rest ih =>
    intro fs
    obtain ⟨d, ch⟩ := x
    obtain ⟨fs1, h1, hf1⟩ := hself d ch (List.mem_cons_self _ _) fs
    obtain ⟨fs2, h2, hf2⟩ :=
      ih (fun d2 ch2 hm => hself d2 ch2 (List.mem_cons_of_mem _ hm)) fs1
    refine ⟨fs2, ?_, storeExt_trans _ _ _ _ hf1 hf2⟩
    simp only [build_dirs, h1, from_hex_to_hex, h2, dir_entries]

theorem child_length (group : List IndexEntry) (fuel : Nat)
    (h : ∀ e ∈ group, e.path.length < fuel + 1) (d : Str) (ch : List IndexEntry)
    (hm : (d, ch) ∈ subdirs_of group []) :
    0 < fuel ∧ ∀ c ∈ ch, c.path.length < fuel := by
  have hlt : ∀ c ∈ ch, c.path.length < fuel := by
    intro c hc
    obtain ⟨e, he, hne, _, hce⟩ := subdirs_of_child group d ch c hm hc
    rw [hce]
    have := split_first_rest_length e.path hne
    have := h e he
    show (split_first e.path).2.length < fuel
    omega
  have hne := subdirs_of_nonempty group [] (by simp) (d, ch) hm
  obtain ⟨c, hc⟩ := List.exists_mem_of_ne_nil ch hne
  exact ⟨by have := hlt c hc; omega, hlt⟩

/-- The lambda `build` returns the digest of the entries `build_entries`, and adds object
files only. -/
theorem build_eq (z : Zlib) (sha1 : Str → Oid) (gitdir : Str)
    (hG : gitdir ≠ []) (hG2 : gitdir.getLast? ≠ some kSlash) (fuel : Nat) :
    ∀ (fs : FS) (group : List IndexEntry), 0 < fuel → (∀ e ∈ group, e.path.length < fuel) →
      ∃ fs1, build z sha1 gitdir fuel fs group
          = some (.ok (to_hex (tree_oid sha1 (build_entries sha1 fuel group)), fs1))
        ∧ StoreExt gitdir fs fs1 := by
  induction fuel with
  | zero => intro fs group h0; omega
  | succ fuel ih =>
    intro fs group _ h
    have hself : ∀ d ch, (d, ch) ∈ subdirs_of group [] → ∀ fs2, ∃ fs3,
        build z sha1 gitdir fuel fs2 ch
          = some (.ok (to_hex (tree_oid sha1 (build_entries sha1 fuel ch)), fs3))
        ∧ StoreExt gitdir fs2 fs3 := by
      intro d ch hm fs2
      obtain ⟨h0, hlt⟩ := child_length group fuel h d ch hm
      exact ih fs2 ch h0 hlt
    obtain ⟨fs1, h1, hf1⟩ := build_dirs_eq gitdir _
      (fun ch => tree_oid sha1 (build_entries sha1 fuel ch)) _ hself fs
    refine ⟨(write_tree z sha1 gitdir fs1 (build_entries sha1 (fuel + 1) group)).2, ?_,
      storeExt_trans _ _ _ _ hf1 (storeExt_write z sha1 gitdir fs1 kTypeTree _ hG hG2)⟩
    simp only [build, h1]
    congr 2
    apply Prod.ext
    · exact write_fst _ _ _ _ _ _
    · rfl

/-! ### What `tree_to_map` finds in the trees written -/

theorem mem_dir_entries (selfo : List IndexEntry → Oid) (dirs : List (Str × List IndexEntry))
    (t : TreeEntry) :
    t ∈ dir_entries selfo dirs ↔ ∃ dc ∈ dirs, t = ⟨kModeTree, dc.1, selfo dc.2⟩ := by
  induction dirs with
  | nil => simp [dir_entries]
  | cons x rest ih =>
    obtain ⟨d, ch⟩ := x
    simp only [dir_entries, List.mem_cons, ih]
    constructor
    · rintro (h | ⟨dc, hdc, h⟩)
      · exact ⟨(d, ch), Or.inl rfl, h⟩
      · exact ⟨dc, Or.inr hdc, h⟩
    · rintro ⟨dc, hdc | hdc, h⟩
      · left; rw [h, hdc]
      · right; exact ⟨dc, hdc, h⟩

theorem dir_entries_flat (selfo : List IndexEntry → Oid) (c : TreeEntry → List (Str × Str))
    (target : Str × List IndexEntry → List (Str × Str))
    (dirs : List (Str × List IndexEntry))
    (h : ∀ dc ∈ dirs, (c ⟨kModeTree, dc.1, selfo dc.2⟩).Perm (target dc)) :
    ((dir_entries selfo dirs).flatMap c).Perm (dirs.flatMap target) := by
  induction dirs with
  | nil => simp [dir_entries]
  | cons x rest ih =>
    obtain ⟨d, ch⟩ := x
    simp only [dir_entries, List.flatMap_cons]
    exact List.Perm.append (h (d, ch) (List.mem_cons_self _ _))
      (ih (fun dc hdc => h dc (List.mem_cons_of_mem _ hdc)))

theorem flatMap_singletons {α β : Type} (c g : α → List β) (l : List α)
    (h : ∀ t ∈ l, c t = g t) : l.flatMap c = l.flatMap g := by
  induction l with
  | nil => rfl
  | cons x rest ih =>
    simp only [List.flatMap_cons, h x (List.mem_cons_self _ _),
      ih (fun t ht => h t (List.mem_cons_of_mem _ ht))]

theorem split_first_fst_mem (p : Str) (x : Byte) (h : x ∈ (split_first p).1) : x ∈ p := by
  unfold split_first at h
  split at h
  · exact h
  · exact List.mem_of_mem_take h

theorem split_first_snd_mem (p : Str) (x : Byte) (h : x ∈ (split_first p).2) : x ∈ p := by
  unfold split_first at h
  split at h
  · cases h
  · exact List.mem_of_mem_drop h

/-- The names of the entries that `build` writes have no NUL when the paths have none. -/
theorem build_entries_names (sha1 : Str → Oid) (fuel : Nat) (group : List IndexEntry)
    (hnul : ∀ e ∈ group, kNul ∉ e.path) :
    ∀ t ∈ build_entries sha1 (fuel + 1) group, kNul ∉ t.name := by
  intro t ht
  simp only [build_entries, List.mem_append] at ht
  rcases ht with ht | ht
  · rw [files_of_eq] at ht
    obtain ⟨e, he, rfl⟩ := List.mem_map.mp ht
    exact fun hx => hnul e (List.mem_filter.mp he).1 (split_first_fst_mem _ _ hx)
  · obtain ⟨dc, hdc, rfl⟩ := (mem_dir_entries _ _ t).mp ht
    have hne := subdirs_of_nonempty group [] (by simp) dc hdc
    obtain ⟨c, hc⟩ := List.exists_mem_of_ne_nil dc.2 hne
    obtain ⟨e, he, _, hd, _⟩ := subdirs_of_child group dc.1 dc.2 c hdc hc
    show kNul ∉ dc.1
    rw [hd]
    exact fun hx => hnul e he (split_first_fst_mem _ _ hx)

/-- A tree that is stored with the bytes of a list of entries whose names have no NUL is
read back by `read_tree` as that list. -/
theorem read_tree_of_stored (z : Zlib) (gitdir : Str) (fs : FS) (hex : Str)
    (l : List TreeEntry) (hnul : ∀ e ∈ l, kNul ∉ e.name)
    (h : ObjectStore.read z gitdir fs hex = .ok ⟨kTypeTree, tree_payload l⟩) :
    read_tree z gitdir fs hex = .ok l := by
  unfold read_tree
  rw [h]
  simp only [ne_eq, not_true_eq_false, if_false]
  exact parse_tree_payload _ hnul _ (by have := tree_payload_length l; omega)

/-- The assignments that `tree_to_map` makes on the tree that `build` wrote for a group are
the pairs (path, digest) of the group, up to order. -/
theorem tree_pairs_build (z : Zlib) (sha1 : Str → Oid) (gitdir : Str) (fs1 : FS) (fuel : Nat) :
    ∀ (group : List IndexEntry) (pfx : Str), 0 < fuel →
      (∀ e ∈ group, e.path.length < fuel) →
      (∀ e ∈ group, e.mode ≠ kModeTree) →
      (∀ e ∈ group, e.path.getLast? ≠ some kSlash) →
      (∀ e ∈ group, kNul ∉ e.path) →
      trees_stored (ObjectStore.read z gitdir fs1) sha1 fuel group = true →
      ∃ l, tree_pairs (read_tree z gitdir fs1) fuel
            (to_hex (tree_oid sha1 (build_entries sha1 fuel group))) pfx = some (.ok l)
        ∧ l.Perm (group.map (entry_pair pfx)) := by
  induction fuel with
  | zero => intro group pfx h0; omega
  | succ fuel ih =>
    intro group pfx _ hlen hmode hlast hnul hst
    simp only [trees_stored, Bool.and_eq_true, decide_eq_true_eq, List.all_eq_true] at hst
    obtain ⟨hrd, hch⟩ := hst
    have hnames := build_entries_names sha1 fuel group hnul
    have hrt := read_tree_of_stored z gitdir fs1 _ (sort_entries (build_entries sha1 (fuel + 1) group))
      (fun e he => hnames e ((sort_entries_perm _).subset he)) hrd
    have hchild : ∀ dc ∈ subdirs_of group [], ∃ l,
        tree_pairs (read_tree z gitdir fs1) fuel
          (to_hex (tree_oid sha1 (build_entries sha1 fuel dc.2))) (pfx ++ dc.1 ++ [kSlash])
          = some (.ok l)
        ∧ l.Perm (dc.2.map (entry_pair (pfx ++ dc.1 ++ [kSlash]))) := by
      intro dc hdc
      obtain ⟨h0, hlt⟩ := child_length group fuel hlen dc.1 dc.2 hdc
      refine ih dc.2 _ h0 hlt ?_ ?_ ?_ (hch dc hdc)
      · intro c hc
        obtain ⟨e, he, _, _, hce⟩ := subdirs_of_child group dc.1 dc.2 c hdc hc
        rw [hce]
        exact hmode e he
      · intro c hc
        obtain ⟨e, he, hne, _, hce⟩ := subdirs_of_child group dc.1 dc.2 c hdc hc
        rw [hce]
        exact split_first_rest_last e.path hne (hlast e he)
      · intro c hc
        obtain ⟨e, he, _, _, hce⟩ := subdirs_of_child group dc.1 dc.2 c hdc hc
        rw [hce]
        exact fun hx => hnul e he (split_first_snd_mem _ _ hx)
    let c : TreeEntry → List (Str × Str) := fun t =>
      if t.mode = kModeTree then
        match tree_pairs (read_tree z gitdir fs1) fuel (to_hex t.id) (pfx ++ t.name ++ [kSlash]) with
        | some (.ok l) => l
        | _ => []
      else [(pfx ++ t.name, to_hex t.id)]
    have hfile : ∀ t ∈ files_of group, t.mode ≠ kModeTree := by
      intro t ht
      rw [files_of_eq] at ht
      obtain ⟨e, he, rfl⟩ := List.mem_map.mp ht
      exact hmode e (List.mem_filter.mp he).1
    have hc : ∀ t ∈ sort_entries (build_entries sha1 (fuel + 1) group),
        (t.mode = kModeTree →
          tree_pairs (read_tree z gitdir fs1) fuel (to_hex t.id) (pfx ++ t.name ++ [kSlash])
            = some (.ok (c t)))
        ∧ (t.mode ≠ kModeTree → c t = [(pfx ++ t.name, to_hex t.id)]) := by
      intro t ht
      have ht2 := (sort_entries_perm _).subset ht
      simp only [build_entries, List.mem_append] at ht2
      refine ⟨fun hm => ?_, fun hm => by simp only [c, if_neg hm]⟩
      rcases ht2 with ht2 | ht2
      · exact absurd hm (hfile t ht2)
      · obtain ⟨dc, hdc, rfl⟩ := (mem_dir_entries _ _ t).mp ht2
        obtain ⟨l, hl, _⟩ := hchild dc hdc
        simp only [c, if_true, hl]
    refine ⟨(sort_entries (build_entries sha1 (fuel + 1) group)).flatMap c, ?_, ?_⟩
    · simp only [tree_pairs, hrt]
      exact pairs_loop_flat _ pfx c _ hc
    · refine (List.Perm.flatMap_right c (sort_entries_perm _)).trans ?_
      simp only [build_entries, List.flatMap_append]
      refine List.Perm.trans ?_ (group_pairs_perm pfx group hlast)
      refine List.Perm.append (List.Perm.of_eq ?_) ?_
      · rw [flatMap_singletons c (fun t => [(pfx ++ t.name, to_hex t.id)]) _
          (fun t ht => by simp only [c, if_neg (hfile t ht)])]
        induction files_of group with
        | nil => rfl
        | cons x rest ih2 => simp only [List.flatMap_cons, List.map_cons, ih2, List.singleton_append]
      · apply dir_entries_flat
        intro dc hdc
        obtain ⟨l, hl, hp⟩ := hchild dc hdc
        simp only [c, if_true, hl]
        exact hp
/-! ### Maps built by assignments -/

theorem mem_map_assign (m : PathMap) (k v : Str) (x : Str × Str)
    (h : x ∈ map_assign m k v) : x = (k, v) ∨ x ∈ m := by
  induction m with
  | nil =>
    simp only [map_assign, List.mem_singleton] at h
    exact Or.inl h
  | cons y rest ih =>
    obtain ⟨k1, v1⟩ := y
    simp only [map_assign] at h
    split at h
    · rcases List.mem_cons.mp h with h | h
      · exact Or.inl h
      · exact Or.inr (List.mem_cons_of_mem _ h)
    · split at h
      · rcases List.mem_cons.mp h with h | h
        · exact Or.inl h
        · exact Or.inr h
      · rcases List.mem_cons.mp h with h | h
        · exact Or.inr (by rw [h]; exact List.mem_cons_self _ _)
        · rcases ih h with h | h
          · exact Or.inl h
          · exact Or.inr (List.mem_cons_of_mem _ h)

theorem map_assign_sorted (m : PathMap) (k v : Str)
    (h : m.Pairwise (fun a b => str_lt a.1 b.1 = true)) :
    (map_assign m k v).Pairwise (fun a b => str_lt a.1 b.1 = true) := by
  induction m with
  | nil => simp [map_assign]
  | cons y rest ih =>
    obtain ⟨k1, v1⟩ := y
    rw [List.pairwise_cons] at h
    simp only [map_assign]
    split
    · rename_i hk
      subst hk
      exact List.pairwise_cons.mpr ⟨h.1, h.2⟩
    · rename_i hne
      split
      · rename_i hlt
        refine List.pairwise_cons.mpr ⟨?_, List.pairwise_cons.mpr h⟩
        intro x hx
        rcases List.mem_cons.mp hx with rfl | hx
        · exact hlt
        · exact str_lt_trans _ _ _ hlt (h.1 x hx)
      · rename_i hnlt
        refine List.pairwise_cons.mpr ⟨?_, ih h.2⟩
        intro x hx
        rcases mem_map_assign rest k v x hx with rfl | hx
        · exact str_lt_total _ _ hne (by simpa using hnlt)
        · exact h.1 x hx

theorem map_find_head_none (k v : Str) (rest : PathMap)
    (h : ((k, v) :: rest).Pairwise (fun a b => str_lt a.1 b.1 = true)) :
    map_find rest k = none := by
  rw [map_find_none_iff]
  intro hk
  obtain ⟨x, hx, hxk⟩ := List.mem_map.mp hk
  have := (List.pairwise_cons.mp h).1 x hx
  rw [hxk, str_lt_irrefl] at this
  cases this

/-- Two maps in ascending key order with the same lookups are equal. -/
theorem map_ext (m1 : PathMap) :
    ∀ (m2 : PathMap), m1.Pairwise (fun a b => str_lt a.1 b.1 = true) →
      m2.Pairwise (fun a b => str_lt a.1 b.1 = true) →
      (∀ q, map_find m1 q = map_find m2 q) → m1 = m2 := by
  induction m1 with
  | nil =>
    intro m2 _ _ h
    cases m2 with
    | nil => rfl
    | cons y r2 =>
      have := h y.1
      simp [map_find] at this
  | cons x r1 ih =>
    intro m2 h1 h2 h
    obtain ⟨k1, v1⟩ := x
    cases m2 with
    | nil =>
      have := h k1
      simp [map_find] at this
    | cons y r2 =>
      obtain ⟨k2, v2⟩ := y
      have hk : k1 = k2 := by
        by_contra hne
        have a1 : map_find ((k2, v2) :: r2) k1 = some v1 := by
          rw [← h k1]; simp [map_find]
        have a2 : map_find ((k1, v1) :: r1) k2 = some v2 := by
          rw [h k2]; simp [map_find]
        have b1 : (k1, v1) ∈ r2 := by
          rcases List.mem_cons.mp (map_find_mem _ _ _ a1) with e | e
          · simp only [Prod.mk.injEq] at e
            exact absurd e.1 hne
          · exact e
        have b2 : (k2, v2) ∈ r1 := by
          rcases List.mem_cons.mp (map_find_mem _ _ _ a2) with e | e
          · simp only [Prod.mk.injEq] at e
            exact absurd e.1.symm hne
          · exact e
        have c1 := (List.pairwise_cons.mp h2).1 _ b1
        have c2 := (List.pairwise_cons.mp h1).1 _ b2
        have := str_lt_trans _ _ _ c1 c2
        rw [str_lt_irrefl] at this
        cases this
      subst hk
      have hv : v1 = v2 := by
        have := h k1
        simpa [map_find] using this
      subst hv
      have ht : r1 = r2 := by
        apply ih r2 (List.pairwise_cons.mp h1).2 (List.pairwise_cons.mp h2).2
        intro q
        by_cases hq : k1 = q
        · subst hq
          rw [map_find_head_none _ _ _ h1, map_find_head_none _ _ _ h2]
        · have := h q
          simpa [map_find, hq] using this
      rw [ht]

theorem foldl_assign_sorted (l : List (Str × Str)) :
    ∀ (m : PathMap), m.Pairwise (fun a b => str_lt a.1 b.1 = true) →
      (l.foldl (fun m kv => map_assign m kv.1 kv.2) m).Pairwise
        (fun a b => str_lt a.1 b.1 = true) := by
  induction l with
  | nil => intro m h; exact h
  | cons x rest ih => intro m h; exact ih _ (map_assign_sorted m x.1 x.2 h)

theorem foldl_assign_congr (l : List (Str × Str)) :
    ∀ (m1 m2 : PathMap), (∀ q, map_find m1 q = map_find m2 q) →
      ∀ q, map_find (l.foldl (fun m kv => map_assign m kv.1 kv.2) m1) q
        = map_find (l.foldl (fun m kv => map_assign m kv.1 kv.2) m2) q := by
  induction l with
  | nil => intro m1 m2 h; exact h
  | cons x rest ih =>
    intro m1 m2 h
    apply ih
    intro q
    rw [map_find_assign, map_find_assign, h q]

theorem foldl_assign_perm (l1 l2 : List (Str × Str)) (hp : l1.Perm l2) :
    (l1.map Prod.fst).Nodup →
    ∀ (m : PathMap) (q : Str),
      map_find (l1.foldl (fun m kv => map_assign m kv.1 kv.2) m) q
        = map_find (l2.foldl (fun m kv => map_assign m kv.1 kv.2) m) q := by
  induction hp with
  | nil => intro _ m q; rfl
  | cons x _ ih =>
    intro hnd m q
    simp only [List.map_cons, List.nodup_cons] at hnd
    exact ih hnd.2 _ q
  | swap x y l =>
    intro hnd m q
    simp only [List.map_cons, List.nodup_cons, List.mem_cons, not_or] at hnd
    simp only [List.foldl_cons]
    apply foldl_assign_congr
    intro q2
    simp only [map_find_assign]
    by_cases h1 : q2 = x.1
    · by_cases h2 : q2 = y.1
      · exact absurd (h2.symm.trans h1) hnd.1.1
      · subst h1
        simp [h2]
    · simp [h1]
  | trans h12 _ ih1 ih2 =>
    intro hnd m q
    rw [ih1 hnd m q]
    exact ih2 (((h12.map Prod.fst).nodup_iff).mp hnd) m q

/-- With pairwise distinct keys, the map that a sequence of assignments builds does not
depend on their order. -/
theorem foldl_assign_perm_eq (l1 l2 : List (Str × Str)) (hp : l1.Perm l2)
    (hnd : (l1.map Prod.fst).Nodup) :
    l1.foldl (fun m kv => map_assign m kv.1 kv.2) []
      = l2.foldl (fun m kv => map_assign m kv.1 kv.2) [] :=
  map_ext _ _ (foldl_assign_sorted l1 [] List.Pairwise.nil)
    (foldl_assign_sorted l2 [] List.Pairwise.nil) (foldl_assign_perm l1 l2 hp hnd [])

theorem entries_to_map_eq (entries : List IndexEntry) :
    entries_to_map entries
      = (entries.map (entry_pair [])).foldl (fun m kv => map_assign m kv.1 kv.2) [] := by
  unfold entries_to_map
  rw [List.foldl_map]
  rfl
/-! ### The round trip -/

theorem tree_to_map_impl_fuel (rt : Str → Except String (List TreeEntry)) (f1 : Nat) :
    ∀ (f2 : Nat) (t pfx : Str) (out m : PathMap), f1 ≤ f2 →
      tree_to_map_impl rt f1 t pfx out = some (.ok m) →
      tree_to_map_impl rt f2 t pfx out = some (.ok m) := by
  induction f1 with
  | zero => intro f2 t pfx out m _ h; simp [tree_to_map_impl] at h
  | succ f1 ih =>
    intro f2 t pfx out m hle h
    obtain ⟨g, rfl⟩ : ∃ g, f2 = g + 1 := ⟨f2 - 1, by omega⟩
    simp only [tree_to_map_impl] at h ⊢
    cases hr : rt t with
    | error e => rw [hr] at h; simp at h
    | ok es =>
      rw [hr] at h
      simp only at h ⊢
      exact tree_to_map_loop_mono _ _
        (fun a b c m2 h2 => ih g a b c m2 (by omega) h2) pfx es out m h

theorem segments_slash_end (p : Str) : ∀ cur, [] ∈ segments (p ++ [kSlash]) cur := by
  induction p with
  | nil => intro cur; simp [segments]
  | cons c rest ih =>
    intro cur
    simp only [List.cons_append, segments]
    split
    · exact List.mem_cons_of_mem _ (ih [])
    · exact ih _

/-- A path whose components are not empty does not end with `/`. -/
theorem segments_last (p : Str) (h : ∀ s ∈ segments p [], s ≠ []) :
    p.getLast? ≠ some kSlash := by
  intro hl
  obtain ⟨init, rfl⟩ : ∃ init, p = init ++ [kSlash] := by
    rcases List.eq_nil_or_concat p with e | ⟨init, b, e⟩
    · rw [e] at hl; cases hl
    · rw [e] at hl ⊢
      simp only [List.concat_eq_append, List.getLast?_append, List.getLast?_singleton,
        Option.or, Option.some.injEq] at hl
      exact ⟨init, by rw [hl]; simp⟩
  exact h [] (segments_slash_end init []) rfl

theorem write_tree_from_index_pairs (z : Zlib) (sha1 : Str → Oid) (root : Str) (fs : FS)
    (hmode : ∀ e ∈ Index.load fs root, e.mode = kModeFile)
    (hnd : ((Index.load fs root).map IndexEntry.path).Nodup)
    (hseg : ∀ e ∈ Index.load fs root, ∀ s ∈ segments e.path [], s ≠ [])
    (hnul : ∀ e ∈ Index.load fs root, kNul ∉ e.path)
    (hst : trees_stored
        (ObjectStore.read z (git_dir root) (store_after_write_tree z sha1 root fs)) sha1
        (build_depth (Index.load fs root)) (Index.load fs root) = true) :
    ∃ id, write_tree_from_index z sha1 root fs
        = some (.ok (to_hex id, store_after_write_tree z sha1 root fs))
      ∧ StoreExt (git_dir root) fs (store_after_write_tree z sha1 root fs)
      ∧ ∀ fuel, build_depth (Index.load fs root) ≤ fuel →
          tree_to_map (read_tree z (git_dir root) (store_after_write_tree z sha1 root fs)) fuel
            (to_hex id) = some (.ok (index_to_map fs root)) := by
  have hlen : ∀ e ∈ Index.load fs root, e.path.length < build_depth (Index.load fs root) := by
    intro e he
    have := (foldl_max_le ((Index.load fs root).map (fun e => e.path.length)) 0).2 e.path.length
      (List.mem_map.mpr ⟨e, he, rfl⟩)
    unfold build_depth
    omega
  have hpos : 0 < build_depth (Index.load fs root) := by unfold build_depth; omega
  obtain ⟨fs1, hb, hext⟩ := build_eq z sha1 (git_dir root) (git_dir_ne_nil root)
    (git_dir_last root) _ fs (Index.load fs root) hpos hlen
  have hw : write_tree_from_index z sha1 root fs
      = some (.ok (to_hex (tree_oid sha1 (build_entries sha1 (build_depth (Index.load fs root))
          (Index.load fs root))), fs1)) := hb
  have hfs : store_after_write_tree z sha1 root fs = fs1 := by
    unfold store_after_write_tree
    rw [hw]
  rw [hfs] at hst ⊢
  refine ⟨_, hw, hext, ?_⟩
  intro fuel hfuel
  obtain ⟨l, hl, hp⟩ := tree_pairs_build z sha1 (git_dir root) fs1 _ (Index.load fs root) []
    hpos hlen (fun e he => by rw [hmode e he]; decide)
    (fun e he => segments_last e.path (hseg e he)) hnul hst
  have h1 := tree_to_map_impl_pairs _ _ _ _ l hl []
  unfold tree_to_map
  rw [tree_to_map_impl_fuel _ _ fuel _ _ _ _ hfuel h1]
  congr 2
  unfold index_to_map
  rw [entries_to_map_eq]
  refine (foldl_assign_perm_eq _ _ hp.symm ?_).symm
  rw [List.map_map]
  have e : (Prod.fst ∘ entry_pair []) = IndexEntry.path := by
    funext x
    simp [entry_pair]
  rw [e]
  exact hnd

/-- The round trip where the trees are read back: for an index whose entries have
regular-file mode and pairwise distinct paths, without NUL and made of non-empty segments,
`write_tree_from_index` returns a digest and adds object files only; when each tree object
it wrote is read back from the store with the bytes written, `tree_to_map` of that digest
is the index snapshot (path to hex digest).  A tree beyond the buffer of `z_decompress` is
not read back: see `tree_to_map_write_tree_from_index_overflow`. -/
theorem tree_to_map_write_tree_from_index (z : Zlib) (sha1 : Str → Oid) (root : Str) (fs : FS)
    (hmode : ∀ e ∈ Index.load fs root, e.mode = kModeFile)
    (hnd : ((Index.load fs root).map IndexEntry.path).Nodup)
    (hseg : ∀ e ∈ Index.load fs root, ∀ s ∈ segments e.path [], s ≠ [])
    (hnul : ∀ e ∈ Index.load fs root, kNul ∉ e.path)
    (hst : trees_stored
        (ObjectStore.read z (git_dir root) (store_after_write_tree z sha1 root fs)) sha1
        (build_depth (Index.load fs root)) (Index.load fs root) = true) :
    ∃ id, write_tree_from_index z sha1 root fs
        = some (.ok (to_hex id, store_after_write_tree z sha1 root fs))
      ∧ StoreExt (git_dir root) fs (store_after_write_tree z sha1 root fs)
      ∧ ∀ fuel, build_depth (Index.load fs root) ≤ fuel →
          tree_to_map (read_tree z (git_dir root) (store_after_write_tree z sha1 root fs)) fuel
            (to_hex id) = some (.ok (index_to_map fs root)) :=
  write_tree_from_index_pairs z sha1 root fs hmode hnd hseg hnul hst

set_option maxRecDepth 100000 in
/-- The hypotheses of `tree_to_map_write_tree_from_index` hold for the index with the paths
`a`, `d/b` and `d/e/c`. -/
theorem tree_to_map_write_tree_from_index_witness :
    ∃ id, write_tree_from_index rleZlib headSha1 (lit "/r") nestedFS
        = some (.ok (to_hex id, store_after_write_tree rleZlib headSha1 (lit "/r") nestedFS))
      ∧ StoreExt (git_dir (lit "/r")) nestedFS
          (store_after_write_tree rleZlib headSha1 (lit "/r") nestedFS)
      ∧ ∀ fuel, build_depth (Index.load nestedFS (lit "/r")) ≤ fuel →
          tree_to_map (read_tree rleZlib (git_dir (lit "/r"))
              (store_after_write_tree rleZlib headSha1 (lit "/r") nestedFS)) fuel (to_hex id)
            = some (.ok (index_to_map nestedFS (lit "/r"))) :=
  tree_to_map_write_tree_from_index rleZlib headSha1 (lit "/r") nestedFS
    (by decide) (by decide) (by decide) (by decide) (by decide)

set_option maxRecDepth 100000 in
/-- A path with a NUL byte, which only an index file written by hand can hold: the index
of `nulFS` has the single path `a<NUL>b`, of regular-file mode and made of one non-empty
segment.  `write_tree_from_index` writes a tree
whose entry name contains the NUL, `read_tree` stops the name there, and `tree_to_map`
throws instead of returning the index snapshot. -/
theorem tree_to_map_nul_path :
    (Index.load nulFS (lit "/r")).map (fun e => (e.mode, e.path))
        = [(kModeFile, [97, kNul, 98])]
    ∧ segments [97, kNul, 98] [] = [[97, kNul, 98]]
    ∧ index_to_map nulFS (lit "/r") = [([97, kNul, 98], List.replicate 40 97)]
    ∧ (write_tree_from_index rleZlib headSha1 (lit "/r") nulFS).map (fun r =>
        match r with
        | .ok (hex, fs1) => tree_to_map (read_tree rleZlib (git_dir (lit "/r")) fs1) 3 hex
        | .error e => some (.error e))
      = some (some (.error "tree parse: expected space")) := by
  decide

/-! ## The text format of the index -/

theorem to_hex_no_space (id : Oid) : ∀ c ∈ to_hex id, isspace c = false := by
  have hx : ∀ (l : List Byte), ∀ c ∈ hex_of_bytes l, isspace c = false := by
    intro l
    induction l with
    | nil => intro c hc; simp [hex_of_bytes] at hc
    | cons b rest ih =>
      intro c hc
      simp only [hex_of_bytes, List.mem_cons] at hc
      have hk : ∀ n, n < 16 → isspace (kHex n) = false := by
        intro n hn
        interval_cases n <;> decide
      rcases hc with rfl | rfl | hc
      · exact hk _ (Nat.mod_lt _ (by norm_num))
      · exact hk _ (Nat.mod_lt _ (by norm_num))
      · exact ih c hc
  exact hx _

theorem takeWhile_append_stop {α : Type} (p : α → Bool) (a : List α) (x : α) (b : List α)
    (ha : ∀ c ∈ a, p c = true) (hx : p x = false) :
    (a ++ x :: b).takeWhile p = a ∧ (a ++ x :: b).dropWhile p = x :: b := by
  induction a with
  | nil => simp [List.takeWhile, List.dropWhile, hx]
  | cons c cs ih =>
    have hc := ha c (List.mem_cons_self _ _)
    have := ih (fun y hy => ha y (List.mem_cons_of_mem _ hy))
    simp [List.takeWhile, List.dropWhile, hc, this.1, this.2]

theorem index_path_ok_spec (p : Str) (h : index_path_ok p = true) :
    kLF ∉ p ∧ (∃ c rest, p = c :: rest ∧ isspace c = false)
      ∧ (∃ init d, p = init ++ [d] ∧ isspace d = false) := by
  unfold index_path_ok at h
  simp only [Bool.and_eq_true, decide_eq_true_eq] at h
  obtain ⟨⟨h1, h2⟩, h3⟩ := h
  refine ⟨h1, ?_, ?_⟩
  · cases p with
    | nil => simp at h2
    | cons c rest => exact ⟨c, rest, rfl, by simpa using h2⟩
  · rcases List.eq_nil_or_concat p with e | ⟨init, d, e⟩
    · rw [e] at h2; simp at h2
    · rw [e] at h3 ⊢
      simp only [List.concat_eq_append, List.getLast?_append, List.getLast?_singleton,
        Option.or] at h3
      exact ⟨init, d, by simp, by simpa using h3⟩

theorem trim_space_path (p : Str) (h : index_path_ok p = true) : trim (kSpace :: p) = p := by
  obtain ⟨_, ⟨c, rest, e1, hc⟩, ⟨init, d, e2, hd⟩⟩ := index_path_ok_spec p h
  unfold trim
  have h1 : (kSpace :: p).reverse.dropWhile isspace = (kSpace :: p).reverse := by
    rw [e2]
    simp only [List.reverse_cons, List.reverse_append, List.reverse_nil, List.nil_append,
      List.singleton_append, List.cons_append]
    rw [List.dropWhile_cons_of_neg (by simp [hd])]
  rw [h1, List.reverse_reverse, List.dropWhile_cons_of_pos (by decide), e1,
    List.dropWhile_cons_of_neg (by simp [hc])]

theorem trim_line (a p : Str) (c : Byte) (hc : isspace c = false)
    (h : index_path_ok p = true) : trim (c :: (a ++ p)) = c :: (a ++ p) := by
  obtain ⟨_, _, ⟨init, d, e2, hd⟩⟩ := index_path_ok_spec p h
  unfold trim
  have h1 : (c :: (a ++ p)).reverse.dropWhile isspace = (c :: (a ++ p)).reverse := by
    rw [e2]
    simp only [List.reverse_cons, List.reverse_append, List.reverse_nil, List.nil_append,
      List.singleton_append, List.cons_append]
    rw [List.dropWhile_cons_of_neg (by simp [hd])]
  rw [h1, List.reverse_reverse, List.dropWhile_cons_of_neg (by simp [hc])]

set_option maxRecDepth 10000 in
/-- The line that `Index::save` writes for an entry of regular-file mode is parsed back by
`Index::load` as that entry. -/
theorem parse_index_line_entry (oid : Oid) (p : Str) (h : index_path_ok p = true) :
    parse_index_line (mode_to_ascii_octal kModeFile ++ kSpace :: (to_hex oid ++ kSpace :: p))
      = some ⟨kModeFile, oid, p⟩ := by
  have em : mode_to_ascii_octal kModeFile = [49, 48, 48, 54, 52, 52] := by decide
  rw [em]
  have hline : trim ([49, 48, 48, 54, 52, 52] ++ kSpace :: (to_hex oid ++ kSpace :: p))
      = [49, 48, 48, 54, 52, 52] ++ kSpace :: (to_hex oid ++ kSpace :: p) := by
    have := trim_line ([48, 48, 54, 52, 52, kSpace] ++ to_hex oid ++ [kSpace]) p 49
      (by decide) h
    simpa using this
  have ht1 : read_token ([49, 48, 48, 54, 52, 52] ++ kSpace :: (to_hex oid ++ kSpace :: p))
      = ([49, 48, 48, 54, 52, 52], kSpace :: (to_hex oid ++ kSpace :: p)) := by
    unfold read_token
    have hd : ([49, 48, 48, 54, 52, 52] ++ kSpace :: (to_hex oid ++ kSpace :: p)).dropWhile isspace
        = [49, 48, 48, 54, 52, 52] ++ kSpace :: (to_hex oid ++ kSpace :: p) := by
      rw [List.cons_append, List.dropWhile_cons_of_neg (by decide)]
    rw [hd]
    have := takeWhile_append_stop (fun c => !isspace c) [49, 48, 48, 54, 52, 52] kSpace
      (to_hex oid ++ kSpace :: p) (by decide) (by decide)
    rw [this.1, this.2]
  have ht2 : read_token (kSpace :: (to_hex oid ++ kSpace :: p)) = (to_hex oid, kSpace :: p) := by
    unfold read_token
    obtain ⟨a, b, rest, he, _⟩ := to_hex_cons oid
    have ha : isspace a = false := to_hex_no_space oid a (by rw [he]; exact List.mem_cons_self _ _)
    have hd : (kSpace :: (to_hex oid ++ kSpace :: p)).dropWhile isspace
        = to_hex oid ++ kSpace :: p := by
      rw [List.dropWhile_cons_of_pos (by decide), he, List.cons_append,
        List.dropWhile_cons_of_neg (by simp [ha])]
    rw [hd]
    have := takeWhile_append_stop (fun c => !isspace c) (to_hex oid) kSpace p
      (fun c hc => by simp [to_hex_no_space oid c hc]) (by decide)
    rw [this.1, this.2]
  have hp : p ≠ [] := by
    obtain ⟨_, ⟨c, rest, e1, _⟩, _⟩ := index_path_ok_spec p h
    rw [e1]; simp
  have hhex : to_hex oid ≠ [] := by
    obtain ⟨a, b, rest, he, _⟩ := to_hex_cons oid
    rw [he]; simp
  unfold parse_index_line
  simp only [hline, ht1, ht2, trim_space_path p h, to_hex_length, from_hex_to_hex]
  have hm : index_mode_loop [49, 48, 48, 54, 52, 52] 0 = 33188 := by decide
  rw [hm]
  simp [hp, hhex]
  rfl

theorem getlines_line (line : Str) (hl : kLF ∉ line) :
    ∀ (rest cur : Str), getlines (line ++ kLF :: rest) cur = (cur ++ line) :: getlines rest [] := by
  induction line with
  | nil => intro rest cur; simp [getlines]
  | cons c cs ih =>
    intro rest cur
    have hc : ¬ c = kLF := fun e => hl (by rw [e]; exact List.mem_cons_self _ _)
    rw [List.cons_append, getlines, if_neg hc, ih (fun e => hl (List.mem_cons_of_mem _ e))]
    simp

theorem getlines_index_text (entries : List IndexEntry)
    (h : ∀ e ∈ entries, e.mode = kModeFile ∧ index_path_ok e.path = true) :
    (getlines (index_text entries) []).filterMap parse_index_line = entries := by
  induction entries with
  | nil => rfl
  | cons e rest ih =>
    obtain ⟨hm, hp⟩ := h e (List.mem_cons_self _ _)
    have hl : kLF ∉ mode_to_ascii_octal e.mode ++ kSpace :: (to_hex e.oid ++ kSpace :: e.path) := by
      rw [hm]
      have em : mode_to_ascii_octal kModeFile = [49, 48, 48, 54, 52, 52] := by decide
      rw [em]
      intro hc
      simp only [List.mem_append, List.mem_cons] at hc
      rcases hc with hc | hc | hc | hc | hc
      · revert hc; decide
      · revert hc; decide
      · exact absurd (to_hex_no_space e.oid _ hc) (by decide)
      · revert hc; decide
      · exact (index_path_ok_spec _ hp).1 hc
    have e1 : index_text (e :: rest)
        = (mode_to_ascii_octal e.mode ++ kSpace :: (to_hex e.oid ++ kSpace :: e.path))
          ++ kLF :: index_text rest := by
      simp [index_text]
    rw [e1, getlines_line _ hl, List.nil_append, List.filterMap_cons, hm,
      parse_index_line_entry e.oid e.path hp, ih (fun x hx => h x (List.mem_cons_of_mem _ hx))]
    cases e
    simp only at hm
    rw [hm]

theorem str_lt_asymm (a b : Str) (h : str_lt a b = true) : str_lt b a = false := by
  cases hb : str_lt b a with
  | false => rfl
  | true =>
    have := str_lt_trans _ _ _ h hb
    rw [str_lt_irrefl] at this
    cases this

theorem sort_index_sorted (entries : List IndexEntry)
    (h : entries.Pairwise (fun a b => str_lt a.path b.path = true)) :
    sort_index entries = entries := by
  induction entries with
  | nil => rfl
  | cons e rest ih =>
    rw [List.pairwise_cons] at h
    simp only [sort_index, ih h.2]
    cases rest with
    | nil => rfl
    | cons x xs =>
      simp only [insert_index_entry]
      rw [if_neg (by rw [str_lt_asymm _ _ (h.1 x (List.mem_cons_self _ _))]; simp)]

/-- `Index::load` of the file that `Index::save` wrote for entries of regular-file mode, in
ascending order of path, whose paths the text format keeps: the same entries. -/
theorem load_save (fs : FS) (root : Str) (entries : List IndexEntry)
    (h : ∀ e ∈ entries, e.mode = kModeFile ∧ index_path_ok e.path = true)
    (hs : entries.Pairwise (fun a b => str_lt a.path b.path = true)) :
    Index.load (Index.save fs root entries) root = entries := by
  unfold Index.load Index.save write_file_atomic
  simp only [if_true]
  rw [getlines_index_text entries h, sort_index_sorted entries hs]
/-! ## `write_index_snapshot` -/

theorem replace_entry_none (mode : Mode) (bin : Oid) (p : Str) (entries : List IndexEntry)
    (h : ∀ e ∈ entries, e.path ≠ p) : replace_entry mode bin p entries = none := by
  induction entries with
  | nil => rfl
  | cons e rest ih =>
    simp only [replace_entry, if_neg (h e (List.mem_cons_self _ _)),
      ih (fun x hx => h x (List.mem_cons_of_mem _ hx))]

theorem map_find_mem_keys (m : PathMap) (k : Str) (h : k ∈ m.map Prod.fst) :
    (map_find m k).isSome = true := by
  cases hf : map_find m k with
  | some v => rfl
  | none => exact absurd h ((map_find_none_iff m k).mp hf)

theorem object_ne_tmp (gitdir : Str) (hG : gitdir ≠ []) (hG2 : gitdir.getLast? ≠ some kSlash)
    (i j : Oid) : path_for_oid gitdir i ≠ path_for_oid gitdir j ++ lit ".tmp" := by
  intro heq
  have := congrArg List.length heq
  rw [path_for_oid_eq gitdir hG hG2, path_for_oid_eq gitdir hG hG2] at this
  obtain ⟨a, b, rest, he, _, _, _, hl⟩ := to_hex_cons i
  obtain ⟨a2, b2, rest2, he2, _, _, _, hl2⟩ := to_hex_cons j
  rw [he, he2] at this
  simp only [List.length_append, List.take_succ_cons, List.take_zero, List.length_cons,
    List.drop_succ_cons, List.drop_zero, hl, hl2, List.length_nil] at this
  have h4 : (lit ".tmp").length = 4 := by decide
  omega

theorem mem_insert_str (s x : Str) (l : List Str) : x ∈ insert_str s l ↔ x = s ∨ x ∈ l := by
  induction l with
  | nil => simp [insert_str]
  | cons y rest ih =>
    simp only [insert_str]
    split
    · simp only [List.mem_cons, ih]
      tauto
    · simp only [List.mem_cons]

theorem mem_sort_strs (x : Str) (l : List Str) : x ∈ sort_strs l ↔ x ∈ l := by
  induction l with
  | nil => simp [sort_strs]
  | cons y rest ih => simp only [sort_strs, mem_insert_str, ih, List.mem_cons]

theorem mem_keys_find (m : PathMap) (kv : Str × Str) (h : kv ∈ m) :
    (map_find m kv.1).isSome = true :=
  map_find_mem_keys m kv.1 (List.mem_map.mpr ⟨kv, h, rfl⟩)

set_option maxRecDepth 100000 in
/-- The outcome of the conflicting merge in the example: the error names `f.txt`, the
index holds `g.txt` only, `MERGE_HEAD` holds the tip of `feature`, `f.txt` holds the
conflict text, and the status reports `f.txt` as untracked. -/
theorem merge_branch_conflict_example :
    (merge_branch rleZlib mixSha1 (lit "/r") true (lit "A <a@b> 0 +0000")
          [lit "f.txt", lit "g.txt"] 4 (cfFS (some (lit "g\n"))) (lit "feature")).map
        (fun r => (r.1, (Index.load r.2 (lit "/r")).map IndexEntry.path))
      = some (Except.error "merge conflicts in: f.txt", [lit "g.txt"])
    ∧ (merge_branch rleZlib mixSha1 (lit "/r") true (lit "A <a@b> 0 +0000")
          [lit "f.txt", lit "g.txt"] 4 (cfFS (some (lit "g\n"))) (lit "feature")).map
        (fun r => (r.2 (lit "/r/.gitfly/MERGE_HEAD"), r.2 (lit "/r/f.txt")))
      = some (some (cfCommit2.1 ++ [kLF]),
          some (lit "<<<<<<< HEAD\nmaster\n=======\nfeature\n>>>>>>> feature\n"))
    ∧ ((merge_branch rleZlib mixSha1 (lit "/r") true (lit "A <a@b> 0 +0000")
          [lit "f.txt", lit "g.txt"] 4 (cfFS (some (lit "g\n"))) (lit "feature")).bind
        (fun r => compute_status rleZlib mixSha1 (lit "/r") r.2 [lit "f.txt", lit "g.txt"] 4)).map
        (fun s => s.map Status.untracked)
      = some (.ok [lit "f.txt"]) := by
  decide

/-! ## `z_decompress` after `z_compress` -/

theorem rle_run_small (d : Str) (hd : d = List.replicate 10000 97) :
    32 * max ((z_compress rleZlib d).length * 3) 64 < d.length := by
  have h2 := rle_enc_replicate 10000 (by norm_num) 97
  rw [← hd] at h2
  have hlen : d.length = 10000 := by rw [hd, List.length_replicate]
  have h4 : z_compress rleZlib d = rle_enc d := rfl
  rw [h4, hlen]
  omega

/-- C26 (failing case): when the input `d` is more than 32 * max(3 * compressed size, 64)
bytes long, `z_decompress(z_compress(d))` throws "zlib uncompress overflow" instead of
returning `d`: the loop tries six buffer sizes only, the first max(3 * compressed size, 64)
and each the double of the one before. -/
theorem z_decompress_z_compress_overflow (z : Zlib) (d : Str)
    (hbig : 32 * max ((z_compress z d).length * 3) 64 < d.length) :
    z_decompress z (z_compress z d) = .error "zlib uncompress overflow" :=
  z_decompress_overflow z d hbig

/-- C26, at a concrete input: with the run-length codec in place of zlib, 10000 bytes `a`
(far below 1 GiB) are compressed, and decompressing the result throws. -/
theorem z_decompress_z_compress_overflow_witness :
    (List.replicate 10000 (97 : Byte)).length ≤ 1073741824
    ∧ z_decompress rleZlib (z_compress rleZlib (List.replicate 10000 97))
      = .error "zlib uncompress overflow" :=
  ⟨by rw [List.length_replicate]; norm_num,
    z_decompress_z_compress_overflow rleZlib (List.replicate 10000 97) (rle_run_small _ rfl)⟩

/-- What `z_decompress` returns on the output of `z_compress`, for every input: the input
when it fits in the sixth buffer, the overflow error otherwise. -/
theorem z_decompress_z_compress (z : Zlib) (d : Str) :
    z_decompress z (z_compress z d)
      = if d.length ≤ 32 * max ((z_compress z d).length * 3) 64 then .ok d
        else .error "zlib uncompress overflow" := by
  unfold z_compress
  by_cases h : d.length ≤ 32 * max ((z.deflate d).length * 3) 64
  · rw [if_pos h]
    exact z_decompress_deflate z d h
  · rw [if_neg h]
    exact z_decompress_overflow z d (by omega)

/-! ## `ObjectStore::read` and the header -/

theorem indexOf_drop_length (store : Str) (x : Byte) (n : Nat) (h : x ∉ store.drop n)
    (hn : n ≤ store.length) : n + (store.drop n).indexOf x = store.length := by
  rw [List.indexOf_eq_length.mpr h, List.length_drop]
  omega

theorem read_malformed (z : Zlib) (gitdir : Str) (fs : FS) (hex : Str) (oid : Oid)
    (comp store : Str) (hhex : from_hex hex = some oid)
    (hfile : fs (path_for_oid gitdir oid) = some comp)
    (hz : z_decompress z comp = .ok store)
    (hbad : kSpace ∉ store ∨ kNul ∉ store.drop (store.indexOf kSpace + 1)) :
    ObjectStore.read z gitdir fs hex = .error "object_store: invalid header" := by
  unfold ObjectStore.read
  simp only [hhex, read_file, hfile, hz]
  by_cases hsp : kSpace ∈ store
  · have hnul : kNul ∉ store.drop (store.indexOf kSpace + 1) := by
      rcases hbad with h | h
      · exact absurd hsp h
      · exact h
    have hlt : store.indexOf kSpace < store.length := List.indexOf_lt_length.mpr hsp
    have := indexOf_drop_length store kNul (store.indexOf kSpace + 1) hnul (by omega)
    rw [if_pos (Or.inr (by omega))]
  · rw [if_pos (Or.inl (List.indexOf_eq_length.mpr hsp))]

theorem read_framed (z : Zlib) (gitdir : Str) (fs : FS) (hex : Str) (oid : Oid)
    (comp type len payload : Str) (hhex : from_hex hex = some oid)
    (hfile : fs (path_for_oid gitdir oid) = some comp)
    (hz : z_decompress z comp = .ok (type ++ [kSpace] ++ len ++ [kNul] ++ payload))
    (htype : kSpace ∉ type) (hlen : kNul ∉ len) :
    ObjectStore.read z gitdir fs hex = .ok ⟨type, payload⟩ := by
  unfold ObjectStore.read
  simp only [hhex, read_file, hfile, hz]
  have hstore : type ++ [kSpace] ++ len ++ [kNul] ++ payload
      = type ++ kSpace :: (len ++ kNul :: payload) := by simp
  rw [hstore]
  have hsp : (type ++ kSpace :: (len ++ kNul :: payload)).indexOf kSpace = type.length :=
    indexOf_append_cons _ _ _ htype
  have hdrop : (type ++ kSpace :: (len ++ kNul :: payload)).drop (type.length + 1)
      = len ++ kNul :: payload := drop_append_cons _ _ _
  have hnul : (len ++ kNul :: payload).indexOf kNul = len.length :=
    indexOf_append_cons _ _ _ hlen
  simp only [hsp, hdrop, hnul]
  have hl : (type ++ kSpace :: (len ++ kNul :: payload)).length
      = type.length + 1 + len.length + 1 + payload.length := by
    simp only [List.length_append, List.length_cons]
    omega
  rw [if_neg (by rw [hl]; omega)]
  have e1 : (type ++ kSpace :: (len ++ kNul :: payload)).take type.length = type := by simp
  have e2 : (type ++ kSpace :: (len ++ kNul :: payload)).drop (type.length + 1 + len.length + 1)
      = payload := by
    have h := drop_append_cons len payload kNul
    rw [← hdrop, List.drop_drop] at h
    have h1 : type.length + 1 + len.length + 1 = type.length + 1 + (len.length + 1) := by omega
    rw [h1]
    exact h
  rw [e1, e2]

set_option maxRecDepth 100000 in
/-- C25 (counterexample): the object file of the digest `aa…a` in `lengthFS` inflates to
`blob 5`, NUL, `abc`: the header declares five payload bytes and three follow.
`ObjectStore::read` returns the object of type `blob` with the payload `abc` instead of
failing. -/
theorem read_ignores_declared_length :
    z_decompress rleZlib (rleZlib.deflate (lit "blob 5" ++ [kNul] ++ lit "abc"))
        = .ok (lit "blob 5" ++ [kNul] ++ lit "abc")
    ∧ ObjectStore.read rleZlib (lit ".gitfly") lengthFS (List.replicate 40 97)
      = .ok ⟨lit "blob", lit "abc"⟩ := by
  decide

/-- C25 (amended): for an object file that exists and inflates to `store`,
`ObjectStore::read` fails with "object_store: invalid header" whenever `store` has no
space or has no NUL after its first space; and when `store` is a type without a space, a
space, any bytes `len` without a NUL, a NUL and a payload, it returns the type and the
payload, whatever `len` is: the declared length is not examined. -/
theorem read_checks_header_only (z : Zlib) (gitdir : Str) (fs : FS) (hex : Str) (oid : Oid)
    (comp store : Str) (hhex : from_hex hex = some oid)
    (hfile : fs (path_for_oid gitdir oid) = some comp)
    (hz : z_decompress z comp = .ok store) :
    ((kSpace ∉ store ∨ kNul ∉ store.drop (store.indexOf kSpace + 1)) →
        ObjectStore.read z gitdir fs hex = .error "object_store: invalid header")
    ∧ (∀ type len payload : Str, store = type ++ [kSpace] ++ len ++ [kNul] ++ payload →
        kSpace ∉ type → kNul ∉ len →
        ObjectStore.read z gitdir fs hex = .ok ⟨type, payload⟩) :=
  ⟨read_malformed z gitdir fs hex oid comp store hhex hfile hz,
    fun type len payload hs htype hlen =>
      read_framed z gitdir fs hex oid comp type len payload hhex hfile (hs ▸ hz) htype hlen⟩

set_option maxRecDepth 100000 in
/-- The hypotheses of `read_checks_header_only` hold for the object file of `lengthFS`. -/
theorem read_checks_header_only_witness :
    ((kSpace ∉ lit "blob 5" ++ [kNul] ++ lit "abc"
        ∨ kNul ∉ (lit "blob 5" ++ [kNul] ++ lit "abc").drop
            ((lit "blob 5" ++ [kNul] ++ lit "abc").indexOf kSpace + 1)) →
        ObjectStore.read rleZlib (lit ".gitfly") lengthFS (List.replicate 40 97)
          = .error "object_store: invalid header")
    ∧ (∀ type len payload : Str,
        lit "blob 5" ++ [kNul] ++ lit "abc" = type ++ [kSpace] ++ len ++ [kNul] ++ payload →
        kSpace ∉ type → kNul ∉ len →
        ObjectStore.read rleZlib (lit ".gitfly") lengthFS (List.replicate 40 97)
          = .ok ⟨type, payload⟩) :=
  read_checks_header_only rleZlib (lit ".gitfly") lengthFS (List.replicate 40 97)
    ⟨List.replicate 20 170, rfl⟩ (rleZlib.deflate (lit "blob 5" ++ [kNul] ++ lit "abc"))
    (lit "blob 5" ++ [kNul] ++ lit "abc") (by decide) (by decide) (by decide)

/-! ## The three lists of `compute_status` -/

theorem mem_all_keys (m1 m2 : PathMap) (x : Str) :
    x ∈ all_keys m1 m2 ↔ x ∈ m1.map Prod.fst ∨ x ∈ m2.map Prod.fst := by
  unfold all_keys
  have h1 := foldl_set_insert (m1.map Prod.fst) [] List.Pairwise.nil
  have h2 := foldl_set_insert (m2.map Prod.fst) _ h1.1
  rw [h2.2, h1.2]
  simp only [List.not_mem_nil, or_false]
  tauto

theorem all_keys_sorted (m1 m2 : PathMap) :
    (all_keys m1 m2).Pairwise (fun p q => str_lt p q = true) := by
  unfold all_keys
  exact (foldl_set_insert _ _ (foldl_set_insert _ _ List.Pairwise.nil).1).1

theorem mem_keys_iff (m : PathMap) (p : Str) :
    p ∈ m.map Prod.fst ↔ (map_find m p).isSome = true := by
  constructor
  · exact map_find_mem_keys m p
  · intro h
    by_contra hn
    rw [(map_find_none_iff m p).mpr hn] at h
    cases h

theorem mem_staged_loop (H I : PathMap) (L : List Str) (k : ChangeKind) (q : Str) :
    (⟨k, q⟩ : Change) ∈ staged_loop H I L ↔ q ∈ L ∧
      ((k = .Added ∧ map_find H q = none ∧ (map_find I q).isSome = true)
      ∨ (k = .Deleted ∧ (map_find H q).isSome = true ∧ map_find I q = none)
      ∨ (k = .Modified ∧ ∃ h i, map_find H q = some h ∧ map_find I q = some i ∧ h ≠ i)) := by
  induction L with
  | nil => simp [staged_loop]
  | cons p rest ih =>
    simp only [staged_loop]
    by_cases hq : q = p
    · subst hq
      cases hH : map_find H q with
      | none =>
        cases hI : map_find I q with
        | none => simp [ih, hH, hI]
        | some i =>
          simp only [List.mem_cons, ih, hH, hI, Change.mk.injEq]
          simp
      | some h =>
        cases hI : map_find I q with
        | none =>
          simp only [List.mem_cons, ih, hH, hI, Change.mk.injEq]
          simp
        | some i =>
          by_cases hhi : h = i
          · simp [ih, hH, hI, hhi]
          · simp only [ne_eq, hhi, not_false_eq_true, if_true, List.mem_cons, ih, hH, hI,
              Change.mk.injEq]
            simp [hhi]
    · have hm : ∀ l : List Change, (⟨k, q⟩ : Change) ∈ (⟨.Modified, p⟩ : Change) :: l
          ↔ (⟨k, q⟩ : Change) ∈ l := by
        intro l; simp [hq]
      have ha : ∀ l : List Change, (⟨k, q⟩ : Change) ∈ (⟨.Added, p⟩ : Change) :: l
          ↔ (⟨k, q⟩ : Change) ∈ l := by
        intro l; simp [hq]
      have hd : ∀ l : List Change, (⟨k, q⟩ : Change) ∈ (⟨.Deleted, p⟩ : Change) :: l
          ↔ (⟨k, q⟩ : Change) ∈ l := by
        intro l; simp [hq]
      have hl : q ∈ p :: rest ↔ q ∈ rest := by simp [hq]
      rw [hl, ← ih]
      split
      · split
        · exact hm _
        · rfl
      · exact ha _
      · exact hd _
      · rfl

theorem mem_unstaged_loop (W I : PathMap) (L : List Str) (k : ChangeKind) (q : Str) :
    (⟨k, q⟩ : Change) ∈ unstaged_loop W I L ↔ q ∈ L ∧
      ((k = .Deleted ∧ map_find W q = none ∧ (map_find I q).isSome = true)
      ∨ (k = .Modified ∧ ∃ w i, map_find W q = some w ∧ map_find I q = some i ∧ w ≠ i)) := by
  induction L with
  | nil => simp [unstaged_loop]
  | cons p rest ih =>
    simp only [unstaged_loop]
    by_cases hq : q = p
    · subst hq
      cases hW : map_find W q with
      | none =>
        cases hI : map_find I q with
        | none => simp [ih, hW, hI]
        | some i =>
          simp only [List.mem_cons, ih, hW, hI, Change.mk.injEq]
          simp
      | some w =>
        cases hI : map_find I q with
        | none => simp [ih, hW, hI]
        | some i =>
          by_cases hwi : w = i
          · simp [ih, hW, hI, hwi]
          · simp only [ne_eq, hwi, not_false_eq_true, if_true, List.mem_cons, ih, hW, hI,
              Change.mk.injEq]
            simp [hwi]
    · have hm : ∀ l : List Change, (⟨k, q⟩ : Change) ∈ (⟨.Modified, p⟩ : Change) :: l
          ↔ (⟨k, q⟩ : Change) ∈ l := by
        intro l; simp [hq]
      have hd : ∀ l : List Change, (⟨k, q⟩ : Change) ∈ (⟨.Deleted, p⟩ : Change) :: l
          ↔ (⟨k, q⟩ : Change) ∈ l := by
        intro l; simp [hq]
      have hl : q ∈ p :: rest ↔ q ∈ rest := by simp [hq]
      rw [hl, ← ih]
      split
      · split
        · exact hm _
        · rfl
      · exact hd _
      · rfl
theorem insert_str_perm (s : Str) (l : List Str) : (insert_str s l).Perm (s :: l) := by
  induction l with
  | nil => simp [insert_str]
  | cons y rest ih =>
    simp only [insert_str]
    split
    · exact (List.Perm.cons y ih).trans (List.Perm.swap s y rest)
    · exact List.Perm.refl _

theorem sort_strs_perm (l : List Str) : (sort_strs l).Perm l := by
  induction l with
  | nil => simp [sort_strs]
  | cons y rest ih =>
    simp only [sort_strs]
    exact (insert_str_perm y _).trans (List.Perm.cons y ih)

theorem insert_str_sorted (s : Str) (l : List Str)
    (h : l.Pairwise (fun a b => str_lt b a = false)) :
    (insert_str s l).Pairwise (fun a b => str_lt b a = false) := by
  induction l with
  | nil => simp [insert_str]
  | cons y rest ih =>
    rw [List.pairwise_cons] at h
    simp only [insert_str]
    split
    · rename_i hys
      rw [List.pairwise_cons]
      refine ⟨?_, ih h.2⟩
      intro b hb
      rcases (mem_insert_str s b rest).mp hb with e | hb
      · rw [e]
        exact str_lt_asymm _ _ hys
      · exact h.1 b hb
    · rename_i hys
      have hys2 : str_lt y s = false := by
        cases hc : str_lt y s with
        | false => rfl
        | true => exact absurd hc hys
      rw [List.pairwise_cons]
      refine ⟨?_, List.pairwise_cons.mpr h⟩
      intro b hb
      rcases List.mem_cons.mp hb with e | hb
      · rw [e]
        exact hys2
      · cases hc : str_lt b s with
        | false => rfl
        | true =>
          by_cases hyb : y = b
          · rw [hyb] at hys2
            rw [hys2] at hc
            cases hc
          · have h1 := str_lt_total y b hyb
            have h2 := h.1 b hb
            cases hyb2 : str_lt y b with
            | true =>
              have := str_lt_trans _ _ _ hyb2 hc
              rw [this] at hys2
              cases hys2
            | false =>
              have := h1 hyb2
              rw [this] at h2
              cases h2

theorem sort_strs_sorted (l : List Str) :
    (sort_strs l).Pairwise (fun a b => str_lt b a = false) := by
  induction l with
  | nil => simp [sort_strs]
  | cons y rest ih =>
    simp only [sort_strs]
    exact insert_str_sorted y _ ih

theorem staged_loop_sublist (H I : PathMap) (L : List Str) :
    ((staged_loop H I L).map Change.path).Sublist L := by
  induction L with
  | nil => simp [staged_loop]
  | cons p rest ih =>
    simp only [staged_loop]
    split
    · split
      · exact List.Sublist.cons₂ p ih
      · exact List.Sublist.cons p ih
    · exact List.Sublist.cons₂ p ih
    · exact List.Sublist.cons₂ p ih
    · exact List.Sublist.cons p ih

theorem unstaged_loop_sublist (W I : PathMap) (L : List Str) :
    ((unstaged_loop W I L).map Change.path).Sublist L := by
  induction L with
  | nil => simp [unstaged_loop]
  | cons p rest ih =>
    simp only [unstaged_loop]
    split
    · split
      · exact List.Sublist.cons₂ p ih
      · exact List.Sublist.cons p ih
    · exact List.Sublist.cons₂ p ih
    · exact List.Sublist.cons p ih

theorem mem_staged (H I W : PathMap) (k : ChangeKind) (q : Str) :
    (⟨k, q⟩ : Change) ∈ (status_of H I W).staged ↔
      ((k = .Added ∧ map_find H q = none ∧ (map_find I q).isSome = true)
      ∨ (k = .Deleted ∧ (map_find H q).isSome = true ∧ map_find I q = none)
      ∨ (k = .Modified ∧ ∃ h i, map_find H q = some h ∧ map_find I q = some i ∧ h ≠ i)) := by
  simp only [status_of, mem_staged_loop, mem_all_keys, mem_keys_iff]
  constructor
  · exact fun h => h.2
  · intro h
    refine ⟨?_, h⟩
    rcases h with ⟨_, _, h⟩ | ⟨_, h, _⟩ | ⟨_, a, b, h, _, _⟩
    · exact Or.inr h
    · exact Or.inl h
    · exact Or.inl (by rw [h]; rfl)

theorem mem_unstaged (H I W : PathMap) (k : ChangeKind) (q : Str) :
    (⟨k, q⟩ : Change) ∈ (status_of H I W).unstaged ↔
      ((k = .Deleted ∧ map_find W q = none ∧ (map_find I q).isSome = true)
      ∨ (k = .Modified ∧ ∃ w i, map_find W q = some w ∧ map_find I q = some i ∧ w ≠ i)) := by
  simp only [status_of, mem_unstaged_loop, mem_all_keys, mem_keys_iff]
  constructor
  · exact fun h => h.2
  · intro h
    refine ⟨?_, h⟩
    rcases h with ⟨_, _, h⟩ | ⟨_, a, b, _, h, _⟩
    · exact Or.inr h
    · exact Or.inr (by rw [h]; rfl)

theorem mem_untracked (H I W : PathMap) (q : Str) :
    q ∈ (status_of H I W).untracked
      ↔ (map_find W q).isSome = true ∧ map_find I q = none := by
  simp only [status_of, mem_sort_strs, List.mem_filter, mem_keys_iff, Option.isNone_iff_eq_none]

theorem staged_nil_iff (H I W : PathMap) :
    (status_of H I W).staged = [] ↔ ∀ p, map_find H p = map_find I p := by
  rw [List.eq_nil_iff_forall_not_mem]
  constructor
  · intro h p
    cases hH : map_find H p with
    | none =>
      cases hI : map_find I p with
      | none => rfl
      | some i =>
        exact absurd ((mem_staged H I W .Added p).mpr (Or.inl ⟨rfl, hH, by rw [hI]; rfl⟩))
          (h _)
    | some a =>
      cases hI : map_find I p with
      | none =>
        exact absurd ((mem_staged H I W .Deleted p).mpr
          (Or.inr (Or.inl ⟨rfl, by rw [hH]; rfl, hI⟩))) (h _)
      | some i =>
        by_cases e : a = i
        · rw [e]
        · exact absurd ((mem_staged H I W .Modified p).mpr
            (Or.inr (Or.inr ⟨rfl, a, i, hH, hI, e⟩))) (h _)
  · intro h c hc
    obtain ⟨k, q⟩ := c
    rcases (mem_staged H I W k q).mp hc with ⟨_, h1, h2⟩ | ⟨_, h1, h2⟩ | ⟨_, a, b, h1, h2, h3⟩
    · rw [← h q, h1] at h2
      cases h2
    · rw [h q, h2] at h1
      cases h1
    · rw [h q, h2] at h1
      exact h3 (Option.some.inj h1).symm

theorem unstaged_untracked_nil_iff (H I W : PathMap) :
    ((status_of H I W).unstaged = [] ∧ (status_of H I W).untracked = [])
      ↔ ∀ p, map_find I p = map_find W p := by
  rw [List.eq_nil_iff_forall_not_mem, List.eq_nil_iff_forall_not_mem]
  constructor
  · intro h p
    cases hW : map_find W p with
    | none =>
      cases hI : map_find I p with
      | none => rfl
      | some i =>
        exact absurd ((mem_unstaged H I W .Deleted p).mpr (Or.inl ⟨rfl, hW, by rw [hI]; rfl⟩))
          (h.1 _)
    | some a =>
      cases hI : map_find I p with
      | none =>
        exact absurd ((mem_untracked H I W p).mpr ⟨by rw [hW]; rfl, hI⟩) (h.2 _)
      | some i =>
        by_cases e : a = i
        · rw [e]
        · exact absurd ((mem_unstaged H I W .Modified p).mpr
            (Or.inr ⟨rfl, a, i, hW, hI, e⟩)) (h.1 _)
  · intro h
    constructor
    · intro c hc
      obtain ⟨k, q⟩ := c
      rcases (mem_unstaged H I W k q).mp hc with ⟨_, h1, h2⟩ | ⟨_, a, b, h1, h2, h3⟩
      · rw [h q, h1] at h2
        cases h2
      · rw [h q, h1] at h2
        exact h3 (Option.some.inj h2)
    · intro q hq
      obtain ⟨h1, h2⟩ := (mem_untracked H I W q).mp hq
      rw [← h q, h2] at h1
      cases h1

/-- C23: for all maps `H` (head), `I` (index) and `W` (working), the status computed from
them has: in `staged`, `Added p` exactly for the paths of `I` that are not in `H`,
`Deleted p` exactly for the paths of `H` that are not in `I`, `Modified p` exactly for the
paths of both with different digests; in `unstaged`, `Deleted p` exactly for the paths of
`I` that are not in `W` and `Modified p` exactly for the paths of both with different
digests, so never a path that is only in `W`; `untracked` is the list of the paths of `W`
that are not in `I`, in ascending order; the paths of `staged` and of `unstaged` are in
strictly ascending order; and the three lists are empty if and only if the three maps
hold the same digest, or none, at every path. -/
theorem status_of_classification (H I W : PathMap) :
    (∀ k q, (⟨k, q⟩ : Change) ∈ (status_of H I W).staged ↔
      ((k = .Added ∧ map_find H q = none ∧ (map_find I q).isSome = true)
      ∨ (k = .Deleted ∧ (map_find H q).isSome = true ∧ map_find I q = none)
      ∨ (k = .Modified ∧ ∃ h i, map_find H q = some h ∧ map_find I q = some i ∧ h ≠ i)))
    ∧ (∀ k q, (⟨k, q⟩ : Change) ∈ (status_of H I W).unstaged ↔
      ((k = .Deleted ∧ map_find W q = none ∧ (map_find I q).isSome = true)
      ∨ (k = .Modified ∧ ∃ w i, map_find W q = some w ∧ map_find I q = some i ∧ w ≠ i)))
    ∧ (∀ q, q ∈ (status_of H I W).untracked
        ↔ (map_find W q).isSome = true ∧ map_find I q = none)
    ∧ (status_of H I W).untracked.Perm
        ((W.map Prod.fst).filter (fun p => (map_find I p).isNone))
    ∧ (status_of H I W).untracked.Pairwise (fun a b => str_lt b a = false)
    ∧ ((status_of H I W).staged.map Change.path).Pairwise (fun a b => str_lt a b = true)
    ∧ ((status_of H I W).unstaged.map Change.path).Pairwise (fun a b => str_lt a b = true)
    ∧ (((status_of H I W).staged = [] ∧ (status_of H I W).unstaged = []
          ∧ (status_of H I W).untracked = [])
        ↔ ∀ p, map_find H p = map_find I p ∧ map_find I p = map_find W p) := by
  refine ⟨mem_staged H I W, mem_unstaged H I W, mem_untracked H I W, sort_strs_perm _,
    sort_strs_sorted _, (all_keys_sorted H I).sublist (staged_loop_sublist H I _),
    (all_keys_sorted W I).sublist (unstaged_loop_sublist W I _), ?_⟩
  rw [staged_nil_iff, unstaged_untracked_nil_iff]
  constructor
  · exact fun h p => ⟨h.1 p, h.2 p⟩
  · exact fun h => ⟨fun p => (h p).1, fun p => (h p).2⟩

/-- The status that `compute_status` returns is the one computed from the head snapshot
(empty when `HEAD` names no tree), the index snapshot and the working snapshot. -/
theorem compute_status_of_maps (z : Zlib) (sha1 : Str → Oid) (root : Str) (fs : FS)
    (paths : List Str) (fuel : Nat) (st : Status)
    (h : compute_status z sha1 root fs paths fuel = some (.ok st)) :
    ∃ t H W, head_tree_hex (read_commit z (git_dir root) fs) fs root = .ok t
      ∧ head_map_of (read_tree z (git_dir root) fs) fuel t = some (.ok H)
      ∧ build_working_map sha1 fs root paths = .ok W
      ∧ st = status_of H (index_to_map fs root) W := by
  unfold compute_status at h
  cases h1 : head_tree_hex (read_commit z (git_dir root) fs) fs root with
  | error e => rw [h1] at h; simp at h
  | ok t =>
    rw [h1] at h
    simp only at h
    cases h2 : head_map_of (read_tree z (git_dir root) fs) fuel t with
    | none => rw [h2] at h; simp at h
    | some r =>
      cases r with
      | error e => rw [h2] at h; simp at h
      | ok H =>
        rw [h2] at h
        simp only at h
        cases h3 : build_working_map sha1 fs root paths with
        | error e => rw [h3] at h; simp at h
        | ok W =>
          rw [h3] at h
          simp only [Option.some.injEq, Except.ok.injEq] at h
          exact ⟨t, H, W, rfl, h2, rfl, h.symm⟩

/-- For maps in ascending order of key without repeated keys, as `std::map` keeps them,
the three lists are empty exactly when the three maps are equal. -/
theorem status_empty_iff_maps_equal (H I W : PathMap)
    (hH : H.Pairwise (fun a b => str_lt a.1 b.1 = true))
    (hI : I.Pairwise (fun a b => str_lt a.1 b.1 = true))
    (hW : W.Pairwise (fun a b => str_lt a.1 b.1 = true)) :
    ((status_of H I W).staged = [] ∧ (status_of H I W).unstaged = []
        ∧ (status_of H I W).untracked = []) ↔ (H = I ∧ I = W) := by
  rw [staged_nil_iff, unstaged_untracked_nil_iff]
  constructor
  · exact fun h => ⟨map_ext H I hH hI h.1, map_ext I W hI hW h.2⟩
  · rintro ⟨rfl, rfl⟩
    exact ⟨fun _ => rfl, fun _ => rfl⟩

/-! ## `merge_branch` when there is nothing to merge -/

theorem merge_branch_nothing (z : Zlib) (sha1 : Str → Oid) (root : Str) (sig : Str)
    (paths : List Str) (fs : FS) (giver_branch cur_ref ours theirs : Str) (S : List Str)
    (hcur : head_current_branch fs root = .ok cur_ref) (hne : cur_ref ≠ [])
    (hours : read_ref fs root cur_ref = some ours) (hol : ours.length = 40)
    (htheirs : read_ref fs root (heads_ref giver_branch) = some theirs)
    (htl : theirs.length = 40)
    (hS : parent_closed (read_commit z (git_dir root) fs) S = true) (hmem : ours ∈ S)
    (hanc : Ancestor (read_commit z (git_dir root) fs) theirs ours) :
    ∃ N, ∀ fuel, N ≤ fuel →
      merge_branch z sha1 root true sig paths fuel fs giver_branch
        = some (if theirs = ours then Except.error "cannot merge a branch with itself"
            else Except.ok (), fs) := by
  obtain ⟨N, hN⟩ := is_commit_ancestor_of_ancestor _ S theirs ours hS hmem hanc
  refine ⟨N, fun fuel hle => ?_⟩
  unfold merge_branch
  simp only [Bool.not_true, Bool.false_eq_true, if_false, hcur, hne, hours, hol, htheirs, htl,
    ne_eq, not_true_eq_false]
  by_cases e : theirs = ours
  · simp only [e, if_true]
  · simp only [e, if_false]
    unfold Repository.is_commit_ancestor
    rw [hN fuel hle]

/-- C22: the current branch `cur_ref` is at `ours`, the giver branch at `theirs`, and
`theirs` is `ours` or an ancestor of `ours` in a finite parent-closed set of readable
commits.  Then, for every large enough fuel, `merge_branch` ends with the file system it
started with: no object is written and every ref, `HEAD`, the index, the working tree and
`MERGE_HEAD` are as before.  It throws "cannot merge a branch with itself" when the two
tips are equal and returns normally otherwise. -/
theorem merge_branch_up_to_date (z : Zlib) (sha1 : Str → Oid) (root : Str) (sig : Str)
    (paths : List Str) (fs : FS) (giver_branch cur_ref ours theirs : Str) (S : List Str)
    (hcur : head_current_branch fs root = .ok cur_ref) (hne : cur_ref ≠ [])
    (hours : read_ref fs root cur_ref = some ours) (hol : ours.length = 40)
    (htheirs : read_ref fs root (heads_ref giver_branch) = some theirs)
    (htl : theirs.length = 40)
    (hS : parent_closed (read_commit z (git_dir root) fs) S = true) (hmem : ours ∈ S)
    (hanc : Ancestor (read_commit z (git_dir root) fs) theirs ours) :
    ∃ N, ∀ fuel, N ≤ fuel →
      merge_branch z sha1 root true sig paths fuel fs giver_branch
        = some (if theirs = ours then Except.error "cannot merge a branch with itself"
            else Except.ok (), fs) :=
  merge_branch_nothing z sha1 root sig paths fs giver_branch cur_ref ours theirs S hcur hne
    hours hol htheirs htl hS hmem hanc

set_option maxRecDepth 100000 in
/-- The hypotheses of `merge_branch_up_to_date` hold in `upFS`: the current branch
`feature` is at `cf` and the giver `master` at its parent `c0`. -/
theorem merge_branch_up_to_date_witness :
    ∃ N, ∀ fuel, N ≤ fuel →
      merge_branch rleZlib mixSha1 (lit "/r") true (lit "A <a@b> 0 +0000") [lit "f.txt"] fuel
          upFS (lit "master")
        = some (if ffCommit0.1 = ffCommit1.1
            then Except.error "cannot merge a branch with itself" else Except.ok (), upFS) :=
  merge_branch_up_to_date rleZlib mixSha1 (lit "/r") (lit "A <a@b> 0 +0000") [lit "f.txt"]
    upFS (lit "master") (lit "refs/heads/feature") ffCommit1.1 ffCommit0.1
    [ffCommit1.1, ffCommit0.1] (by decide) (by decide) (by decide) (by decide) (by decide)
    (by decide) (by decide) (by decide)
    (Or.inr (Relation.TransGen.single
      ⟨⟨to_hex (tree_oid mixSha1 [⟨kModeFile, lit "f.txt", mixBlob (lit "feature\n")⟩]),
        [ffCommit0.1], lit "A <a@b> 0 +0000", lit "A <a@b> 0 +0000", lit "cf\n"⟩,
        by decide, by decide⟩))

set_option maxRecDepth 100000 in
/-- The two outcomes on the examples: merging `master` into its descendant `feature`
returns normally, and merging `master` into itself is rejected. -/
theorem merge_branch_nothing_example :
    (merge_branch rleZlib mixSha1 (lit "/r") true (lit "A <a@b> 0 +0000") [lit "f.txt"] 3
        upFS (lit "master")).map Prod.fst = some (Except.ok ())
    ∧ (merge_branch rleZlib mixSha1 (lit "/r") true (lit "A <a@b> 0 +0000") [lit "f.txt"] 3
        (ffFS none) (lit "master")).map Prod.fst
      = some (Except.error "cannot merge a branch with itself") := by
  decide

/-! ## The text format of the index, for every mode -/

theorem toDigitsCore_octal_digits (fuel n : Nat) (ds : List Char)
    (hds : ∀ c ∈ ds, 48 ≤ (Fin.ofNat c.toNat : Fin 256).val
      ∧ (Fin.ofNat c.toNat : Fin 256).val ≤ 55) :
    ∀ c ∈ Nat.toDigitsCore 8 fuel n ds, 48 ≤ (Fin.ofNat c.toNat : Fin 256).val
      ∧ (Fin.ofNat c.toNat : Fin 256).val ≤ 55 := by
  induction fuel generalizing n ds with
  | zero => simpa [Nat.toDigitsCore] using hds
  | succ fuel ih =>
    have hd : ∀ c ∈ Nat.digitChar (n % 8) :: ds, 48 ≤ (Fin.ofNat c.toNat : Fin 256).val
        ∧ (Fin.ofNat c.toNat : Fin 256).val ≤ 55 := by
      intro c hc
      rcases List.mem_cons.mp hc with rfl | hc
      · have := digitChar_octal (n % 8) (Nat.mod_lt _ (by norm_num))
        have h8 : n % 8 < 8 := Nat.mod_lt _ (by norm_num)
        omega
      · exact hds c hc
    simp only [Nat.toDigitsCore]
    split
    · exact hd
    · exact ih _ _ hd

theorem mode_octal_digits (m : Mode) :
    ∀ c ∈ mode_to_ascii_octal m, 48 ≤ c.val ∧ c.val ≤ 55 := by
  unfold mode_to_ascii_octal Nat.toDigits
  intro c hc
  obtain ⟨d, hd, he⟩ := List.mem_map.mp hc
  rw [← he]
  exact toDigitsCore_octal_digits _ _ [] (fun c hc => absurd hc (List.not_mem_nil c)) d hd

theorem toDigitsCore_ne_nil (fuel n : Nat) (ds : List Char) (hds : ds ≠ []) :
    Nat.toDigitsCore 8 fuel n ds ≠ [] := by
  induction fuel generalizing n ds with
  | zero => simpa [Nat.toDigitsCore] using hds
  | succ fuel ih =>
    simp only [Nat.toDigitsCore]
    split
    · simp
    · exact ih _ _ (by simp)

theorem mode_to_ascii_octal_ne_nil (m : Mode) : mode_to_ascii_octal m ≠ [] := by
  unfold mode_to_ascii_octal Nat.toDigits
  intro h
  rw [List.map_eq_nil_iff] at h
  revert h
  simp only [Nat.toDigitsCore]
  split
  · simp
  · exact toDigitsCore_ne_nil _ _ _ (by simp)

theorem index_mode_loop_octal (s : Str) (h : ∀ c ∈ s, 48 ≤ c.val ∧ c.val ≤ 55) :
    ∀ v, index_mode_loop s v = octal_loop s v := by
  induction s with
  | nil => intro v; rfl
  | cons c rest ih =>
    intro v
    have hc := h c (List.mem_cons_self _ _)
    have hn : ¬ (c.val < 48 ∨ 55 < c.val) := by omega
    simp only [index_mode_loop, octal_loop, hn, if_false]
    exact ih (fun x hx => h x (List.mem_cons_of_mem _ hx)) _

theorem index_mode_loop_mode (m : Mode) : index_mode_loop (mode_to_ascii_octal m) 0 = m.val := by
  rw [index_mode_loop_octal _ (mode_octal_digits m)]
  unfold mode_to_ascii_octal Nat.toDigits
  rw [toDigitsCore_octal_loop (m.val + 1) m.val [] (by omega) m.isLt]
  rfl

theorem octal_not_space (c : Byte) (h : 48 ≤ c.val ∧ c.val ≤ 55) : isspace c = false := by
  unfold isspace
  simp only [decide_eq_false_iff_not]
  omega

theorem octal_ne_lf (c : Byte) (h : 48 ≤ c.val ∧ c.val ≤ 55) : c ≠ kLF := by
  intro e
  rw [e] at h
  revert h
  decide

/-- The line that `Index::save` writes for an entry is parsed back by `Index::load` as that
entry when its mode is not zero, and is skipped when its mode is zero. -/
theorem parse_index_line_mode (m : Mode) (oid : Oid) (p : Str) (h : index_path_ok p = true) :
    parse_index_line (mode_to_ascii_octal m ++ kSpace :: (to_hex oid ++ kSpace :: p))
      = if m.val = 0 then none else some ⟨m, oid, p⟩ := by
  have hoct := mode_octal_digits m
  obtain ⟨c0, ms, hms⟩ := List.exists_cons_of_ne_nil (mode_to_ascii_octal_ne_nil m)
  have hc0 : isspace c0 = false :=
    octal_not_space c0 (hoct c0 (by rw [hms]; exact List.mem_cons_self _ _))
  have hline : trim (mode_to_ascii_octal m ++ kSpace :: (to_hex oid ++ kSpace :: p))
      = mode_to_ascii_octal m ++ kSpace :: (to_hex oid ++ kSpace :: p) := by
    rw [hms]
    have := trim_line (ms ++ [kSpace] ++ to_hex oid ++ [kSpace]) p c0 hc0 h
    simpa using this
  have ht1 : read_token (mode_to_ascii_octal m ++ kSpace :: (to_hex oid ++ kSpace :: p))
      = (mode_to_ascii_octal m, kSpace :: (to_hex oid ++ kSpace :: p)) := by
    unfold read_token
    have hd : (mode_to_ascii_octal m ++ kSpace :: (to_hex oid ++ kSpace :: p)).dropWhile isspace
        = mode_to_ascii_octal m ++ kSpace :: (to_hex oid ++ kSpace :: p) := by
      rw [hms, List.cons_append, List.dropWhile_cons_of_neg (by simp [hc0])]
    rw [hd]
    have := takeWhile_append_stop (fun c => !isspace c) (mode_to_ascii_octal m) kSpace
      (to_hex oid ++ kSpace :: p) (fun c hc => by simp [octal_not_space c (hoct c hc)])
      (by decide)
    rw [this.1, this.2]
  have ht2 : read_token (kSpace :: (to_hex oid ++ kSpace :: p)) = (to_hex oid, kSpace :: p) := by
    unfold read_token
    obtain ⟨a, b, rest, he, _⟩ := to_hex_cons oid
    have ha : isspace a = false := to_hex_no_space oid a (by rw [he]; exact List.mem_cons_self _ _)
    have hd : (kSpace :: (to_hex oid ++ kSpace :: p)).dropWhile isspace
        = to_hex oid ++ kSpace :: p := by
      rw [List.dropWhile_cons_of_pos (by decide), he, List.cons_append,
        List.dropWhile_cons_of_neg (by simp [ha])]
    rw [hd]
    have := takeWhile_append_stop (fun c => !isspace c) (to_hex oid) kSpace p
      (fun c hc => by simp [to_hex_no_space oid c hc]) (by decide)
    rw [this.1, this.2]
  have hp : p ≠ [] := by
    obtain ⟨_, ⟨c, rest, e1, _⟩, _⟩ := index_path_ok_spec p h
    rw [e1]; simp
  have hhex : to_hex oid ≠ [] := by
    obtain ⟨a, b, rest, he, _⟩ := to_hex_cons oid
    rw [he]; simp
  have hne : mode_to_ascii_octal m ++ kSpace :: (to_hex oid ++ kSpace :: p) ≠ [] := by
    rw [hms]; simp
  have hhash : (mode_to_ascii_octal m ++ kSpace :: (to_hex oid ++ kSpace :: p)).head?
      ≠ some 35 := by
    rw [hms]
    simp only [List.cons_append, List.head?_cons, ne_eq, Option.some.injEq]
    intro e
    have := hoct c0 (by rw [hms]; exact List.mem_cons_self _ _)
    rw [e] at this
    revert this
    decide
  unfold parse_index_line
  simp only [hline, ht1, ht2, trim_space_path p h, to_hex_length, from_hex_to_hex,
    index_mode_loop_mode, hne, hhash, mode_to_ascii_octal_ne_nil m, hhex, hp, false_or,
    ne_eq, not_true_eq_false, or_false, if_false]
  by_cases hm : m.val = 0
  · simp only [hm, if_true]
  · simp only [hm, if_false]
    congr 2
    apply Fin.ext
    simp only [Fin.ofNat, Fin.val_mk]
    exact Nat.mod_eq_of_lt m.isLt

theorem index_line_no_lf (e : IndexEntry) (hp : index_path_ok e.path = true) :
    kLF ∉ mode_to_ascii_octal e.mode ++ kSpace :: (to_hex e.oid ++ kSpace :: e.path) := by
  intro hc
  simp only [List.mem_append, List.mem_cons] at hc
  rcases hc with hc | hc | hc | hc | hc
  · exact octal_ne_lf _ (mode_octal_digits e.mode _ hc) rfl
  · revert hc; decide
  · exact absurd (to_hex_no_space e.oid _ hc) (by decide)
  · revert hc; decide
  · exact (index_path_ok_spec _ hp).1 hc

theorem getlines_index_text_modes (entries : List IndexEntry)
    (h : ∀ e ∈ entries, index_path_ok e.path = true) :
    (getlines (index_text entries) []).filterMap parse_index_line
      = entries.filter (fun e => decide (e.mode.val ≠ 0)) := by
  induction entries with
  | nil => rfl
  | cons e rest ih =>
    have hp := h e (List.mem_cons_self _ _)
    have e1 : index_text (e :: rest)
        = (mode_to_ascii_octal e.mode ++ kSpace :: (to_hex e.oid ++ kSpace :: e.path))
          ++ kLF :: index_text rest := by
      simp [index_text]
    rw [e1, getlines_line _ (index_line_no_lf e hp), List.nil_append, List.filterMap_cons,
      parse_index_line_mode e.mode e.oid e.path hp,
      ih (fun x hx => h x (List.mem_cons_of_mem _ hx))]
    by_cases hm : e.mode.val = 0
    · simp [hm]
    · simp [hm]

/-- `Index::load` of the file that `Index::save` wrote, for entries whose paths the text
format keeps: the entries with a non-zero mode, sorted by path. -/
theorem load_save_modes (fs : FS) (root : Str) (entries : List IndexEntry)
    (h : ∀ e ∈ entries, index_path_ok e.path = true) :
    Index.load (Index.save fs root entries) root
      = sort_index (entries.filter (fun e => decide (e.mode.val ≠ 0))) := by
  unfold Index.load Index.save write_file_atomic
  simp only [if_true]
  rw [getlines_index_text_modes entries h]

theorem insert_index_entry_perm (e : IndexEntry) (l : List IndexEntry) :
    (insert_index_entry e l).Perm (e :: l) := by
  induction l with
  | nil => simp [insert_index_entry]
  | cons y rest ih =>
    simp only [insert_index_entry]
    split
    · exact (List.Perm.cons y ih).trans (List.Perm.swap e y rest)
    · exact List.Perm.refl _

theorem sort_index_perm (l : List IndexEntry) : (sort_index l).Perm l := by
  induction l with
  | nil => simp [sort_index]
  | cons y rest ih =>
    simp only [sort_index]
    exact (insert_index_entry_perm y _).trans (List.Perm.cons y ih)

theorem insert_index_entry_sorted (e : IndexEntry) (l : List IndexEntry)
    (h : l.Pairwise (fun a b => str_lt a.path b.path = true))
    (hne : ∀ x ∈ l, x.path ≠ e.path) :
    (insert_index_entry e l).Pairwise (fun a b => str_lt a.path b.path = true) := by
  induction l with
  | nil => simp [insert_index_entry]
  | cons y rest ih =>
    rw [List.pairwise_cons] at h
    simp only [insert_index_entry]
    split
    · rename_i hye
      rw [List.pairwise_cons]
      refine ⟨?_, ih h.2 (fun x hx => hne x (List.mem_cons_of_mem _ hx))⟩
      intro b hb
      rcases List.mem_cons.mp ((insert_index_entry_perm e rest).subset hb) with e1 | hb
      · rw [e1]
        exact hye
      · exact h.1 b hb
    · rename_i hye
      have hey : str_lt e.path y.path = true :=
        str_lt_total y.path e.path (hne y (List.mem_cons_self _ _))
          (by cases hc : str_lt y.path e.path with
              | false => rfl
              | true => exact absurd hc hye)
      rw [List.pairwise_cons]
      refine ⟨?_, List.pairwise_cons.mpr h⟩
      intro b hb
      rcases List.mem_cons.mp hb with e1 | hb
      · rw [e1]
        exact hey
      · exact str_lt_trans _ _ _ hey (h.1 b hb)

/-- Sorting entries with pairwise distinct paths gives a list in strictly ascending order of
path. -/
theorem sort_index_strict (l : List IndexEntry) (hnd : (l.map IndexEntry.path).Nodup) :
    (sort_index l).Pairwise (fun a b => str_lt a.path b.path = true) := by
  induction l with
  | nil => simp [sort_index]
  | cons y rest ih =>
    rw [List.map_cons, List.nodup_cons] at hnd
    simp only [sort_index]
    apply insert_index_entry_sorted y _ (ih hnd.2)
    intro x hx e
    exact hnd.1 (List.mem_map.mpr ⟨x, (sort_index_perm rest).subset hx, e⟩)

theorem index_text_lines (entries : List IndexEntry) :
    index_text entries = entries.flatMap (fun e =>
      mode_to_ascii_octal e.mode ++ [kSpace] ++ to_hex e.oid ++ [kSpace] ++ e.path ++ [kLF]) := by
  induction entries with
  | nil => rfl
  | cons e rest ih =>
    simp only [index_text, List.flatMap_cons, ih]
    simp

theorem to_hex_lowercase (id : Oid) :
    ∀ c ∈ to_hex id, (48 ≤ c.val ∧ c.val ≤ 57) ∨ (97 ≤ c.val ∧ c.val ≤ 102) := by
  have hk : ∀ n, n < 16 → (48 ≤ (kHex n).val ∧ (kHex n).val ≤ 57)
      ∨ (97 ≤ (kHex n).val ∧ (kHex n).val ≤ 102) := by
    intro n hn
    interval_cases n <;> decide
  have hx : ∀ (l : List Byte), ∀ c ∈ hex_of_bytes l,
      (48 ≤ c.val ∧ c.val ≤ 57) ∨ (97 ≤ c.val ∧ c.val ≤ 102) := by
    intro l
    induction l with
    | nil => intro c hc; simp [hex_of_bytes] at hc
    | cons b rest ih =>
      intro c hc
      simp only [hex_of_bytes, List.mem_cons] at hc
      rcases hc with rfl | rfl | hc
      · exact hk _ (Nat.mod_lt _ (by norm_num))
      · exact hk _ (Nat.mod_lt _ (by norm_num))
      · exact ih c hc
  exact hx _

/-! ## `Index::save` followed by `Index::load` -/

theorem load_save_entries (fs : FS) (root : Str) (entries : List IndexEntry)
    (h : ∀ e ∈ entries, e.mode.val ≠ 0 ∧ index_path_ok e.path = true) :
    Index.load (Index.save fs root entries) root = sort_index entries := by
  rw [load_save_modes fs root entries (fun e he => (h e he).2)]
  congr 1
  rw [List.filter_eq_self]
  intro e he
  simp [(h e he).1]

/-- C28: for entries with pairwise distinct paths, non-zero modes and paths that are not
empty, contain no newline and neither start nor end with whitespace, `Index::load` of the
file written by `Index::save` returns `sort_index entries`, which is a permutation of the
entries in strictly ascending order of path; the file written is the concatenation, in the
order of the entries, of the lines `<mode> ' ' <hex> ' ' <path> '\n'`, where `<mode>` is
made of octal digits that denote the mode and `<hex>` of 40 lowercase hex characters that
denote the digest. -/
theorem load_save_round_trip (fs : FS) (root : Str) (entries : List IndexEntry)
    (hnd : (entries.map IndexEntry.path).Nodup)
    (h : ∀ e ∈ entries, e.mode.val ≠ 0 ∧ index_path_ok e.path = true) :
    Index.load (Index.save fs root entries) root = sort_index entries
    ∧ (sort_index entries).Perm entries
    ∧ (sort_index entries).Pairwise (fun a b => str_lt a.path b.path = true)
    ∧ Index.save fs root entries (index_path root) = some (entries.flatMap (fun e =>
        mode_to_ascii_octal e.mode ++ [kSpace] ++ to_hex e.oid ++ [kSpace] ++ e.path ++ [kLF]))
    ∧ (∀ e ∈ entries, (∀ c ∈ mode_to_ascii_octal e.mode, 48 ≤ c.val ∧ c.val ≤ 55)
        ∧ index_mode_loop (mode_to_ascii_octal e.mode) 0 = e.mode.val
        ∧ (to_hex e.oid).length = 40
        ∧ (∀ c ∈ to_hex e.oid, (48 ≤ c.val ∧ c.val ≤ 57) ∨ (97 ≤ c.val ∧ c.val ≤ 102))
        ∧ from_hex (to_hex e.oid) = some e.oid) := by
  refine ⟨load_save_entries fs root entries h, sort_index_perm entries,
    sort_index_strict entries hnd, ?_, ?_⟩
  · unfold Index.save write_file_atomic
    rw [if_pos rfl, index_text_lines]
  · intro e _
    exact ⟨mode_octal_digits e.mode, index_mode_loop_mode e.mode, to_hex_length e.oid,
      to_hex_lowercase e.oid, from_hex_to_hex e.oid⟩

set_option maxRecDepth 100000 in
/-- The hypotheses of `load_save_round_trip` hold for two entries, of modes 100644 and
100755, given in descending order of path. -/
theorem load_save_round_trip_witness :
    Index.load (Index.save emptyFS (lit "/r")
        [⟨kModeFile, mixBlob (lit "x"), lit "dir/b c"⟩, ⟨33261, mixBlob (lit "y"), lit "a"⟩])
        (lit "/r")
      = [⟨33261, mixBlob (lit "y"), lit "a"⟩, ⟨kModeFile, mixBlob (lit "x"), lit "dir/b c"⟩]
    ∧ Index.save emptyFS (lit "/r")
        [⟨kModeFile, mixBlob (lit "x"), lit "dir/b c"⟩, ⟨33261, mixBlob (lit "y"), lit "a"⟩]
        (index_path (lit "/r"))
      = some (lit "100644 " ++ to_hex (mixBlob (lit "x")) ++ lit " dir/b c\n100755 "
          ++ to_hex (mixBlob (lit "y")) ++ lit " a\n") :=
  have h := load_save_round_trip emptyFS (lit "/r")
    [⟨kModeFile, mixBlob (lit "x"), lit "dir/b c"⟩, ⟨33261, mixBlob (lit "y"), lit "a"⟩]
    (by decide) (by decide)
  ⟨h.1.trans (by decide), h.2.2.2.1.trans (by decide)⟩

/-! ## `Index::add_path`: replace or insert -/

theorem replace_entry_some (mode : Mode) (bin : Oid) (p : Str) (entries : List IndexEntry)
    (hnd : (entries.map IndexEntry.path).Nodup) (hin : p ∈ entries.map IndexEntry.path) :
    ∃ l, replace_entry mode bin p entries = some l
      ∧ l.map IndexEntry.path = entries.map IndexEntry.path
      ∧ l.filter (fun e => decide (e.path = p)) = [⟨mode, bin, p⟩]
      ∧ (∀ e : IndexEntry, e.path ≠ p → (e ∈ l ↔ e ∈ entries))
      ∧ l.length = entries.length := by
  induction entries with
  | nil => simp at hin
  | cons e rest ih =>
    rw [List.map_cons, List.nodup_cons] at hnd
    by_cases he : e.path = p
    · refine ⟨⟨mode, bin, e.path⟩ :: rest, by simp only [replace_entry, he, if_true], by simp,
        ?_, ?_, by simp⟩
      · have hrest : rest.filter (fun x => decide (x.path = p)) = [] := by
          rw [List.filter_eq_nil_iff]
          intro x hx
          simp only [decide_eq_true_eq]
          intro e2
          exact hnd.1 (by rw [he, ← e2]; exact List.mem_map.mpr ⟨x, hx, rfl⟩)
        rw [List.filter_cons_of_pos (by simp [he]), hrest, he]
      · intro x hx
        simp only [List.mem_cons]
        constructor
        · rintro (e1 | h1)
          · rw [e1] at hx
            exact absurd he hx
          · exact Or.inr h1
        · rintro (e1 | h1)
          · rw [e1] at hx
            exact absurd he hx
          · exact Or.inr h1
    · have hin2 : p ∈ rest.map IndexEntry.path := by
        rcases List.mem_cons.mp hin with e1 | h1
        · exact absurd e1.symm he
        · exact h1
      obtain ⟨l, h1, h2, h3, h4, h5⟩ := ih hnd.2 hin2
      refine ⟨e :: l, by simp only [replace_entry, he, if_false, h1], by simp [h2], ?_, ?_,
        by simp [h5]⟩
      · rw [List.filter_cons_of_neg (by simp [he]), h3]
      · intro x hx
        simp only [List.mem_cons, h4 x hx]

theorem replace_entry_none_iff (mode : Mode) (bin : Oid) (p : Str) (entries : List IndexEntry)
    (hin : p ∉ entries.map IndexEntry.path) : replace_entry mode bin p entries = none :=
  replace_entry_none mode bin p entries
    (fun e he e2 => hin (List.mem_map.mpr ⟨e, he, e2⟩))

/-- The "replace or insert" step on entries with pairwise distinct paths. -/
theorem upsert_entry_spec (entries : List IndexEntry) (mode : Mode) (bin : Oid) (p : Str)
    (hnd : (entries.map IndexEntry.path).Nodup) :
    ((upsert_entry entries mode bin p).map IndexEntry.path).Nodup
    ∧ (∀ q, q ∈ (upsert_entry entries mode bin p).map IndexEntry.path
        ↔ q = p ∨ q ∈ entries.map IndexEntry.path)
    ∧ (upsert_entry entries mode bin p).filter (fun e => decide (e.path = p)) = [⟨mode, bin, p⟩]
    ∧ (∀ e : IndexEntry, e.path ≠ p → (e ∈ upsert_entry entries mode bin p ↔ e ∈ entries))
    ∧ (upsert_entry entries mode bin p).length
        = if p ∈ entries.map IndexEntry.path then entries.length else entries.length + 1 := by
  by_cases hin : p ∈ entries.map IndexEntry.path
  · obtain ⟨l, h1, h2, h3, h4, h5⟩ := replace_entry_some mode bin p entries hnd hin
    unfold upsert_entry
    rw [h1]
    simp only [h2, hin, if_true]
    refine ⟨hnd, ?_, h3, h4, h5⟩
    intro q
    constructor
    · exact Or.inr
    · rintro (e | h)
      · rw [e]; exact hin
      · exact h
  · unfold upsert_entry
    rw [replace_entry_none_iff mode bin p entries hin]
    simp only [hin, if_false]
    refine ⟨?_, ?_, ?_, ?_, by simp⟩
    · rw [List.map_append, List.map_singleton]
      exact List.Nodup.append hnd (List.nodup_singleton _)
        (by simp only [List.disjoint_singleton, hin, not_false_eq_true])
    · intro q
      simp only [List.map_append, List.map_singleton, List.mem_append, List.mem_singleton]
      tauto
    · rw [List.filter_append]
      have hrest : entries.filter (fun e => decide (e.path = p)) = [] := by
        rw [List.filter_eq_nil_iff]
        intro x hx
        simp only [decide_eq_true_eq]
        intro e2
        exact hin (List.mem_map.mpr ⟨x, hx, e2⟩)
      rw [hrest]
      simp
    · intro e he
      simp only [List.mem_append, List.mem_singleton]
      constructor
      · rintro (h | h)
        · exact h
        · rw [h] at he
          exact absurd rfl he
      · exact Or.inl

theorem add_path_ok (z : Zlib) (sha1 : Str → Oid) (gitdir : Str) (fs : FS)
    (entries : List IndexEntry) (wd relpath : Str) (mode : Mode) (bytes : Str)
    (hfile : fs (path_join wd relpath) = some bytes) :
    Index.add_path z sha1 gitdir fs entries wd relpath mode
      = (.ok (sort_index (upsert_entry entries mode
            (sha1 (object_header kTypeBlob bytes.length ++ bytes)) relpath)),
          (write_blob z sha1 gitdir fs bytes).2) := by
  have hw : (write_blob z sha1 gitdir fs bytes).1
      = to_hex (sha1 (object_header kTypeBlob bytes.length ++ bytes)) := write_fst _ _ _ _ _ _
  unfold Index.add_path
  simp only [read_file, hfile, hw, from_hex_to_hex]

theorem add_path_missing (z : Zlib) (sha1 : Str → Oid) (gitdir : Str) (fs : FS)
    (entries : List IndexEntry) (wd relpath : Str) (mode : Mode)
    (hfile : fs (path_join wd relpath) = none) :
    Index.add_path z sha1 gitdir fs entries wd relpath mode
      = (.error "open for read failed", fs) := by
  unfold Index.add_path
  simp only [read_file, hfile]

/-! ## The entries stay sorted and without repeated paths -/

/-- The invariant of the entries: strictly ascending paths that the text format keeps. -/
theorem index_step_sorted (z : Zlib) (sha1 : Str → Oid) (root : Str) (st : FS × List IndexEntry)
    (op : IndexOp) (hop : op_path_ok op = true)
    (hs : st.2.Pairwise (fun a b => str_lt a.path b.path = true))
    (hok : ∀ e ∈ st.2, index_path_ok e.path = true) :
    (index_step z sha1 root st op).2.Pairwise (fun a b => str_lt a.path b.path = true)
    ∧ ∀ e ∈ (index_step z sha1 root st op).2, index_path_ok e.path = true := by
  have hnd : (st.2.map IndexEntry.path).Nodup := by
    rw [List.Nodup, List.pairwise_map]
    exact hs.imp (fun {a b} hab e => by rw [e, str_lt_irrefl] at hab; cases hab)
  cases op with
  | add wd relpath mode =>
    simp only [index_step]
    cases hf : st.1 (path_join wd relpath) with
    | none =>
      rw [add_path_missing z sha1 _ st.1 st.2 wd relpath mode hf]
      exact ⟨hs, hok⟩
    | some bytes =>
      rw [add_path_ok z sha1 _ st.1 st.2 wd relpath mode bytes hf]
      simp only
      obtain ⟨h1, h2, _, _, _⟩ := upsert_entry_spec st.2 mode
        (sha1 (object_header kTypeBlob bytes.length ++ bytes)) relpath hnd
      refine ⟨sort_index_strict _ h1, ?_⟩
      intro e he
      have he2 := (sort_index_perm _).subset he
      rcases (h2 e.path).mp (List.mem_map.mpr ⟨e, he2, rfl⟩) with e1 | h3
      · rw [e1]
        exact hop
      · obtain ⟨x, hx, hxe⟩ := List.mem_map.mp h3
        rw [← hxe]
        exact hok x hx
  | remove relpath =>
    simp only [index_step, Index.remove_path]
    exact ⟨hs.sublist (List.filter_sublist _), fun e he => hok e (List.mem_filter.mp he).1⟩
  | save_load =>
    simp only [index_step]
    rw [load_save_modes st.1 root st.2 hok,
      sort_index_sorted _ (hs.sublist (List.filter_sublist _))]
    exact ⟨hs.sublist (List.filter_sublist _), fun e he => hok e (List.mem_filter.mp he).1⟩

theorem index_run_sorted (z : Zlib) (sha1 : Str → Oid) (root : Str) (ops : List IndexOp)
    (hops : ∀ op ∈ ops, op_path_ok op = true) :
    ∀ (st : FS × List IndexEntry),
      st.2.Pairwise (fun a b => str_lt a.path b.path = true) →
      (∀ e ∈ st.2, index_path_ok e.path = true) →
      (ops.foldl (index_step z sha1 root) st).2.Pairwise
        (fun a b => str_lt a.path b.path = true) := by
  induction ops with
  | nil => intro st hs _; exact hs
  | cons op rest ih =>
    intro st hs hok
    rw [List.foldl_cons]
    obtain ⟨h1, h2⟩ := index_step_sorted z sha1 root st op (hops op (List.mem_cons_self _ _))
      hs hok
    exact ih (fun o ho => hops o (List.mem_cons_of_mem _ ho)) _ h1 h2

set_option maxRecDepth 100000 in
/-- C27 (counterexample): in a working tree with the files `a` and `a ` (with a trailing
space), `add_path("a")`, `add_path("a ")`, `save()` and `load()` leave an index with two
entries of path `a`: the line of the second entry is trimmed when it is read back. -/
theorem index_run_duplicate_paths :
    (index_run rleZlib mixSha1 (lit "/r") spaceFS
        [.add (lit "/r") (lit "a") kModeFile, .add (lit "/r") (lit "a ") kModeFile]).2
      = [⟨kModeFile, mixBlob (lit "one\n"), lit "a"⟩, ⟨kModeFile, mixBlob (lit "two\n"), lit "a "⟩]
    ∧ (index_run rleZlib mixSha1 (lit "/r") spaceFS
        [.add (lit "/r") (lit "a") kModeFile, .add (lit "/r") (lit "a ") kModeFile,
          .save_load]).2
      = [⟨kModeFile, mixBlob (lit "one\n"), lit "a"⟩, ⟨kModeFile, mixBlob (lit "two\n"), lit "a"⟩]
    ∧ ¬ ((index_run rleZlib mixSha1 (lit "/r") spaceFS
        [.add (lit "/r") (lit "a") kModeFile, .add (lit "/r") (lit "a ") kModeFile,
          .save_load]).2.map IndexEntry.path).Nodup := by
  decide

/-- C27 (amended): in every state reached from the empty index by a sequence of calls of
`add_path` with paths that are not empty, contain no newline and neither start nor end
with whitespace, of `remove_path`, and of `save` followed by `load`, the entries are in
strictly ascending order of path: they are sorted and no two of them have the same path. -/
theorem index_run_sorted_unique (z : Zlib) (sha1 : Str → Oid) (root : Str) (fs : FS)
    (ops : List IndexOp) (hops : ∀ op ∈ ops, op_path_ok op = true) :
    (index_run z sha1 root fs ops).2.Pairwise (fun a b => str_lt a.path b.path = true)
    ∧ ((index_run z sha1 root fs ops).2.map IndexEntry.path).Nodup := by
  have h := index_run_sorted z sha1 root ops hops (fs, []) List.Pairwise.nil
    (fun e he => absurd he (List.not_mem_nil e))
  refine ⟨h, ?_⟩
  rw [List.Nodup, List.pairwise_map]
  exact h.imp (fun {a b} hab e => by rw [e, str_lt_irrefl] at hab; cases hab)

set_option maxRecDepth 100000 in
/-- The hypothesis of `index_run_sorted_unique` holds for a sequence of calls in the working
tree of `spaceFS`. -/
theorem index_run_sorted_unique_witness :
    (index_run rleZlib mixSha1 (lit "/r") spaceFS
        [.add (lit "/r") (lit "b") kModeFile, .add (lit "/r") (lit "a") kModeFile,
          .save_load, .add (lit "/r") (lit "b") 33261, .remove (lit "a"),
          .add (lit "/r") (lit "a") kModeFile]).2.Pairwise
        (fun a b => str_lt a.path b.path = true)
    ∧ ((index_run rleZlib mixSha1 (lit "/r") spaceFS
        [.add (lit "/r") (lit "b") kModeFile, .add (lit "/r") (lit "a") kModeFile,
          .save_load, .add (lit "/r") (lit "b") 33261, .remove (lit "a"),
          .add (lit "/r") (lit "a") kModeFile]).2.map IndexEntry.path).Nodup :=
  index_run_sorted_unique rleZlib mixSha1 (lit "/r") spaceFS
    [.add (lit "/r") (lit "b") kModeFile, .add (lit "/r") (lit "a") kModeFile,
      .save_load, .add (lit "/r") (lit "b") 33261, .remove (lit "a"),
      .add (lit "/r") (lit "a") kModeFile] (by decide)
/-! ## `Index::add_path`: the entry, the other entries and the blob -/

theorem write_blob_file (z : Zlib) (sha1 : Str → Oid) (gitdir : Str) (fs : FS) (bytes : Str)
    (hstore : fs (path_for_oid gitdir (sha1 (object_header kTypeBlob bytes.length ++ bytes)))
        = none
      ∨ fs (path_for_oid gitdir (sha1 (object_header kTypeBlob bytes.length ++ bytes)))
        = some (z.deflate (object_header kTypeBlob bytes.length ++ bytes))) :
    (write_blob z sha1 gitdir fs bytes).2
        (path_for_oid gitdir (sha1 (object_header kTypeBlob bytes.length ++ bytes)))
      = some (z.deflate (object_header kTypeBlob bytes.length ++ bytes)) := by
  rcases hstore with h | h
  · exact write_fresh_file z sha1 gitdir fs kTypeBlob bytes h
  · unfold write_blob ObjectStore.write
    simp only [h, Option.isSome_some, if_true]

theorem read_blob_of_file (z : Zlib) (gitdir : Str) (fs : FS) (id : Oid) (bytes : Str)
    (hfile : fs (path_for_oid gitdir id)
      = some (z.deflate (object_header kTypeBlob bytes.length ++ bytes)))
    (hfit : (object_header kTypeBlob bytes.length ++ bytes).length
      ≤ 32 * max ((z.deflate (object_header kTypeBlob bytes.length ++ bytes)).length * 3) 64) :
    read_blob z gitdir fs (to_hex id) = .ok bytes := by
  have h := read_framed z gitdir fs (to_hex id) id _ kTypeBlob (to_string bytes.length) bytes
    (from_hex_to_hex id) hfile
    (by rw [z_decompress_deflate z _ hfit]; simp [object_header])
    (by decide) (to_string_no_nul _)
  unfold read_blob
  rw [h]
  rfl

theorem add_path_entries (z : Zlib) (sha1 : Str → Oid) (gitdir : Str) (fs : FS)
    (entries : List IndexEntry) (wd relpath : Str) (mode : Mode) (bytes : Str)
    (hfile : fs (path_join wd relpath) = some bytes)
    (hnd : (entries.map IndexEntry.path).Nodup) :
    ∃ entries1 fs1,
      Index.add_path z sha1 gitdir fs entries wd relpath mode = (.ok entries1, fs1)
      ∧ entries1.filter (fun e => decide (e.path = relpath))
          = [⟨mode, sha1 (object_header kTypeBlob bytes.length ++ bytes), relpath⟩]
      ∧ (∀ e : IndexEntry, e.path ≠ relpath → (e ∈ entries1 ↔ e ∈ entries))
      ∧ entries1.length
          = (if relpath ∈ entries.map IndexEntry.path then entries.length
              else entries.length + 1)
      ∧ entries1.Pairwise (fun a b => str_lt a.path b.path = true)
      ∧ fs1 = (write_blob z sha1 gitdir fs bytes).2 := by
  obtain ⟨h1, _, h3, h4, h5⟩ := upsert_entry_spec entries mode
    (sha1 (object_header kTypeBlob bytes.length ++ bytes)) relpath hnd
  refine ⟨_, _, add_path_ok z sha1 gitdir fs entries wd relpath mode bytes hfile, ?_, ?_, ?_,
    sort_index_strict _ h1, rfl⟩
  · have hp := (sort_index_perm (upsert_entry entries mode
      (sha1 (object_header kTypeBlob bytes.length ++ bytes)) relpath)).filter
        (fun e => decide (e.path = relpath))
    rw [h3] at hp
    exact List.perm_singleton.mp hp
  · intro e he
    rw [(sort_index_perm _).mem_iff]
    exact h4 e he
  · rw [(sort_index_perm _).length_eq]
    exact h5
set_option maxRecDepth 100000 in
/-- C30 (counterexample): after `add_path("a")`, `add_path("a ")`, `save()` and `load()` in
the working tree of `spaceFS` the index has two entries of path `a`; `add_path("a")` with
the mode 100755 then replaces the first of them only, and the index still holds two entries
for `a`, one of them with the old mode and the digest of another file. -/
theorem add_path_two_entries :
    (index_run rleZlib mixSha1 (lit "/r") spaceFS
        [.add (lit "/r") (lit "a") kModeFile, .add (lit "/r") (lit "a ") kModeFile,
          .save_load, .add (lit "/r") (lit "a") 33261]).2
      = [⟨33261, mixBlob (lit "one\n"), lit "a"⟩, ⟨kModeFile, mixBlob (lit "two\n"), lit "a"⟩] := by
  decide

/-- C30 (amended): when the entries of the index have pairwise distinct paths and the file
`wd/path` holds `bytes`, `add_path(wd, path, repo, mode)` returns, and afterwards the index
holds exactly one entry for `path`, with `mode` and the blob digest of `bytes`; an entry
for another path is in the index if and only if it was before; the number of entries is
the same when `path` was present and one more when it was absent; the entries are in
strictly ascending order of path; and when the object file of the digest did not exist or
held the compressed blob, it holds the compressed blob afterwards, and the blob is read
back with `bytes` provided its frame is at most 32 * max(3 * compressed size, 64) bytes
long. -/
theorem add_path_upsert (z : Zlib) (sha1 : Str → Oid) (gitdir : Str) (fs : FS)
    (entries : List IndexEntry) (wd relpath : Str) (mode : Mode) (bytes : Str)
    (hfile : fs (path_join wd relpath) = some bytes)
    (hnd : (entries.map IndexEntry.path).Nodup) :
    ∃ entries1 fs1,
      Index.add_path z sha1 gitdir fs entries wd relpath mode = (.ok entries1, fs1)
      ∧ entries1.filter (fun e => decide (e.path = relpath))
          = [⟨mode, sha1 (object_header kTypeBlob bytes.length ++ bytes), relpath⟩]
      ∧ to_hex (sha1 (object_header kTypeBlob bytes.length ++ bytes))
          = compute_blob_hex_oid sha1 bytes
      ∧ (∀ e : IndexEntry, e.path ≠ relpath → (e ∈ entries1 ↔ e ∈ entries))
      ∧ entries1.length
          = (if relpath ∈ entries.map IndexEntry.path then entries.length
              else entries.length + 1)
      ∧ entries1.Pairwise (fun a b => str_lt a.path b.path = true)
      ∧ ((fs (path_for_oid gitdir (sha1 (object_header kTypeBlob bytes.length ++ bytes)))
            = none
          ∨ fs (path_for_oid gitdir (sha1 (object_header kTypeBlob bytes.length ++ bytes)))
            = some (z.deflate (object_header kTypeBlob bytes.length ++ bytes))) →
          fs1 (path_for_oid gitdir (sha1 (object_header kTypeBlob bytes.length ++ bytes)))
            = some (z.deflate (object_header kTypeBlob bytes.length ++ bytes))
          ∧ ((object_header kTypeBlob bytes.length ++ bytes).length
              ≤ 32 * max ((z.deflate (object_header kTypeBlob bytes.length ++ bytes)).length * 3)
                  64 →
            read_blob z gitdir fs1 (compute_blob_hex_oid sha1 bytes) = .ok bytes)) := by
  obtain ⟨entries1, fs1, h1, h2, h3, h4, h5, h6⟩ := add_path_entries z sha1 gitdir fs entries wd
    relpath mode bytes hfile hnd
  refine ⟨entries1, fs1, h1, h2, rfl, h3, h4, h5, ?_⟩
  intro hstore
  have hf := write_blob_file z sha1 gitdir fs bytes hstore
  rw [← h6] at hf
  exact ⟨hf, fun hfit => read_blob_of_file z gitdir fs1 _ bytes hf hfit⟩

set_option maxRecDepth 100000 in
/-- The hypotheses of `add_path_upsert` hold in the working tree of `spaceFS` for an index
with an entry for `b`, to which the path `a` is added. -/
theorem add_path_upsert_witness :
    ∃ entries1 fs1,
      Index.add_path rleZlib mixSha1 (lit "/r/.gitfly") spaceFS
          [⟨kModeFile, mixBlob (lit "three\n"), lit "b"⟩] (lit "/r") (lit "a") 33261
        = (.ok entries1, fs1)
      ∧ entries1.filter (fun e => decide (e.path = lit "a"))
          = [⟨33261, mixSha1 (object_header kTypeBlob (lit "one\n").length ++ lit "one\n"),
              lit "a"⟩]
      ∧ to_hex (mixSha1 (object_header kTypeBlob (lit "one\n").length ++ lit "one\n"))
          = compute_blob_hex_oid mixSha1 (lit "one\n")
      ∧ (∀ e : IndexEntry, e.path ≠ lit "a" →
          (e ∈ entries1 ↔ e ∈ [(⟨kModeFile, mixBlob (lit "three\n"), lit "b"⟩ : IndexEntry)]))
      ∧ entries1.length
          = (if lit "a" ∈ [(⟨kModeFile, mixBlob (lit "three\n"), lit "b"⟩ : IndexEntry)].map
                IndexEntry.path
              then [(⟨kModeFile, mixBlob (lit "three\n"), lit "b"⟩ : IndexEntry)].length
              else [(⟨kModeFile, mixBlob (lit "three\n"), lit "b"⟩ : IndexEntry)].length + 1)
      ∧ entries1.Pairwise (fun a b => str_lt a.path b.path = true)
      ∧ ((spaceFS (path_for_oid (lit "/r/.gitfly")
              (mixSha1 (object_header kTypeBlob (lit "one\n").length ++ lit "one\n"))) = none
          ∨ spaceFS (path_for_oid (lit "/r/.gitfly")
              (mixSha1 (object_header kTypeBlob (lit "one\n").length ++ lit "one\n")))
            = some (rleZlib.deflate (object_header kTypeBlob (lit "one\n").length ++ lit "one\n"))) →
          fs1 (path_for_oid (lit "/r/.gitfly")
              (mixSha1 (object_header kTypeBlob (lit "one\n").length ++ lit "one\n")))
            = some (rleZlib.deflate (object_header kTypeBlob (lit "one\n").length ++ lit "one\n"))
          ∧ ((object_header kTypeBlob (lit "one\n").length ++ lit "one\n").length
              ≤ 32 * max ((rleZlib.deflate
                  (object_header kTypeBlob (lit "one\n").length ++ lit "one\n")).length * 3) 64 →
            read_blob rleZlib (lit "/r/.gitfly") fs1 (compute_blob_hex_oid mixSha1 (lit "one\n"))
              = .ok (lit "one\n"))) :=
  add_path_upsert rleZlib mixSha1 (lit "/r/.gitfly") spaceFS
    [⟨kModeFile, mixBlob (lit "three\n"), lit "b"⟩] (lit "/r") (lit "a") 33261 (lit "one\n")
    (by decide) (by decide)

set_option maxRecDepth 100000 in
/-- The call of the witness evaluated: the entry for `a` is inserted before the entry for
`b`, and the blob is read back. -/
theorem add_path_example :
    (Index.add_path rleZlib mixSha1 (lit "/r/.gitfly") spaceFS
        [⟨kModeFile, mixBlob (lit "three\n"), lit "b"⟩] (lit "/r") (lit "a") 33261).1
      = .ok [⟨33261, mixBlob (lit "one\n"), lit "a"⟩, ⟨kModeFile, mixBlob (lit "three\n"), lit "b"⟩]
    ∧ read_blob rleZlib (lit "/r/.gitfly")
        (Index.add_path rleZlib mixSha1 (lit "/r/.gitfly") spaceFS
          [⟨kModeFile, mixBlob (lit "three\n"), lit "b"⟩] (lit "/r") (lit "a") 33261).2
        (to_hex (mixBlob (lit "one\n")))
      = .ok (lit "one\n") := by
  decide

/-! ## `Index::load`, line by line -/

/-- The value of a string of octal digits in 32-bit arithmetic, and 0 for a string with
another character: what the mode loop of `Index::load` computes. -/
theorem index_mode_loop_value (s : Str) :
    ∀ v, index_mode_loop s (v % 4294967296)
      = if (∀ c ∈ s, 48 ≤ c.val ∧ c.val ≤ 55)
        then (s.foldl (fun (a : Nat) (c : Byte) => a * 8 + (c.val - 48)) v) % 4294967296
        else 0 := by
  induction s with
  | nil => intro v; simp [index_mode_loop]
  | cons c rest ih =>
    intro v
    by_cases hc : 48 ≤ c.val ∧ c.val ≤ 55
    · have hn : ¬ (c.val < 48 ∨ 55 < c.val) := by omega
      have hm : (v % 4294967296 * 8 + (c.val - 48)) % 4294967296
          = (v * 8 + (c.val - 48)) % 4294967296 := by omega
      simp only [index_mode_loop, hn, if_false, hm, ih, List.foldl_cons, List.mem_cons,
        forall_eq_or_imp, hc, true_and, and_self]
    · have hn : c.val < 48 ∨ 55 < c.val := by omega
      have hall : ¬ (∀ x ∈ c :: rest, 48 ≤ x.val ∧ x.val ≤ 55) :=
        fun h => hc (h c (List.mem_cons_self _ _))
      simp only [index_mode_loop, hn, if_true, hall, if_false]

theorem nibble_isSome (c : Byte) : (nibble c).isSome = isxdigit c := by
  unfold nibble isxdigit
  by_cases h1 : 48 ≤ c.val ∧ c.val ≤ 57
  · simp [h1]
  · by_cases h2 : 97 ≤ c.val ∧ c.val ≤ 102
    · simp [h1, h2]
    · by_cases h3 : 65 ≤ c.val ∧ c.val ≤ 70
      · simp [h1, h2, h3]
      · simp [h1, h2, h3]

theorem from_hex_pairs_some (n : Nat) :
    ∀ (s : Str), s.length = 2 * n → s.all isxdigit = true →
      ∃ out, from_hex_pairs s = some out ∧ out.length = n := by
  induction n with
  | zero =>
    intro s hl _
    have : s = [] := List.length_eq_zero.mp (by omega)
    rw [this]
    exact ⟨[], rfl, rfl⟩
  | succ n ih =>
    intro s hl hx
    match s, hl, hx with
    | a :: b :: rest, hl, hx =>
      simp only [List.all_cons, Bool.and_eq_true] at hx
      obtain ⟨out, ho, hlen⟩ := ih rest (by simp only [List.length_cons] at hl; omega) hx.2.2
      have ha : (nibble a).isSome = true := by rw [nibble_isSome]; exact hx.1
      have hb : (nibble b).isSome = true := by rw [nibble_isSome]; exact hx.2.1
      obtain ⟨x, hxa⟩ := Option.isSome_iff_exists.mp ha
      obtain ⟨y, hyb⟩ := Option.isSome_iff_exists.mp hb
      exact ⟨Fin.ofNat (x * 16 + y) :: out, by simp only [from_hex_pairs, hxa, hyb, ho],
        by simp [hlen]⟩
    | [], hl, _ => simp at hl
    | [_], hl, _ => simp only [List.length_cons, List.length_nil] at hl; omega

theorem from_hex_pairs_xdigit :
    ∀ (s : Str) (out : List Byte), from_hex_pairs s = some out → s.all isxdigit = true
  | [], _, _ => rfl
  | [_], _, h => by simp [from_hex_pairs] at h
  | a :: b :: rest, out, h => by
    simp only [from_hex_pairs] at h
    cases ha : nibble a with
    | none => rw [ha] at h; simp at h
    | some x =>
      cases hb : nibble b with
      | none => rw [ha, hb] at h; simp at h
      | some y =>
        rw [ha, hb] at h
        simp only at h
        cases hr : from_hex_pairs rest with
        | none => rw [hr] at h; simp at h
        | some o =>
          have := from_hex_pairs_xdigit rest o hr
          simp only [List.all_cons, Bool.and_eq_true]
          refine ⟨?_, ?_, this⟩
          · rw [← nibble_isSome, ha]; rfl
          · rw [← nibble_isSome, hb]; rfl

/-- `from_hex` accepts exactly the strings of 40 hex characters. -/
theorem from_hex_isSome (s : Str) : (from_hex s).isSome = looks_hex40 s := by
  unfold from_hex looks_hex40
  by_cases hl : s.length = 40
  · simp only [hl, ne_eq, not_true_eq_false, if_false]
    cases hx : s.all isxdigit with
    | true =>
      obtain ⟨out, ho, hlen⟩ := from_hex_pairs_some 20 s (by omega) hx
      simp only [ho, hlen, dite_true, Option.isSome_some]
    | false =>
      cases hp : from_hex_pairs s with
      | none => rfl
      | some out =>
        have := from_hex_pairs_xdigit s out hp
        rw [hx] at this
        cases this
  · simp [hl]

theorem dropWhile_all {α : Type} (p : α → Bool) (a b : List α) (ha : ∀ c ∈ a, p c = true) :
    (a ++ b).dropWhile p = b.dropWhile p := by
  induction a with
  | nil => rfl
  | cons c cs ih =>
    rw [List.cons_append, List.dropWhile_cons_of_pos (ha c (List.mem_cons_self _ _))]
    exact ih (fun y hy => ha y (List.mem_cons_of_mem _ hy))

theorem takeWhile_field (f rest : Str) (hf : ∀ c ∈ f, isspace c = false)
    (hrest : rest = [] ∨ ∃ c r, rest = c :: r ∧ isspace c = true) :
    (f ++ rest).takeWhile (fun c => !isspace c) = f
      ∧ (f ++ rest).dropWhile (fun c => !isspace c) = rest := by
  rcases hrest with e | ⟨c, r, e, hc⟩
  · rw [e, List.append_nil]
    constructor
    · rw [List.takeWhile_eq_self_iff]
      intro x hx
      simp [hf x hx]
    · rw [List.dropWhile_eq_nil_iff]
      intro x hx
      simp [hf x hx]
  · rw [e]
    exact takeWhile_append_stop (fun c => !isspace c) f c r (fun x hx => by simp [hf x hx])
      (by simp [hc])

theorem read_token_field (f rest : Str) (hne : f ≠ []) (hf : ∀ c ∈ f, isspace c = false)
    (hrest : rest = [] ∨ ∃ c r, rest = c :: r ∧ isspace c = true) :
    read_token (f ++ rest) = (f, rest) := by
  obtain ⟨c0, f1, e⟩ := List.exists_cons_of_ne_nil hne
  have hd : (f ++ rest).dropWhile isspace = f ++ rest := by
    rw [e, List.cons_append,
      List.dropWhile_cons_of_neg (by simp [hf c0 (by rw [e]; exact List.mem_cons_self _ _)])]
  unfold read_token
  rw [hd, (takeWhile_field f rest hf hrest).1, (takeWhile_field f rest hf hrest).2]

theorem read_token_spaces (ws f rest : Str) (hws : ∀ c ∈ ws, isspace c = true) (hne : f ≠ [])
    (hf : ∀ c ∈ f, isspace c = false)
    (hrest : rest = [] ∨ ∃ c r, rest = c :: r ∧ isspace c = true) :
    read_token (ws ++ (f ++ rest)) = (f, rest) := by
  have h := read_token_field f rest hne hf hrest
  unfold read_token at h ⊢
  rw [dropWhile_all isspace ws (f ++ rest) hws]
  exact h

/-- One line of the index file, by its fields: `line` is the trimmed line, `f1` and `f2` its
first two fields, `ws` the whitespace between them, and `rest` what follows `f2`. -/
theorem parse_index_line_fields (line0 f1 ws f2 rest : Str)
    (hline : trim line0 = f1 ++ (ws ++ (f2 ++ rest)))
    (hf1 : f1 ≠ []) (hs1 : ∀ c ∈ f1, isspace c = false) (hhash : f1.head? ≠ some 35)
    (hws : ws ≠ []) (hsw : ∀ c ∈ ws, isspace c = true)
    (hf2 : f2 ≠ []) (hs2 : ∀ c ∈ f2, isspace c = false)
    (hrest : rest = [] ∨ ∃ c r, rest = c :: r ∧ isspace c = true) :
    parse_index_line line0
      = if (∀ c ∈ f1, 48 ≤ c.val ∧ c.val ≤ 55)
          ∧ (f1.foldl (fun (a : Nat) (c : Byte) => a * 8 + (c.val - 48)) 0) % 4294967296 ≠ 0
          ∧ trim rest ≠ [] ∧ looks_hex40 f2 = true
        then (from_hex f2).map (fun oid =>
          ⟨Fin.ofNat ((f1.foldl (fun (a : Nat) (c : Byte) => a * 8 + (c.val - 48)) 0)
            % 4294967296), oid, trim rest⟩)
        else none := by
  obtain ⟨w, ws1, ew⟩ := List.exists_cons_of_ne_nil hws
  have ht1 : read_token (f1 ++ (ws ++ (f2 ++ rest))) = (f1, ws ++ (f2 ++ rest)) :=
    read_token_field f1 _ hf1 hs1
      (Or.inr ⟨w, ws1 ++ (f2 ++ rest), by rw [ew]; rfl,
        hsw w (by rw [ew]; exact List.mem_cons_self _ _)⟩)
  have ht2 : read_token (ws ++ (f2 ++ rest)) = (f2, rest) :=
    read_token_spaces ws f2 rest hsw hf2 hs2 hrest
  have hne : f1 ++ (ws ++ (f2 ++ rest)) ≠ [] := by
    obtain ⟨c0, r, e⟩ := List.exists_cons_of_ne_nil hf1
    rw [e]; simp
  have hh : (f1 ++ (ws ++ (f2 ++ rest))).head? ≠ some 35 := by
    obtain ⟨c0, r, e⟩ := List.exists_cons_of_ne_nil hf1
    rw [e] at hhash ⊢
    simpa using hhash
  have hm := index_mode_loop_value f1 0
  rw [Nat.zero_mod] at hm
  unfold parse_index_line
  simp only [hline, ht1, ht2, hne, hh, hf1, hf2, false_or, or_self, if_false, hm]
  by_cases hoct : ∀ c ∈ f1, 48 ≤ c.val ∧ c.val ≤ 55
  · simp only [eq_true hoct, if_true, true_and]
    by_cases hv : (f1.foldl (fun (a : Nat) (c : Byte) => a * 8 + (c.val - 48)) 0)
        % 4294967296 = 0
    · simp [hv]
    · by_cases hp : trim rest = []
      · simp [hp]
      · by_cases hx : looks_hex40 f2 = true
        · have hl := looks_hex40_length f2 hx
          simp only [hv, hp, hl, ne_eq, not_true_eq_false, or_self, if_false, hx,
            not_false_eq_true, and_self, if_true]
          cases from_hex f2 with
          | none => rfl
          | some oid => rfl
        · have hx2 : looks_hex40 f2 = false := by
            cases hc : looks_hex40 f2 with
            | false => rfl
            | true => exact absurd hc hx
          have hnone : from_hex f2 = none := by
            have := from_hex_isSome f2
            rw [hx2] at this
            cases hfh : from_hex f2 with
            | none => rfl
            | some o => rw [hfh] at this; cases this
          simp only [hv, hp, hx2, hnone, Bool.false_eq_true, and_false, if_false]
          split <;> rfl
  · simp only [eq_false hoct, if_false, false_and, true_or, if_true]

theorem parse_index_line_blank (line0 : Str)
    (h : trim line0 = [] ∨ (trim line0).head? = some 35) : parse_index_line line0 = none := by
  unfold parse_index_line
  simp only [h, if_true]

theorem parse_index_line_one_field (line0 : Str)
    (hs : ∀ c ∈ trim line0, isspace c = false) : parse_index_line line0 = none := by
  by_cases hne : trim line0 = []
  · exact parse_index_line_blank line0 (Or.inl hne)
  · have h1 := read_token_field (trim line0) [] hne hs (Or.inl rfl)
    rw [List.append_nil] at h1
    have h2 : read_token [] = ([], []) := rfl
    unfold parse_index_line
    simp only [h1, h2, or_true, if_true]
    split <;> rfl
set_option maxRecDepth 100000 in
/-- C29 (counterexample): the mode `40000000000` is the octal number 2^32, which is not
zero, and the line has a 40-hex digest and a path, yet it contributes no entry: the mode is
computed in 32-bit arithmetic and wraps to 0.  The mode `40000100644` is 2^32 + 0o100644,
and its line contributes an entry of mode 0o100644. -/
theorem load_mode_wraps :
    (lit "40000000000").foldl (fun (a : Nat) (c : Byte) => a * 8 + (c.val - 48)) 0 = 4294967296
    ∧ Index.load (write_file_atomic emptyFS (index_path (lit "/r"))
          (lit "40000000000 " ++ List.replicate 40 97 ++ lit " p\n")) (lit "/r") = []
    ∧ Index.load (write_file_atomic emptyFS (index_path (lit "/r"))
          (lit "40000100644 " ++ List.replicate 40 97 ++ lit " p\n")) (lit "/r")
        = [⟨33188, ⟨List.replicate 20 170, rfl⟩, lit "p"⟩] := by
  decide

/-- C29 (amended): `Index::load` returns the empty index when the file is missing, and
otherwise the sorted entries that the lines of the file contribute, whatever the content.
A line contributes no entry when it is blank after trimming, when its first non-blank
character is `#`, or when it has a single field.  A line with the fields `f1` and `f2`
followed by `rest` contributes the entry of mode `f1` (read as an octal number modulo 2^32),
digest `f2` and path `rest` trimmed when `f1` has octal digits only, that mode is not zero,
`f2` is made of 40 hex characters and the path is not empty; otherwise it contributes no
entry. -/
theorem load_lenient (fs : FS) (root : Str) :
    (fs (index_path root) = none → Index.load fs root = [])
    ∧ (∀ text, fs (index_path root) = some text →
        Index.load fs root = sort_index ((getlines text []).filterMap parse_index_line))
    ∧ (∀ line0, (trim line0 = [] ∨ (trim line0).head? = some 35) →
        parse_index_line line0 = none)
    ∧ (∀ line0, (∀ c ∈ trim line0, isspace c = false) → parse_index_line line0 = none)
    ∧ (∀ line0 f1 ws f2 rest : Str, trim line0 = f1 ++ (ws ++ (f2 ++ rest)) →
        f1 ≠ [] → (∀ c ∈ f1, isspace c = false) → f1.head? ≠ some 35 →
        ws ≠ [] → (∀ c ∈ ws, isspace c = true) →
        f2 ≠ [] → (∀ c ∈ f2, isspace c = false) →
        (rest = [] ∨ ∃ c r, rest = c :: r ∧ isspace c = true) →
        parse_index_line line0
          = if (∀ c ∈ f1, 48 ≤ c.val ∧ c.val ≤ 55)
              ∧ (f1.foldl (fun (a : Nat) (c : Byte) => a * 8 + (c.val - 48)) 0)
                  % 4294967296 ≠ 0
              ∧ trim rest ≠ [] ∧ looks_hex40 f2 = true
            then (from_hex f2).map (fun oid =>
              ⟨Fin.ofNat ((f1.foldl (fun (a : Nat) (c : Byte) => a * 8 + (c.val - 48)) 0)
                % 4294967296), oid, trim rest⟩)
            else none)
    ∧ (∀ s, (from_hex s).isSome = looks_hex40 s) := by
  refine ⟨?_, ?_, parse_index_line_blank, parse_index_line_one_field, parse_index_line_fields,
    from_hex_isSome⟩
  · intro h
    unfold Index.load
    rw [h]
  · intro text h
    unfold Index.load
    rw [h]

set_option maxRecDepth 100000 in
/-- An index file with a comment, a blank line, a line with one field, a line with a bad
mode, a line with a short digest, a line without a path and two well-formed lines: only the
last two contribute entries, in ascending order of path. -/
theorem load_lenient_example :
    Index.load (write_file_atomic emptyFS (index_path (lit "/r"))
        (lit "# comment\n\n  \t\n100644\n100648 " ++ List.replicate 40 97 ++ lit " x\n100644 "
          ++ List.replicate 39 97 ++ lit " y\n100644 " ++ List.replicate 40 97 ++ lit "  \n100755  "
          ++ List.replicate 40 65 ++ lit " \t z w \r\n  100644 " ++ List.replicate 40 97
          ++ lit " b")) (lit "/r")
      = [⟨kModeFile, ⟨List.replicate 20 170, rfl⟩, lit "b"⟩,
          ⟨33261, ⟨List.replicate 20 170, rfl⟩, lit "z w"⟩] := by
  decide

/-! ## `checkout`: the test of the working tree against the index -/

theorem to_hex_ne_nil (id : Oid) : to_hex id ≠ [] := by
  intro e
  have := to_hex_length id
  rw [e] at this
  cases this

set_option maxRecDepth 100000 in
/-- The three outcomes on the example: with nothing staged the working file `f.txt` is
untracked and the checkout is aborted; with the file staged, an unknown branch is rejected
and the branch `feature` is checked out.  In the first two cases `HEAD` and the working
file are as before. -/
theorem checkout_example :
    (checkout rleZlib mixSha1 (lit "/r") true [lit "f.txt"] 3 (coFS none) (lit "feature")).map
        (fun r => (r.1, r.2 (lit "/r/.gitfly/HEAD"), r.2 (lit "/r/f.txt")))
      = some (Except.error "checkout aborted: unstaged changes present",
          some (lit "ref: refs/heads/master\n"), some (lit "base\n"))
    ∧ (checkout rleZlib mixSha1 (lit "/r") true [lit "f.txt"] 3 (coFS (some coIndex))
          (lit "nobranch")).map
        (fun r => (r.1, r.2 (lit "/r/.gitfly/HEAD"), r.2 (lit "/r/f.txt")))
      = some (Except.error "unknown branch: nobranch",
          some (lit "ref: refs/heads/master\n"), some (lit "base\n"))
    ∧ (checkout rleZlib mixSha1 (lit "/r") true [lit "f.txt"] 3 (coFS (some coIndex))
          (lit "feature")).map
        (fun r => (r.1, r.2 (lit "/r/.gitfly/HEAD"), r.2 (lit "/r/f.txt")))
      = some (Except.ok (), some (lit "ref: refs/heads/feature\n"), some (lit "feature\n")) :=
  ⟨rfl, rfl, rfl⟩

/-! ## The three-way branch of `merge_branch` without a conflict -/

/-- After `ObjectStore::write`, an object file is as before or holds the deflated framed
bytes of the object written. -/
theorem write_objects (z : Zlib) (sha1 : Str → Oid) (gitdir : Str)
    (hG : gitdir ≠ []) (hG2 : gitdir.getLast? ≠ some kSlash) (fs : FS) (type payload : Str)
    (i : Oid) :
    (ObjectStore.write z sha1 gitdir fs type payload).2 (path_for_oid gitdir i)
      = fs (path_for_oid gitdir i)
    ∨ (ObjectStore.write z sha1 gitdir fs type payload).2 (path_for_oid gitdir i)
        = some (z.deflate (object_header type payload.length ++ payload)) := by
  unfold ObjectStore.write
  simp only
  split
  · exact Or.inl rfl
  · simp only [write_file_atomic]
    split
    · exact Or.inr rfl
    · rw [if_neg (object_ne_tmp gitdir hG hG2 _ _)]
      exact Or.inl rfl

theorem treesOnly_trans (z : Zlib) (gitdir : Str) (fs fs1 fs2 : FS)
    (h1 : TreesOnly z gitdir fs fs1) (h2 : TreesOnly z gitdir fs1 fs2) :
    TreesOnly z gitdir fs fs2 := by
  intro i
  rcases h2 i with e | ⟨l, e⟩
  · rw [e]; exact h1 i
  · exact Or.inr ⟨l, e⟩

theorem build_dirs_objects (z : Zlib) (gitdir : Str)
    (self : FS → List IndexEntry → Option (Except String (Str × FS)))
    (dirs : List (Str × List IndexEntry))
    (hself : ∀ d ch, (d, ch) ∈ dirs → ∀ fs hex fs1, self fs ch = some (.ok (hex, fs1)) →
      TreesOnly z gitdir fs fs1) :
    ∀ fs es fs1, build_dirs self fs dirs = some (.ok (es, fs1)) → TreesOnly z gitdir fs fs1 := by
  induction dirs with
  | nil =>
    intro fs es fs1 h
    simp only [build_dirs, Option.some.injEq, Except.ok.injEq, Prod.mk.injEq] at h
    rw [← h.2]
    exact fun i => Or.inl rfl
  | cons x rest ih =>
    intro fs es fs1 h
    obtain ⟨d, ch⟩ := x
    simp only [build_dirs] at h
    cases h1 : self fs ch with
    | none => rw [h1] at h; cases h
    | some r1 =>
      cases r1 with
      | error e => rw [h1] at h; cases h
      | ok v =>
        obtain ⟨hex, fsa⟩ := v
        rw [h1] at h
        simp only at h
        cases h2 : from_hex hex with
        | none => rw [h2] at h; cases h
        | some id =>
          rw [h2] at h
          simp only at h
          cases h3 : build_dirs self fsa rest with
          | none => rw [h3] at h; cases h
          | some r3 =>
            cases r3 with
            | error e => rw [h3] at h; cases h
            | ok w =>
              obtain ⟨es2, fsb⟩ := w
              rw [h3] at h
              simp only [Option.some.injEq, Except.ok.injEq, Prod.mk.injEq] at h
              rw [← h.2]
              exact treesOnly_trans z gitdir fs fsa fsb
                (hself d ch (List.mem_cons_self _ _) fs hex fsa h1)
                (ih (fun d2 ch2 hm => hself d2 ch2 (List.mem_cons_of_mem _ hm)) fsa es2 fsb h3)

/-- The lambda `build` writes trees only. -/
theorem build_objects (z : Zlib) (sha1 : Str → Oid) (gitdir : Str)
    (hG : gitdir ≠ []) (hG2 : gitdir.getLast? ≠ some kSlash) (fuel : Nat) :
    ∀ (fs : FS) (group : List IndexEntry) (hex : Str) (fs1 : FS),
      build z sha1 gitdir fuel fs group = some (.ok (hex, fs1)) → TreesOnly z gitdir fs fs1 := by
  induction fuel with
  | zero => intro fs group hex fs1 h; cases h
  | succ fuel ih =>
    intro fs group hex fs1 h
    simp only [build] at h
    cases h1 : build_dirs (build z sha1 gitdir fuel) fs (subdirs_of group []) with
    | none => rw [h1] at h; cases h
    | some r1 =>
      cases r1 with
      | error e => rw [h1] at h; cases h
      | ok v =>
        obtain ⟨es, fsa⟩ := v
        rw [h1] at h
        simp only [Option.some.injEq, Except.ok.injEq] at h
        have hd := build_dirs_objects z gitdir _ _ (fun d ch _ fs2 hex2 fs3 => ih fs2 ch hex2 fs3)
          fs es fsa h1
        have hfs : fs1 = (write_tree z sha1 gitdir fsa (files_of group ++ es)).2 := by
          rw [h]
        rw [hfs]
        apply treesOnly_trans z gitdir fs fsa _ hd
        intro i
        rcases write_objects z sha1 gitdir hG hG2 fsa kTypeTree
          (tree_payload (sort_entries (files_of group ++ es))) i with e | e
        · exact Or.inl e
        · exact Or.inr ⟨sort_entries (files_of group ++ es), e⟩

/-- The digest that `write_tree_from_index` returns for a list of entries; it writes trees
only. -/
theorem write_tree_from_entries_eq (z : Zlib) (sha1 : Str → Oid) (gitdir : Str)
    (hG : gitdir ≠ []) (hG2 : gitdir.getLast? ≠ some kSlash) (fs : FS)
    (ents : List IndexEntry) :
    ∃ fs1, write_tree_from_entries z sha1 gitdir fs ents
        = some (.ok (index_tree_hex sha1 ents, fs1))
      ∧ StoreExt gitdir fs fs1 ∧ TreesOnly z gitdir fs fs1 := by
  have hlen : ∀ e ∈ ents, e.path.length < build_depth ents := by
    intro e he
    have := (foldl_max_le (ents.map (fun e => e.path.length)) 0).2 e.path.length
      (List.mem_map.mpr ⟨e, he, rfl⟩)
    unfold build_depth
    omega
  have hpos : 0 < build_depth ents := by unfold build_depth; omega
  obtain ⟨fs1, hb, hext⟩ := build_eq z sha1 gitdir hG hG2 _ fs ents hpos hlen
  exact ⟨fs1, hb, hext, build_objects z sha1 gitdir hG hG2 _ fs ents _ fs1 hb⟩

set_option maxRecDepth 100000 in
/-- The outcome of the merge without conflict in the example: the index holds `f.txt` of
theirs and `g.txt` of ours, the working file `f.txt` holds the bytes of theirs,
`MERGE_HEAD` does not exist, and `master` is at a commit with the parents `[c1, c2]`, the
message `Merge branch 'feature'` and a tree whose snapshot is the post-merge map. -/
theorem merge_branch_clean_example :
    (merge_branch rleZlib mixSha1 (lit "/r") true (lit "A <a@b> 0 +0000")
          [lit "f.txt", lit "g.txt"] 4 (cmFS cfCommit2.1) (lit "feature")).map
        (fun r => (r.1, index_to_map r.2 (lit "/r"), r.2 (lit "/r/.gitfly/MERGE_HEAD"),
          r.2 (lit "/r/f.txt"), r.2 (lit "/r/g.txt")))
      = some (Except.ok (), cmMerged, none, some (lit "feature\n"), some (lit "g1\n"))
    ∧ (merge_branch rleZlib mixSha1 (lit "/r") true (lit "A <a@b> 0 +0000")
          [lit "f.txt", lit "g.txt"] 4 (cmFS cfCommit2.1) (lit "feature")).map
        (fun r => (read_ref r.2 (lit "/r") (lit "refs/heads/master")).map
          (fun c => (read_commit rleZlib (lit "/r/.gitfly") r.2 c).map
            (fun i => (i.parents, i.message,
              tree_to_map (read_tree rleZlib (lit "/r/.gitfly") r.2) 4 i.tree_hex))))
      = some (some (.ok ([cmCommit1.1, cfCommit2.1], lit "Merge branch 'feature'\n",
          some (.ok cmMerged)))) :=
  ⟨rfl, rfl⟩

/-! ## `to_hex` and `from_hex` are inverse of each other -/

/-- A lowercase hex character is the entry of `kHex` at the value that `nibble` gives it. -/
theorem nibble_lower (c : Byte)
    (h : (48 ≤ c.val ∧ c.val ≤ 57) ∨ (97 ≤ c.val ∧ c.val ≤ 102)) :
    ∃ n, n < 16 ∧ nibble c = some n ∧ kHex n = c := by
  unfold nibble
  rcases h with h | h
  · refine ⟨c.val - 48, by omega, by rw [if_pos h], ?_⟩
    unfold kHex
    rw [if_pos (by omega)]
    apply Fin.ext
    have := c.isLt
    simp only [Fin.ofNat, Fin.val_mk]
    omega
  · refine ⟨10 + (c.val - 97), by omega, by rw [if_neg (by omega), if_pos h], ?_⟩
    unfold kHex
    rw [if_neg (by omega)]
    apply Fin.ext
    have := c.isLt
    simp only [Fin.ofNat, Fin.val_mk]
    omega

/-- The loop of `to_hex` gives back a string of lowercase hex characters from the bytes that
the loop of `from_hex` computed for it. -/
theorem hex_of_bytes_from_hex_pairs :
    ∀ (s : Str) (out : List Byte),
      (∀ c ∈ s, (48 ≤ c.val ∧ c.val ≤ 57) ∨ (97 ≤ c.val ∧ c.val ≤ 102)) →
      from_hex_pairs s = some out → hex_of_bytes out = s
  | [], out, _, h => by
    simp only [from_hex_pairs, Option.some.injEq] at h
    rw [← h]
    rfl
  | [_], _, _, h => by simp [from_hex_pairs] at h
  | a :: b :: rest, out, hs, h => by
    obtain ⟨x, hx, hnx, hkx⟩ := nibble_lower a (hs a (by simp))
    obtain ⟨y, hy, hny, hky⟩ := nibble_lower b (hs b (by simp))
    simp only [from_hex_pairs, hnx, hny] at h
    cases hr : from_hex_pairs rest with
    | none => rw [hr] at h; cases h
    | some out1 =>
      rw [hr] at h
      simp only [Option.some.injEq] at h
      have ih := hex_of_bytes_from_hex_pairs rest out1
        (fun c hc => hs c (by simp [hc])) hr
      rw [← h]
      have hv : ((Fin.ofNat (x * 16 + y) : Fin 256)).val = x * 16 + y := by
        simp only [Fin.ofNat, Fin.val_mk]
        omega
      simp only [hex_of_bytes, hv, ih]
      have e1 : (x * 16 + y) / 16 % 16 = x := by omega
      have e2 : (x * 16 + y) % 16 = y := by omega
      rw [e1, e2, hkx, hky]

/-- C31: `to_hex` and `from_hex` are inverse bijections between the digests and the strings
of 40 lowercase hex characters: `to_hex` of a digest has 40 characters, all in `0-9a-f`, and
`from_hex` gives the digest back; `from_hex` of a string of 40 characters in `0-9a-f`
succeeds, and `to_hex` of its result is the string. -/
theorem to_hex_from_hex_inverse :
    (∀ id : Oid, (to_hex id).length = 40
      ∧ (∀ c ∈ to_hex id, (48 ≤ c.val ∧ c.val ≤ 57) ∨ (97 ≤ c.val ∧ c.val ≤ 102))
      ∧ from_hex (to_hex id) = some id)
    ∧ (∀ h : Str, h.length = 40 ∧
        (∀ c ∈ h, (48 ≤ c.val ∧ c.val ≤ 57) ∨ (97 ≤ c.val ∧ c.val ≤ 102)) →
        ∃ id, from_hex h = some id ∧ to_hex id = h) := by
  refine ⟨fun id => ⟨to_hex_length id, to_hex_lowercase id, from_hex_to_hex id⟩, ?_⟩
  rintro h ⟨hl, hc⟩
  have hx : h.all isxdigit = true := by
    rw [List.all_eq_true]
    intro c hcm
    unfold isxdigit
    rcases hc c hcm with h1 | h1
    · simp [h1]
    · simp [h1]
  obtain ⟨out, ho, hlen⟩ := from_hex_pairs_some 20 h (by omega) hx
  refine ⟨⟨out, hlen⟩, ?_, ?_⟩
  · unfold from_hex
    simp only [hl, ne_eq, not_true_eq_false, if_false, ho, hlen, dite_true]
  · exact hex_of_bytes_from_hex_pairs h out hc ho

/-- An uppercase digit is accepted by `from_hex` and comes back from `to_hex` in lowercase:
the round trip from strings is the identity on lowercase strings only. -/
theorem from_hex_uppercase_example :
    (from_hex (List.replicate 40 65)).map to_hex = some (List.replicate 40 97) := by
  decide

/-! ## `diff::split_lines` -/

/-- The loop of `split_lines` returns lines without `\n` and `\r`. -/
theorem split_lines_loop_clean :
    ∀ (text cur : Str) (out : List Str), (kLF ∉ cur ∧ kCR ∉ cur) →
      (∀ l ∈ out, kLF ∉ l ∧ kCR ∉ l) →
      ∀ l ∈ split_lines_loop text cur out, kLF ∉ l ∧ kCR ∉ l
  | [], cur, out, hc, ho => by
    intro l hl
    simp only [split_lines_loop] at hl
    split at hl
    · rcases List.mem_append.mp hl with h | h
      · exact ho l h
      · simp only [List.mem_singleton] at h
        rw [h]; exact hc
    · exact ho l hl
  | c :: rest, cur, out, hc, ho => by
    intro l hl
    simp only [split_lines_loop] at hl
    by_cases h1 : c = kLF
    · rw [if_pos h1] at hl
      refine split_lines_loop_clean rest [] (out ++ [cur]) ⟨by simp, by simp⟩ ?_ l hl
      intro l2 hl2
      rcases List.mem_append.mp hl2 with h | h
      · exact ho l2 h
      · simp only [List.mem_singleton] at h
        rw [h]; exact hc
    · rw [if_neg h1] at hl
      by_cases h2 : c = kCR
      · rw [if_neg (by simp [h2])] at hl
        exact split_lines_loop_clean rest cur out hc ho l hl
      · rw [if_pos h2] at hl
        refine split_lines_loop_clean rest (cur ++ [c]) out ?_ ho l hl
        constructor
        · intro hm
          rcases List.mem_append.mp hm with h | h
          · exact hc.1 h
          · simp only [List.mem_singleton] at h
            exact h1 h.symm
        · intro hm
          rcases List.mem_append.mp hm with h | h
          · exact hc.2 h
          · simp only [List.mem_singleton] at h
            exact h2 h.symm

/-- The loop of `split_lines` over a segment without `\n`, followed by `\n`: the segment
without its `\r` is appended to the current line, which is pushed. -/
theorem split_lines_loop_line :
    ∀ (l rest cur : Str) (out : List Str), kLF ∉ l →
      split_lines_loop (l ++ kLF :: rest) cur out
        = split_lines_loop rest [] (out ++ [cur ++ l.filter (fun c => decide (c ≠ kCR))])
  | [], rest, cur, out, _ => by
    simp only [List.nil_append, split_lines_loop, if_true, List.filter_nil, List.append_nil]
  | c :: l, rest, cur, out, h => by
    have h1 : c ≠ kLF := fun e => h (by simp [e])
    have h2 : kLF ∉ l := fun e => h (by simp [e])
    simp only [List.cons_append, split_lines_loop, if_neg h1, List.append_eq]
    by_cases h3 : c = kCR
    · rw [if_neg (by simp [h3]), split_lines_loop_line l rest cur out h2]
      simp [List.filter_cons, h3]
    · rw [if_pos h3, split_lines_loop_line l rest (cur ++ [c]) out h2]
      simp [List.filter_cons, h3]

/-- The loop of `split_lines` over a last segment without `\n`: the segment without its
`\r` is appended to the current line, which is pushed when it is not empty. -/
theorem split_lines_loop_tail :
    ∀ (tail cur : Str) (out : List Str), kLF ∉ tail →
      split_lines_loop tail cur out
        = if cur ++ tail.filter (fun c => decide (c ≠ kCR)) ≠ []
          then out ++ [cur ++ tail.filter (fun c => decide (c ≠ kCR))] else out
  | [], cur, out, _ => by
    simp only [split_lines_loop, List.filter_nil, List.append_nil]
  | c :: l, cur, out, h => by
    have h1 : c ≠ kLF := fun e => h (by simp [e])
    have h2 : kLF ∉ l := fun e => h (by simp [e])
    simp only [split_lines_loop, if_neg h1]
    by_cases h3 : c = kCR
    · rw [if_neg (by simp [h3]), split_lines_loop_tail l cur out h2]
      simp [List.filter_cons, h3]
    · rw [if_pos h3, split_lines_loop_tail l (cur ++ [c]) out h2]
      simp [List.filter_cons, h3]

/-- The loop of `split_lines` over segments without `\n`, each followed by `\n`, and a last
segment without `\n`. -/
theorem split_lines_loop_segments :
    ∀ (ls : List Str) (tail : Str) (out : List Str), (∀ l ∈ ls, kLF ∉ l) → kLF ∉ tail →
      split_lines_loop (lines_text ls ++ tail) [] out
        = out ++ ls.map (fun l => l.filter (fun c => decide (c ≠ kCR)))
          ++ (if tail.filter (fun c => decide (c ≠ kCR)) ≠ []
              then [tail.filter (fun c => decide (c ≠ kCR))] else [])
  | [], tail, out, _, ht => by
    simp only [lines_text, List.nil_append, List.map_nil, List.append_nil]
    rw [split_lines_loop_tail tail [] out ht]
    simp only [List.nil_append]
    split <;> simp
  | l :: ls, tail, out, hl, ht => by
    simp only [lines_text, List.cons_append, List.append_assoc, List.append_eq]
    rw [split_lines_loop_line l _ [] out (hl l (by simp)),
      split_lines_loop_segments ls tail _ (fun x hx => hl x (by simp [hx])) ht]
    simp

theorem filter_no_cr (l : Str) (h : kCR ∉ l) : l.filter (fun c => decide (c ≠ kCR)) = l := by
  rw [List.filter_eq_self]
  intro c hc
  simp only [ne_eq, decide_eq_true_eq]
  exact fun e => h (e ▸ hc)

/-- C35: `split_lines` splits on `\n` and drops every `\r`.  No line returned has a `\n` or
a `\r`.  A text made of segments without `\n`, each followed by `\n`, and of a last segment
without `\n`, gives the segments without their `\r`, the last one when it is not empty
then.  For lines without `\n` and `\r`, the text of the lines, each followed by `\n`, gives
the lines, and with a non-empty last line without terminator that line comes last. -/
theorem split_lines_spec :
    (∀ text : Str, ∀ l ∈ split_lines text, kLF ∉ l ∧ kCR ∉ l)
    ∧ (∀ (ls : List Str) (tail : Str), (∀ l ∈ ls, kLF ∉ l) ∧ kLF ∉ tail →
        split_lines (lines_text ls ++ tail)
          = ls.map (fun l => l.filter (fun c => decide (c ≠ kCR)))
            ++ (if tail.filter (fun c => decide (c ≠ kCR)) ≠ []
                then [tail.filter (fun c => decide (c ≠ kCR))] else []))
    ∧ (∀ (ls : List Str) (tail : Str),
        (∀ l ∈ ls, kLF ∉ l ∧ kCR ∉ l) ∧ kLF ∉ tail ∧ kCR ∉ tail ∧ tail ≠ [] →
        split_lines (lines_text ls ++ tail) = ls ++ [tail])
    ∧ (∀ ls : List Str, (∀ l ∈ ls, kLF ∉ l ∧ kCR ∉ l) → split_lines (lines_text ls) = ls)
    ∧ split_lines [] = [] := by
  have hgen : ∀ (ls : List Str) (tail : Str), (∀ l ∈ ls, kLF ∉ l) ∧ kLF ∉ tail →
      split_lines (lines_text ls ++ tail)
        = ls.map (fun l => l.filter (fun c => decide (c ≠ kCR)))
          ++ (if tail.filter (fun c => decide (c ≠ kCR)) ≠ []
              then [tail.filter (fun c => decide (c ≠ kCR))] else []) := by
    rintro ls tail ⟨h1, h2⟩
    unfold split_lines
    rw [split_lines_loop_segments ls tail [] h1 h2, List.nil_append]
  have hmap : ∀ ls : List Str, (∀ l ∈ ls, kLF ∉ l ∧ kCR ∉ l) →
      ls.map (fun l => l.filter (fun c => decide (c ≠ kCR))) = ls := by
    intro ls h
    conv_rhs => rw [← List.map_id ls]
    apply List.map_congr_left
    intro l hl
    exact filter_no_cr l (h l hl).2
  refine ⟨?_, hgen, ?_, ?_, rfl⟩
  · intro text l hl
    exact split_lines_loop_clean text [] [] ⟨by simp, by simp⟩ (fun _ h => by cases h) l hl
  · rintro ls tail ⟨h1, h2, h3, h4⟩
    rw [hgen ls tail ⟨fun l hl => (h1 l hl).1, h2⟩, hmap ls h1, filter_no_cr tail h3,
      if_pos h4]
  · intro ls h
    have := hgen ls [] ⟨fun l hl => (h l hl).1, by simp⟩
    rw [List.append_nil] at this
    rw [this, hmap ls h]
    simp

/-! ## The conflict text: the prefix and the suffix never overlap -/

/-- The lines before the common suffix of two sequences that share their last `sa` lines
beyond a common prefix of `pa` lines. -/
theorem take_drop_rebuild (a : List Str) (pa sa : Nat) (h : pa + sa ≤ a.length) :
    a.take pa ++ (a.take (a.length - sa)).drop pa ++ a.drop (a.length - sa) = a := by
  have e : a.take pa = (a.take (a.length - sa)).take pa := by
    rw [List.take_take, Nat.min_eq_left (by omega)]
  rw [e, List.take_append_drop, List.take_append_drop]

/-- The values of `pa` and `sa` that the two `while` loops of the conflict branch compute
for the line sequences `a` and `b`: `pa + sa` is at most both lengths, the first `pa` lines
and the last `sa` lines of the two sequences are the same. -/
theorem pa_sa_bounds (a b : List Str) :
    pa_loop a b a.length 0 + sa_loop a b (pa_loop a b a.length 0) a.length 0 ≤ a.length
    ∧ pa_loop a b a.length 0 + sa_loop a b (pa_loop a b a.length 0) a.length 0 ≤ b.length
    ∧ a.take (pa_loop a b a.length 0) = b.take (pa_loop a b a.length 0)
    ∧ a.drop (a.length - sa_loop a b (pa_loop a b a.length 0) a.length 0)
        = b.drop (b.length - sa_loop a b (pa_loop a b a.length 0) a.length 0) := by
  have hpa : pa_loop a b a.length 0 = common_len a b := by
    rw [pa_loop_eq a b a.length 0 (by omega)]
    simp
  have hpa1 := common_len_le_left a b
  have hpa2 := common_len_le_right a b
  have hsa : sa_loop a b (common_len a b) a.length 0
      = common_len (a.drop (common_len a b)).reverse (b.drop (common_len a b)).reverse := by
    rw [sa_loop_eq a b _ hpa1 hpa2 a.length 0 (by omega)]
    simp
  rw [hpa, hsa]
  have hp := (common_len_take a b (common_len a b)).mpr (le_refl _)
  have hs := (common_len_take (a.drop (common_len a b)).reverse (b.drop (common_len a b)).reverse
    (common_len (a.drop (common_len a b)).reverse (b.drop (common_len a b)).reverse)).mpr
    (le_refl _)
  generalize common_len (a.drop (common_len a b)).reverse (b.drop (common_len a b)).reverse = sa
    at hs
  generalize common_len a b = pa at hp hs hpa1 hpa2
  obtain ⟨s1, s2, s3⟩ := hs
  simp only [List.length_reverse, List.length_drop] at s1 s2
  refine ⟨by omega, by omega, hp.2.2, ?_⟩
  rw [List.take_reverse, List.take_reverse] at s3
  have s4 := List.reverse_injective s3
  simp only [List.length_drop, List.drop_drop] at s4
  have e1 : pa + (a.length - pa - sa) = a.length - sa := by omega
  have e2 : pa + (b.length - pa - sa) = b.length - sa := by omega
  rw [e1, e2] at s4
  exact s4

/-- C38: in the conflict text that `merge_branch` builds from the blob texts of ours and
theirs, with `a` and `b` the line sequences and `pa`, `sa` the lengths that the two `while`
loops compute: `pa + sa ≤ min(|a|, |b|)`, the text is the prefix `a[0..pa)`, the marker
`<<<<<<< HEAD`, the middle of ours `a[pa..|a|-sa)`, the marker `=======`, the middle of
theirs `b[pa..|b|-sa)`, the marker `>>>>>>> <giver>` and the suffix (the last `sa` lines of
`a`), every access being in range, and without the three markers the prefix, the middle of
ours and the suffix are `a`, the prefix, the middle of theirs and the suffix are `b`. -/
theorem conflict_text_rebuilds_sides (ours_txt theirs_txt giver_branch : Str) :
    ∃ (a b : List Str) (pa sa : Nat),
      a = split_lines ours_txt ∧ b = split_lines theirs_txt
      ∧ pa = pa_loop a b a.length 0 ∧ sa = sa_loop a b pa a.length 0
      ∧ pa + sa ≤ min a.length b.length
      ∧ conflict_text ours_txt theirs_txt giver_branch
          = some (lines_text (a.take pa) ++ lines_text [lit "<<<<<<< HEAD"]
            ++ lines_text ((a.take (a.length - sa)).drop pa) ++ lines_text [lit "======="]
            ++ lines_text ((b.take (b.length - sa)).drop pa)
            ++ lines_text [lit ">>>>>>> " ++ giver_branch]
            ++ lines_text (a.drop (a.length - sa)))
      ∧ a.take pa ++ (a.take (a.length - sa)).drop pa ++ a.drop (a.length - sa) = a
      ∧ a.take pa ++ (b.take (b.length - sa)).drop pa ++ a.drop (a.length - sa) = b := by
  obtain ⟨h1, h2, h3, h4⟩ := pa_sa_bounds (split_lines ours_txt) (split_lines theirs_txt)
  refine ⟨_, _, _, _, rfl, rfl, rfl, rfl, ?_, ?_, take_drop_rebuild _ _ _ h1, ?_⟩
  · exact Nat.le_min.mpr ⟨h1, h2⟩
  · rw [conflict_text_eq]
    unfold spec_conflict_text
    have hpa : pa_loop (split_lines ours_txt) (split_lines theirs_txt)
        (split_lines ours_txt).length 0
        = common_len (split_lines ours_txt) (split_lines theirs_txt) := by
      rw [pa_loop_eq _ _ _ 0 (by omega)]
      simp
    have hsa : sa_loop (split_lines ours_txt) (split_lines theirs_txt)
        (common_len (split_lines ours_txt) (split_lines theirs_txt))
        (split_lines ours_txt).length 0
        = common_len ((split_lines ours_txt).drop
              (common_len (split_lines ours_txt) (split_lines theirs_txt))).reverse
            ((split_lines theirs_txt).drop
              (common_len (split_lines ours_txt) (split_lines theirs_txt))).reverse := by
      rw [sa_loop_eq _ _ _ (common_len_le_left _ _) (common_len_le_right _ _) _ 0 (by omega)]
      simp
    rw [hpa, hsa]
  · rw [h3, h4]
    exact take_drop_rebuild _ _ _ h2

/-! ## `unified_diff` of a sequence with itself -/

/-- The diagonal loop of `myers_diff` on two equal sequences runs to their end. -/
theorem snake_same (a : List Str) :
    ∀ (fuel x : Nat), x ≤ a.length → a.length - x < fuel →
      snake a a fuel (x : Int) (x : Int) = some ((a.length : Int), (a.length : Int)) := by
  intro fuel
  induction fuel with
  | zero => intro x _ h; omega
  | succ fuel ih =>
    intro x hx hf
    rw [snake]
    by_cases hlt : x < a.length
    · have hc : (x : Int) < (a.length : Int) ∧ (x : Int) < (a.length : Int) := by
        constructor <;> exact_mod_cast hlt
      rw [if_pos hc]
      have hl : line_at a (x : Int) = some a[x] := by
        unfold line_at
        rw [if_pos (by omega)]
        simp only [Int.toNat_ofNat, List.getElem?_eq_getElem hlt]
      simp only [hl, if_true]
      have := ih (x + 1) (by omega) (by omega)
      simpa using this
    · have hx2 : x = a.length := by omega
      have hc : ¬ ((x : Int) < (a.length : Int) ∧ (x : Int) < (a.length : Int)) := by
        rw [hx2]; simp
      rw [if_neg hc, hx2]

/-- The loop that pushes `=` while both coordinates are above the previous point, from the
end of two equal sequences down to the origin. -/
theorem keep_loop_same :
    ∀ (n : Nat) (rev : List Char),
      keep_loop 0 (-1) n (n : Int) (n : Int) rev = List.replicate n '=' ++ rev := by
  intro n
  induction n with
  | zero => intro rev; rfl
  | succ n ih =>
    intro rev
    rw [keep_loop]
    have hc : ((n + 1 : Nat) : Int) > 0 ∧ ((n + 1 : Nat) : Int) > -1 := by
      constructor <;> omega
    rw [if_pos hc]
    have e : ((n + 1 : Nat) : Int) - 1 = (n : Int) := by omega
    rw [e, ih]
    rw [List.replicate_succ']
    simp

/-- The loop of `unified_diff` over ops that are all `=`. -/
theorem emit_ops_keep (a b : List Str) :
    ∀ (k ia ib : Nat) (out : Str), ia + k ≤ a.length →
      emit_ops a b (List.replicate k '=') ia ib out
        = some (out ++ ((a.drop ia).take k).flatMap (fun l => lit " " ++ l ++ [kLF]),
            ia + k, ib + k) := by
  intro k
  induction k with
  | zero => intro ia ib out _; simp [emit_ops]
  | succ k ih =>
    intro ia ib out h
    have hi : ia < a.length := by omega
    rw [List.replicate_succ, emit_ops, if_pos rfl]
    simp only [List.getElem?_eq_getElem hi]
    rw [ih (ia + 1) (ib + 1) _ (by omega), List.drop_eq_getElem_cons hi]
    simp only [List.take_succ_cons, List.flatMap_cons, List.append_assoc]
    have e1 : ia + 1 + k = ia + (k + 1) := by omega
    have e2 : ib + 1 + k = ib + (k + 1) := by omega
    rw [e1, e2]

/-- The ops that `myers_diff` computes for a non-empty sequence and itself: one `=` per
line. -/
theorem myers_diff_same (a : List Str) (h : a ≠ []) :
    myers_diff a a = some (List.replicate a.length '=') := by
  have hn : 0 < a.length := List.length_pos.mpr h
  unfold myers_diff
  simp only
  rw [d_loop]
  simp only [List.nil_append]
  have hv : vget (List.replicate (2 * (a.length + a.length) + 1) (0 : Int))
      (((a.length : Int) + (a.length : Int)) + 1) = some 0 := by
    unfold vget
    rw [if_pos (by omega)]
    rw [List.getElem?_replicate]
    rw [if_pos (by omega)]
  have hs := snake_same a (a.length + 1) 0 (by omega) (by omega)
  have hk : k_loop a a [List.replicate (2 * (a.length + a.length) + 1) (0 : Int)] 0 (0 + 1)
      (-((0 : Nat) : Int)) (List.replicate (2 * (a.length + a.length) + 1) 0)
      = some (KRes.done (List.replicate a.length '=')) := by
    rw [k_loop]
    simp only [Nat.cast_zero, neg_zero, le_refl, if_true, add_zero, sub_zero]
    rw [hv]
    simp only
    have hs2 : snake a a (a.length + 1) 0 0 = some ((a.length : Int), (a.length : Int)) := by
      simpa using hs
    rw [hs2]
    simp only
    have hset : ∃ v1, vset (List.replicate (2 * (a.length + a.length) + 1) (0 : Int))
        ((a.length : Int) + (a.length : Int)) (a.length : Int) = some v1 := by
      unfold vset
      rw [if_pos ⟨by omega, by simp only [List.length_replicate]; omega⟩]
      exact ⟨_, rfl⟩
    obtain ⟨v1, hv1⟩ := hset
    rw [hv1]
    simp only [ge_iff_le, le_refl, and_self, if_true]
    rw [backtrack]
    simp only [List.get?_eq_getElem?, List.getElem?_cons_zero, sub_self, Nat.cast_zero, neg_zero,
      if_true, zero_add]
    rw [hv]
    simp only [sub_zero, lt_self_iff_false, if_false, Int.toNat_ofNat]
    have e0 : (0 : Int) - 1 = -1 := by omega
    rw [e0, keep_loop_same]
    simp [backtrack]
  rw [hk]

/-- C40: for a non-empty line sequence `a` and every path, `unified_diff(a, a, path)` is the
three header lines followed by one line per line of `a`, in order, each made of a space and
the line: no line starts with `-` or `+`. -/
theorem unified_diff_same (a : List Str) (path : Str) (h : a ≠ []) :
    unified_diff a a path
      = some (lit "--- a/" ++ path ++ [kLF] ++ (lit "+++ b/" ++ path ++ [kLF])
          ++ (lit "@@" ++ [kLF]) ++ a.flatMap (fun l => lit " " ++ l ++ [kLF])) := by
  unfold unified_diff
  rw [myers_diff_same a h]
  simp only
  rw [emit_ops_keep a a a.length 0 0 _ (by omega)]
  simp only [zero_add, List.drop_zero, List.take_length, emit_rest, List.drop_length,
    List.flatMap_nil, List.append_nil]

/-- The hypothesis of `unified_diff_same` holds for a sequence of two lines. -/
theorem unified_diff_same_witness :
    [lit "x", lit "y"] ≠ []
    ∧ unified_diff [lit "x", lit "y"] [lit "x", lit "y"] (lit "f.txt")
      = some (lit "--- a/" ++ lit "f.txt" ++ [kLF] ++ (lit "+++ b/" ++ lit "f.txt" ++ [kLF])
          ++ (lit "@@" ++ [kLF])
          ++ [lit "x", lit "y"].flatMap (fun l => lit " " ++ l ++ [kLF])) :=
  ⟨by decide, unified_diff_same [lit "x", lit "y"] (lit "f.txt") (by decide)⟩

/-- The example: two lines and themselves give two lines that start with a space. -/
theorem unified_diff_same_example :
    unified_diff [lit "x", lit "y"] [lit "x", lit "y"] (lit "f.txt")
      = some (lit "--- a/f.txt\n+++ b/f.txt\n@@\n x\n y\n") := by
  decide

/-! ## `fs::write_file_atomic` and the file `p + ".tmp"` -/

theorem ne_append_tmp (p : Str) : p ++ lit ".tmp" ≠ p := by
  intro e
  have := congrArg List.length e
  have e2 : (lit ".tmp").length = 4 := by decide
  rw [List.length_append, e2] at this
  omega

/-- What `write_file_atomic(p, data)` leaves: `p` holds the data, no file `p + ".tmp"`
exists, and every other file is as before. -/
theorem write_file_atomic_spec (fs : FS) (p data : Str) :
    write_file_atomic fs p data p = some data
    ∧ write_file_atomic fs p data (p ++ lit ".tmp") = none
    ∧ (∀ q, q ≠ p → q ≠ p ++ lit ".tmp" → write_file_atomic fs p data q = fs q) := by
  refine ⟨?_, ?_, ?_⟩
  · simp only [write_file_atomic, if_true]
  · simp only [write_file_atomic, if_neg (ne_append_tmp p), if_true]
  · intro q h1 h2
    simp only [write_file_atomic, if_neg h1, if_neg h2]

/-- C39 (failing case): when a file named `p + ".tmp"` exists, `write_file_atomic(p, data)`
succeeds and leaves `p` with the data, but the file `p + ".tmp"` does not exist any more:
its bytes were replaced by `data` when the temporary file was opened, and the rename moved it
to `p`. -/
theorem write_file_atomic_removes_tmp (fs : FS) (p data old : Str)
    (h : fs (p ++ lit ".tmp") = some old) :
    write_file_atomic fs p data p = some data
    ∧ write_file_atomic fs p data (p ++ lit ".tmp") = none
    ∧ write_file_atomic fs p data (p ++ lit ".tmp") ≠ fs (p ++ lit ".tmp") := by
  obtain ⟨h1, h2, _⟩ := write_file_atomic_spec fs p data
  refine ⟨h1, h2, ?_⟩
  rw [h2, h]
  exact fun e => by cases e

/-- The working tree of `spaceFS` with a file `/r/a.tmp`. -/
theorem write_file_atomic_removes_tmp_witness :
    write_file_atomic (fun q => if q = lit "/r/a.tmp" then some (lit "notes\n") else spaceFS q)
        (lit "/r/a") (lit "new\n") (lit "/r/a") = some (lit "new\n")
    ∧ write_file_atomic (fun q => if q = lit "/r/a.tmp" then some (lit "notes\n") else spaceFS q)
        (lit "/r/a") (lit "new\n") (lit "/r/a" ++ lit ".tmp") = none
    ∧ write_file_atomic (fun q => if q = lit "/r/a.tmp" then some (lit "notes\n") else spaceFS q)
        (lit "/r/a") (lit "new\n") (lit "/r/a" ++ lit ".tmp")
      ≠ (fun q => if q = lit "/r/a.tmp" then some (lit "notes\n") else spaceFS q)
          (lit "/r/a" ++ lit ".tmp") :=
  write_file_atomic_removes_tmp
    (fun q => if q = lit "/r/a.tmp" then some (lit "notes\n") else spaceFS q)
    (lit "/r/a") (lit "new\n") (lit "notes\n") (by decide)

/-- Without a file `p + ".tmp"`, `write_file_atomic(p, data)` changes the file `p` only. -/
theorem write_file_atomic_frame (fs : FS) (p data : Str) (h : fs (p ++ lit ".tmp") = none) :
    write_file_atomic fs p data p = some data
    ∧ ∀ q, q ≠ p → write_file_atomic fs p data q = fs q := by
  obtain ⟨h1, h2, h3⟩ := write_file_atomic_spec fs p data
  refine ⟨h1, fun q hq => ?_⟩
  by_cases e : q = p ++ lit ".tmp"
  · rw [e, h2, h]
  · exact h3 q hq e

/-! ## `myers_diff`: reads outside the vectors -/

/-- C37 (failing cases): for two empty sequences the vector `v` has one element
(`2 * MAX + 1` with `MAX = 0`) and the first layer of the forward search reads `v[1]`.  For
`a = ["x", "x"]` and `b = []` the forward search ends normally (the layers 0 and 1 leave
the loop over `k`, the layer 2 reaches the end at `k = 2`), and the backtracking, at
`dd = 1`, reads the snapshot `trace[1]`, which has 5 elements, at index 5.  In both cases
`myers_diff` has no defined result. -/
theorem myers_diff_out_of_range :
    vget (List.replicate (2 * (0 + 0) + 1) 0) (0 + 0 + 1) = none
    ∧ k_loop [] [] [List.replicate 1 0] 0 1 0 (List.replicate 1 0) = none
    ∧ myers_diff [] [] = none
    ∧ k_loop [lit "x", lit "x"] [] [[0, 0, 0, 0, 0]] 0 1 0 [0, 0, 0, 0, 0]
        = some (.cont [0, 0, 0, 0, 0])
    ∧ k_loop [lit "x", lit "x"] [] [[0, 0, 0, 0, 0], [0, 0, 0, 0, 0]] 1 2 (-1) [0, 0, 0, 0, 0]
        = some (.cont [0, 0, 0, 1, 0])
    ∧ snake [lit "x", lit "x"] [] 3 2 0 = some (2, 0)
    ∧ backtrack [[0, 0, 0, 0, 0], [0, 0, 0, 0, 0], [0, 0, 0, 1, 0]] 2 3 2 0 [] = none
    ∧ backtrack [[0, 0, 0, 0, 0], [0, 0, 0, 0, 0], [0, 0, 0, 1, 0]] 2 2 2 0 ['-'] = none
    ∧ vget [0, 0, 0, 0, 0] (2 + (2 - 0) + 1) = none
    ∧ myers_diff [lit "x", lit "x"] [] = none := by
  decide

/-! ## `cmd_pull`: the temporary branch of the merge path -/

/-- The file that `cmd_pull` removes after a merge is the file of the temporary ref. -/
theorem heads_dir_tmp (root : Str) :
    path_join (heads_dir root) kPullTmp = ref_path root (heads_ref kPullTmp) := by
  have e1 : path_join (git_dir root) (lit "refs") = git_dir root ++ lit "/refs" :=
    ctrl_path root (lit "refs") (by decide)
  have l1 : (git_dir root ++ lit "/refs").getLast? ≠ some kSlash := by
    have h : (lit "/refs").getLast? = some 115 := by decide
    rw [List.getLast?_append, h]
    simp only [Option.or_some, ne_eq, Option.some.injEq]
    decide
  have l2 : (git_dir root ++ lit "/refs/heads").getLast? ≠ some kSlash := by
    have h : (lit "/refs/heads").getLast? = some 115 := by decide
    rw [List.getLast?_append, h]
    simp only [Option.or_some, ne_eq, Option.some.injEq]
    decide
  have n1 : git_dir root ++ lit "/refs" ≠ [] := by
    intro e
    exact git_dir_ne_nil root (List.append_eq_nil.mp e).1
  have n2 : git_dir root ++ lit "/refs/heads" ≠ [] := by
    intro e
    exact git_dir_ne_nil root (List.append_eq_nil.mp e).1
  have e2 : path_join (git_dir root ++ lit "/refs") (lit "heads")
      = git_dir root ++ lit "/refs/heads" := by
    rw [path_join_eq _ _ n1 l1 (by decide), List.append_assoc]
    rfl
  have e3 : path_join (git_dir root ++ lit "/refs/heads") kPullTmp
      = git_dir root ++ lit "/refs/heads/.pull_merge_tmp" := by
    rw [path_join_eq _ _ n2 l2 (by decide), List.append_assoc]
    rfl
  unfold heads_dir ref_path
  rw [e1, e2, e3, ctrl_path root (heads_ref kPullTmp) (by decide)]
  rfl

/-- The merge path of `cmd_pull` when `merge_branch` throws: the exit code is 1 and the
file map is the one that `merge_branch` left; the temporary ref is not removed. -/
theorem pull_update_merge_failed (z : Zlib) (sha1 : Str → Oid) (root : Str) (initialized : Bool)
    (sig : Str) (paths : List Str) (fuel : Nat) (fs fs2 : FS) (rn local_tip : Str)
    (fres : FetchResult) (e : String)
    (hb : fres.branch ≠ lit "DETACHED") (ht : fres.tip ≠ [])
    (hl : read_ref fs root rn = some local_tip)
    (ha : is_ancestor z (git_dir root) fs fuel local_tip fres.tip = some (.ok false))
    (hm : merge_branch z sha1 root initialized sig paths fuel
        (update_ref fs root (heads_ref kPullTmp) fres.tip) kPullTmp = some (.error e, fs2)) :
    pull_update z sha1 root initialized sig paths fuel fs rn fres = some (1, fs2) := by
  unfold pull_update
  simp only [hb, ht, or_self, if_false, hl, ha, hm]

/-- The merge path of `cmd_pull` when `merge_branch` returns: the exit code is 0 and the
temporary ref does not exist afterwards. -/
theorem pull_update_merge_ok (z : Zlib) (sha1 : Str → Oid) (root : Str) (initialized : Bool)
    (sig : Str) (paths : List Str) (fuel : Nat) (fs fs2 : FS) (rn local_tip : Str)
    (fres : FetchResult)
    (hb : fres.branch ≠ lit "DETACHED") (ht : fres.tip ≠ [])
    (hl : read_ref fs root rn = some local_tip)
    (ha : is_ancestor z (git_dir root) fs fuel local_tip fres.tip = some (.ok false))
    (hm : merge_branch z sha1 root initialized sig paths fuel
        (update_ref fs root (heads_ref kPullTmp) fres.tip) kPullTmp = some (.ok (), fs2)) :
    ∃ fs3, pull_update z sha1 root initialized sig paths fuel fs rn fres = some (0, fs3)
      ∧ read_ref fs3 root (heads_ref kPullTmp) = none
      ∧ ∀ q, q ≠ ref_path root (heads_ref kPullTmp) → fs3 q = fs2 q := by
  refine ⟨remove_file fs2 (path_join (heads_dir root) kPullTmp), ?_, ?_, ?_⟩
  · unfold pull_update
    simp only [hb, ht, or_self, if_false, hl, ha, hm]
  · rw [heads_dir_tmp]
    simp only [read_ref, remove_file, if_true]
  · intro q hq
    rw [heads_dir_tmp]
    simp only [remove_file, hq, if_false]

set_option maxRecDepth 100000 in
/-- C36: a pull whose merge ends in a conflict leaves the temporary ref behind.  The local
repository is on `master` at the commit `c1` of the conflict example, the remote one on
`master` at `c2`, and both changed `f.txt`.  The temporary ref does not exist before the
pull; the local tip is not an ancestor of the fetched tip, so that the merge path is
taken; `merge_branch` on the temporary branch throws for the conflict; `cmd_pull` returns
1, and afterwards `refs/heads/.pull_merge_tmp` still holds the fetched tip. -/
theorem cmd_pull_leaves_tmp_ref :
    read_ref pullLocalFS (lit "/r") (heads_ref kPullTmp) = none
    ∧ (fetch_head (lit "/r") (lit "/r") (lit "origin") true true pullRemoteFiles
        pullLocalFS pullRemoteFS).1 = .ok ⟨lit "master", cfCommit2.1⟩
    ∧ is_ancestor rleZlib (git_dir (lit "/r"))
        (fetch_head (lit "/r") (lit "/r") (lit "origin") true true pullRemoteFiles
          pullLocalFS pullRemoteFS).2 4 cfCommit1.1 cfCommit2.1 = some (.ok false)
    ∧ (merge_branch rleZlib mixSha1 (lit "/r") true (lit "A <a@b> 0 +0000")
        [lit "f.txt", lit "g.txt"] 4
        (update_ref (fetch_head (lit "/r") (lit "/r") (lit "origin") true true pullRemoteFiles
          pullLocalFS pullRemoteFS).2 (lit "/r") (heads_ref kPullTmp) cfCommit2.1)
        kPullTmp).map Prod.fst = some (.error "merge conflicts in: f.txt")
    ∧ (cmd_pull rleZlib mixSha1 (lit "/r") (lit "/r") (lit "origin") true true
        (lit "A <a@b> 0 +0000") pullRemoteFiles [lit "f.txt", lit "g.txt"] 4
        pullLocalFS pullRemoteFS).map
      (fun r => (r.1, read_ref r.2 (lit "/r") (heads_ref kPullTmp),
        r.2 (lit "/r/.gitfly/refs/heads/.pull_merge_tmp")))
      = some (Except.ok 1, some cfCommit2.1, some (cfCommit2.1 ++ [kLF])) := by
  refine ⟨by decide, rfl, rfl, rfl, rfl⟩

set_option maxRecDepth 100000 in
/-- The example of a conflicting pull: the fetch copied the three objects of the remote
commit, and set the remote-tracking ref; the branch and `HEAD` are as before. -/
theorem cmd_pull_conflict_example :
    pullRemoteFiles.all (fun rel =>
      (pullRemoteFS (path_join (objects_dir (lit "/r")) rel)).isSome) = true
    ∧ pullNewFiles.all (fun rel =>
      (pullLocalFS (path_join (objects_dir (lit "/r")) rel)).isNone) = true
    ∧ (cmd_pull rleZlib mixSha1 (lit "/r") (lit "/r") (lit "origin") true true
        (lit "A <a@b> 0 +0000") pullRemoteFiles [lit "f.txt", lit "g.txt"] 4
        pullLocalFS pullRemoteFS).map
      (fun r => (read_ref r.2 (lit "/r") (lit "refs/heads/master"),
        read_ref r.2 (lit "/r") (lit "refs/remotes/origin/master"),
        read_HEAD r.2 (lit "/r"),
        r.2 (lit "/r/.gitfly/MERGE_HEAD"),
        pullNewFiles.all (fun rel =>
          decide (r.2 (path_join (objects_dir (lit "/r")) rel)
            = pullRemoteFS (path_join (objects_dir (lit "/r")) rel)))))
      = some (some cfCommit1.1, some cfCommit2.1, some (lit "ref: refs/heads/master\n"),
          some (cfCommit2.1 ++ [kLF]), true) := by
  refine ⟨by decide, by decide, rfl⟩

/-! ## Termination of the walks, and the commits that they read -/

/-- The instrumented loop of `is_commit_ancestor` has the outcome of the loop. -/
theorem ancestor_loop_reads_fst (rc : Str → Except String CommitInfo) (anc : Str) (fuel : Nat) :
    ∀ (stack seen : List Str),
      (ancestor_loop_reads rc anc fuel stack seen).1 = ancestor_loop rc anc fuel stack seen := by
  induction fuel with
  | zero => intro stack seen; rfl
  | succ fuel ih =>
    intro stack seen
    cases stack with
    | nil => rfl
    | cons cur stack =>
      simp only [ancestor_loop_reads, ancestor_loop]
      by_cases h : cur ∈ seen
      · simp only [h, if_true]
        exact ih _ _
      · simp only [h, if_false]
        cases rc cur with
        | error e => rfl
        | ok info =>
          simp only
          cases push_or_hit anc info.parents stack with
          | none => rfl
          | some stack2 => exact ih _ _

/-- The instrumented first loop of `lca_commit` has the outcome of the loop. -/
theorem collect_loop_reads_fst (rc : Str → Except String CommitInfo) (fuel : Nat) :
    ∀ (stack seen : List Str),
      (collect_loop_reads rc fuel stack seen).1 = collect_loop rc fuel stack seen := by
  induction fuel with
  | zero => intro stack seen; rfl
  | succ fuel ih =>
    intro stack seen
    cases stack with
    | nil => rfl
    | cons cur stack =>
      simp only [collect_loop_reads, collect_loop]
      by_cases h : cur ∈ seen
      · simp only [h, if_true]
        exact ih _ _
      · simp only [h, if_false]
        cases rc cur with
        | error e => rfl
        | ok info => exact ih _ _

/-- The instrumented second loop of `lca_commit` has the outcome of the loop. -/
theorem find_loop_reads_fst (rc : Str → Except String CommitInfo) (A : List Str) (fuel : Nat) :
    ∀ (stack seen : List Str),
      (find_loop_reads rc A fuel stack seen).1 = find_loop rc A fuel stack seen := by
  induction fuel with
  | zero => intro stack seen; rfl
  | succ fuel ih =>
    intro stack seen
    cases stack with
    | nil => rfl
    | cons cur stack =>
      simp only [find_loop_reads, find_loop]
      by_cases h : cur ∈ seen
      · simp only [h, if_true]
        exact ih _ _
      · simp only [h, if_false]
        by_cases h2 : cur ∈ A
        · simp only [h2, if_true]
        · simp only [h2, if_false]
          cases rc cur with
          | error e => rfl
          | ok info => exact ih _ _

/-- The instrumented `is_commit_ancestor` has the outcome of `is_commit_ancestor`. -/
theorem is_commit_ancestor_reads_fst (rc : Str → Except String CommitInfo) (fuel : Nat)
    (anc d : Str) :
    (is_commit_ancestor_reads rc fuel anc d).1 = is_commit_ancestor rc fuel anc d := by
  unfold is_commit_ancestor_reads is_commit_ancestor
  by_cases h : anc = d
  · simp only [h, if_true]
  · simp only [h, if_false]
    exact ancestor_loop_reads_fst rc anc fuel _ _

/-- The instrumented `lca_commit` has the outcome of `lca_commit`. -/
theorem lca_commit_reads_fst (rc : Str → Except String CommitInfo) (fuel : Nat) (a b : Str) :
    (lca_commit_reads rc fuel a b).1 = lca_commit rc fuel a b := by
  unfold lca_commit_reads lca_commit
  rw [← collect_loop_reads_fst]
  rcases hc : collect_loop_reads rc fuel [a] [] with ⟨o, reads⟩
  cases o with
  | none => rfl
  | some r =>
    cases r with
    | error e => rfl
    | ok A => exact find_loop_reads_fst rc A fuel _ _

/-- The loop of `is_commit_ancestor` reads no commit twice, and none that is in `seen`;
when the stack is in a parent-closed set, so are the commits read. -/
theorem ancestor_loop_reads_nodup (rc : Str → Except String CommitInfo) (anc : Str)
    (fuel : Nat) :
    ∀ (stack seen : List Str),
      (ancestor_loop_reads rc anc fuel stack seen).2.Nodup
      ∧ (∀ c ∈ (ancestor_loop_reads rc anc fuel stack seen).2, c ∉ seen)
      ∧ ∀ S, parent_closed rc S = true → (∀ c ∈ stack, c ∈ S) →
          ∀ c ∈ (ancestor_loop_reads rc anc fuel stack seen).2, c ∈ S := by
  induction fuel with
  | zero =>
    intro stack seen
    exact ⟨List.nodup_nil, fun c hc => absurd hc (List.not_mem_nil c),
      fun _ _ _ c hc => absurd hc (List.not_mem_nil c)⟩
  | succ fuel ih =>
    intro stack seen
    cases stack with
    | nil =>
      exact ⟨List.nodup_nil, fun c hc => absurd hc (List.not_mem_nil c),
        fun _ _ _ c hc => absurd hc (List.not_mem_nil c)⟩
    | cons cur stack =>
      simp only [ancestor_loop_reads]
      by_cases h : cur ∈ seen
      · simp only [h, if_true]
        obtain ⟨a, b, c⟩ := ih stack seen
        exact ⟨a, b, fun S hS hst => c S hS (fun x hx => hst x (List.mem_cons_of_mem _ hx))⟩
      · simp only [h, if_false]
        have hone : ([cur] : List Str).Nodup ∧ (∀ c ∈ [cur], c ∉ seen)
            ∧ ∀ S, parent_closed rc S = true → (∀ c ∈ cur :: stack, c ∈ S) →
              ∀ c ∈ [cur], c ∈ S := by
          refine ⟨List.nodup_singleton _, ?_, ?_⟩
          · intro c hc
            rw [List.mem_singleton.mp hc]
            exact h
          · intro S _ hst c hc
            rw [List.mem_singleton.mp hc]
            exact hst cur (List.mem_cons_self _ _)
        cases hrc : rc cur with
        | error e => exact hone
        | ok info =>
          simp only
          rw [push_or_hit_eq]
          by_cases h2 : anc ∈ info.parents
          · simp only [h2, if_true]
            exact hone
          · simp only [h2, if_false]
            obtain ⟨a, b, c⟩ := ih (push_all info.parents stack) (cur :: seen)
            refine ⟨List.nodup_cons.mpr ⟨fun hm => b cur hm (List.mem_cons_self _ _), a⟩, ?_, ?_⟩
            · intro x hx
              rcases List.mem_cons.mp hx with e | hx
              · rw [e]
                exact h
              · exact fun hs => b x hx (List.mem_cons_of_mem _ hs)
            · intro S hS hst x hx
              rcases List.mem_cons.mp hx with e | hx
              · rw [e]
                exact hst cur (List.mem_cons_self _ _)
              · apply c S hS _ x hx
                intro y hy
                rcases (mem_push_all _ _ _).mp hy with hy | hy
                · have hcl := List.all_eq_true.mp hS cur (hst cur (List.mem_cons_self _ _))
                  rw [hrc] at hcl
                  simpa using List.all_eq_true.mp hcl y hy
                · exact hst y (List.mem_cons_of_mem _ hy)

/-- The first loop of `lca_commit` reads no commit twice, and none that is in the set at
the start; when it returns a set, every commit read is in it; when the stack is in a
parent-closed set, so are the commits read. -/
theorem collect_loop_reads_nodup (rc : Str → Except String CommitInfo) (fuel : Nat) :
    ∀ (stack seen : List Str),
      (collect_loop_reads rc fuel stack seen).2.Nodup
      ∧ (∀ c ∈ (collect_loop_reads rc fuel stack seen).2, c ∉ seen)
      ∧ (∀ A, (collect_loop_reads rc fuel stack seen).1 = some (.ok A) →
          (∀ c ∈ seen, c ∈ A) ∧ ∀ c ∈ (collect_loop_reads rc fuel stack seen).2, c ∈ A)
      ∧ ∀ S, parent_closed rc S = true → (∀ c ∈ stack, c ∈ S) →
          ∀ c ∈ (collect_loop_reads rc fuel stack seen).2, c ∈ S := by
  induction fuel with
  | zero =>
    intro stack seen
    exact ⟨List.nodup_nil, fun c hc => absurd hc (List.not_mem_nil c),
      fun A hA => by simp [collect_loop_reads] at hA,
      fun _ _ _ c hc => absurd hc (List.not_mem_nil c)⟩
  | succ fuel ih =>
    intro stack seen
    cases stack with
    | nil =>
      refine ⟨List.nodup_nil, fun c hc => absurd hc (List.not_mem_nil c), ?_,
        fun _ _ _ c hc => absurd hc (List.not_mem_nil c)⟩
      intro A hA
      simp only [collect_loop_reads, Option.some.injEq, Except.ok.injEq] at hA
      subst hA
      exact ⟨fun c hc => hc, fun c hc => absurd hc (List.not_mem_nil c)⟩
    | cons cur stack =>
      simp only [collect_loop_reads]
      by_cases h : cur ∈ seen
      · simp only [h, if_true]
        obtain ⟨a, b, c, d⟩ := ih stack seen
        exact ⟨a, b, c, fun S hS hst => d S hS (fun x hx => hst x (List.mem_cons_of_mem _ hx))⟩
      · simp only [h, if_false]
        cases hrc : rc cur with
        | error e =>
          refine ⟨List.nodup_singleton _, ?_, ?_, ?_⟩
          · intro c hc
            rw [List.mem_singleton.mp hc]
            exact h
          · intro A hA
            simp at hA
          · intro S _ hst c hc
            rw [List.mem_singleton.mp hc]
            exact hst cur (List.mem_cons_self _ _)
        | ok info =>
          simp only
          obtain ⟨a, b, c, d⟩ := ih (push_all info.parents stack) (cur :: seen)
          refine ⟨List.nodup_cons.mpr ⟨fun hm => b cur hm (List.mem_cons_self _ _), a⟩,
            ?_, ?_, ?_⟩
          · intro x hx
            rcases List.mem_cons.mp hx with e | hx
            · rw [e]
              exact h
            · exact fun hs => b x hx (List.mem_cons_of_mem _ hs)
          · intro A hA
            obtain ⟨c1, c2⟩ := c A hA
            refine ⟨fun x hx => c1 x (List.mem_cons_of_mem _ hx), ?_⟩
            intro x hx
            rcases List.mem_cons.mp hx with e | hx
            · rw [e]
              exact c1 cur (List.mem_cons_self _ _)
            · exact c2 x hx
          · intro S hS hst x hx
            rcases List.mem_cons.mp hx with e | hx
            · rw [e]
              exact hst cur (List.mem_cons_self _ _)
            · apply d S hS _ x hx
              intro y hy
              rcases (mem_push_all _ _ _).mp hy with hy | hy
              · have hcl := List.all_eq_true.mp hS cur (hst cur (List.mem_cons_self _ _))
                rw [hrc] at hcl
                simpa using List.all_eq_true.mp hcl y hy
              · exact hst y (List.mem_cons_of_mem _ hy)

/-- The second loop of `lca_commit` reads no commit twice, none that is in `seen_b`, and
none that is in `ancestors_a`; when the stack is in a parent-closed set, so are the commits
read. -/
theorem find_loop_reads_nodup (rc : Str → Except String CommitInfo) (A : List Str)
    (fuel : Nat) :
    ∀ (stack seen : List Str),
      (find_loop_reads rc A fuel stack seen).2.Nodup
      ∧ (∀ c ∈ (find_loop_reads rc A fuel stack seen).2, c ∉ seen ∧ c ∉ A)
      ∧ ∀ S, parent_closed rc S = true → (∀ c ∈ stack, c ∈ S) →
          ∀ c ∈ (find_loop_reads rc A fuel stack seen).2, c ∈ S := by
  induction fuel with
  | zero =>
    intro stack seen
    exact ⟨List.nodup_nil, fun c hc => absurd hc (List.not_mem_nil c),
      fun _ _ _ c hc => absurd hc (List.not_mem_nil c)⟩
  | succ fuel ih =>
    intro stack seen
    cases stack with
    | nil =>
      exact ⟨List.nodup_nil, fun c hc => absurd hc (List.not_mem_nil c),
        fun _ _ _ c hc => absurd hc (List.not_mem_nil c)⟩
    | cons cur stack =>
      simp only [find_loop_reads]
      by_cases h : cur ∈ seen
      · simp only [h, if_true]
        obtain ⟨a, b, c⟩ := ih stack seen
        exact ⟨a, b, fun S hS hst => c S hS (fun x hx => hst x (List.mem_cons_of_mem _ hx))⟩
      · simp only [h, if_false]
        by_cases h2 : cur ∈ A
        · simp only [h2, if_true]
          exact ⟨List.nodup_nil, fun c hc => absurd hc (List.not_mem_nil c),
            fun _ _ _ c hc => absurd hc (List.not_mem_nil c)⟩
        · simp only [h2, if_false]
          cases hrc : rc cur with
          | error e =>
            refine ⟨List.nodup_singleton _, ?_, ?_⟩
            · intro c hc
              rw [List.mem_singleton.mp hc]
              exact ⟨h, h2⟩
            · intro S _ hst c hc
              rw [List.mem_singleton.mp hc]
              exact hst cur (List.mem_cons_self _ _)
          | ok info =>
            simp only
            obtain ⟨a, b, c⟩ := ih (push_all info.parents stack) (cur :: seen)
            refine ⟨List.nodup_cons.mpr ⟨fun hm => (b cur hm).1 (List.mem_cons_self _ _), a⟩,
              ?_, ?_⟩
            · intro x hx
              rcases List.mem_cons.mp hx with e | hx
              · rw [e]
                exact ⟨h, h2⟩
              · exact ⟨fun hs => (b x hx).1 (List.mem_cons_of_mem _ hs), (b x hx).2⟩
            · intro S hS hst x hx
              rcases List.mem_cons.mp hx with e | hx
              · rw [e]
                exact hst cur (List.mem_cons_self _ _)
              · apply c S hS _ x hx
                intro y hy
                rcases (mem_push_all _ _ _).mp hy with hy | hy
                · have hcl := List.all_eq_true.mp hS cur (hst cur (List.mem_cons_self _ _))
                  rw [hrc] at hcl
                  simpa using List.all_eq_true.mp hcl y hy
                · exact hst y (List.mem_cons_of_mem _ hy)

/-- The function `is_commit_ancestor` reads no commit twice, whatever the store and the
fuel. -/
theorem is_commit_ancestor_reads_nodup (rc : Str → Except String CommitInfo) (fuel : Nat)
    (anc d : Str) :
    (is_commit_ancestor_reads rc fuel anc d).2.Nodup
    ∧ ∀ S, parent_closed rc S = true → d ∈ S →
        ∀ c ∈ (is_commit_ancestor_reads rc fuel anc d).2, c ∈ S := by
  unfold is_commit_ancestor_reads
  by_cases h : anc = d
  · simp only [h, if_true]
    exact ⟨List.nodup_nil, fun _ _ _ c hc => absurd hc (List.not_mem_nil c)⟩
  · simp only [h, if_false]
    obtain ⟨a, _, c⟩ := ancestor_loop_reads_nodup rc anc fuel [d] []
    exact ⟨a, fun S hS hd => c S hS (fun x hx => by rw [List.mem_singleton.mp hx]; exact hd)⟩

/-- The function `lca_commit` reads no commit twice over its two loops, whatever the store
and the fuel. -/
theorem lca_commit_reads_nodup (rc : Str → Except String CommitInfo) (fuel : Nat)
    (a b : Str) :
    (lca_commit_reads rc fuel a b).2.Nodup
    ∧ ∀ S, parent_closed rc S = true → a ∈ S → b ∈ S →
        ∀ c ∈ (lca_commit_reads rc fuel a b).2, c ∈ S := by
  unfold lca_commit_reads
  obtain ⟨n1, _, i1, s1⟩ := collect_loop_reads_nodup rc fuel [a] []
  have sa : ∀ S : List Str, a ∈ S → ∀ c ∈ [a], c ∈ S := fun S ha x hx => by
    rw [List.mem_singleton.mp hx]; exact ha
  have sb : ∀ S : List Str, b ∈ S → ∀ c ∈ [b], c ∈ S := fun S hb x hx => by
    rw [List.mem_singleton.mp hx]; exact hb
  rcases hc : collect_loop_reads rc fuel [a] [] with ⟨o, reads⟩
  rw [hc] at n1 i1 s1
  cases o with
  | none => exact ⟨n1, fun S hS ha _ => s1 S hS (sa S ha)⟩
  | some r =>
    cases r with
    | error e => exact ⟨n1, fun S hS ha _ => s1 S hS (sa S ha)⟩
    | ok A =>
      simp only
      obtain ⟨n2, d2, s2⟩ := find_loop_reads_nodup rc A fuel [b] []
      refine ⟨List.nodup_append.mpr ⟨n1, n2, ?_⟩, ?_⟩
      · intro x hx1 hx2
        exact (d2 x hx2).2 ((i1 A rfl).2 x hx1)
      · intro S hS ha hb x hx
        rcases List.mem_append.mp hx with hx | hx
        · exact s1 S hS (sa S ha) x hx
        · exact s2 S hS (sb S hb) x hx

/-- A list without repetition whose members are in `S` is no longer than `S`. -/
theorem nodup_length_le (l S : List Str) (hn : l.Nodup) (hs : ∀ c ∈ l, c ∈ S) :
    l.length ≤ S.length :=
  (List.subperm_of_subset hn hs).length_le

/-- On a parent-closed set, `is_commit_ancestor` returns with enough fuel. -/
theorem is_commit_ancestor_total (rc : Str → Except String CommitInfo) (S : List Str)
    (anc d : Str) (hS : parent_closed rc S = true) (hd : d ∈ S) :
    ∃ N b, ∀ fuel, N ≤ fuel → is_commit_ancestor rc fuel anc d = some (.ok b) := by
  by_cases had : anc = d
  · exact ⟨0, true, fun fuel _ => by simp only [is_commit_ancestor, had, if_true]⟩
  · obtain ⟨N, out, hrun, _⟩ := walk_total rc (fun _ => false)
      (fun i => decide (anc ∈ i.parents)) S hS [d] (by simpa using hd)
    refine ⟨N, out.toBool, ?_⟩
    intro fuel hle
    simp only [is_commit_ancestor, had, if_false, ancestor_loop_eq_walk, hrun fuel hle,
      Option.map_some', Except.map]

/-- On a parent-closed set, `lca_commit` returns with enough fuel. -/
theorem lca_commit_total (rc : Str → Except String CommitInfo) (S : List Str)
    (x y : Str) (hS : parent_closed rc S = true) (hx : x ∈ S) (hy : y ∈ S) :
    ∃ N r, ∀ fuel, N ≤ fuel → lca_commit rc fuel x y = some (.ok r) := by
  obtain ⟨N1, out1, hrun1, _⟩ := walk_total rc (fun _ => false) (fun _ => false) S hS [x]
    (by simpa using hx)
  obtain ⟨N2, out2, hrun2, _⟩ := walk_total rc (fun c => decide (c ∈ out1.toSeen))
    (fun _ => false) S hS [y] (by simpa using hy)
  refine ⟨max N1 N2, out2.toFound, ?_⟩
  intro fuel hle
  have e1 := hrun1 fuel (le_trans (le_max_left _ _) hle)
  have e2 := hrun2 fuel (le_trans (le_max_right _ _) hle)
  simp only [lca_commit, collect_loop_eq_walk, e1, Option.map_some', Except.map,
    find_loop_eq_walk, e2]

/-- C34: on a finite parent-closed set `S` of commits, `is_commit_ancestor` from a commit
of `S` and `lca_commit` of two commits of `S` return a result for every fuel from some
bound on, and the commits that each of them reads are pairwise distinct members of `S`, so
that each commit is read at most once and there are at most as many reads as commits. -/
theorem walks_terminate_reading_once (rc : Str → Except String CommitInfo) (S : List Str)
    (anc x y : Str) (hS : parent_closed rc S = true) (hx : x ∈ S) (hy : y ∈ S) :
    ∃ N b r, ∀ fuel, N ≤ fuel →
      is_commit_ancestor rc fuel anc x = some (.ok b)
      ∧ is_commit_ancestor_reads rc fuel anc x
          = (some (.ok b), (is_commit_ancestor_reads rc fuel anc x).2)
      ∧ (is_commit_ancestor_reads rc fuel anc x).2.Nodup
      ∧ (∀ c ∈ (is_commit_ancestor_reads rc fuel anc x).2, c ∈ S)
      ∧ (is_commit_ancestor_reads rc fuel anc x).2.length ≤ S.length
      ∧ lca_commit rc fuel x y = some (.ok r)
      ∧ lca_commit_reads rc fuel x y = (some (.ok r), (lca_commit_reads rc fuel x y).2)
      ∧ (lca_commit_reads rc fuel x y).2.Nodup
      ∧ (∀ c ∈ (lca_commit_reads rc fuel x y).2, c ∈ S)
      ∧ (lca_commit_reads rc fuel x y).2.length ≤ S.length := by
  obtain ⟨N1, b, h1⟩ := is_commit_ancestor_total rc S anc x hS hx
  obtain ⟨N2, r, h2⟩ := lca_commit_total rc S x y hS hx hy
  refine ⟨max N1 N2, b, r, ?_⟩
  intro fuel hle
  have e1 := h1 fuel (le_trans (le_max_left _ _) hle)
  have e2 := h2 fuel (le_trans (le_max_right _ _) hle)
  obtain ⟨n1, s1⟩ := is_commit_ancestor_reads_nodup rc fuel anc x
  obtain ⟨n2, s2⟩ := lca_commit_reads_nodup rc fuel x y
  refine ⟨e1, ?_, n1, s1 S hS hx, nodup_length_le _ S n1 (s1 S hS hx), e2, ?_, n2,
    s2 S hS hx hy, nodup_length_le _ S n2 (s2 S hS hx hy)⟩
  · rw [← e1, ← is_commit_ancestor_reads_fst]
  · rw [← e2, ← lca_commit_reads_fst]

/-- C34 at a concrete input: the small history, `is_commit_ancestor(g, a)` and
`lca_commit(a, b)`. -/
theorem walks_terminate_reading_once_witness :
    parent_closed rcEx commitsEx = true ∧ lit "a" ∈ commitsEx ∧ lit "b" ∈ commitsEx
    ∧ ∃ N b r, ∀ fuel, N ≤ fuel →
      is_commit_ancestor rcEx fuel (lit "g") (lit "a") = some (.ok b)
      ∧ is_commit_ancestor_reads rcEx fuel (lit "g") (lit "a")
          = (some (.ok b), (is_commit_ancestor_reads rcEx fuel (lit "g") (lit "a")).2)
      ∧ (is_commit_ancestor_reads rcEx fuel (lit "g") (lit "a")).2.Nodup
      ∧ (∀ c ∈ (is_commit_ancestor_reads rcEx fuel (lit "g") (lit "a")).2, c ∈ commitsEx)
      ∧ (is_commit_ancestor_reads rcEx fuel (lit "g") (lit "a")).2.length ≤ commitsEx.length
      ∧ lca_commit rcEx fuel (lit "a") (lit "b") = some (.ok r)
      ∧ lca_commit_reads rcEx fuel (lit "a") (lit "b")
          = (some (.ok r), (lca_commit_reads rcEx fuel (lit "a") (lit "b")).2)
      ∧ (lca_commit_reads rcEx fuel (lit "a") (lit "b")).2.Nodup
      ∧ (∀ c ∈ (lca_commit_reads rcEx fuel (lit "a") (lit "b")).2, c ∈ commitsEx)
      ∧ (lca_commit_reads rcEx fuel (lit "a") (lit "b")).2.length ≤ commitsEx.length :=
  ⟨by decide, by decide, by decide,
    walks_terminate_reading_once rcEx commitsEx (lit "g") (lit "a") (lit "b") (by decide)
      (by decide) (by decide)⟩

/-- The reads of the walks on the small history: `is_commit_ancestor(q, a)` reads `a`, `p1`
and `g`; `lca_commit(a, b)` reads `a`, `p1` and `g` in its first loop and `b` and `q` in
its second, which stops at `g` without reading it again. -/
theorem walks_reads_example :
    is_commit_ancestor_reads rcEx 10 (lit "q") (lit "a")
      = (some (.ok false), [lit "a", lit "p1", lit "g"])
    ∧ lca_commit_reads rcEx 10 (lit "a") (lit "b")
      = (some (.ok (some (lit "g"))), [lit "a", lit "p1", lit "g", lit "b", lit "q"]) := by
  decide

/-- A cycle of two commits, each the parent of the other: the walks still return, and read
each commit once. -/
theorem walks_reads_cycle :
    is_commit_ancestor_reads
        (fun h => if h = lit "u" then .ok (commit_with [lit "v"])
          else if h = lit "v" then .ok (commit_with [lit "u"]) else .error "open for read failed")
        10 (lit "w") (lit "u")
      = (some (.ok false), [lit "u", lit "v"]) := by
  decide

/-! ## The names of the entries of a tree are distinct when no file has a path below it -/

theorem dir_entries_names (selfo : List IndexEntry → Oid) (dirs : List (Str × List IndexEntry)) :
    (dir_entries selfo dirs).map TreeEntry.name = dirs.map Prod.fst := by
  induction dirs with
  | nil => rfl
  | cons x rest ih =>
    obtain ⟨d, ch⟩ := x
    simp only [dir_entries, List.map_cons, ih]

theorem subdirs_push_key (m : List (Str × List IndexEntry)) (k : Str) (e : IndexEntry) :
    ∀ x ∈ subdirs_push m k e, x.1 = k ∨ ∃ y ∈ m, x.1 = y.1 := by
  induction m with
  | nil =>
    intro x hx
    simp only [subdirs_push, List.mem_singleton] at hx
    left
    rw [hx]
  | cons y rest ih =>
    obtain ⟨k1, v1⟩ := y
    intro x hx
    simp only [subdirs_push] at hx
    split at hx
    · rcases List.mem_cons.mp hx with e1 | h1
      · right
        exact ⟨(k1, v1), List.mem_cons_self _ _, by rw [e1]⟩
      · right
        exact ⟨x, List.mem_cons_of_mem _ h1, rfl⟩
    · split at hx
      · rcases List.mem_cons.mp hx with e1 | h1
        · left
          rw [e1]
        · right
          exact ⟨x, h1, rfl⟩
      · rcases List.mem_cons.mp hx with e1 | h1
        · right
          exact ⟨(k1, v1), List.mem_cons_self _ _, by rw [e1]⟩
        · rcases ih x h1 with h2 | ⟨y, hy, h2⟩
          · left
            exact h2
          · right
            exact ⟨y, List.mem_cons_of_mem _ hy, h2⟩

/-- The map `subdirs` stays in strictly ascending order of its keys. -/
theorem subdirs_push_sorted (m : List (Str × List IndexEntry)) (k : Str) (e : IndexEntry)
    (h : m.Pairwise (fun a b => str_lt a.1 b.1 = true)) :
    (subdirs_push m k e).Pairwise (fun a b => str_lt a.1 b.1 = true) := by
  induction m with
  | nil => simp [subdirs_push]
  | cons y rest ih =>
    obtain ⟨k1, v1⟩ := y
    rw [List.pairwise_cons] at h
    simp only [subdirs_push]
    split
    · exact List.pairwise_cons.mpr ⟨fun x hx => h.1 x hx, h.2⟩
    · rename_i hk
      split
      · rename_i hlt
        refine List.pairwise_cons.mpr ⟨?_, List.pairwise_cons.mpr h⟩
        intro x hx
        rcases List.mem_cons.mp hx with e1 | h1
        · rw [e1]
          exact hlt
        · exact str_lt_trans _ _ _ hlt (h.1 x h1)
      · rename_i hlt
        refine List.pairwise_cons.mpr ⟨?_, ih h.2⟩
        intro x hx
        rcases subdirs_push_key rest k e x hx with h2 | ⟨y, hy, h2⟩
        · rw [h2]
          exact str_lt_total k k1 hk (by simpa using hlt)
        · rw [h2]
          exact h.1 y hy

theorem subdirs_of_sorted (group : List IndexEntry) :
    ∀ (m : List (Str × List IndexEntry)), m.Pairwise (fun a b => str_lt a.1 b.1 = true) →
      (subdirs_of group m).Pairwise (fun a b => str_lt a.1 b.1 = true) := by
  induction group with
  | nil => intro m h; exact h
  | cons e rest ih =>
    intro m h
    simp only [subdirs_of]
    split
    · exact ih m h
    · exact ih _ (subdirs_push_sorted m _ _ h)

/-- The names of the directories of a group are pairwise distinct. -/
theorem subdirs_of_keys_nodup (group : List IndexEntry) :
    ((subdirs_of group []).map Prod.fst).Nodup := by
  have h := subdirs_of_sorted group [] List.Pairwise.nil
  rw [List.Nodup, List.pairwise_map]
  exact h.imp (fun {a b} hab e => by rw [e, str_lt_irrefl] at hab; cases hab)

/-- The entries of a directory of a group inherit the shape of the group: distinct paths,
none ending with `/`, and none below another. -/
theorem child_shape (group : List IndexEntry)
    (hnd : (group.map IndexEntry.path).Nodup)
    (hsl : ∀ e ∈ group, e.path.getLast? ≠ some kSlash)
    (hpf : ∀ e1 ∈ group, ∀ e2 ∈ group, ¬ (e1.path ++ [kSlash]) <+: e2.path)
    (d : Str) (ch : List IndexEntry) (hm : (d, ch) ∈ subdirs_of group []) :
    (ch.map IndexEntry.path).Nodup
    ∧ (∀ c ∈ ch, c.path.getLast? ≠ some kSlash)
    ∧ ∀ c1 ∈ ch, ∀ c2 ∈ ch, ¬ (c1.path ++ [kSlash]) <+: c2.path := by
  refine ⟨?_, ?_, ?_⟩
  · have hp := (subdirs_of_flat group []).map
      (fun dc : Str × IndexEntry => dc.1 ++ kSlash :: dc.2.path)
    simp only [List.flatMap_nil, List.nil_append, List.map_map] at hp
    have hr : (List.map ((fun dc : Str × IndexEntry => dc.1 ++ kSlash :: dc.2.path) ∘
        fun e : IndexEntry => ((split_first e.path).1,
          (⟨e.mode, e.oid, (split_first e.path).2⟩ : IndexEntry)))
        (group.filter (fun e => decide ((split_first e.path).2 ≠ []))))
        = (group.filter (fun e => decide ((split_first e.path).2 ≠ []))).map IndexEntry.path := by
      apply List.map_congr_left
      intro e he
      have hne : (split_first e.path).2 ≠ [] := by simpa using (List.mem_filter.mp he).2
      exact (split_first_dir e.path hne).symm
    rw [hr] at hp
    have hnd2 : ((group.filter (fun e => decide ((split_first e.path).2 ≠ []))).map
        IndexEntry.path).Nodup :=
      hnd.sublist ((List.filter_sublist _).map _)
    have hnd3 := hp.nodup_iff.mpr hnd2
    rw [List.map_flatMap, List.nodup_flatMap] at hnd3
    have h4 := hnd3.1 (d, ch) hm
    simp only [List.map_map] at h4
    have h5 : (List.map (fun c : IndexEntry => d ++ kSlash :: c.path) ch)
        = (ch.map IndexEntry.path).map (fun p => d ++ kSlash :: p) := by
      rw [List.map_map]
      rfl
    have h6 : (List.map ((fun dc : Str × IndexEntry => dc.1 ++ kSlash :: dc.2.path) ∘
        fun c : IndexEntry => (d, c)) ch)
        = (ch.map IndexEntry.path).map (fun p => d ++ kSlash :: p) := by
      rw [List.map_map]
      rfl
    rw [h6] at h4
    exact List.Nodup.of_map _ h4
  · intro c hc
    obtain ⟨e, he, hne, _, hce⟩ := subdirs_of_child group d ch c hm hc
    rw [hce]
    exact split_first_rest_last e.path hne (hsl e he)
  · intro c1 hc1 c2 hc2 hpre
    obtain ⟨e1, he1, hne1, hd1, hce1⟩ := subdirs_of_child group d ch c1 hm hc1
    obtain ⟨e2, he2, hne2, hd2, hce2⟩ := subdirs_of_child group d ch c2 hm hc2
    apply hpf e1 he1 e2 he2
    have p1 := split_first_dir e1.path hne1
    have p2 := split_first_dir e2.path hne2
    rw [hce1, hce2] at hpre
    rw [p1, p2, ← hd1, ← hd2]
    have : d ++ kSlash :: (split_first e1.path).2 ++ [kSlash]
        = (d ++ [kSlash]) ++ ((split_first e1.path).2 ++ [kSlash]) := by simp
    rw [this]
    have : d ++ kSlash :: (split_first e2.path).2
        = (d ++ [kSlash]) ++ (split_first e2.path).2 := by simp
    rw [this]
    exact (List.prefix_append_right_inj _).mpr hpre

/-- The names that `build` passes to `write_tree` for a group of that shape are pairwise
distinct. -/
theorem level_names_nodup (sha1 : Str → Oid) (fuel : Nat) (group : List IndexEntry)
    (hnd : (group.map IndexEntry.path).Nodup)
    (hsl : ∀ e ∈ group, e.path.getLast? ≠ some kSlash)
    (hpf : ∀ e1 ∈ group, ∀ e2 ∈ group, ¬ (e1.path ++ [kSlash]) <+: e2.path) :
    ((build_entries sha1 (fuel + 1) group).map TreeEntry.name).Nodup := by
  have hfiles : (files_of group).map TreeEntry.name
      = (group.filter (fun e => decide ((split_first e.path).2 = []))).map IndexEntry.path := by
    rw [files_of_eq, List.map_map]
    apply List.map_congr_left
    intro e he
    have hr : (split_first e.path).2 = [] := by simpa using (List.mem_filter.mp he).2
    exact split_first_file e.path hr (hsl e (List.mem_filter.mp he).1)
  simp only [build_entries, List.map_append, dir_entries_names]
  refine List.nodup_append.mpr ⟨?_, subdirs_of_keys_nodup group, ?_⟩
  · rw [hfiles]
    exact hnd.sublist ((List.filter_sublist _).map _)
  · intro n hn1 hn2
    rw [hfiles] at hn1
    obtain ⟨e1, he1, hp1⟩ := List.mem_map.mp hn1
    obtain ⟨dc, hdc, hd⟩ := List.mem_map.mp hn2
    obtain ⟨d, ch⟩ := dc
    have hne := subdirs_of_nonempty group [] (by simp) (d, ch) hdc
    obtain ⟨c, hc⟩ := List.exists_mem_of_ne_nil ch hne
    obtain ⟨e2, he2, hne2, hd2, _⟩ := subdirs_of_child group d ch c hdc hc
    apply hpf e1 (List.mem_filter.mp he1).1 e2 he2
    have p2 := split_first_dir e2.path hne2
    rw [p2, hp1, ← hd2]
    simp only at hd
    rw [← hd]
    exact ⟨(split_first e2.path).2, by simp⟩

/-- For entries with pairwise distinct paths, none ending with `/` and none below another,
the names of every tree that `build` writes are pairwise distinct. -/
theorem tree_names_distinct_of_shape (sha1 : Str → Oid) (fuel : Nat) :
    ∀ (group : List IndexEntry), (group.map IndexEntry.path).Nodup →
      (∀ e ∈ group, e.path.getLast? ≠ some kSlash) →
      (∀ e1 ∈ group, ∀ e2 ∈ group, ¬ (e1.path ++ [kSlash]) <+: e2.path) →
      tree_names_distinct sha1 fuel group = true := by
  induction fuel with
  | zero => intro group _ _ _; rfl
  | succ fuel ih =>
    intro group hnd hsl hpf
    simp only [tree_names_distinct, Bool.and_eq_true, decide_eq_true_eq, List.all_eq_true]
    refine ⟨level_names_nodup sha1 fuel group hnd hsl hpf, ?_⟩
    intro dc hdc
    obtain ⟨d, ch⟩ := dc
    obtain ⟨a, b, c⟩ := child_shape group hnd hsl hpf d ch hdc
    exact ih ch a b c

theorem no_path_below_file_iff (ents : List IndexEntry) :
    no_path_below_file ents = true ↔
      (∀ e ∈ ents, e.path.getLast? ≠ some kSlash)
      ∧ ∀ e1 ∈ ents, ∀ e2 ∈ ents, ¬ (e1.path ++ [kSlash]) <+: e2.path := by
  simp only [no_path_below_file, Bool.and_eq_true, List.all_eq_true, decide_eq_true_eq,
    Bool.not_eq_true', ← Bool.not_eq_true, List.isPrefixOf_iff_prefix]

set_option maxRecDepth 100000 in
/-- C33 (counterexample): `add_path` does not look at the paths that the index holds.  In a
working tree with the file `a`, `add_path("a")` and `save()`; the file `a` is then
replaced by a directory `a` with the file `b`; `load()`, `add_path("a/b")` and `save()`
leave an index with the paths `a` and `a/b`, and the tree that `write_tree_from_index`
writes for it has two entries of name `a`, a file and a directory. -/
theorem write_tree_from_index_name_clash :
    clashState.2 = [⟨kModeFile, mixBlob (lit "one\n"), lit "a"⟩,
      ⟨kModeFile, mixBlob (lit "two\n"), lit "a/b"⟩]
    ∧ Index.load clashState.1 (lit "/r") = clashState.2
    ∧ (∃ hex fs1, write_tree_from_index rleZlib mixSha1 (lit "/r") clashState.1
          = some (.ok (hex, fs1))
        ∧ (read_tree rleZlib (lit "/r/.gitfly") fs1 hex).map
            (fun es => es.map (fun t => (t.mode, t.name)))
          = .ok [(kModeFile, lit "a"), (kModeTree, lit "a")])
    ∧ tree_names_distinct mixSha1 (build_depth clashState.2) clashState.2 = false := by
  refine ⟨by decide, by decide, ⟨_, _, rfl, ?_⟩, by decide⟩
  decide

/-- C33 (amended): when the index that `write_tree_from_index` loads has pairwise distinct
paths, none ending with `/`, and no path `p` together with a path that starts with `p/`,
`write_tree_from_index` returns the digest of the root tree, and every tree that it
writes, at every depth, has pairwise distinct entry names. -/
theorem write_tree_from_index_distinct_names (z : Zlib) (sha1 : Str → Oid) (root : Str)
    (fs : FS) (hnd : ((Index.load fs root).map IndexEntry.path).Nodup)
    (hshape : no_path_below_file (Index.load fs root) = true) :
    (∃ fs1, write_tree_from_index z sha1 root fs
        = some (.ok (index_tree_hex sha1 (Index.load fs root), fs1)))
    ∧ tree_names_distinct sha1 (build_depth (Index.load fs root)) (Index.load fs root) = true := by
  obtain ⟨hsl, hpf⟩ := (no_path_below_file_iff _).mp hshape
  obtain ⟨fs1, h1, _⟩ := write_tree_from_entries_eq z sha1 (git_dir root)
    (git_dir_ne_nil root) (git_dir_last root) fs (Index.load fs root)
  exact ⟨⟨fs1, h1⟩, tree_names_distinct_of_shape sha1 _ _ hnd hsl hpf⟩

set_option maxRecDepth 100000 in
/-- C33 (amended) at a concrete input: the index with the paths `a/b`, `a/c` and `d`, after
`add_path` of the three files and `save()` in the working tree of `shapeFS`.  The root tree
has the entries `d` and `a`, the tree of `a` the entries `b` and `c`. -/
theorem write_tree_from_index_distinct_names_witness :
    ((Index.load (index_run rleZlib mixSha1 (lit "/r") shapeFS
        [.add (lit "/r") (lit "a/b") kModeFile, .add (lit "/r") (lit "d") kModeFile,
          .add (lit "/r") (lit "a/c") kModeFile, .save_load]).1 (lit "/r")).map
          IndexEntry.path).Nodup
    ∧ no_path_below_file (Index.load (index_run rleZlib mixSha1 (lit "/r") shapeFS
        [.add (lit "/r") (lit "a/b") kModeFile, .add (lit "/r") (lit "d") kModeFile,
          .add (lit "/r") (lit "a/c") kModeFile, .save_load]).1 (lit "/r")) = true
    ∧ (∃ fs1, write_tree_from_index rleZlib mixSha1 (lit "/r")
          (index_run rleZlib mixSha1 (lit "/r") shapeFS
            [.add (lit "/r") (lit "a/b") kModeFile, .add (lit "/r") (lit "d") kModeFile,
              .add (lit "/r") (lit "a/c") kModeFile, .save_load]).1
        = some (.ok (index_tree_hex mixSha1 (Index.load (index_run rleZlib mixSha1 (lit "/r")
            shapeFS [.add (lit "/r") (lit "a/b") kModeFile, .add (lit "/r") (lit "d") kModeFile,
              .add (lit "/r") (lit "a/c") kModeFile, .save_load]).1 (lit "/r")), fs1)))
    ∧ tree_names_distinct mixSha1
        (build_depth (Index.load (index_run rleZlib mixSha1 (lit "/r") shapeFS
          [.add (lit "/r") (lit "a/b") kModeFile, .add (lit "/r") (lit "d") kModeFile,
            .add (lit "/r") (lit "a/c") kModeFile, .save_load]).1 (lit "/r")))
        (Index.load (index_run rleZlib mixSha1 (lit "/r") shapeFS
          [.add (lit "/r") (lit "a/b") kModeFile, .add (lit "/r") (lit "d") kModeFile,
            .add (lit "/r") (lit "a/c") kModeFile, .save_load]).1 (lit "/r")) = true :=
  ⟨by decide, by decide,
    write_tree_from_index_distinct_names rleZlib mixSha1 (lit "/r")
      (index_run rleZlib mixSha1 (lit "/r") shapeFS
        [.add (lit "/r") (lit "a/b") kModeFile, .add (lit "/r") (lit "d") kModeFile,
          .add (lit "/r") (lit "a/c") kModeFile, .save_load]).1 (by decide) (by decide)⟩

set_option maxRecDepth 100000 in
/-- The index of the witness holds the paths `a/b`, `a/c` and `d`; the root tree that
`write_tree_from_index` writes for it reads back with the file `d` and the directory `a`,
and the tree of `a` with the files `b` and `c`. -/
theorem write_tree_from_index_shape_example :
    (Index.load (index_run rleZlib mixSha1 (lit "/r") shapeFS
        [.add (lit "/r") (lit "a/b") kModeFile, .add (lit "/r") (lit "d") kModeFile,
          .add (lit "/r") (lit "a/c") kModeFile, .save_load]).1 (lit "/r")).map IndexEntry.path
      = [lit "a/b", lit "a/c", lit "d"]
    ∧ (build_entries mixSha1 4
        [⟨kModeFile, mixBlob (lit "one\n"), lit "a/b"⟩, ⟨kModeFile, mixBlob (lit "two\n"), lit "a/c"⟩,
          ⟨kModeFile, mixBlob (lit "three\n"), lit "d"⟩]).map (fun t => (t.mode, t.name))
      = [(kModeFile, lit "d"), (kModeTree, lit "a")]
    ∧ (build_entries mixSha1 3
        [⟨kModeFile, mixBlob (lit "one\n"), lit "b"⟩, ⟨kModeFile, mixBlob (lit "two\n"), lit "c"⟩]).map
          (fun t => (t.mode, t.name))
      = [(kModeFile, lit "b"), (kModeFile, lit "c")]
    ∧ ((write_tree_from_index rleZlib mixSha1 (lit "/r")
          (index_run rleZlib mixSha1 (lit "/r") shapeFS
            [.add (lit "/r") (lit "a/b") kModeFile, .add (lit "/r") (lit "d") kModeFile,
              .add (lit "/r") (lit "a/c") kModeFile, .save_load]).1).bind
        (fun r => r.toOption.map (fun hf =>
          (read_tree rleZlib (lit "/r/.gitfly") hf.2 hf.1).map
            (fun es => es.map (fun t => (t.mode, t.name))))))
      = some (.ok [(kModeTree, lit "a"), (kModeFile, lit "d")]) := by
  refine ⟨by decide, by decide, by decide, by decide⟩

set_option maxRecDepth 100000 in
/-- The index with the single path `a/b`: the root tree has the one entry `a`, a
directory. -/
theorem write_tree_from_index_nested_example :
    Index.load (index_run rleZlib mixSha1 (lit "/r") clashFS1
        [.add (lit "/r") (lit "a/b") kModeFile, .save_load]).1 (lit "/r")
      = [⟨kModeFile, mixBlob (lit "two\n"), lit "a/b"⟩]
    ∧ (build_entries mixSha1 4 [⟨kModeFile, mixBlob (lit "two\n"), lit "a/b"⟩]).map
        (fun t => (t.mode, t.name)) = [(kModeTree, lit "a")] := by
  refine ⟨by decide, by decide⟩

/-! ## The object stream: what the receivers read is what the sender wrote -/

theorem read_line_append (l r : Str) (h : kLF ∉ l) : read_line (l ++ kLF :: r) = .ok (l, r) := by
  induction l with
  | nil => simp [read_line]
  | cons c cs ih =>
    have hc : c ≠ kLF := fun e => h (by rw [e]; exact List.mem_cons_self _ _)
    have hcs : kLF ∉ cs := fun e => h (List.mem_cons_of_mem _ e)
    simp only [List.cons_append, read_line, hc, if_false, List.append_eq, ih hcs]

theorem recv_line_append (l r : Str) (h : kLF ∉ l) : recv_line (l ++ kLF :: r) = .ok (l, r) := by
  induction l with
  | nil => simp [recv_line]
  | cons c cs ih =>
    have hc : c ≠ kLF := fun e => h (by rw [e]; exact List.mem_cons_self _ _)
    have hcs : kLF ∉ cs := fun e => h (List.mem_cons_of_mem _ e)
    simp only [List.cons_append, recv_line, hc, if_false, List.append_eq, ih hcs]

theorem digitChar_decimal (k : Nat) (hk : k < 10) :
    (Fin.ofNat (Nat.digitChar k).toNat : Fin 256).val = 48 + k := by
  interval_cases k <;> decide

theorem toDigitsCore_decimal_value (fuel : Nat) :
    ∀ (n : Nat) (ds : List Char), n < fuel →
      List.foldl (fun (v : Nat) (c : Byte) => v * 10 + (c.val - 48)) 0
          ((Nat.toDigitsCore 10 fuel n ds).map (fun c => (Fin.ofNat c.toNat : Fin 256)))
        = List.foldl (fun (v : Nat) (c : Byte) => v * 10 + (c.val - 48)) n
            (ds.map (fun c => (Fin.ofNat c.toNat : Fin 256))) := by
  induction fuel with
  | zero => intro n ds h; omega
  | succ fuel ih =>
    intro n ds hn
    have hd := digitChar_decimal (n % 10) (Nat.mod_lt _ (by norm_num))
    simp only [Nat.toDigitsCore]
    split
    · rename_i h0
      simp only [List.map_cons, List.foldl_cons, hd]
      have h4 : 0 * 10 + (48 + n % 10 - 48) = n := by omega
      rw [h4]
    · rename_i h0
      rw [ih (n / 10) _ (by omega)]
      simp only [List.map_cons, List.foldl_cons, hd]
      have h4 : n / 10 * 10 + (48 + n % 10 - 48) = n := by omega
      rw [h4]

theorem toDigitsCore_isdigit (fuel n : Nat) (ds : List Char)
    (hds : ∀ c ∈ ds, isdigit (Fin.ofNat c.toNat : Fin 256) = true) :
    ∀ c ∈ Nat.toDigitsCore 10 fuel n ds, isdigit (Fin.ofNat c.toNat : Fin 256) = true := by
  induction fuel generalizing n ds with
  | zero => simpa [Nat.toDigitsCore] using hds
  | succ fuel ih =>
    have hd : ∀ c ∈ Nat.digitChar (n % 10) :: ds,
        isdigit (Fin.ofNat c.toNat : Fin 256) = true := by
      intro c hc
      rcases List.mem_cons.mp hc with rfl | hc
      · have := digitChar_decimal (n % 10) (Nat.mod_lt _ (by norm_num))
        simp only [isdigit, decide_eq_true_eq]
        omega
      · exact hds c hc
    simp only [Nat.toDigitsCore]
    split
    · exact hd
    · exact ih _ _ hd

theorem toDigitsCore_decimal_ne_nil (fuel n : Nat) (ds : List Char) (h : 0 < fuel ∨ ds ≠ []) :
    Nat.toDigitsCore 10 fuel n ds ≠ [] := by
  induction fuel generalizing n ds with
  | zero =>
    rcases h with h | h
    · omega
    · simpa [Nat.toDigitsCore] using h
  | succ fuel ih =>
    simp only [Nat.toDigitsCore]
    split
    · simp
    · exact ih _ _ (Or.inr (by simp))

/-- The decimal text of a number: digits only, at least one, with the number as value. -/
theorem to_string_digits (n : Nat) :
    to_string n ≠ [] ∧ (∀ c ∈ to_string n, isdigit c = true) ∧ digits_value (to_string n) = n := by
  refine ⟨?_, ?_, ?_⟩
  · unfold to_string Nat.toDigits
    intro h
    exact toDigitsCore_decimal_ne_nil (n + 1) n [] (Or.inl (by omega)) (List.map_eq_nil_iff.mp h)
  · unfold to_string Nat.toDigits
    intro c hc
    obtain ⟨d, hd, he⟩ := List.mem_map.mp hc
    rw [← he]
    exact toDigitsCore_isdigit _ _ [] (fun c hc => absurd hc (List.not_mem_nil c)) d hd
  · unfold to_string Nat.toDigits digits_value
    rw [toDigitsCore_decimal_value (n + 1) n [] (by omega)]
    rfl

theorem isdigit_not_space (c : Byte) (h : isdigit c = true) :
    isspace c = false ∧ c ≠ 45 ∧ c ≠ 43 ∧ c ≠ kLF := by
  simp only [isdigit, decide_eq_true_eq] at h
  refine ⟨?_, ?_, ?_, ?_⟩
  · simp only [isspace, decide_eq_false_iff_not]
    omega
  · intro e
    rw [e] at h
    revert h
    decide
  · intro e
    rw [e] at h
    revert h
    decide
  · intro e
    rw [e] at h
    revert h
    decide

theorem takeWhile_all {α : Type} (p : α → Bool) (l : List α) (h : ∀ c ∈ l, p c = true) :
    l.takeWhile p = l := by
  induction l with
  | nil => rfl
  | cons c cs ih =>
    rw [List.takeWhile_cons_of_pos (h c (List.mem_cons_self _ _)),
      ih (fun x hx => h x (List.mem_cons_of_mem _ hx))]

/-- The conversion of `strtoull` on the decimal text of a number, after white space. -/
theorem unsigned_field_to_string (ws : Str) (hws : ∀ c ∈ ws, isspace c = true) (n : Nat) :
    unsigned_field ((ws ++ to_string n).dropWhile isspace) = some (false, n) := by
  obtain ⟨hne, hdig, hval⟩ := to_string_digits n
  obtain ⟨c0, r, e⟩ := List.exists_cons_of_ne_nil hne
  have hc0 := hdig c0 (by rw [e]; exact List.mem_cons_self _ _)
  obtain ⟨hs, hm, hp, _⟩ := isdigit_not_space c0 hc0
  have hd : (ws ++ to_string n).dropWhile isspace = to_string n := by
    have h0 := dropWhile_all isspace ws (to_string n) hws
    rw [h0, e, List.dropWhile_cons_of_neg (by simp [hs])]
  rw [hd]
  have ht : (to_string n).takeWhile isdigit = to_string n := takeWhile_all _ _ hdig
  have hu : unsigned_field (to_string n)
      = if (to_string n).takeWhile isdigit = [] then none
        else some (false, digits_value ((to_string n).takeWhile isdigit)) := by
    rw [e]
    unfold unsigned_field
    split
    · rename_i r2 heq
      exact absurd (List.cons.inj heq).1 hm
    · rename_i r2 heq
      exact absurd (List.cons.inj heq).1 hp
    · rfl
  rw [hu, ht, if_neg hne, hval]

theorem stoull_to_string (n : Nat) (hn : n < 18446744073709551616) :
    stoull (to_string n) = .ok n := by
  have h := unsigned_field_to_string [] (fun c hc => absurd hc (List.not_mem_nil c)) n
  simp only [List.nil_append] at h
  unfold stoull
  rw [h]
  simp only [if_neg (Nat.not_le.mpr hn)]
  rfl

theorem read_size_to_string (n : Nat) (hn : n < 18446744073709551616) :
    read_size (kSpace :: to_string n) = n := by
  have h := unsigned_field_to_string [kSpace] (fun c hc => by
    rw [List.mem_singleton.mp hc]
    decide) n
  simp only [List.singleton_append] at h
  unfold read_size
  rw [h]
  simp only [if_neg (Nat.not_le.mpr hn)]
  rfl

theorem to_string_no_lf (n : Nat) : kLF ∉ to_string n := fun h =>
  (isdigit_not_space kLF ((to_string_digits n).2.1 kLF h)).2.2.2 rfl
theorem object_rel_filter (id : Oid) :
    (object_rel (to_hex id)).filter (fun c => decide (c ≠ kSlash)) = to_hex id := by
  have hs : kSlash ∉ to_hex id := hex_of_bytes_no_slash _
  have hall : ∀ l : Str, kSlash ∉ l → l.filter (fun c => decide (c ≠ kSlash)) = l := by
    intro l hl
    apply List.filter_eq_self.mpr
    intro c hc
    simp only [decide_eq_true_eq]
    exact fun e => hl (e ▸ hc)
  unfold object_rel
  rw [List.filter_append, List.filter_cons_of_neg (by simp),
    hall _ (fun h => hs (List.mem_of_mem_take h)), hall _ (fun h => hs (List.mem_of_mem_drop h)),
    List.take_append_drop]

/-- The file of an object below a directory `D`, as the receivers compute it and as the
sender reads it: `D`, a separator that depends on `D` alone, and `<2 hex>/<38 hex>`. -/
theorem fan_out_path (D : Str) :
    ∃ s : Str, ∀ id : Oid,
      path_join (path_join D ((to_hex id).take 2)) ((to_hex id).drop 2)
          = D ++ (s ++ object_rel (to_hex id))
        ∧ path_join D (object_rel (to_hex id)) = D ++ (s ++ object_rel (to_hex id)) := by
  refine ⟨if D = [] ∨ D.getLast? = some kSlash then [] else [kSlash], ?_⟩
  intro id
  obtain ⟨a, b, rest, he, ha, hb, hr, _⟩ := to_hex_cons id
  have hj : ∀ x : Str, x.head? ≠ some kSlash →
      path_join D x = D ++ ((if D = [] ∨ D.getLast? = some kSlash then [] else [kSlash]) ++ x) := by
    intro x hx
    unfold path_join
    rw [if_neg hx]
    split <;> simp
  rw [he]
  simp only [object_rel, List.take_succ_cons, List.take_zero, List.drop_succ_cons,
    List.drop_zero]
  have h1 := hj [a, b] (by simpa using ha)
  have h2 := hj ([a, b] ++ kSlash :: rest) (by simpa using ha)
  refine ⟨?_, h2⟩
  rw [h1]
  have hne : D ++ ((if D = [] ∨ D.getLast? = some kSlash then [] else [kSlash]) ++ [a, b]) ≠ [] := by
    simp
  have hl : (D ++ ((if D = [] ∨ D.getLast? = some kSlash then [] else [kSlash]) ++ [a, b])).getLast?
      ≠ some kSlash := by
    rw [← List.append_assoc, List.getLast?_append]
    simp only [List.getLast?_cons_cons, List.getLast?_singleton, Option.or_some, ne_eq,
      Option.some.injEq]
    exact hb
  rw [path_join_eq _ _ hne hl hr]
  simp

/-- The files of two objects below `D` are not the temporary file of one another, and they
are the same file only for the same object. -/
theorem fan_out_distinct (D : Str) (i j : Oid) :
    path_join D (object_rel (to_hex i)) ≠ path_join D (object_rel (to_hex j)) ++ lit ".tmp"
    ∧ (path_join D (object_rel (to_hex i)) = path_join D (object_rel (to_hex j)) → i = j) := by
  obtain ⟨s, hs⟩ := fan_out_path D
  rw [(hs i).2, (hs j).2]
  have hlen : ∀ k : Oid, (object_rel (to_hex k)).length = 41 := by
    intro k
    have := to_hex_length k
    simp only [object_rel, List.length_append, List.length_cons, List.length_take,
      List.length_drop]
    omega
  refine ⟨?_, ?_⟩
  · intro e
    have := congrArg List.length e
    simp only [List.length_append, hlen] at this
    have h4 : (lit ".tmp").length = 4 := by decide
    omega
  · intro e
    have e2 := List.append_cancel_left (List.append_cancel_left e)
    have e3 := congrArg (fun l => l.filter (fun c => decide (c ≠ kSlash))) e2
    simp only [object_rel_filter] at e3
    have h1 := from_hex_to_hex i
    rw [e3, from_hex_to_hex j] at h1
    exact (Option.some.inj h1).symm

/-- The header line of an object in the stream, as the receivers take it apart. -/
theorem obj_header_fields (id : Oid) (data rest : Str)
    (hsz : data.length ≤ 9223372036854775807) :
    read_line ((lit "OBJ " ++ to_hex id ++ [kSpace] ++ to_string data.length)
        ++ kLF :: (data ++ rest))
      = .ok (lit "OBJ " ++ to_hex id ++ [kSpace] ++ to_string data.length, data ++ rest)
    ∧ recv_line ((lit "OBJ " ++ to_hex id ++ [kSpace] ++ to_string data.length)
        ++ kLF :: (data ++ rest))
      = .ok (lit "OBJ " ++ to_hex id ++ [kSpace] ++ to_string data.length, data ++ rest)
    ∧ starts_with (lit "OBJ ") (lit "OBJ " ++ to_hex id ++ [kSpace] ++ to_string data.length)
      = true
    ∧ read_token ((lit "OBJ " ++ to_hex id ++ [kSpace] ++ to_string data.length).drop 4)
      = (to_hex id, kSpace :: to_string data.length)
    ∧ read_size (kSpace :: to_string data.length) = data.length := by
  have hlf : kLF ∉ lit "OBJ " ++ to_hex id ++ [kSpace] ++ to_string data.length := by
    simp only [List.mem_append, not_or, List.mem_singleton]
    refine ⟨⟨⟨by decide, ?_⟩, by decide⟩, to_string_no_lf _⟩
    intro h
    have := to_hex_no_space id kLF h
    revert this
    decide
  have hdrop : (lit "OBJ " ++ to_hex id ++ [kSpace] ++ to_string data.length).drop 4
      = to_hex id ++ (kSpace :: to_string data.length) := by
    have e : lit "OBJ " ++ to_hex id ++ [kSpace] ++ to_string data.length
        = lit "OBJ " ++ (to_hex id ++ (kSpace :: to_string data.length)) := by simp
    rw [e]
    exact List.drop_left' (by decide)
  refine ⟨read_line_append _ _ hlf, recv_line_append _ _ hlf, ?_, ?_,
    read_size_to_string _ (by omega)⟩
  · unfold starts_with
    have e : lit "OBJ " ++ to_hex id ++ [kSpace] ++ to_string data.length
        = lit "OBJ " ++ (to_hex id ++ (kSpace :: to_string data.length)) := by simp
    rw [e, List.take_left' (by decide)]
    simp
  · rw [hdrop]
    exact read_token_field _ _ (to_hex_ne_nil id) (to_hex_no_space id)
      (Or.inr ⟨kSpace, _, rfl, by decide⟩)

/-- The loops of the two receivers on the records that the sender writes for a list of
objects: every record is consumed, and every object is written to its file. -/
theorem recv_loops_records (src : FS) (S D : Str) (objs : List (Oid × Str))
    (hfiles : ∀ o ∈ objs, src (path_join S (object_rel (to_hex o.1))) = some o.2)
    (hsz : ∀ o ∈ objs, o.2.length ≤ 9223372036854775807) :
    ∃ body, send_objects_text src S (objs.map (fun o => object_rel (to_hex o.1)))
        = .ok (body ++ (lit "DONE" ++ [kLF]))
      ∧ ∀ (tail : Str) (fs : FS),
        recv_objects_loop D objs.length (body ++ tail) fs
          = some (.ok tail, objs.foldl (fun f o =>
              write_file_atomic f (path_join D (object_rel (to_hex o.1))) o.2) fs)
        ∧ tcp_remote.recv_objects_loop D objs.length (body ++ tail) fs
          = (.ok tail, objs.foldl (fun f o =>
              write_file_atomic f (path_join D (object_rel (to_hex o.1))) o.2) fs) := by
  induction objs with
  | nil =>
    refine ⟨[], rfl, ?_⟩
    intro tail fs
    exact ⟨rfl, rfl⟩
  | cons o rest ih =>
    obtain ⟨body, hb, hrecv⟩ := ih (fun x hx => hfiles x (List.mem_cons_of_mem _ hx))
      (fun x hx => hsz x (List.mem_cons_of_mem _ hx))
    obtain ⟨id, data⟩ := o
    have hf := hfiles (id, data) (List.mem_cons_self _ _)
    have hs := hsz (id, data) (List.mem_cons_self _ _)
    simp only at hf hs
    refine ⟨(lit "OBJ " ++ to_hex id ++ [kSpace] ++ to_string data.length)
      ++ kLF :: (data ++ body), ?_, ?_⟩
    · simp only [List.map_cons, send_objects_text, read_file, hf, hb, object_rel_filter]
      simp
    · intro tail fs
      obtain ⟨h1, h2, h3, h4, h5⟩ := obj_header_fields id data (body ++ tail) hs
      obtain ⟨s, hpath⟩ := fan_out_path D
      have hin : ((lit "OBJ " ++ to_hex id ++ [kSpace] ++ to_string data.length)
          ++ kLF :: (data ++ body)) ++ tail
          = (lit "OBJ " ++ to_hex id ++ [kSpace] ++ to_string data.length)
            ++ kLF :: (data ++ (body ++ tail)) := by simp
      have hl40 := to_hex_length id
      have hlen : ¬ (data ++ (body ++ tail)).length < data.length := by
        simp only [List.length_append]
        omega
      have hp : path_join (path_join D ((to_hex id).take 2)) ((to_hex id).drop 2)
          = path_join D (object_rel (to_hex id)) := by
        rw [(hpath id).1, (hpath id).2]
      obtain ⟨r1, r2⟩ := hrecv tail (write_file_atomic fs
        (path_join D (object_rel (to_hex id))) data)
      refine ⟨?_, ?_⟩
      · rw [hin]
        simp only [List.length_cons, recv_objects_loop, h1, h3, h4, h5, Bool.not_true,
          Bool.false_eq_true, if_false, to_hex_ne_nil id, Nat.not_lt.mpr hs, hlen, hl40,
          List.take_left, List.drop_left, hp, List.foldl_cons]
        simpa using r1
      · rw [hin]
        simp only [List.length_cons, tcp_remote.recv_objects_loop, h2, h3, h4, h5, Bool.not_true,
          Bool.false_eq_true, if_false, Nat.not_lt.mpr hs, hlen, hl40,
          List.take_left, List.drop_left, hp, List.foldl_cons]
        simpa using r2
/-- Paths that are neither the file of an object written nor its temporary file are left as
they were. -/
theorem fold_writes_frame (D : Str) (objs : List (Oid × Str)) (q : Str)
    (hq : ∀ o ∈ objs, q ≠ path_join D (object_rel (to_hex o.1))
      ∧ q ≠ path_join D (object_rel (to_hex o.1)) ++ lit ".tmp") :
    ∀ fs : FS, objs.foldl (fun f o =>
        write_file_atomic f (path_join D (object_rel (to_hex o.1))) o.2) fs q = fs q := by
  induction objs with
  | nil => intro fs; rfl
  | cons o rest ih =>
    intro fs
    rw [List.foldl_cons, ih (fun x hx => hq x (List.mem_cons_of_mem _ hx))]
    obtain ⟨h1, h2⟩ := hq o (List.mem_cons_self _ _)
    simp only [write_file_atomic, h1, h2, if_false]

/-- After the writes, the file of every object holds the bytes of the object. -/
theorem fold_writes_get (D : Str) (objs : List (Oid × Str)) (o : Oid × Str)
    (hsame : ∀ x ∈ objs, x.1 = o.1 → x.2 = o.2) :
    ∀ fs : FS, (o ∈ objs ∨ fs (path_join D (object_rel (to_hex o.1))) = some o.2) →
      objs.foldl (fun f x =>
        write_file_atomic f (path_join D (object_rel (to_hex x.1))) x.2) fs
        (path_join D (object_rel (to_hex o.1))) = some o.2 := by
  induction objs with
  | nil =>
    intro fs h
    rcases h with h | h
    · exact absurd h (List.not_mem_nil o)
    · exact h
  | cons y rest ih =>
    intro fs h
    rw [List.foldl_cons]
    apply ih (fun x hx => hsame x (List.mem_cons_of_mem _ hx))
    by_cases hm : o ∈ rest
    · exact Or.inl hm
    · right
      obtain ⟨d1, d2⟩ := fan_out_distinct D o.1 y.1
      simp only [write_file_atomic, d1, if_false]
      by_cases hp : path_join D (object_rel (to_hex o.1)) = path_join D (object_rel (to_hex y.1))
      · rw [if_pos hp, hsame y (List.mem_cons_self _ _) (d2 hp).symm]
      · rw [if_neg hp]
        rcases h with h | h
        · rcases List.mem_cons.mp h with e | h2
          · exact absurd (by rw [e]) hp
          · exact absurd h2 hm
        · exact h

/-- C32: for every list of objects, each stored by the sender under
`<2 hex>/<38 hex>` of its digest with arbitrary bytes, `send_all_objects` produces a
stream that `recv_objects_into`, of serve.cpp and of tcp_remote.cpp alike, consumes to its
end, writing every object under `<2 hex>/<38 hex>` of the objects directory of the receiver
with the bytes that the sender read; the paths that are neither such a file nor its
temporary name are left as they were.  The sizes are those of a `std::vector` and the
count is a `size_t`. -/
theorem recv_objects_into_send_all_objects (src dst : FS) (S D : Str)
    (objs : List (Oid × Str))
    (hfiles : ∀ o ∈ objs, src (path_join S (object_rel (to_hex o.1))) = some o.2)
    (hsz : ∀ o ∈ objs, o.2.length ≤ 9223372036854775807)
    (hn : objs.length < 18446744073709551616) :
    ∃ stream dst1,
      send_all_objects src S (objs.map (fun o => object_rel (to_hex o.1))) = .ok stream
      ∧ recv_objects_into D stream dst = some (.ok [], dst1)
      ∧ tcp_remote.recv_objects_into D stream dst = (.ok [], dst1)
      ∧ (∀ o ∈ objs, dst1 (path_join D (object_rel (to_hex o.1))) = some o.2)
      ∧ (∀ o ∈ objs, path_join (path_join D ((to_hex o.1).take 2)) ((to_hex o.1).drop 2)
          = path_join D (object_rel (to_hex o.1)))
      ∧ ∀ q, (∀ o ∈ objs, q ≠ path_join D (object_rel (to_hex o.1))
            ∧ q ≠ path_join D (object_rel (to_hex o.1)) ++ lit ".tmp") → dst1 q = dst q := by
  obtain ⟨body, hb, hrecv⟩ := recv_loops_records src S D objs hfiles hsz
  obtain ⟨r1, r2⟩ := hrecv (lit "DONE" ++ [kLF]) dst
  have hnl : read_line ((lit "NOBJ " ++ to_string objs.length)
      ++ kLF :: (body ++ (lit "DONE" ++ [kLF])))
      = .ok (lit "NOBJ " ++ to_string objs.length, body ++ (lit "DONE" ++ [kLF])) :=
    read_line_append _ _ (by
      simp only [List.mem_append, not_or]
      exact ⟨by decide, to_string_no_lf _⟩)
  have hnl2 : recv_line ((lit "NOBJ " ++ to_string objs.length)
      ++ kLF :: (body ++ (lit "DONE" ++ [kLF])))
      = .ok (lit "NOBJ " ++ to_string objs.length, body ++ (lit "DONE" ++ [kLF])) :=
    recv_line_append _ _ (by
      simp only [List.mem_append, not_or]
      exact ⟨by decide, to_string_no_lf _⟩)
  have hst : starts_with (lit "NOBJ ") (lit "NOBJ " ++ to_string objs.length) = true := by
    unfold starts_with
    rw [List.take_left' (by decide)]
    simp
  have hdr : (lit "NOBJ " ++ to_string objs.length).drop kRefPrefix.length
      = to_string objs.length := List.drop_left' (by decide)
  have hdone : read_line (lit "DONE" ++ [kLF]) = .ok (lit "DONE", []) := by decide
  have hdone2 : recv_line (lit "DONE" ++ [kLF]) = .ok (lit "DONE", []) := by decide
  have hstream : lit "NOBJ " ++ to_string objs.length ++ [kLF] ++ (body ++ (lit "DONE" ++ [kLF]))
      = (lit "NOBJ " ++ to_string objs.length) ++ kLF :: (body ++ (lit "DONE" ++ [kLF])) := by
    simp
  obtain ⟨s, hpath⟩ := fan_out_path D
  refine ⟨lit "NOBJ " ++ to_string objs.length ++ [kLF] ++ (body ++ (lit "DONE" ++ [kLF])),
    objs.foldl (fun f o =>
      write_file_atomic f (path_join D (object_rel (to_hex o.1))) o.2) dst, ?_, ?_, ?_, ?_, ?_, ?_⟩
  · simp only [send_all_objects, hb, List.length_map]
  · rw [hstream]
    simp only [recv_objects_into, hnl, hst, Bool.not_true, Bool.false_eq_true, if_false, hdr,
      stoull_to_string _ hn, r1, hdone]
  · rw [hstream]
    simp only [tcp_remote.recv_objects_into, hnl2, hst, Bool.not_true, Bool.false_eq_true,
      if_false, hdr, stoull_to_string _ hn, r2, hdone2, ne_eq, not_true_eq_false]
  · intro o ho
    apply fold_writes_get D objs o _ dst (Or.inl ho)
    intro x hx e
    have h1 := hfiles x hx
    rw [e, hfiles o ho] at h1
    exact (Option.some.inj h1).symm
  · intro o _
    rw [(hpath o.1).1, (hpath o.1).2]
  · intro q hq
    exact fold_writes_frame D objs q hq dst

set_option maxRecDepth 100000 in
/-- C32 at a concrete input: two objects, one with bytes equal to `\n` and an empty one,
sent from `/s/.gitfly/objects` and received in `/d/.gitfly/objects` of an empty file map. -/
theorem recv_objects_into_send_all_objects_witness :
    (∀ o ∈ [(mixBlob (lit "x"), ([10, 79, 66, 74, 10] : Str)), (mixBlob (lit "y"), [])],
      streamFS (path_join (lit "/s/.gitfly/objects") (object_rel (to_hex o.1))) = some o.2)
    ∧ ∃ stream dst1,
      send_all_objects streamFS (lit "/s/.gitfly/objects")
          ([(mixBlob (lit "x"), ([10, 79, 66, 74, 10] : Str)), (mixBlob (lit "y"), [])].map
            (fun o => object_rel (to_hex o.1))) = .ok stream
      ∧ recv_objects_into (lit "/d/.gitfly/objects") stream emptyFS = some (.ok [], dst1)
      ∧ tcp_remote.recv_objects_into (lit "/d/.gitfly/objects") stream emptyFS = (.ok [], dst1)
      ∧ (∀ o ∈ [(mixBlob (lit "x"), ([10, 79, 66, 74, 10] : Str)), (mixBlob (lit "y"), [])],
          dst1 (path_join (lit "/d/.gitfly/objects") (object_rel (to_hex o.1))) = some o.2)
      ∧ (∀ o ∈ [(mixBlob (lit "x"), ([10, 79, 66, 74, 10] : Str)), (mixBlob (lit "y"), [])],
          path_join (path_join (lit "/d/.gitfly/objects") ((to_hex o.1).take 2))
              ((to_hex o.1).drop 2)
            = path_join (lit "/d/.gitfly/objects") (object_rel (to_hex o.1)))
      ∧ ∀ q, (∀ o ∈ [(mixBlob (lit "x"), ([10, 79, 66, 74, 10] : Str)), (mixBlob (lit "y"), [])],
            q ≠ path_join (lit "/d/.gitfly/objects") (object_rel (to_hex o.1))
            ∧ q ≠ path_join (lit "/d/.gitfly/objects") (object_rel (to_hex o.1)) ++ lit ".tmp") →
          dst1 q = emptyFS q :=
  ⟨by decide,
    recv_objects_into_send_all_objects streamFS emptyFS (lit "/s/.gitfly/objects")
      (lit "/d/.gitfly/objects")
      [(mixBlob (lit "x"), ([10, 79, 66, 74, 10] : Str)), (mixBlob (lit "y"), [])]
      (by decide) (by decide) (by decide)⟩

set_option maxRecDepth 100000 in
/-- The stream of the witness, byte for byte: the five bytes of the first object, two of
which are `\n`, follow its header line, and the header of the empty object follows them. -/
theorem send_all_objects_example :
    send_all_objects streamFS (lit "/s/.gitfly/objects")
        [object_rel (to_hex (mixBlob (lit "x"))), object_rel (to_hex (mixBlob (lit "y")))]
      = .ok (lit "NOBJ 2\nOBJ " ++ to_hex (mixBlob (lit "x")) ++ lit " 5\n\nOBJ\n"
          ++ lit "OBJ " ++ to_hex (mixBlob (lit "y")) ++ lit " 0\nDONE\n")
    ∧ (tcp_remote.recv_objects_into (lit "/d/.gitfly/objects")
        (lit "NOBJ 2\nOBJ " ++ to_hex (mixBlob (lit "x")) ++ lit " 5\n\nOBJ\n"
          ++ lit "OBJ " ++ to_hex (mixBlob (lit "y")) ++ lit " 0\nDONE\n") emptyFS).1 = .ok []
    ∧ (recv_objects_into (lit "/d/.gitfly/objects")
        (lit "NOBJ 2\nOBJ " ++ to_hex (mixBlob (lit "x")) ++ lit " 5\n\nOBJ\n"
          ++ lit "OBJ " ++ to_hex (mixBlob (lit "y")) ++ lit " 0\nDONE\n") emptyFS).map Prod.fst
        = some (.ok []) := by
  refine ⟨by decide, by decide, by decide⟩

/-! ## `tree_to_map` after `write_tree_from_index`: a root tree beyond the buffer of
`z_decompress` -/

/-- A group of entries without `/` in their paths has files only. -/
theorem flat_group (group : List IndexEntry) (hflat : ∀ e ∈ group, kSlash ∉ e.path) :
    files_of group = group.map (fun e => (⟨e.mode, e.path, e.oid⟩ : TreeEntry))
    ∧ ∀ m, subdirs_of group m = m := by
  have hs : ∀ p : Str, kSlash ∉ p → split_first p = (p, []) := by
    intro p hp
    unfold split_first
    rw [if_pos (List.indexOf_eq_length.mpr hp)]
  induction group with
  | nil => exact ⟨rfl, fun _ => rfl⟩
  | cons e rest ih =>
    obtain ⟨i1, i2⟩ := ih (fun x hx => hflat x (List.mem_cons_of_mem _ hx))
    have he := hs e.path (hflat e (List.mem_cons_self _ _))
    refine ⟨?_, fun m => ?_⟩
    · simp only [files_of, he, if_true, i1, List.map_cons]
    · simp only [subdirs_of, he, if_true, i2]

/-- C15 (failing case): for an index of files in one directory (no `/` in the paths), with
`tes` the entries of the root tree, when the file of the root tree does not exist yet and
the framed tree is more than 32 * max(3 * compressed size, 64) bytes long,
`write_tree_from_index` returns the digest of the root tree, and `tree_to_map` of that
digest throws "zlib uncompress overflow" instead of returning the index snapshot. -/
theorem tree_to_map_write_tree_from_index_overflow (z : Zlib) (sha1 : Str → Oid) (root : Str)
    (fs : FS) (ents : List IndexEntry) (tes : List TreeEntry)
    (hload : Index.load fs root = ents)
    (hflat : ∀ e ∈ ents, kSlash ∉ e.path)
    (htes : ents.map (fun e => (⟨e.mode, e.path, e.oid⟩ : TreeEntry)) = tes)
    (hfresh : fs (path_for_oid (git_dir root) (sha1 (object_header kTypeTree
        (tree_payload (sort_entries tes)).length ++ tree_payload (sort_entries tes)))) = none)
    (hbig : 32 * max ((z.deflate (object_header kTypeTree
          (tree_payload (sort_entries tes)).length ++ tree_payload (sort_entries tes))).length
          * 3) 64
      < (object_header kTypeTree (tree_payload (sort_entries tes)).length
          ++ tree_payload (sort_entries tes)).length) :
    ∃ fs1, write_tree_from_index z sha1 root fs = some (.ok (to_hex (tree_oid sha1 tes), fs1))
      ∧ ∀ fuel, tree_to_map (read_tree z (git_dir root) fs1) (fuel + 1)
            (to_hex (tree_oid sha1 tes))
          = some (.error "zlib uncompress overflow") := by
  obtain ⟨hf, hd⟩ := flat_group ents hflat
  rw [htes] at hf
  refine ⟨(write_tree z sha1 (git_dir root) fs tes).2, ?_, ?_⟩
  · unfold write_tree_from_index write_tree_from_entries build_depth
    rw [hload]
    simp only [build, hd, build_dirs, hf, List.append_nil]
    congr 2
    apply Prod.ext
    · exact write_fst _ _ _ _ _ _
    · rfl
  · intro fuel
    have hfile := write_file_present z sha1 (git_dir root) fs kTypeTree
      (tree_payload (sort_entries tes)) (Or.inl hfresh)
    have hr : read_tree z (git_dir root) (write_tree z sha1 (git_dir root) fs tes).2
        (to_hex (tree_oid sha1 tes)) = .error "zlib uncompress overflow" := by
      unfold read_tree write_tree tree_oid
      rw [read_of_file_overflow z (git_dir root) _ _ _ hfile hbig]
    unfold tree_to_map
    simp only [tree_to_map_impl, hr]

theorem replicate_path_ok (n : Nat) (name : Str) (hname : name = List.replicate (n + 1) 97) :
    index_path_ok name = true ∧ kSlash ∉ name := by
  have hmem : ∀ c ∈ name, c = 97 := by
    intro c hc
    rw [hname] at hc
    exact List.eq_of_mem_replicate hc
  have hhead : name.head? = some 97 := by
    rw [hname]
    rfl
  have hlast : name.getLast? = some 97 := by
    rw [hname, List.getLast?_eq_getElem?]
    simp
  refine ⟨?_, fun h => by have := hmem _ h; revert this; decide⟩
  unfold index_path_ok
  rw [hhead, hlast]
  simp only [Bool.and_eq_true, decide_eq_true_eq]
  refine ⟨⟨fun h => by have := hmem _ h; revert this; decide, by decide⟩, by decide⟩

/-- C15 at a concrete input: with the run-length codec in place of zlib, the index holds one
file whose name is 100000 bytes `a`; `write_tree_from_index` returns the digest of the root
tree and `tree_to_map` of it throws. -/
theorem tree_to_map_write_tree_from_index_overflow_witness :
    ∃ fs1, write_tree_from_index rleZlib zeroSha1 (lit "/r")
          (Index.save emptyFS (lit "/r")
            [⟨kModeFile, ⟨List.replicate 20 0, rfl⟩, List.replicate 100000 97⟩])
        = some (.ok (to_hex (tree_oid zeroSha1
            [⟨kModeFile, List.replicate 100000 97, ⟨List.replicate 20 0, rfl⟩⟩]), fs1))
      ∧ ∀ fuel, tree_to_map (read_tree rleZlib (git_dir (lit "/r")) fs1) (fuel + 1)
            (to_hex (tree_oid zeroSha1
              [⟨kModeFile, List.replicate 100000 97, ⟨List.replicate 20 0, rfl⟩⟩]))
          = some (.error "zlib uncompress overflow") :=
  tree_to_map_write_tree_from_index_overflow rleZlib zeroSha1 (lit "/r")
    (Index.save emptyFS (lit "/r")
      [⟨kModeFile, ⟨List.replicate 20 0, rfl⟩, List.replicate 100000 97⟩])
    [⟨kModeFile, ⟨List.replicate 20 0, rfl⟩, List.replicate 100000 97⟩]
    [⟨kModeFile, List.replicate 100000 97, ⟨List.replicate 20 0, rfl⟩⟩]
    (load_save emptyFS (lit "/r") _
      (fun e he => by
        rw [List.mem_singleton.mp he]
        exact ⟨rfl, (replicate_path_ok 99999 _ rfl).1⟩)
      (List.pairwise_singleton _ _))
    (fun e he => by
      rw [List.mem_singleton.mp he]
      exact (replicate_path_ok 99999 _ rfl).2)
    rfl
    (by
      unfold Index.save write_file_atomic
      rw [index_path_eq,
        if_neg (fun e => (ctrl_not_object (lit "/r") (lit "index") (by decide) (by decide) _).1
          e.symm),
        if_neg (fun e => ctrl_tmp_not_object (lit "/r") (lit "index") (by decide) (by decide)
          (by decide) _ e.symm)]
      rfl)
    (tree_overflow_example (List.replicate 100000 97) rfl)

/-! ## Sanity checks of the embedding on the examples of the specification -/

theorem object_header_example : object_header kTypeBlob 6 = lit "blob 6" ++ [0] := by decide

theorem split_lines_example :
    split_lines (lit "a\r\nb\n\nc") = [lit "a", lit "b", [], lit "c"] := by decide

theorem unified_diff_example :
    unified_diff [lit "line1", lit "line2", lit "line3"]
        [lit "line1", lit "lineZ", lit "line3", lit "line4"] (lit "demo.txt")
      = some (lit "--- a/demo.txt\n+++ b/demo.txt\n@@\n line1\n-line2\n+lineZ\n line3\n+line4\n") := by
  decide

theorem conflict_text_example :
    conflict_text (lit "a\nmaster\nz\n") (lit "a\nfeature\nz\n") (lit "feature")
      = some (lit "a\n<<<<<<< HEAD\nmaster\n=======\nfeature\n>>>>>>> feature\nz\n") := by
  decide

end Gitfly
